import Mathlib

/-!
# Search trees of `SearchTrees/` : embedding and verification

The four containers of the repository (`binarysearchtree.cpp`, `avltree.cpp`,
`redblacktree.cpp`, `aatree.cpp`) are embedded over one inductive tree type.

* A node pointer that is `nullptr` (or the red-black sentinel `nil_`) is `Tree.nil`.
* The owned links `left_` / `right_` are the two subtrees of `Tree.node`.
* The per-node field of each variant (`balance_`, `color_`, `level_`) is the `info` field.
* The chain of `parent_` links from a node up to `root_` is a list of `Frame`s, the nearest
  ancestor first: a frame records on which side of the ancestor the current node hangs, the
  ancestor's own fields and the ancestor's other subtree.  A loop that walks `parent_` links
  (`insertBalance`, `deleteBalance`, `insertFix`, `deleteFix`) is a recursion on that list.
* A dereference of a null pointer has no defined result: the functions that can reach one
  return `Option`, and `none` stands for it.
* For the parent links themselves, `avltree.cpp` and `aatree.cpp` are embedded a second time
  (`AVLP`, `AAP`) over nodes that carry their address and the address stored in `parent_`.

Keys are `Int` (the sources construct the sentinel with key `-1` and copy keys into `int`
variables); the value type `V` is arbitrary.
-/

namespace SearchTrees

/-! ## Part 1: definitions -/

/-- Side of a parent on which a child hangs (`parent->left_ == node` or not). -/
inductive Dir where
  | left : Dir
  | right : Dir
deriving DecidableEq

/-- A tree of nodes `{ key_, value_, info, left_, right_ }`; `nil` is the absent child. -/
inductive Tree (M V : Type) where
  | nil : Tree M V
  | node (left : Tree M V) (key : Int) (value : V) (info : M) (right : Tree M V) : Tree M V
deriving DecidableEq

/-- One `parent_` link: the ancestor's fields, its other subtree and the side we came from. -/
structure Frame (M V : Type) where
  dir : Dir
  key : Int
  value : V
  info : M
  sib : Tree M V
deriving DecidableEq

variable {M V : Type}

namespace Frame

/-- The ancestor node of frame `f` with subtree `t` hung on the recorded side. -/
def fill (f : Frame M V) (t : Tree M V) : Tree M V :=
  match f.dir with
  | Dir.left => Tree.node t f.key f.value f.info f.sib
  | Dir.right => Tree.node f.sib f.key f.value f.info t

end Frame

namespace Tree

/-- Rebuild the whole tree from a subtree and the chain of its ancestors. -/
def fill : List (Frame M V) → Tree M V → Tree M V
  | [], t => t
  | f :: up, t => fill up (f.fill t)

/-- In-order key sequence. -/
def keys : Tree M V → List Int
  | nil => []
  | node l k _ _ r => keys l ++ k :: keys r

/-- Number of nodes reachable from the root. -/
def size : Tree M V → Nat
  | nil => 0
  | node l _ _ _ r => size l + 1 + size r

/-- Keys of a context that come before the hole in the in-order sequence. -/
def before : List (Frame M V) → List Int
  | [] => []
  | f :: up =>
    match f.dir with
    | Dir.left => before up
    | Dir.right => before up ++ (keys f.sib ++ [f.key])

/-- Keys of a context that come after the hole in the in-order sequence. -/
def after : List (Frame M V) → List Int
  | [] => []
  | f :: up =>
    match f.dir with
    | Dir.left => (f.key :: keys f.sib) ++ after up
    | Dir.right => after up

/-- The descent loop shared by `find`, `insert` and `erase` of every variant:
`while (x != nullptr) { if (key < x->key_) x = x->left_; else if (x->key_ < key) x = x->right_;
else return x; }`.  Returns the node reached (`nil` when the key is absent) together with its
chain of ancestors. -/
def descend (key : Int) : Tree M V → List (Frame M V) → Tree M V × List (Frame M V)
  | nil, path => (nil, path)
  | node l k v m r, path =>
    if key < k then descend key l (⟨Dir.left, k, v, m, r⟩ :: path)
    else if k < key then descend key r (⟨Dir.right, k, v, m, l⟩ :: path)
    else (node l k v m r, path)

/-- `minimum(node)`: `while (x->left_ != nullptr) x = x->left_;`, with the ancestors passed. -/
def minimum : Tree M V → List (Frame M V) → Tree M V × List (Frame M V)
  | nil, path => (nil, path)
  | node nil k v m r, path => (node nil k v m r, path)
  | node (node ll lk lv lm lr) k v m r, path =>
    minimum (node ll lk lv lm lr) (⟨Dir.left, k, v, m, r⟩ :: path)

/-- `maximum(node)`: `while (x->right_ != nullptr) x = x->right_;`, with the ancestors passed. -/
def maximum : Tree M V → List (Frame M V) → Tree M V × List (Frame M V)
  | nil, path => (nil, path)
  | node l k v m nil, path => (node l k v m nil, path)
  | node l k v m (node rl rk rv rm rr), path =>
    maximum (node rl rk rv rm rr) (⟨Dir.right, k, v, m, l⟩ :: path)

/-- `height(node)` of the AVL, red-black and AA trees: `-1` for the absent node, otherwise
`max(leftHeight, rightHeight)` with `leftHeight = left_ == nullptr ? 0 : height(left_) + 1`. -/
def height : Tree M V → Int
  | nil => -1
  | node l _ _ _ r =>
    max (match l with
         | nil => 0
         | node _ _ _ _ _ => height l + 1)
        (match r with
         | nil => 0
         | node _ _ _ _ _ => height r + 1)

end Tree

/-- A container: `root_` and the counter `nodes_`. -/
structure State (M V : Type) where
  root_ : Tree M V
  nodes_ : Nat
deriving DecidableEq

/-- The state built by every constructor: no node, `nodes_ = 0`. -/
def State.empty : State M V := ⟨Tree.nil, 0⟩

/-- A call of the map interface. -/
inductive Op (V : Type) where
  | insert (key : Int) (value : V) : Op V
  | erase (key : Int) : Op V

/-- The value a call returns: the `bool` of `insert`, the count of `erase`. -/
inductive Ret where
  | inserted (b : Bool) : Ret
  | erased (n : Nat) : Ret
deriving DecidableEq

/-- The mathematical set a call sequence denotes, one call: the new set and the result the
interface promises (`true` iff the key was absent; `1` iff the key was present). -/
def specStep (s : Finset Int) : Op V → Finset Int × Ret
  | Op.insert k _ => (insert k s, Ret.inserted (decide (k ∉ s)))
  | Op.erase k => (s.erase k, Ret.erased (if k ∈ s then 1 else 0))

/-- The mathematical set after a call sequence, and the promised results in order. -/
def specRun : List (Op V) → Finset Int → Finset Int × List Ret
  | [], s => (s, [])
  | op :: ops, s => ((specRun ops (specStep s op).1).1, (specStep s op).2 :: (specRun ops (specStep s op).1).2)

/-! ### Unbalanced tree (`binarysearchtree.cpp`) -/

namespace BST

/-- `BinarySearchTree::find`. -/
def find (s : State Unit V) (key : Int) : Tree Unit V :=
  (Tree.descend key s.root_ []).1

/-- `BinarySearchTree::insert`: descend; an equal key returns `false`; otherwise the new node
is hung under the last node visited (or becomes `root_`) and `nodes_` is incremented. -/
def insert (s : State Unit V) (key : Int) (value : V) : State Unit V × Bool :=
  match Tree.descend key s.root_ [] with
  | (Tree.node _ _ _ _ _, _) => (s, false)
  | (Tree.nil, path) =>
    (⟨Tree.fill path (Tree.node Tree.nil key value () Tree.nil), s.nodes_ + 1⟩, true)

/-- The relinking of `BinarySearchTree::erase` below the erased node: the subtree that takes
the place of `node` (what `transplant(node, ...)` hangs under `node->parent_`). -/
def eraseNode (l r : Tree Unit V) : Tree Unit V :=
  match l, r with
  | Tree.nil, r => r
  | l, Tree.nil => l
  | l, r =>
    match Tree.minimum r [] with
    | (Tree.node _ yk yv ym yr, []) => Tree.node l yk yv ym yr
    | (Tree.node _ yk yv ym yr, f :: spine) => Tree.node l yk yv ym (Tree.fill (f :: spine) yr)
    | (Tree.nil, _) => l

/-- `BinarySearchTree::erase`. -/
def erase (s : State Unit V) (key : Int) : State Unit V × Nat :=
  match Tree.descend key s.root_ [] with
  | (Tree.nil, _) => (s, 0)
  | (Tree.node l _ _ _ r, path) => (⟨Tree.fill path (eraseNode l r), s.nodes_ - 1⟩, 1)

/-- One call of the interface. -/
def step (s : State Unit V) : Op V → State Unit V × Ret
  | Op.insert k v => ((insert s k v).1, Ret.inserted (insert s k v).2)
  | Op.erase k => ((erase s k).1, Ret.erased (erase s k).2)

/-- A call sequence, from state `s`: the final state and the results in order. -/
def run : List (Op V) → State Unit V → State Unit V × List Ret
  | [], s => (s, [])
  | op :: ops, s => ((run ops (step s op).1).1, (step s op).2 :: (run ops (step s op).1).2)

end BST

/-! ### Height-balanced tree (`avltree.cpp`) -/

namespace AVL

/-- `AVLTree::find`. -/
def find (s : State Int V) (key : Int) : Tree Int V :=
  (Tree.descend key s.root_ []).1

/-- `AVLTree::rotateLeft(node)`: the right child becomes the root of the subtree;
`++right->balance_; node->balance_ = -right->balance_;`.  Without a right child the first
read `right->left_` is a null dereference. -/
def rotateLeft : Tree Int V → Option (Tree Int V)
  | Tree.node l k v _ (Tree.node rl rk rv rb rr) =>
    some (Tree.node (Tree.node l k v (-(rb + 1)) rl) rk rv (rb + 1) rr)
  | _ => none

/-- `AVLTree::rotateRight(node)`: the left child becomes the root of the subtree;
`--left->balance_; node->balance_ = -left->balance_;`. -/
def rotateRight : Tree Int V → Option (Tree Int V)
  | Tree.node (Tree.node ll lk lv lb lr) k v _ r =>
    some (Tree.node ll lk lv (lb - 1) (Tree.node lr k v (-(lb - 1)) r))
  | _ => none

/-- `AVLTree::rotateLeftRight(node)`: `leftright` becomes the root of the subtree; the new
balances of `node` and `left` are chosen by the old balance of `leftright`. -/
def rotateLeftRight : Tree Int V → Option (Tree Int V)
  | Tree.node (Tree.node ll lk lv _ (Tree.node lrl lrk lrv lrb lrr)) k v _ r =>
    if lrb = -1 then some (Tree.node (Tree.node ll lk lv 1 lrl) lrk lrv 0 (Tree.node lrr k v 0 r))
    else if lrb = 0 then
      some (Tree.node (Tree.node ll lk lv 0 lrl) lrk lrv 0 (Tree.node lrr k v 0 r))
    else some (Tree.node (Tree.node ll lk lv 0 lrl) lrk lrv 0 (Tree.node lrr k v (-1) r))
  | _ => none

/-- `AVLTree::rotateRightLeft(node)`: `rightleft` becomes the root of the subtree. -/
def rotateRightLeft : Tree Int V → Option (Tree Int V)
  | Tree.node l k v _ (Tree.node (Tree.node rll rlk rlv rlb rlr) rk rv _ rr) =>
    if rlb = 1 then
      some (Tree.node (Tree.node l k v 0 rll) rlk rlv 0 (Tree.node rlr rk rv (-1) rr))
    else if rlb = 0 then
      some (Tree.node (Tree.node l k v 0 rll) rlk rlv 0 (Tree.node rlr rk rv 0 rr))
    else some (Tree.node (Tree.node l k v 1 rll) rlk rlv 0 (Tree.node rlr rk rv 0 rr))
  | _ => none

/-- The body of the loop of `AVLTree::insertBalance` at `node`, with the subtree of `node`
passed: the new subtree at that position and whether the loop goes on to `node->parent_`
(`true`) or returns (`false`). -/
def insertBalanceStep : Tree Int V → Int → Option (Tree Int V × Bool)
  | Tree.nil, _ => none
  | Tree.node l k v b r, balance =>
    if b + balance = 0 then some (Tree.node l k v (b + balance) r, false)
    else if b + balance = 2 then
      match l with
      | Tree.nil => none
      | Tree.node _ _ _ lb _ =>
        if lb = 1 then (rotateRight (Tree.node l k v (b + balance) r)).map (fun n => (n, false))
        else (rotateLeftRight (Tree.node l k v (b + balance) r)).map (fun n => (n, false))
    else if b + balance = -2 then
      match r with
      | Tree.nil => none
      | Tree.node _ _ _ rb _ =>
        if rb = -1 then (rotateLeft (Tree.node l k v (b + balance) r)).map (fun n => (n, false))
        else (rotateRightLeft (Tree.node l k v (b + balance) r)).map (fun n => (n, false))
    else some (Tree.node l k v (b + balance) r, true)

/-- `AVLTree::insertBalance(node, balance)`: `up` is the chain of ancestors of `node`, `t` the
subtree of `node`.  Returns the whole tree. -/
def insertBalance : List (Frame Int V) → Tree Int V → Int → Option (Tree Int V)
  | up, t, balance =>
    match insertBalanceStep t balance with
    | none => none
    | some (n, false) => some (Tree.fill up n)
    | some (n, true) =>
      match up with
      | [] => some n
      | g :: up1 => insertBalance up1 (g.fill n) (if g.dir = Dir.left then 1 else -1)

/-- `AVLTree::insert`. -/
def insert (s : State Int V) (key : Int) (value : V) : Option (State Int V × Bool) :=
  match Tree.descend key s.root_ [] with
  | (Tree.node _ _ _ _ _, _) => some (s, false)
  | (Tree.nil, []) => some (⟨Tree.node Tree.nil key value 0 Tree.nil, s.nodes_ + 1⟩, true)
  | (Tree.nil, f :: up) =>
    (insertBalance up (f.fill (Tree.node Tree.nil key value 0 Tree.nil))
        (if key < f.key then 1 else -1)).map
      (fun t => (⟨t, s.nodes_ + 1⟩, true))

/-- The body of the loop of `AVLTree::deleteBalance` at `node`: the new subtree at that
position and whether the loop goes on to the parent (`true`) or returns (`false`). -/
def deleteBalanceStep : Tree Int V → Int → Option (Tree Int V × Bool)
  | Tree.nil, _ => none
  | Tree.node l k v b r, balance =>
    if b + balance = 2 then
      match l with
      | Tree.nil => none
      | Tree.node _ _ _ lb _ =>
        if lb ≥ 0 then
          match rotateRight (Tree.node l k v (b + balance) r) with
          | some (Tree.node nl nk nv nb nr) =>
            some (Tree.node nl nk nv nb nr, decide (nb ≠ -1))
          | _ => none
        else (rotateLeftRight (Tree.node l k v (b + balance) r)).map (fun n => (n, true))
    else if b + balance = -2 then
      match r with
      | Tree.nil => none
      | Tree.node _ _ _ rb _ =>
        if rb ≤ 0 then
          match rotateLeft (Tree.node l k v (b + balance) r) with
          | some (Tree.node nl nk nv nb nr) =>
            some (Tree.node nl nk nv nb nr, decide (nb ≠ 1))
          | _ => none
        else (rotateRightLeft (Tree.node l k v (b + balance) r)).map (fun n => (n, true))
    else if b + balance ≠ 0 then some (Tree.node l k v (b + balance) r, false)
    else some (Tree.node l k v (b + balance) r, true)

/-- `AVLTree::deleteBalance(node, balance)`: `up` is the chain of ancestors of `node`, `t` the
subtree of `node`.  Returns the whole tree. -/
def deleteBalance : List (Frame Int V) → Tree Int V → Int → Option (Tree Int V)
  | up, t, balance =>
    match deleteBalanceStep t balance with
    | none => none
    | some (n, false) => some (Tree.fill up n)
    | some (n, true) =>
      match up with
      | [] => some n
      | g :: up1 => deleteBalance up1 (g.fill n) (if g.dir = Dir.left then -1 else 1)

/-- `AVLTree::replace(target, source)`: `target` takes the balance, key and children of
`source` and keeps its own value; `v` is the value of `target`. -/
def replace (v : V) : Tree Int V → Option (Tree Int V)
  | Tree.node sl sk _ sb sr => some (Tree.node sl sk v sb sr)
  | Tree.nil => none

/-- The relinking of `AVLTree::erase` for the node found, with its chain of ancestors
`path`, followed by the call of `deleteBalance`.  Returns the whole tree. -/
def eraseNode (path : List (Frame Int V)) (l : Tree Int V) (v : V) (b : Int) (r : Tree Int V) :
    Option (Tree Int V) :=
  match l, r with
  | Tree.nil, Tree.nil =>
    match path with
    | [] => some Tree.nil
    | f :: up => deleteBalance up (f.fill Tree.nil) (if f.dir = Dir.left then -1 else 1)
  | Tree.nil, Tree.node rl rk rv rb rr =>
    (replace v (Tree.node rl rk rv rb rr)).bind (fun n => deleteBalance path n 0)
  | Tree.node ll lk lv lb lr, Tree.nil =>
    (replace v (Tree.node ll lk lv lb lr)).bind (fun n => deleteBalance path n 0)
  | Tree.node ll lk lv lb lr, Tree.node Tree.nil rk rv _ rr =>
    deleteBalance path (Tree.node (Tree.node ll lk lv lb lr) rk rv b rr) 1
  | Tree.node ll lk lv lb lr, Tree.node (Tree.node rll rlk rlv rlb rlr) rk rv rb rr =>
    match Tree.minimum (Tree.node rll rlk rlv rlb rlr) [⟨Dir.left, rk, rv, rb, rr⟩] with
    | (Tree.node _ sk sv _ sr, sp :: spine) =>
      deleteBalance (spine ++ ⟨Dir.right, sk, sv, b, Tree.node ll lk lv lb lr⟩ :: path)
        (sp.fill sr) (-1)
    | _ => none

/-- `AVLTree::erase`. -/
def erase (s : State Int V) (key : Int) : Option (State Int V × Nat) :=
  match Tree.descend key s.root_ [] with
  | (Tree.nil, _) => some (s, 0)
  | (Tree.node l _ v b r, path) =>
    (eraseNode path l v b r).map (fun t => (⟨t, s.nodes_ - 1⟩, 1))

/-- One call of the interface. -/
def step (s : State Int V) : Op V → Option (State Int V × Ret)
  | Op.insert k v => (insert s k v).map (fun p => (p.1, Ret.inserted p.2))
  | Op.erase k => (erase s k).map (fun p => (p.1, Ret.erased p.2))

/-- A call sequence, from state `s`: the final state and the results in order. -/
def run : List (Op V) → State Int V → Option (State Int V × List Ret)
  | [], s => some (s, [])
  | op :: ops, s =>
    (step s op).bind (fun p => (run ops p.1).map (fun q => (q.1, p.2 :: q.2)))

end AVL

/-! ### Level-balanced tree (`aatree.cpp`) -/

namespace AA

/-- `AATree::find`. -/
def find (s : State Int V) (key : Int) : Tree Int V :=
  (Tree.descend key s.root_ []).1

/-- The level read by `decreaseLevel`: `(node == nullptr) ? 0 : node->level_`. -/
def level : Tree Int V → Int
  | Tree.nil => 0
  | Tree.node _ _ _ lv _ => lv

/-- `AATree::skew(node)`: when the left child has the level of `node`, the left child becomes
the root of the subtree. -/
def skew : Tree Int V → Tree Int V
  | Tree.nil => Tree.nil
  | Tree.node Tree.nil k v lv r => Tree.node Tree.nil k v lv r
  | Tree.node (Tree.node ll lk lvl llv lr) k v lv r =>
    if lv = llv then Tree.node ll lk lvl llv (Tree.node lr k v lv r)
    else Tree.node (Tree.node ll lk lvl llv lr) k v lv r

/-- `AATree::split(node)`: when the right child of the right child has the level of `node`,
the right child becomes the root of the subtree and its level grows by one. -/
def split : Tree Int V → Tree Int V
  | Tree.nil => Tree.nil
  | Tree.node l k v lv Tree.nil => Tree.node l k v lv Tree.nil
  | Tree.node l k v lv (Tree.node rl rk rv rlv Tree.nil) =>
    Tree.node l k v lv (Tree.node rl rk rv rlv Tree.nil)
  | Tree.node l k v lv (Tree.node rl rk rv rlv (Tree.node rrl rrk rrv rrlv rrr)) =>
    if lv = rrlv then
      Tree.node (Tree.node l k v lv rl) rk rv (rlv + 1) (Tree.node rrl rrk rrv rrlv rrr)
    else Tree.node l k v lv (Tree.node rl rk rv rlv (Tree.node rrl rrk rrv rrlv rrr))

/-- `AATree::insertNode(node, rootNode)` for a new node `{key, value, level 1}`: `rootNode`
is dereferenced at once, so the absent `rootNode` has no result. -/
def insertNode (key : Int) (value : V) : Tree Int V → Option (Tree Int V)
  | Tree.nil => none
  | Tree.node l k v lv r =>
    if key < k then
      match l with
      | Tree.nil => some (split (skew (Tree.node (Tree.node Tree.nil key value 1 Tree.nil) k v lv r)))
      | Tree.node _ _ _ _ _ =>
        (insertNode key value l).map (fun l1 => split (skew (Tree.node l1 k v lv r)))
    else
      match r with
      | Tree.nil => some (split (skew (Tree.node l k v lv (Tree.node Tree.nil key value 1 Tree.nil))))
      | Tree.node _ _ _ _ _ =>
        (insertNode key value r).map (fun r1 => split (skew (Tree.node l k v lv r1)))

/-- `AATree::insert`. -/
def insert (s : State Int V) (key : Int) (value : V) : Option (State Int V × Bool) :=
  match find s key with
  | Tree.node _ _ _ _ _ => some (s, false)
  | Tree.nil =>
    match s.root_ with
    | Tree.nil => some (⟨Tree.node Tree.nil key value 1 Tree.nil, s.nodes_ + 1⟩, true)
    | Tree.node _ _ _ _ _ =>
      (insertNode key value s.root_).map (fun t => (⟨t, s.nodes_ + 1⟩, true))

/-- `AATree::decreaseLevel(node)`. -/
def decreaseLevel : Tree Int V → Tree Int V
  | Tree.nil => Tree.nil
  | Tree.node l k v lv r =>
    if min (level l) (level r) + 1 < lv then
      Tree.node l k v (min (level l) (level r) + 1)
        (match r with
         | Tree.nil => Tree.nil
         | Tree.node rl rk rv rlv rr =>
           if min (level l) (level r) + 1 < rlv then
             Tree.node rl rk rv (min (level l) (level r) + 1) rr
           else Tree.node rl rk rv rlv rr)
    else Tree.node l k v lv r

/-- The assignment `node->right_ = f(node->right_)`. -/
def mapRight (f : Tree Int V → Tree Int V) : Tree Int V → Tree Int V
  | Tree.nil => Tree.nil
  | Tree.node l k v lv r => Tree.node l k v lv (f r)

/-- The tail of `AATree::deleteNode`, run at every node on the way back to the root:
`decreaseLevel`, `skew` of the node, of its right child and of the right child of that,
then `split` of the node and of its right child. -/
def rebalance (t : Tree Int V) : Tree Int V :=
  mapRight split (split (mapRight (mapRight skew) (mapRight skew (skew (decreaseLevel t)))))

/-- Whether a node has no child. -/
def isLeaf : Tree Int V → Bool
  | Tree.node Tree.nil _ _ _ Tree.nil => true
  | _ => false

/-- `AATree::deleteNode(node, rootNode)`, with `node` given by its key `nk`: on a tree with
distinct keys the test `node == rootNode` holds exactly at the node holding `nk`.  At the node
found, the node `L` (`successor` without a left child, else `predecessor`) is unlinked by the
nested call, its key is copied and `L` is freed.  The nested call unlinks `L` only when `L`
has no child; otherwise `L` stays linked, is overwritten and is then freed while linked, after
which the tree has no defined contents: `none`. -/
def deleteNode (nk : Int) : Tree Int V → Option (Tree Int V)
  | Tree.nil => some Tree.nil
  | Tree.node l k v lv r =>
    if nk = k then
      match l, r with
      | Tree.nil, Tree.nil => some Tree.nil
      | Tree.nil, Tree.node _ _ _ _ _ =>
        match Tree.minimum r [] with
        | (Tree.node Tree.nil sk _ _ Tree.nil, _) =>
          (deleteNode sk r).map (fun r1 => rebalance (Tree.node Tree.nil sk v lv r1))
        | _ => none
      | Tree.node _ _ _ _ _, _ =>
        match Tree.maximum l [] with
        | (Tree.node Tree.nil pk _ _ Tree.nil, _) =>
          (deleteNode pk l).map (fun l1 => rebalance (Tree.node l1 pk v lv r))
        | _ => none
    else if nk > k then (deleteNode nk r).map (fun r1 => rebalance (Tree.node l k v lv r1))
    else (deleteNode nk l).map (fun l1 => rebalance (Tree.node l1 k v lv r))

/-- `AATree::erase`. -/
def erase (s : State Int V) (key : Int) : Option (State Int V × Nat) :=
  match find s key with
  | Tree.nil => some (s, 0)
  | Tree.node _ k _ _ _ => (deleteNode k s.root_).map (fun t => (⟨t, s.nodes_ - 1⟩, 1))

/-- One call of the interface. -/
def step (s : State Int V) : Op V → Option (State Int V × Ret)
  | Op.insert k v => (insert s k v).map (fun p => (p.1, Ret.inserted p.2))
  | Op.erase k => (erase s k).map (fun p => (p.1, Ret.erased p.2))

/-- A call sequence, from state `s`: the final state and the results in order. -/
def run : List (Op V) → State Int V → Option (State Int V × List Ret)
  | [], s => some (s, [])
  | op :: ops, s =>
    (step s op).bind (fun p => (run ops p.1).map (fun q => (q.1, p.2 :: q.2)))

end AA

/-! ### Color-balanced tree (`redblacktree.cpp`) -/

/-- The `Color` of a red-black node. -/
inductive Color where
  | red : Color
  | black : Color
deriving DecidableEq

namespace RB

/-- The field `color_` read through a pointer: the sentinel `nil_` is constructed `Black`. -/
def color : Tree Color V → Color
  | Tree.nil => Color.black
  | Tree.node _ _ _ c _ => c

/-- The assignment `x->color_ = Color::Black` (on the sentinel it changes nothing). -/
def blacken : Tree Color V → Tree Color V
  | Tree.nil => Tree.nil
  | Tree.node l k v _ r => Tree.node l k v Color.black r

/-- The assignment `x->color_ = Color::Red` on a node. -/
def redden : Tree Color V → Tree Color V
  | Tree.nil => Tree.nil
  | Tree.node l k v _ r => Tree.node l k v Color.red r

/-- A pointer returned by `RedBlackTree::find`. -/
inductive Ptr (V : Type) where
  | null : Ptr V
  | sentinel : Ptr V
  | node (t : Tree Color V) (path : List (Frame Color V)) : Ptr V

/-- `RedBlackTree::find`: the loop runs `while (x != nullptr)`, so it also compares the key
with the key `-1` of the sentinel `nil_`, whose children are `nullptr`: it returns `nil_` for
the absent key `-1` and `nullptr` for every other absent key. -/
def find (s : State Color V) (key : Int) : Ptr V :=
  match Tree.descend key s.root_ [] with
  | (Tree.node l k v c r, path) => Ptr.node (Tree.node l k v c r) path
  | (Tree.nil, _) => if key < -1 then Ptr.null else if -1 < key then Ptr.null else Ptr.sentinel

/-- `RedBlackTree::rotateLeft(x)`, as the new subtree at the position of `x`.  With the
sentinel as right child, `y->left_` is `nullptr` and `y->left_->parent_` dereferences it. -/
def rotateLeft : Tree Color V → Option (Tree Color V)
  | Tree.node l k v c (Tree.node rl rk rv rc rr) =>
    some (Tree.node (Tree.node l k v c rl) rk rv rc rr)
  | _ => none

/-- `RedBlackTree::rotateRight(x)`, as the new subtree at the position of `x`. -/
def rotateRight : Tree Color V → Option (Tree Color V)
  | Tree.node (Tree.node ll lk lv lc lr) k v c r =>
    some (Tree.node ll lk lv lc (Tree.node lr k v c r))
  | _ => none

/-- The Black-uncle branch of `insertFix` when the parent is a left child: `g` is the subtree
of the grandparent with `x` already in place and `xdir` the side of `x` under its parent.
`if (x == x->parent_->right_) { x = x->parent_; rotateLeft(x); }` then the parent is colored
Black, the grandparent Red and `rotateRight` is applied to the grandparent. -/
def insertFixLeft (xdir : Dir) : Tree Color V → Option (Tree Color V)
  | Tree.node p gk gv _ u =>
    (match xdir with
     | Dir.right => rotateLeft p
     | Dir.left => some p).bind
      (fun p1 => rotateRight (Tree.node (blacken p1) gk gv Color.red u))
  | Tree.nil => none

/-- The Black-uncle branch of `insertFix` when the parent is a right child. -/
def insertFixRight (xdir : Dir) : Tree Color V → Option (Tree Color V)
  | Tree.node u gk gv _ p =>
    (match xdir with
     | Dir.left => rotateRight p
     | Dir.right => some p).bind
      (fun p1 => rotateLeft (Tree.node u gk gv Color.red (blacken p1)))
  | Tree.nil => none

/-- `RedBlackTree::insertFix(x)`: `path` is the chain of ancestors of `x` and `t` the subtree
of `x`.  A Red parent without a grandparent has the sentinel as `x->parent_->parent_`, whose
child links are `nullptr`: the uncle read dereferences it.  After the Black-uncle branch the
parent of `x` is Black and the loop ends.  Returns the whole tree, after
`root_->color_ = Color::Black`. -/
def insertFix : List (Frame Color V) → Tree Color V → Option (Tree Color V)
  | [], t => some (blacken t)
  | [p], t =>
    if p.info = Color.red then none else some (blacken (p.fill t))
  | p :: g :: up, t =>
    if p.info = Color.red then
      if color g.sib = Color.red then
        insertFix up
          (Frame.fill ⟨g.dir, g.key, g.value, Color.red, blacken g.sib⟩
            (Frame.fill ⟨p.dir, p.key, p.value, Color.black, p.sib⟩ t))
      else
        (match g.dir with
         | Dir.left => insertFixLeft p.dir (g.fill (p.fill t))
         | Dir.right => insertFixRight p.dir (g.fill (p.fill t))).map
          (fun n => blacken (Tree.fill up n))
    else some (blacken (Tree.fill (p :: g :: up) t))

/-- `RedBlackTree::insert`. -/
def insert (s : State Color V) (key : Int) (value : V) : Option (State Color V × Bool) :=
  match Tree.descend key s.root_ [] with
  | (Tree.node _ _ _ _ _, _) => some (s, false)
  | (Tree.nil, path) =>
    (insertFix path (Tree.node Tree.nil key value Color.red Tree.nil)).map
      (fun t => (⟨t, s.nodes_ + 1⟩, true))

/-- How one pass of the loop of `deleteFix` leaves the loop. -/
inductive Next (V : Type) where
  | goUp (sub : Tree Color V) : Next V
  | stop (sub : Tree Color V) : Next V
  | stopRoot (sub : Tree Color V) : Next V

/-- The part of a pass of `deleteFix` after the Red-sibling branch, `x` a left child: `px` is
the color of `x->parent_`, `w` the sibling.  Returns the subtree at the position of the
parent and whether `x = root_` was assigned (`true`) or `x = x->parent_` (`false`).  The
sentinel as `w` has `nullptr` children, which the color tests dereference. -/
def deleteFixLeftRest (x : Tree Color V) (pk : Int) (pv : V) (px : Color) :
    Tree Color V → Option (Tree Color V × Bool)
  | Tree.nil => none
  | Tree.node wl wk wv wc wr =>
    if color wl = Color.black ∧ color wr = Color.black then
      some (Tree.node x pk pv px (Tree.node wl wk wv Color.red wr), false)
    else
      (if color wr = Color.black then rotateRight (Tree.node (blacken wl) wk wv Color.red wr)
       else some (Tree.node wl wk wv wc wr)).bind
        (fun w1 =>
          match w1 with
          | Tree.nil => none
          | Tree.node w1l w1k w1v _ w1r =>
            (rotateLeft (Tree.node x pk pv Color.black (Tree.node w1l w1k w1v px (blacken w1r)))).map
              (fun n => (n, true)))

/-- The part of a pass of `deleteFix` after the Red-sibling branch, `x` a right child. -/
def deleteFixRightRest (x : Tree Color V) (pk : Int) (pv : V) (px : Color) :
    Tree Color V → Option (Tree Color V × Bool)
  | Tree.nil => none
  | Tree.node wl wk wv wc wr =>
    if color wr = Color.black ∧ color wl = Color.black then
      some (Tree.node (Tree.node wl wk wv Color.red wr) pk pv px x, false)
    else
      (if color wl = Color.black then rotateLeft (Tree.node wl wk wv Color.red (blacken wr))
       else some (Tree.node wl wk wv wc wr)).bind
        (fun w1 =>
          match w1 with
          | Tree.nil => none
          | Tree.node w1l w1k w1v _ w1r =>
            (rotateRight (Tree.node (Tree.node (blacken w1l) w1k w1v px w1r) pk pv Color.black x)).map
              (fun n => (n, true)))

/-- One pass of the loop of `deleteFix` for a Black `x` that is not the root: `p` is the frame
of `x->parent_` and `x` the subtree of `x` (the sentinel when `nil`).  In the Red-sibling
branch the parent is colored Red and rotated below the sibling; when the pass then ends with
`x = x->parent_`, the next loop test reads that Red color, the loop ends and
`x->color_ = Color::Black` colors the parent: this is `Next.stop`. -/
def deleteFixStep (p : Frame Color V) (x : Tree Color V) : Option (Next V) :=
  match p.dir with
  | Dir.left =>
    (match p.sib with
     | Tree.nil => none
     | Tree.node wl wk wv wc wr =>
       if wc = Color.red then
         (deleteFixLeftRest x p.key p.value Color.red wl).map
           (fun q =>
             if q.2 then Next.stopRoot (Tree.node q.1 wk wv Color.black wr)
             else Next.stop (Tree.node (blacken q.1) wk wv Color.black wr))
       else
         (deleteFixLeftRest x p.key p.value p.info (Tree.node wl wk wv wc wr)).map
           (fun q => if q.2 then Next.stopRoot q.1 else Next.goUp q.1))
  | Dir.right =>
    (match p.sib with
     | Tree.nil => none
     | Tree.node wl wk wv wc wr =>
       if wc = Color.red then
         (deleteFixRightRest x p.key p.value Color.red wr).map
           (fun q =>
             if q.2 then Next.stopRoot (Tree.node wl wk wv Color.black q.1)
             else Next.stop (Tree.node wl wk wv Color.black (blacken q.1)))
       else
         (deleteFixRightRest x p.key p.value p.info (Tree.node wl wk wv wc wr)).map
           (fun q => if q.2 then Next.stopRoot q.1 else Next.goUp q.1))

/-- `RedBlackTree::deleteFix(x)`: `path` is the chain of ancestors of `x` (`x->parent_` is
also set for the sentinel) and `t` the subtree of `x`.  Returns the whole tree. -/
def deleteFix : List (Frame Color V) → Tree Color V → Option (Tree Color V)
  | [], t => some (blacken t)
  | p :: up, t =>
    if color t = Color.red then some (Tree.fill (p :: up) (blacken t))
    else
      match deleteFixStep p t with
      | none => none
      | some (Next.goUp sub) => deleteFix up sub
      | some (Next.stop sub) => some (Tree.fill up sub)
      | some (Next.stopRoot sub) => some (blacken (Tree.fill up sub))

/-- The relinking of `RedBlackTree::erase` for the node found (children `l`, `r`, color `c`,
ancestors `path`): the chain of ancestors of `x` after the relinking, the subtree of `x` (the
sentinel when `nil`) and `yOriginalColor`.  With two children, `y = minimum(node->right_)`
takes the place and the color of `node`, and `x = y->right_` takes the place of `y`. -/
def eraseSplice (path : List (Frame Color V)) (l : Tree Color V) (c : Color) (r : Tree Color V) :
    Option (List (Frame Color V) × Tree Color V × Color) :=
  match l, r with
  | Tree.nil, r => some (path, r, c)
  | Tree.node ll lk lv lc lr, Tree.nil => some (path, Tree.node ll lk lv lc lr, c)
  | Tree.node ll lk lv lc lr, Tree.node rl rk rv rc rr =>
    match Tree.minimum (Tree.node rl rk rv rc rr) [] with
    | (Tree.node _ yk yv yc x, spine) =>
      some (spine ++ ⟨Dir.right, yk, yv, c, Tree.node ll lk lv lc lr⟩ :: path, x, yc)
    | (Tree.nil, _) => none

/-- The end of `RedBlackTree::erase`: `if (yOriginalColor == Color::Black) deleteFix(x);`,
as the whole tree; without the fix-up the tree is the relinked one. -/
def eraseFinish (q : List (Frame Color V) × Tree Color V × Color) : Option (Tree Color V) :=
  if q.2.2 = Color.black then deleteFix q.1 q.2.1 else some (Tree.fill q.1 q.2.1)

/-- The relinking of `RedBlackTree::erase` followed by the conditional fix-up.  Returns the
whole tree. -/
def eraseNode (path : List (Frame Color V)) (l : Tree Color V) (c : Color) (r : Tree Color V) :
    Option (Tree Color V) :=
  (eraseSplice path l c r).bind eraseFinish

/-- The color of the node that `erase` physically removes (the node found, when it has at most
one child) or moves (the minimum of its right subtree, when it has two). -/
def removedColor (l : Tree Color V) (c : Color) (r : Tree Color V) : Color :=
  match l, r with
  | Tree.nil, _ => c
  | Tree.node _ _ _ _ _, Tree.nil => c
  | Tree.node _ _ _ _ _, Tree.node rl rk rv rc rr =>
    color (Tree.minimum (Tree.node rl rk rv rc rr) []).1

/-- `RedBlackTree::erase`: only the sentinel returned by `find` gives `0`; the `nullptr`
returned for an absent key other than `-1` is dereferenced by `y->color_`. -/
def erase (s : State Color V) (key : Int) : Option (State Color V × Nat) :=
  match find s key with
  | Ptr.sentinel => some (s, 0)
  | Ptr.null => none
  | Ptr.node Tree.nil _ => none
  | Ptr.node (Tree.node l _ _ c r) path =>
    (eraseNode path l c r).map (fun t => (⟨t, s.nodes_ - 1⟩, 1))

/-- One call of the interface. -/
def step (s : State Color V) : Op V → Option (State Color V × Ret)
  | Op.insert k v => (insert s k v).map (fun p => (p.1, Ret.inserted p.2))
  | Op.erase k => (erase s k).map (fun p => (p.1, Ret.erased p.2))

/-- A call sequence, from state `s`: the final state and the results in order. -/
def run : List (Op V) → State Color V → Option (State Color V × List Ret)
  | [], s => some (s, [])
  | op :: ops, s =>
    (step s op).bind (fun p => (run ops p.1).map (fun q => (q.1, p.2 :: q.2)))

end RB

/-! ### Invariants -/

/-- A key list is strictly increasing. -/
abbrev Inc (l : List Int) : Prop := List.Pairwise (· < ·) l

/-- The tree `t` holds exactly the keys of `s`, in increasing order. -/
def Holds (t : Tree M V) (s : Finset Int) : Prop :=
  Inc (Tree.keys t) ∧ ∀ k, k ∈ Tree.keys t ↔ k ∈ s

namespace Tree

/-- Height of the tree obtained by filling context `p` with a subtree of height `h`. -/
def heightAbove : List (Frame M V) → Int → Int
  | [], h => h
  | f :: up, h => heightAbove up (1 + max h (height f.sib))

end Tree

namespace AVL

/-- The field `balance_` of a node (`0` for the absent node, which has none). -/
def bal : Tree Int V → Int
  | Tree.nil => 0
  | Tree.node _ _ _ b _ => b

/-- The balance invariant: at every node the stored balance factor is
`height(left) - height(right)` and lies in `{-1, 0, 1}`. -/
def Balanced : Tree Int V → Prop
  | Tree.nil => True
  | Tree.node l _ _ b r => Balanced l ∧ Balanced r ∧ b = Tree.height l - Tree.height r ∧ -1 ≤ b ∧ b ≤ 1

/-- The balance invariant of a context whose hole takes a subtree of height `h`. -/
def PathOK : List (Frame Int V) → Int → Prop
  | [], _ => True
  | f :: up, h =>
    Balanced f.sib ∧
    (match f.dir with
     | Dir.left => f.info = h - Tree.height f.sib
     | Dir.right => f.info = Tree.height f.sib - h) ∧
    -1 ≤ f.info ∧ f.info ≤ 1 ∧ PathOK up (1 + max h (Tree.height f.sib))

/-- The state of a subtree when `insertBalance` reaches its root with delta `d`: it was
balanced with height `h`, and since then the child on the side of `d` has grown by one and
(unless it is the new leaf) has a nonzero balance. -/
def Grown : Tree Int V → Int → Int → Prop
  | Tree.nil, _, _ => False
  | Tree.node l _ _ b r, d, h =>
    Balanced l ∧ Balanced r ∧ -1 ≤ b ∧ b ≤ 1 ∧
    ((d = 1 ∧ b = (Tree.height l - 1) - Tree.height r ∧ h = 1 + max (Tree.height l - 1) (Tree.height r) ∧
        (Tree.height l = 0 ∨ bal l ≠ 0)) ∨
     (d = -1 ∧ b = Tree.height l - (Tree.height r - 1) ∧ h = 1 + max (Tree.height l) (Tree.height r - 1) ∧
        (Tree.height r = 0 ∨ bal r ≠ 0)))

/-- The state of a subtree when `deleteBalance` reaches its root with delta `d`: it was
balanced with height `h`, and since then the left child (`d = -1`) or the right child
(`d = 1`) has lost one level, or (`d = 0`) the node itself was replaced by its only child. -/
def Shrunk : Tree Int V → Int → Int → Prop
  | Tree.nil, _, _ => False
  | Tree.node l k v b r, d, h =>
    (d = -1 ∧ Balanced l ∧ Balanced r ∧ -1 ≤ b ∧ b ≤ 1 ∧
        b = (Tree.height l + 1) - Tree.height r ∧ h = 1 + max (Tree.height l + 1) (Tree.height r)) ∨
    (d = 1 ∧ Balanced l ∧ Balanced r ∧ -1 ≤ b ∧ b ≤ 1 ∧
        b = Tree.height l - (Tree.height r + 1) ∧ h = 1 + max (Tree.height l) (Tree.height r + 1)) ∨
    (d = 0 ∧ Balanced (Tree.node l k v b r) ∧ b = 0 ∧ h = Tree.height (Tree.node l k v b r) + 1)

end AVL

namespace AA

/-- The right child of a node (`nil` for the absent node). -/
def right : Tree Int V → Tree Int V
  | Tree.nil => Tree.nil
  | Tree.node _ _ _ _ r => r

/-- The level invariant in the form that is preserved step by step, with the absent child
counted as level `0`: the left child is exactly one level below, the right child is on the
same level or one below, and the right child of the right child is strictly below. -/
def Inv : Tree Int V → Prop
  | Tree.nil => True
  | Tree.node l _ _ lv r =>
    Inv l ∧ Inv r ∧ level l + 1 = lv ∧ (level r = lv ∨ level r + 1 = lv) ∧ level (right r) < lv

/-- The level rules as the specification words them, at every node: level at least `1`, a
node without children has level `1`, a left child is strictly below its parent, a right child
is on the level of its parent or one below, and a right child of a right child is strictly
below its grandparent. -/
def Valid : Tree Int V → Prop
  | Tree.nil => True
  | Tree.node l _ _ lv r =>
    Valid l ∧ Valid r ∧ 1 ≤ lv ∧
    (l = Tree.nil → r = Tree.nil → lv = 1) ∧
    (match l with
     | Tree.nil => True
     | Tree.node _ _ _ llv _ => llv < lv) ∧
    (match r with
     | Tree.nil => True
     | Tree.node _ _ _ rlv rr =>
       (rlv = lv ∨ rlv = lv - 1) ∧
       (match rr with
        | Tree.nil => True
        | Tree.node _ _ _ rrlv _ => rrlv < lv))

/-- The level rules named for the tree after an `erase`, at every node: no left child on the
level of its parent, no right child of a right child on the level of its grandparent, a right
child on the level of its parent or one below, and a node without children on level `1`. -/
def ValidErased : Tree Int V → Prop
  | Tree.nil => True
  | Tree.node l _ _ lv r =>
    ValidErased l ∧ ValidErased r ∧
    (l = Tree.nil → r = Tree.nil → lv = 1) ∧
    (match l with
     | Tree.nil => True
     | Tree.node _ _ _ llv _ => llv ≠ lv) ∧
    (match r with
     | Tree.nil => True
     | Tree.node _ _ _ rlv rr =>
       (rlv = lv ∨ rlv = lv - 1) ∧
       (match rr with
        | Tree.nil => True
        | Tree.node _ _ _ rrlv _ => rrlv ≠ lv))

/-- What `insertNode` does to a subtree `t`: the result `u` satisfies the invariant and either
keeps the level, or is one level higher with its right child one level below it, which only
happens when `t` had its right child on its own level. -/
def PostIns (t u : Tree Int V) : Prop :=
  Inv u ∧ (level u = level t ∨
    (level u = level t + 1 ∧ level (right u) = level t ∧ level (right t) = level t))

/-- What `deleteNode` does to a subtree `t`: the result `u` satisfies the invariant and either
keeps the level (and a right child below the root stays below it), or is one level lower. -/
def PostDel (t u : Tree Int V) : Prop :=
  Inv u ∧ ((level u = level t ∧ (level (right t) < level t → level (right u) < level u)) ∨
    level u + 1 = level t)

end AA

namespace RB

/-- Number of Black nodes on the leftmost path from the root to a sentinel leaf. -/
def bh : Tree Color V → Nat
  | Tree.nil => 0
  | Tree.node l _ _ c _ => bh l + (if c = Color.black then 1 else 0)

/-- The red-black structure in recursive form: at every node the two subtrees have the same
black height and a Red node has no Red child. -/
def Bal : Tree Color V → Prop
  | Tree.nil => True
  | Tree.node l _ _ c r =>
    Bal l ∧ Bal r ∧ bh l = bh r ∧ (c = Color.red → color l = Color.black ∧ color r = Color.black)

/-- No Red node has a Red child. -/
def NoRedRed : Tree Color V → Prop
  | Tree.nil => True
  | Tree.node l _ _ c r =>
    NoRedRed l ∧ NoRedRed r ∧ (c = Color.red → color l = Color.black ∧ color r = Color.black)

/-- The number of Black nodes on every path from the root to a sentinel leaf, one entry for
each path. -/
def blackCounts : Tree Color V → List Nat
  | Tree.nil => [0]
  | Tree.node l _ _ c r =>
    (blackCounts l ++ blackCounts r).map (fun n => n + (if c = Color.black then 1 else 0))

/-- The three red-black invariants as the specification words them: the root is Black, no Red
node has a Red child, and every path from the root to a sentinel leaf passes through the same
number of Black nodes. -/
def IsRedBlack (t : Tree Color V) : Prop :=
  color t = Color.black ∧ NoRedRed t ∧ ∃ n, ∀ m ∈ blackCounts t, m = n

/-- The red-black structure of a context whose hole takes a subtree of black height `n` and
root color `c`. -/
def PathBal : List (Frame Color V) → Nat → Color → Prop
  | [], _, _ => True
  | f :: up, n, c =>
    Bal f.sib ∧ bh f.sib = n ∧ (f.info = Color.red → c = Color.black ∧ color f.sib = Color.black) ∧
    PathBal up (n + (if f.info = Color.black then 1 else 0)) f.info

/-- The root of the tree rebuilt from a context and a subtree of root color `c` is Black. -/
def RootBlack : List (Frame Color V) → Color → Prop
  | [], c => c = Color.black
  | f :: up, _ => RootBlack up f.info

/-- Black height of the tree rebuilt from a context and a subtree of black height `n`. -/
def bhAbove : List (Frame Color V) → Nat → Nat
  | [], n => n
  | f :: up, n => bhAbove up (n + (if f.info = Color.black then 1 else 0))

/-- Root color of the tree rebuilt from a context and a subtree of root color `c`. -/
def colorAbove : List (Frame Color V) → Color → Color
  | [], c => c
  | f :: up, _ => colorAbove up f.info

/-- Every `erase` of a call sequence is given a key that is in the set at that time. -/
def ErasesPresent : List (Op V) → Finset Int → Prop
  | [], _ => True
  | Op.insert k _ :: ops, s => ErasesPresent ops (Insert.insert k s)
  | Op.erase k :: ops, s => k ∈ s ∧ ErasesPresent ops (s.erase k)

end RB

namespace RB

/-- What one pass of the loop of `deleteFix` establishes at the position of the parent `p` of
`x`, where a subtree of black height `N` and root color `pc` is expected: `goUp` leaves a
subtree one Black short (its root possibly Red above a Red child, to be colored Black by the
next loop test), `stop` and `stopRoot` leave a subtree with the red-black structure and the
full black height. -/
def StepOK (N : Nat) (pc : Color) (ks : List Int) : Next V → Prop
  | Next.goUp sub =>
    Bal (blacken sub) ∧ bh sub + 1 = N ∧ color sub = pc ∧ Tree.keys sub = ks
  | Next.stop sub => Bal sub ∧ bh sub = N ∧ color sub = Color.black ∧ Tree.keys sub = ks
  | Next.stopRoot sub => Bal sub ∧ bh sub = N ∧ color sub = pc ∧ Tree.keys sub = ks

end RB

namespace Tree

/-- In-order sequence of the pairs `(key_, value)` stored in the nodes. -/
def entries : Tree M V → List (Int × V)
  | nil => []
  | node l k v _ r => entries l ++ (k, v) :: entries r

end Tree

/-! ### Reachable states -/

/-- A state of the unbalanced tree reached from the empty tree by `insert` and `erase`. -/
def BST.Reachable (st : State Unit V) : Prop :=
  ∃ ops : List (Op V), (BST.run ops State.empty).1 = st

/-- A state of the height-balanced tree reached from the empty tree by `insert` and `erase`. -/
def AVL.Reachable (st : State Int V) : Prop :=
  ∃ (ops : List (Op V)) (rets : List Ret), AVL.run ops State.empty = some (st, rets)

/-- A state of the level-balanced tree reached from the empty tree by `insert` and `erase`. -/
def AA.Reachable (st : State Int V) : Prop :=
  ∃ (ops : List (Op V)) (rets : List Ret), AA.run ops State.empty = some (st, rets)

/-- A state of the color-balanced tree reached from the empty tree by `insert` and `erase`
calls that return. -/
def RB.Reachable (st : State Color V) : Prop :=
  ∃ (ops : List (Op V)) (rets : List Ret), RB.run ops State.empty = some (st, rets)

/-- `AVLTree::height()`: `return height(root_);`. -/
def AVL.height (s : State Int V) : Int := Tree.height s.root_

/-- `RedBlackTree::height()`: `return height(root_);`, the sentinel read as the absent node. -/
def RB.height (s : State Color V) : Int := Tree.height s.root_

/-- `AATree::height()`: `return height(root_);`. -/
def AA.height (s : State Int V) : Int := Tree.height s.root_

/-- The key held by the root node (`root_->key_`), none for the empty tree. -/
def Tree.rootKey : Tree M V → Option Int
  | Tree.nil => none
  | Tree.node _ k _ _ _ => some k

/-! ### In-order navigation -/

namespace Tree

/-- The walk up of `successor(node)`: `auto y{ x->parent_ }; while (y != nullptr and
x == y->right_) { x = y; y = y->parent_; } return y;`, with the subtree of `x` and the chain of
its ancestors passed (in the color-balanced tree the tests compare with `nil_`).  Returns the
node `y` with its own chain of ancestors, the absent node when the chain is used up. -/
def climb : Tree M V → List (Frame M V) → Tree M V × List (Frame M V)
  | _, [] => (nil, [])
  | x, f :: up =>
    match f.dir with
    | Dir.right => climb (f.fill x) up
    | Dir.left => (f.fill x, up)

/-- `successor(node)`, for the node whose subtree and chain of ancestors are passed:
`minimum(node->right_)` when there is a right child, else the walk up. -/
def successor : Tree M V → List (Frame M V) → Tree M V × List (Frame M V)
  | nil, _ => (nil, [])
  | node l k v m nil, p => climb (node l k v m nil) p
  | node l k v m (node rl rk rv rm rr), p =>
    minimum (node rl rk rv rm rr) (⟨Dir.right, k, v, m, l⟩ :: p)

/-- The keys met by the sequence `n, successor(n), successor(successor(n)), ...` up to the
first absent node, at most `fuel` of them. -/
def visit : Nat → Tree M V × List (Frame M V) → List Int
  | 0, _ => []
  | _ + 1, (nil, _) => []
  | fuel + 1, (node l k v m r, p) => k :: visit fuel (successor (node l k v m r) p)

/-- In-order sequence of the nodes of a subtree whose root is at depth `d`, each as the pair of
its key and its depth. -/
def levels : Tree M V → Nat → List (Int × Nat)
  | nil, _ => []
  | node l k _ _ r, d => levels l (d + 1) ++ (k, d) :: levels r (d + 1)

/-- In-order sequence of the nodes of a context that come after the hole, with their depths. -/
def levelsAfter : List (Frame M V) → List (Int × Nat)
  | [] => []
  | f :: up =>
    match f.dir with
    | Dir.left => (f.key, up.length) :: (levels f.sib (up.length + 1) ++ levelsAfter up)
    | Dir.right => levelsAfter up

end Tree

/-! ### Heights -/

/-- Height as the specification words it: `-1` for the empty tree, and for a node
`1 + max(height(left), height(right))` with an absent child counted as `-1`: the number of
edges on the longest path from the root to a leaf. -/
def Tree.specHeight : Tree M V → Int
  | Tree.nil => -1
  | Tree.node l _ _ _ r => 1 + max (Tree.specHeight l) (Tree.specHeight r)

/-- Whether a pointer is `nullptr`. -/
def Tree.isNil : Tree M V → Bool
  | Tree.nil => true
  | Tree.node _ _ _ _ _ => false

namespace BST

/-- The inner loop of `BinarySearchTree::height(node)` after the step to the right child:
`while (x->left_ != nullptr) { x = x->left_; --h; }`. -/
def heightLeft : Tree Unit V → List (Frame Unit V) → Int →
    Tree Unit V × List (Frame Unit V) × Int
  | Tree.nil, p, h => (Tree.nil, p, h)
  | Tree.node Tree.nil k v m r, p, h => (Tree.node Tree.nil k v m r, p, h)
  | Tree.node (Tree.node ll lk lv lm lr) k v m r, p, h =>
    heightLeft (Tree.node ll lk lv lm lr) (⟨Dir.left, k, v, m, r⟩ :: p) (h - 1)

/-- The walk up of `BinarySearchTree::height(node)`: `auto y{ x->parent_ };
while (y != nullptr and x == y->right_) { x = y; y = y->parent_; ++h; } x = y; ++h;`. -/
def heightUp : Tree Unit V → List (Frame Unit V) → Int →
    Tree Unit V × List (Frame Unit V) × Int
  | _, [], h => (Tree.nil, [], h + 1)
  | x, f :: up, h =>
    match f.dir with
    | Dir.right => heightUp (f.fill x) up (h + 1)
    | Dir.left => (f.fill x, up, h + 1)

/-- The move of one pass of the loop of `BinarySearchTree::height(node)`: from `x` to the next
node in order, with the counter `h`. -/
def heightNext : Tree Unit V → List (Frame Unit V) → Int →
    Tree Unit V × List (Frame Unit V) × Int
  | Tree.nil, p, h => (Tree.nil, p, h)
  | Tree.node l k v m Tree.nil, p, h => heightUp (Tree.node l k v m Tree.nil) p h
  | Tree.node l k v m (Tree.node rl rk rv rm rr), p, h =>
    heightLeft (Tree.node rl rk rv rm rr) (⟨Dir.right, k, v, m, l⟩ :: p) (h - 1)

/-- The loop `while (x != nullptr)` of `BinarySearchTree::height(node)`, for at most `fuel`
passes: after the move, `hMax` and `hMin` are updated when `x` is not `nullptr`; at the end
`hMax - hMin` is returned. -/
def heightLoop : Nat → Tree Unit V → List (Frame Unit V) → Int → Int → Int → Option Int
  | _, Tree.nil, _, _, hMax, hMin => some (hMax - hMin)
  | 0, Tree.node _ _ _ _ _, _, _, _, _ => none
  | fuel + 1, Tree.node l k v m r, p, h, hMax, hMin =>
    heightLoop fuel (heightNext (Tree.node l k v m r) p h).1
      (heightNext (Tree.node l k v m r) p h).2.1
      (heightNext (Tree.node l k v m r) p h).2.2
      (if (heightNext (Tree.node l k v m r) p h).1.isNil = false ∧
          (heightNext (Tree.node l k v m r) p h).2.2 > hMax
        then (heightNext (Tree.node l k v m r) p h).2.2 else hMax)
      (if (heightNext (Tree.node l k v m r) p h).1.isNil = false ∧
          (heightNext (Tree.node l k v m r) p h).2.2 < hMin
        then (heightNext (Tree.node l k v m r) p h).2.2 else hMin)

/-- `BinarySearchTree::height(node)`: `-1` for `nullptr`; otherwise the loop is started at
`minimum()`, the leftmost node of the whole tree, with `h`, `hMin` and `hMax` at `0`, whatever
`node` is.  The loop is given one pass for every node of the tree. -/
def heightAt (s : State Unit V) (node : Tree Unit V) : Option Int :=
  match node with
  | Tree.nil => some (-1)
  | Tree.node _ _ _ _ _ =>
    heightLoop (Tree.size s.root_) (Tree.minimum s.root_ []).1 (Tree.minimum s.root_ []).2 0 0 0

/-- `BinarySearchTree::height()`: `return height(root_);`. -/
def height (s : State Unit V) : Option Int := heightAt s s.root_

end BST

/-! ### The erase rule of the specification -/

namespace Tree

/-- The key and the value of the in-order first node of a subtree (the in-order successor of
the node above, when the subtree is its right subtree). -/
def minEntry : Tree M V → Option (Int × V)
  | nil => none
  | node nil k v _ _ => some (k, v)
  | node (node ll lk lv lm lr) _ _ _ _ => minEntry (node ll lk lv lm lr)

/-- Splice out the in-order first node of a subtree: it has no left child, and its right child
takes its slot under its parent. -/
def removeMin : Tree M V → Tree M V
  | nil => nil
  | node nil _ _ _ r => r
  | node (node ll lk lv lm lr) k v m r => node (removeMin (node ll lk lv lm lr)) k v m r

/-- The erase rule as the specification words it, at the node to erase: a node with at most one
child is spliced out, its child taking its slot; a node with two children gets the key and the
value of its in-order successor, and the successor is spliced out. -/
def specEraseAt (l : Tree M V) (m : M) (r : Tree M V) : Tree M V :=
  match l, r with
  | nil, r => r
  | node ll lk lv lm lr, nil => node ll lk lv lm lr
  | node ll lk lv lm lr, node rl rk rv rm rr =>
    match minEntry (node rl rk rv rm rr) with
    | some (sk, sv) => node (node ll lk lv lm lr) sk sv m (removeMin (node rl rk rv rm rr))
    | none => node ll lk lv lm lr

/-- The erase rule as the specification words it, on the whole tree: the node holding the key
is found by the search-tree descent and the rule is applied there. -/
def specErase (key : Int) : Tree M V → Tree M V
  | nil => nil
  | node l k v m r =>
    if key < k then node (specErase key l) k v m r
    else if k < key then node l k v m (specErase key r)
    else specEraseAt l m r

end Tree

/-! ### The rotation calls of the height-balanced tree -/

namespace AVL

/-- The four rotation functions. -/
inductive Rot where
  | left : Rot
  | right : Rot
  | leftRight : Rot
  | rightLeft : Rot
deriving DecidableEq

/-- Whether the node passed to a rotation has the children the rotation dereferences:
`rotateLeft` a right child, `rotateRight` a left child, `rotateLeftRight` a left child with a
right child, `rotateRightLeft` a right child with a left child. -/
def Rot.ok : Rot → Tree Int V → Bool
  | Rot.left, Tree.node _ _ _ _ (Tree.node _ _ _ _ _) => true
  | Rot.right, Tree.node (Tree.node _ _ _ _ _) _ _ _ _ => true
  | Rot.leftRight, Tree.node (Tree.node _ _ _ _ (Tree.node _ _ _ _ _)) _ _ _ _ => true
  | Rot.rightLeft, Tree.node _ _ _ _ (Tree.node (Tree.node _ _ _ _ _) _ _ _ _) => true
  | _, _ => false

/-- The rotation call of one pass of the loop of `insertBalance`, with the subtree of the node
it is made on (the balance already updated), none when the pass makes no call. -/
def insertBalanceCall : Tree Int V → Int → Option (Rot × Tree Int V)
  | Tree.nil, _ => none
  | Tree.node l k v b r, balance =>
    if b + balance = 0 then none
    else if b + balance = 2 then
      match l with
      | Tree.nil => none
      | Tree.node _ _ _ lb _ =>
        if lb = 1 then some (Rot.right, Tree.node l k v (b + balance) r)
        else some (Rot.leftRight, Tree.node l k v (b + balance) r)
    else if b + balance = -2 then
      match r with
      | Tree.nil => none
      | Tree.node _ _ _ rb _ =>
        if rb = -1 then some (Rot.left, Tree.node l k v (b + balance) r)
        else some (Rot.rightLeft, Tree.node l k v (b + balance) r)
    else none

/-- The rotation calls of `insertBalance(node, balance)`, in order. -/
def insertBalanceCalls : List (Frame Int V) → Tree Int V → Int → List (Rot × Tree Int V)
  | up, t, balance =>
    (insertBalanceCall t balance).toList ++
      match insertBalanceStep t balance with
      | some (n, true) =>
        (match up with
         | [] => []
         | g :: up1 => insertBalanceCalls up1 (g.fill n) (if g.dir = Dir.left then 1 else -1))
      | _ => []

/-- The rotation calls of `insert`. -/
def insertCalls (s : State Int V) (key : Int) (value : V) : List (Rot × Tree Int V) :=
  match Tree.descend key s.root_ [] with
  | (Tree.nil, f :: up) =>
    insertBalanceCalls up (f.fill (Tree.node Tree.nil key value 0 Tree.nil))
      (if key < f.key then 1 else -1)
  | _ => []

/-- The place of the rotation of `insertBalance(node, balance)`, when it makes one: the chain of
ancestors of the node rotated and the subtree that is at that place after the rotation. -/
def insertBalanceSite : List (Frame Int V) → Tree Int V → Int →
    Option (List (Frame Int V) × Tree Int V)
  | up, t, balance =>
    match insertBalanceCall t balance with
    | some _ => (insertBalanceStep t balance).map (fun q => (up, q.1))
    | none =>
      match insertBalanceStep t balance with
      | some (n, true) =>
        (match up with
         | [] => none
         | g :: up1 => insertBalanceSite up1 (g.fill n) (if g.dir = Dir.left then 1 else -1))
      | _ => none

/-- The place of the rotation of `insert`, when it makes one. -/
def insertSite (s : State Int V) (key : Int) (value : V) :
    Option (List (Frame Int V) × Tree Int V) :=
  match Tree.descend key s.root_ [] with
  | (Tree.nil, f :: up) =>
    insertBalanceSite up (f.fill (Tree.node Tree.nil key value 0 Tree.nil))
      (if key < f.key then 1 else -1)
  | _ => none

/-- The rotation call of one pass of the loop of `deleteBalance`, with the subtree of the node it
is made on (the balance already updated), none when the pass makes no call. -/
def deleteBalanceCall : Tree Int V → Int → Option (Rot × Tree Int V)
  | Tree.nil, _ => none
  | Tree.node l k v b r, balance =>
    if b + balance = 2 then
      match l with
      | Tree.nil => none
      | Tree.node _ _ _ lb _ =>
        if lb ≥ 0 then some (Rot.right, Tree.node l k v (b + balance) r)
        else some (Rot.leftRight, Tree.node l k v (b + balance) r)
    else if b + balance = -2 then
      match r with
      | Tree.nil => none
      | Tree.node _ _ _ rb _ =>
        if rb ≤ 0 then some (Rot.left, Tree.node l k v (b + balance) r)
        else some (Rot.rightLeft, Tree.node l k v (b + balance) r)
    else none

/-- The rotation calls of `deleteBalance(node, balance)`, in order. -/
def deleteBalanceCalls : List (Frame Int V) → Tree Int V → Int → List (Rot × Tree Int V)
  | up, t, balance =>
    (deleteBalanceCall t balance).toList ++
      match deleteBalanceStep t balance with
      | some (n, true) =>
        (match up with
         | [] => []
         | g :: up1 => deleteBalanceCalls up1 (g.fill n) (if g.dir = Dir.left then -1 else 1))
      | _ => []

/-- The call of `deleteBalance` that `erase` makes for the node found, as its arguments: the
chain of ancestors of the node passed, the subtree of that node after the relinking, and the
delta.  None when no call is made (the node found is the root and has no child). -/
def eraseBalanceArgs (path : List (Frame Int V)) (l : Tree Int V) (v : V) (b : Int)
    (r : Tree Int V) : Option (List (Frame Int V) × Tree Int V × Int) :=
  match l, r with
  | Tree.nil, Tree.nil =>
    match path with
    | [] => none
    | f :: up => some (up, f.fill Tree.nil, if f.dir = Dir.left then -1 else 1)
  | Tree.nil, Tree.node rl rk rv rb rr =>
    (replace v (Tree.node rl rk rv rb rr)).map (fun n => (path, n, 0))
  | Tree.node ll lk lv lb lr, Tree.nil =>
    (replace v (Tree.node ll lk lv lb lr)).map (fun n => (path, n, 0))
  | Tree.node ll lk lv lb lr, Tree.node Tree.nil rk rv _ rr =>
    some (path, Tree.node (Tree.node ll lk lv lb lr) rk rv b rr, 1)
  | Tree.node ll lk lv lb lr, Tree.node (Tree.node rll rlk rlv rlb rlr) rk rv rb rr =>
    match Tree.minimum (Tree.node rll rlk rlv rlb rlr) [⟨Dir.left, rk, rv, rb, rr⟩] with
    | (Tree.node _ sk sv _ sr, sp :: spine) =>
      some (spine ++ ⟨Dir.right, sk, sv, b, Tree.node ll lk lv lb lr⟩ :: path, sp.fill sr, -1)
    | _ => none

/-- The rotation calls of `erase`. -/
def eraseCalls (s : State Int V) (key : Int) : List (Rot × Tree Int V) :=
  match Tree.descend key s.root_ [] with
  | (Tree.nil, _) => []
  | (Tree.node l _ v b r, path) =>
    match eraseBalanceArgs path l v b r with
    | some q => deleteBalanceCalls q.1 q.2.1 q.2.2
    | none => []

end AVL

/-! ### The nodes colored by the fix-ups of the color-balanced tree -/

namespace RB

/-- The node `x->parent_->parent_` that each pass of the loop of `insertFix(x)` colors Red, in
order, as the subtree of that node; `Tree.nil` stands for the sentinel `nil_`, which is the
grandparent when the parent is the root. -/
def insertFixReddened : List (Frame Color V) → Tree Color V → List (Tree Color V)
  | [], _ => []
  | [p], _ => if p.info = Color.red then [Tree.nil] else []
  | p :: g :: up, t =>
    if p.info = Color.red then
      g.fill (p.fill t) ::
        (if color g.sib = Color.red then
          insertFixReddened up
            (Frame.fill ⟨g.dir, g.key, g.value, Color.red, blacken g.sib⟩
              (Frame.fill ⟨p.dir, p.key, p.value, Color.black, p.sib⟩ t))
         else [])
    else []

/-- The grandparents that the `insertFix` call of `insert` colors Red. -/
def insertReddened (s : State Color V) (key : Int) (value : V) : List (Tree Color V) :=
  match Tree.descend key s.root_ [] with
  | (Tree.node _ _ _ _ _, _) => []
  | (Tree.nil, path) => insertFixReddened path (Tree.node Tree.nil key value Color.red Tree.nil)

/-- The nodes that `w` points to in the part of a pass of `deleteFix` after the Red-sibling
branch, `d` the side of `x` and the argument the sibling at that point: `w` itself and, when
the far child of `w` is Black and the near one is not, the near child, which
`w = x->parent_->right_` (or `left_`) is after the rotation of `w`.  `Tree.nil` stands for the
sentinel. -/
def restSiblings (d : Dir) : Tree Color V → List (Tree Color V)
  | Tree.nil => [Tree.nil]
  | Tree.node wl wk wv wc wr =>
    match d with
    | Dir.left =>
      if color wl = Color.black ∧ color wr = Color.black then [Tree.node wl wk wv wc wr]
      else if color wr = Color.black then [Tree.node wl wk wv wc wr, wl]
      else [Tree.node wl wk wv wc wr]
    | Dir.right =>
      if color wr = Color.black ∧ color wl = Color.black then [Tree.node wl wk wv wc wr]
      else if color wl = Color.black then [Tree.node wl wk wv wc wr, wr]
      else [Tree.node wl wk wv wc wr]

/-- The nodes that `w` points to in one pass of the loop of `deleteFix`, in order: the sibling
of `x` read first, the sibling after the rotation of the Red-sibling branch (the near child of
the first), and the one after the rotation of `w`. -/
def deleteFixStepSiblings (p : Frame Color V) : List (Tree Color V) :=
  match p.sib with
  | Tree.nil => [Tree.nil]
  | Tree.node wl wk wv wc wr =>
    if wc = Color.red then
      Tree.node wl wk wv wc wr ::
        restSiblings p.dir (match p.dir with
          | Dir.left => wl
          | Dir.right => wr)
    else restSiblings p.dir (Tree.node wl wk wv wc wr)

/-- The nodes that `w` points to during `deleteFix(x)`, over all passes of its loop. -/
def deleteFixSiblings : List (Frame Color V) → Tree Color V → List (Tree Color V)
  | [], _ => []
  | p :: up, t =>
    if color t = Color.red then []
    else
      deleteFixStepSiblings p ++
        match deleteFixStep p t with
        | some (Next.goUp sub) => deleteFixSiblings up sub
        | _ => []

/-- The nodes that `w` points to during the `deleteFix` call of `erase` (none when `erase`
does not call it). -/
def eraseSiblings (s : State Color V) (key : Int) : List (Tree Color V) :=
  match find s key with
  | Ptr.node (Tree.node l _ _ c r) path =>
    (match eraseSplice path l c r with
     | some q => if q.2.2 = Color.black then deleteFixSiblings q.1 q.2.1 else []
     | none => [])
  | _ => []

end RB

/-! ### The replacement node of the level-balanced `erase` -/

namespace AA

/-- The node `L` that `deleteNode` chooses at the node found, by the children `l` and `r` of
that node: `successor(rootNode)` when `rootNode->left_ == nullptr`, which is the minimum of the
right subtree, else `predecessor(rootNode)`, the maximum of the left subtree. -/
def replacement (l r : Tree Int V) : Tree Int V :=
  match l with
  | Tree.nil => (Tree.minimum r []).1
  | Tree.node _ _ _ _ _ => (Tree.maximum l []).1

/-- The subtree that the nested call `deleteNode(L, ...)` works on: `rootNode->right_` when
`rootNode->left_ == nullptr`, else `rootNode->left_`. -/
def replacementSide (l r : Tree Int V) : Tree Int V :=
  match l with
  | Tree.nil => r
  | Tree.node _ _ _ _ _ => l

end AA

/-! ### The function `clear` -/

/-- The loop of `clear()`, which is the same in the four variants:
`node = minimum(); while (node != nullptr) { erase(node->key_); node = minimum(); }` (with
`nil_` for `nullptr` in the color-balanced tree), for at most `fuel` passes.  Returns the state
after the loop and the results of the `erase` calls in order; there is no result when an
`erase` has none or when the passes are used up. -/
def clearLoop (erase : State M V → Int → Option (State M V × Nat)) :
    Nat → State M V → Option (State M V × List Nat)
  | 0, s =>
    (match (Tree.minimum s.root_ []).1 with
     | Tree.nil => some (s, [])
     | Tree.node _ _ _ _ _ => none)
  | fuel + 1, s =>
    (match (Tree.minimum s.root_ []).1 with
     | Tree.nil => some (s, [])
     | Tree.node _ k _ _ _ =>
       (erase s k).bind
         (fun p => (clearLoop erase fuel p.1).map (fun q => (q.1, p.2 :: q.2))))

/-- `BinarySearchTree::clear()`: the loop, given one pass for every node counted by `nodes_`,
then `root_ = nullptr; nodes_ = 0;`.  Returns the final state and the results of the `erase`
calls of the loop. -/
def BST.clear (s : State Unit V) : Option (State Unit V × List Nat) :=
  (clearLoop (fun s1 k => some (BST.erase s1 k)) s.nodes_ s).map (fun q => (⟨Tree.nil, 0⟩, q.2))

/-- `AVLTree::clear()`. -/
def AVL.clear (s : State Int V) : Option (State Int V × List Nat) :=
  (clearLoop AVL.erase s.nodes_ s).map (fun q => (⟨Tree.nil, 0⟩, q.2))

/-- `AATree::clear()`. -/
def AA.clear (s : State Int V) : Option (State Int V × List Nat) :=
  (clearLoop AA.erase s.nodes_ s).map (fun q => (⟨Tree.nil, 0⟩, q.2))

/-- `RedBlackTree::clear()`: the loop runs `while (node != nil_)` and ends with
`root_ = nil_; nodes_ = 0;`. -/
def RB.clear (s : State Color V) : Option (State Color V × List Nat) :=
  (clearLoop RB.erase s.nodes_ s).map (fun q => (⟨Tree.nil, 0⟩, q.2))

/-- `RedBlackTree::isNull(node)`: `node == nullptr or node == nil_`. -/
def RB.isNull : RB.Ptr V → Bool
  | RB.Ptr.null => true
  | RB.Ptr.sentinel => true
  | RB.Ptr.node _ _ => false

/-! ### The parent links of the height-balanced and level-balanced trees

The embedding above has the field `parent_` only as the chain of ancestors of a position.  Here
every node carries its address and the address stored in its field `parent_`, and the functions
of `avltree.cpp` and `aatree.cpp` are embedded again with every assignment to `parent_`. -/

/-- The data of a node besides key and value: the balance (or the level), the address of the
node, and its field `parent_`, the address stored there (`none` is `nullptr`). -/
structure Linked where
  info : Int
  id : Nat
  parent : Option Nat
deriving DecidableEq

namespace Tree

/-- The tree with the data of every node mapped by `f`. -/
def mapInfo {N : Type} (f : M → N) : Tree M V → Tree N V
  | nil => nil
  | node l k v m r => node (mapInfo f l) k v (f m) (mapInfo f r)

/-- The field `parent_` of the root node of a subtree (`none` for the absent node). -/
def parentOf : Tree Linked V → Option Nat
  | nil => none
  | node _ _ _ m _ => m.parent

/-- The assignment `node->parent_ = p`, made when `node != nullptr`. -/
def setParent (p : Option Nat) : Tree Linked V → Tree Linked V
  | nil => nil
  | node l k v m r => node l k v ⟨m.info, m.id, p⟩ r

/-- The addresses of the nodes of a tree, in order. -/
def ids : Tree Linked V → List Nat
  | nil => []
  | node l _ _ m r => ids l ++ m.id :: ids r

/-- The parent links of a subtree whose root hangs under the node at address `p` (`none`: it is
the root of the tree) are right: the field `parent_` of the root is `p`, and the field
`parent_` of every left or right child is the address of the node it is a child of. -/
def LinkedAt (p : Option Nat) : Tree Linked V → Prop
  | nil => True
  | node l _ _ m r => m.parent = p ∧ LinkedAt (some m.id) l ∧ LinkedAt (some m.id) r

end Tree

/-- The frame with the data of the ancestor and of its other subtree mapped by `f`. -/
def Frame.mapInfo {N : Type} (f : M → N) (g : Frame M V) : Frame N V :=
  ⟨g.dir, g.key, g.value, f g.info, g.sib.mapInfo f⟩

/-- A container with parent links: `root_`, the counter `nodes_`, and the address that the next
`new` returns, which is an address no node has had. -/
structure StateP (V : Type) where
  root_ : Tree Linked V
  nodes_ : Nat
  next : Nat
deriving DecidableEq

/-- The state built by the constructors. -/
def StateP.empty : StateP V := ⟨Tree.nil, 0, 0⟩

/-- The container without the addresses and the parent links. -/
def StateP.forget (s : StateP V) : State Int V := ⟨s.root_.mapInfo Linked.info, s.nodes_⟩

/-- The address of the node that the chain of ancestors `up` has as the parent of the position
below it; `q` is the parent of the topmost position (`none` when that is the root). -/
def Frame.top (q : Option Nat) (up : List (Frame Linked V)) : Option Nat :=
  match up with
  | [] => q
  | g :: _ => some g.info.id

/-- The parent links along a chain of ancestors are right: every ancestor has the next one as
`parent_` (the topmost has `q`), and its other subtree is linked under it. -/
def Frame.LinkedChain (q : Option Nat) : List (Frame Linked V) → Prop
  | [] => True
  | g :: up =>
    g.info.parent = Frame.top q up ∧ Tree.LinkedAt (some g.info.id) g.sib ∧
      Frame.LinkedChain q up

/-- The addresses of the ancestors of a chain and of the nodes of their other subtrees. -/
def Frame.chainIds : List (Frame Linked V) → Multiset Nat
  | [] => 0
  | g :: up => (g.info.id ::ₘ (Tree.ids g.sib : Multiset Nat)) + Frame.chainIds up

namespace AVLP

/-- The relinking at the end of a rotation of `node`, `if (node == root_) ... else if
(parent->left_ == node) ...` with `parent = node->parent_`: the node is the root when it has no
ancestor; otherwise the stored `parent` is dereferenced, and the embedding follows it only when
it is the address of the next ancestor on the chain `up`. -/
def relinks (up : List (Frame Linked V)) (parent : Option Nat) : Bool :=
  match up with
  | [] => true
  | g :: _ => decide (parent = some g.info.id)

/-- `AVLTree::rotateLeft(node)` with its assignments to `parent_`: `right->parent_ = parent;
node->parent_ = right; if (rightleft != nullptr) rightleft->parent_ = node;`. -/
def rotateLeft : Tree Linked V → Option (Tree Linked V)
  | Tree.node l k v m (Tree.node rl rk rv rm rr) =>
    some (Tree.node
      (Tree.node l k v ⟨-(rm.info + 1), m.id, some rm.id⟩ (Tree.setParent (some m.id) rl))
      rk rv ⟨rm.info + 1, rm.id, m.parent⟩ rr)
  | _ => none

/-- `AVLTree::rotateRight(node)` with its assignments to `parent_`. -/
def rotateRight : Tree Linked V → Option (Tree Linked V)
  | Tree.node (Tree.node ll lk lv lm lr) k v m r =>
    some (Tree.node ll lk lv ⟨lm.info - 1, lm.id, m.parent⟩
      (Tree.node (Tree.setParent (some m.id) lr) k v ⟨-(lm.info - 1), m.id, some lm.id⟩ r))
  | _ => none

/-- `AVLTree::rotateLeftRight(node)` with its assignments to `parent_`:
`leftright->parent_ = parent; left->parent_ = leftright; node->parent_ = leftright;` and the
two moved children get `node` and `left` as parent. -/
def rotateLeftRight : Tree Linked V → Option (Tree Linked V)
  | Tree.node (Tree.node ll lk lv lm (Tree.node lrl lrk lrv lrm lrr)) k v m r =>
    some (Tree.node
      (Tree.node ll lk lv ⟨if lrm.info = -1 then 1 else 0, lm.id, some lrm.id⟩
        (Tree.setParent (some lm.id) lrl))
      lrk lrv ⟨0, lrm.id, m.parent⟩
      (Tree.node (Tree.setParent (some m.id) lrr) k v
        ⟨if lrm.info = -1 then 0 else if lrm.info = 0 then 0 else -1, m.id, some lrm.id⟩ r))
  | _ => none

/-- `AVLTree::rotateRightLeft(node)` with its assignments to `parent_`. -/
def rotateRightLeft : Tree Linked V → Option (Tree Linked V)
  | Tree.node l k v m (Tree.node (Tree.node rll rlk rlv rlm rlr) rk rv rm rr) =>
    some (Tree.node
      (Tree.node l k v
        ⟨if rlm.info = 1 then 0 else if rlm.info = 0 then 0 else 1, m.id, some rlm.id⟩
        (Tree.setParent (some m.id) rll))
      rlk rlv ⟨0, rlm.id, m.parent⟩
      (Tree.node (Tree.setParent (some rm.id) rlr) rk rv
        ⟨if rlm.info = 1 then -1 else 0, rm.id, some rlm.id⟩ rr))
  | _ => none

/-- A rotation called on the node at the position below the chain `up`. -/
def rotateAt (rot : Tree Linked V → Option (Tree Linked V)) (up : List (Frame Linked V))
    (t : Tree Linked V) : Option (Tree Linked V) :=
  if relinks up (Tree.parentOf t) = true then rot t else none

/-- The body of the loop of `AVLTree::insertBalance` at `node`, the node below the chain `up`:
the new subtree at that position and whether the loop goes on to `node->parent_`. -/
def insertBalanceStep (up : List (Frame Linked V)) :
    Tree Linked V → Int → Option (Tree Linked V × Bool)
  | Tree.nil, _ => none
  | Tree.node l k v m r, balance =>
    if m.info + balance = 0 then
      some (Tree.node l k v ⟨m.info + balance, m.id, m.parent⟩ r, false)
    else if m.info + balance = 2 then
      match l with
      | Tree.nil => none
      | Tree.node _ _ _ lm _ =>
        if lm.info = 1 then
          (rotateAt rotateRight up (Tree.node l k v ⟨m.info + balance, m.id, m.parent⟩ r)).map
            (fun n => (n, false))
        else
          (rotateAt rotateLeftRight up
            (Tree.node l k v ⟨m.info + balance, m.id, m.parent⟩ r)).map (fun n => (n, false))
    else if m.info + balance = -2 then
      match r with
      | Tree.nil => none
      | Tree.node _ _ _ rm _ =>
        if rm.info = -1 then
          (rotateAt rotateLeft up (Tree.node l k v ⟨m.info + balance, m.id, m.parent⟩ r)).map
            (fun n => (n, false))
        else
          (rotateAt rotateRightLeft up
            (Tree.node l k v ⟨m.info + balance, m.id, m.parent⟩ r)).map (fun n => (n, false))
    else some (Tree.node l k v ⟨m.info + balance, m.id, m.parent⟩ r, true)

/-- `AVLTree::insertBalance(node, balance)`: `up` is the chain of ancestors of `node`, `t` the
subtree of `node`.  The walk `node = node->parent_` reads the stored link; the embedding
follows it only when it is the next ancestor on the chain (`nullptr` at the root).  Returns
the whole tree. -/
def insertBalance : List (Frame Linked V) → Tree Linked V → Int → Option (Tree Linked V)
  | up, t, balance =>
    match insertBalanceStep up t balance with
    | none => none
    | some (n, false) => some (Tree.fill up n)
    | some (n, true) =>
      match up with
      | [] => if Tree.parentOf n = none then some n else none
      | g :: up1 =>
        if Tree.parentOf n = some g.info.id then
          insertBalance up1 (g.fill n) (if g.dir = Dir.left then 1 else -1)
        else none

/-- `AVLTree::insert`: the new node is built with `parent_ = parent`, the last node of the
descent, at the address the allocation returns. -/
def insert (s : StateP V) (key : Int) (value : V) : Option (StateP V × Bool) :=
  match Tree.descend key s.root_ [] with
  | (Tree.node _ _ _ _ _, _) => some (s, false)
  | (Tree.nil, []) =>
    some (⟨Tree.node Tree.nil key value ⟨0, s.next, none⟩ Tree.nil, s.nodes_ + 1, s.next + 1⟩,
      true)
  | (Tree.nil, f :: up) =>
    (insertBalance up
        (f.fill (Tree.node Tree.nil key value ⟨0, s.next, some f.info.id⟩ Tree.nil))
        (if key < f.key then 1 else -1)).map
      (fun t => (⟨t, s.nodes_ + 1, s.next + 1⟩, true))

/-- The body of the loop of `AVLTree::deleteBalance` at `node`, the node below the chain
`up`. -/
def deleteBalanceStep (up : List (Frame Linked V)) :
    Tree Linked V → Int → Option (Tree Linked V × Bool)
  | Tree.nil, _ => none
  | Tree.node l k v m r, balance =>
    if m.info + balance = 2 then
      match l with
      | Tree.nil => none
      | Tree.node _ _ _ lm _ =>
        if lm.info ≥ 0 then
          match rotateAt rotateRight up
              (Tree.node l k v ⟨m.info + balance, m.id, m.parent⟩ r) with
          | some (Tree.node nl nk nv nm nr) =>
            some (Tree.node nl nk nv nm nr, decide (nm.info ≠ -1))
          | _ => none
        else
          (rotateAt rotateLeftRight up
            (Tree.node l k v ⟨m.info + balance, m.id, m.parent⟩ r)).map (fun n => (n, true))
    else if m.info + balance = -2 then
      match r with
      | Tree.nil => none
      | Tree.node _ _ _ rm _ =>
        if rm.info ≤ 0 then
          match rotateAt rotateLeft up
              (Tree.node l k v ⟨m.info + balance, m.id, m.parent⟩ r) with
          | some (Tree.node nl nk nv nm nr) =>
            some (Tree.node nl nk nv nm nr, decide (nm.info ≠ 1))
          | _ => none
        else
          (rotateAt rotateRightLeft up
            (Tree.node l k v ⟨m.info + balance, m.id, m.parent⟩ r)).map (fun n => (n, true))
    else if m.info + balance ≠ 0 then
      some (Tree.node l k v ⟨m.info + balance, m.id, m.parent⟩ r, false)
    else some (Tree.node l k v ⟨m.info + balance, m.id, m.parent⟩ r, true)

/-- `AVLTree::deleteBalance(node, balance)`, with the walk `node = node->parent_` as in
`insertBalance`.  Returns the whole tree. -/
def deleteBalance : List (Frame Linked V) → Tree Linked V → Int → Option (Tree Linked V)
  | up, t, balance =>
    match deleteBalanceStep up t balance with
    | none => none
    | some (n, false) => some (Tree.fill up n)
    | some (n, true) =>
      match up with
      | [] => if Tree.parentOf n = none then some n else none
      | g :: up1 =>
        if Tree.parentOf n = some g.info.id then
          deleteBalance up1 (g.fill n) (if g.dir = Dir.left then -1 else 1)
        else none

/-- `AVLTree::replace(target, source)`: `target`, with value `v` and data `m`, takes the
balance, the key and the children of `source`, and keeps its value, its address and its
`parent_`; the children of `source` get `target` as `parent_`. -/
def replace (v : V) (m : Linked) : Tree Linked V → Option (Tree Linked V)
  | Tree.node sl sk _ sm sr =>
    some (Tree.node (Tree.setParent (some m.id) sl) sk v ⟨sm.info, m.id, m.parent⟩
      (Tree.setParent (some m.id) sr))
  | Tree.nil => none

/-- The relinking of `AVLTree::erase` for the node found (children `l`, `r`, value `v`, data
`m`, chain of ancestors `path`), with its assignments to `parent_`, followed by the call of
`deleteBalance`.  The reads `node->parent_->left_` and `successor->parent_` follow the stored
link, as the walk of `insertBalance` does.  Returns the whole tree. -/
def eraseNode (path : List (Frame Linked V)) (l : Tree Linked V) (v : V) (m : Linked)
    (r : Tree Linked V) : Option (Tree Linked V) :=
  match l, r with
  | Tree.nil, Tree.nil =>
    match path with
    | [] => some Tree.nil
    | f :: up =>
      if m.parent = some f.info.id then
        deleteBalance up (f.fill Tree.nil) (if f.dir = Dir.left then -1 else 1)
      else none
  | Tree.nil, Tree.node rl rk rv rm rr =>
    (replace v m (Tree.node rl rk rv rm rr)).bind (fun n => deleteBalance path n 0)
  | Tree.node ll lk lv lm lr, Tree.nil =>
    (replace v m (Tree.node ll lk lv lm lr)).bind (fun n => deleteBalance path n 0)
  | Tree.node ll lk lv lm lr, Tree.node Tree.nil rk rv rm rr =>
    if relinks path m.parent = true then
      deleteBalance path
        (Tree.node (Tree.setParent (some rm.id) (Tree.node ll lk lv lm lr)) rk rv
          ⟨m.info, rm.id, m.parent⟩ rr) 1
    else none
  | Tree.node ll lk lv lm lr, Tree.node (Tree.node rll rlk rlv rlm rlr) rk rv rm rr =>
    match Tree.minimum (Tree.node rll rlk rlv rlm rlr) [] with
    | (Tree.node _ sk sv sm sr, spine) =>
      (match spine ++ [⟨Dir.left, rk, rv, ⟨rm.info, rm.id, some sm.id⟩, rr⟩] with
       | sp :: chain =>
         if sm.parent = some sp.info.id ∧ relinks path m.parent = true then
           deleteBalance
             (chain ++ ⟨Dir.right, sk, sv, ⟨m.info, sm.id, m.parent⟩,
               Tree.setParent (some sm.id) (Tree.node ll lk lv lm lr)⟩ :: path)
             (sp.fill (Tree.setParent sm.parent sr)) (-1)
         else none
       | [] => none)
    | (Tree.nil, _) => none

/-- `AVLTree::erase`. -/
def erase (s : StateP V) (key : Int) : Option (StateP V × Nat) :=
  match Tree.descend key s.root_ [] with
  | (Tree.nil, _) => some (s, 0)
  | (Tree.node l _ v m r, path) =>
    (eraseNode path l v m r).map (fun t => (⟨t, s.nodes_ - 1, s.next⟩, 1))

/-- One call of the interface. -/
def step (s : StateP V) : Op V → Option (StateP V × Ret)
  | Op.insert k v => (insert s k v).map (fun p => (p.1, Ret.inserted p.2))
  | Op.erase k => (erase s k).map (fun p => (p.1, Ret.erased p.2))

/-- A call sequence, from state `s`: the final state and the results in order. -/
def run : List (Op V) → StateP V → Option (StateP V × List Ret)
  | [], s => some (s, [])
  | op :: ops, s =>
    (step s op).bind (fun p => (run ops p.1).map (fun q => (q.1, p.2 :: q.2)))

end AVLP

namespace AAP

/-- The level read by `decreaseLevel`. -/
def level : Tree Linked V → Int
  | Tree.nil => 0
  | Tree.node _ _ _ m _ => m.info

/-- `AATree::skew(node)` with its assignments to `parent_`:
`if (node->left_ != nullptr) node->left_->parent_ = node; L->parent_ = node->parent_;
L->right_->parent_ = L;`. -/
def skew : Tree Linked V → Tree Linked V
  | Tree.nil => Tree.nil
  | Tree.node Tree.nil k v m r => Tree.node Tree.nil k v m r
  | Tree.node (Tree.node ll lk lvl lm lr) k v m r =>
    if m.info = lm.info then
      Tree.node ll lk lvl ⟨lm.info, lm.id, m.parent⟩
        (Tree.node (Tree.setParent (some m.id) lr) k v ⟨m.info, m.id, some lm.id⟩ r)
    else Tree.node (Tree.node ll lk lvl lm lr) k v m r

/-- `AATree::split(node)` with its assignments to `parent_`:
`if (node->right_ != nullptr) node->right_->parent_ = node; R->parent_ = node->parent_;
R->left_->parent_ = R;`. -/
def split : Tree Linked V → Tree Linked V
  | Tree.nil => Tree.nil
  | Tree.node l k v m Tree.nil => Tree.node l k v m Tree.nil
  | Tree.node l k v m (Tree.node rl rk rv rm Tree.nil) =>
    Tree.node l k v m (Tree.node rl rk rv rm Tree.nil)
  | Tree.node l k v m (Tree.node rl rk rv rm (Tree.node rrl rrk rrv rrm rrr)) =>
    if m.info = rrm.info then
      Tree.node (Tree.node l k v ⟨m.info, m.id, some rm.id⟩ (Tree.setParent (some m.id) rl))
        rk rv ⟨rm.info + 1, rm.id, m.parent⟩ (Tree.node rrl rrk rrv rrm rrr)
    else Tree.node l k v m (Tree.node rl rk rv rm (Tree.node rrl rrk rrv rrm rrr))

/-- `AATree::insertNode(node, rootNode)` for the new node `{key, value, level 1}` at address
`id`: where it is attached, `node->parent_ = rootNode`.  The subtree that a nested call returns
is stored in the child link without an assignment to its `parent_`. -/
def insertNode (key : Int) (value : V) (id : Nat) : Tree Linked V → Option (Tree Linked V)
  | Tree.nil => none
  | Tree.node l k v m r =>
    if key < k then
      match l with
      | Tree.nil =>
        some (split (skew (Tree.node (Tree.node Tree.nil key value ⟨1, id, some m.id⟩ Tree.nil)
          k v m r)))
      | Tree.node _ _ _ _ _ =>
        (insertNode key value id l).map (fun l1 => split (skew (Tree.node l1 k v m r)))
    else
      match r with
      | Tree.nil =>
        some (split (skew (Tree.node l k v m
          (Tree.node Tree.nil key value ⟨1, id, some m.id⟩ Tree.nil))))
      | Tree.node _ _ _ _ _ =>
        (insertNode key value id r).map (fun r1 => split (skew (Tree.node l k v m r1)))

/-- `AATree::insert`: the new node is built with `parent_ = nullptr`. -/
def insert (s : StateP V) (key : Int) (value : V) : Option (StateP V × Bool) :=
  match (Tree.descend key s.root_ []).1 with
  | Tree.node _ _ _ _ _ => some (s, false)
  | Tree.nil =>
    match s.root_ with
    | Tree.nil =>
      some (⟨Tree.node Tree.nil key value ⟨1, s.next, none⟩ Tree.nil, s.nodes_ + 1, s.next + 1⟩,
        true)
    | Tree.node _ _ _ _ _ =>
      (insertNode key value s.next s.root_).map
        (fun t => (⟨t, s.nodes_ + 1, s.next + 1⟩, true))

/-- `AATree::decreaseLevel(node)`. -/
def decreaseLevel : Tree Linked V → Tree Linked V
  | Tree.nil => Tree.nil
  | Tree.node l k v m r =>
    if min (level l) (level r) + 1 < m.info then
      Tree.node l k v ⟨min (level l) (level r) + 1, m.id, m.parent⟩
        (match r with
         | Tree.nil => Tree.nil
         | Tree.node rl rk rv rm rr =>
           if min (level l) (level r) + 1 < rm.info then
             Tree.node rl rk rv ⟨min (level l) (level r) + 1, rm.id, rm.parent⟩ rr
           else Tree.node rl rk rv rm rr)
    else Tree.node l k v m r

/-- The assignment `node->right_ = f(node->right_)`. -/
def mapRight (f : Tree Linked V → Tree Linked V) : Tree Linked V → Tree Linked V
  | Tree.nil => Tree.nil
  | Tree.node l k v m r => Tree.node l k v m (f r)

/-- The tail of `AATree::deleteNode`: `decreaseLevel`, three `skew`, two `split`. -/
def rebalance (t : Tree Linked V) : Tree Linked V :=
  mapRight split (split (mapRight (mapRight skew) (mapRight skew (skew (decreaseLevel t)))))

/-- `AATree::deleteNode(node, rootNode)`, with `node` given by its key `nk`.  At the node found,
the subtree that the nested call returns gets `rootNode` as `parent_` when it is not
`nullptr`; elsewhere it is stored in the child link without an assignment to its `parent_`. -/
def deleteNode (nk : Int) : Tree Linked V → Option (Tree Linked V)
  | Tree.nil => some Tree.nil
  | Tree.node l k v m r =>
    if nk = k then
      match l, r with
      | Tree.nil, Tree.nil => some Tree.nil
      | Tree.nil, Tree.node _ _ _ _ _ =>
        match Tree.minimum r [] with
        | (Tree.node Tree.nil sk _ _ Tree.nil, _) =>
          (deleteNode sk r).map
            (fun r1 => rebalance (Tree.node Tree.nil sk v m (Tree.setParent (some m.id) r1)))
        | _ => none
      | Tree.node _ _ _ _ _, _ =>
        match Tree.maximum l [] with
        | (Tree.node Tree.nil pk _ _ Tree.nil, _) =>
          (deleteNode pk l).map
            (fun l1 => rebalance (Tree.node (Tree.setParent (some m.id) l1) pk v m r))
        | _ => none
    else if nk > k then (deleteNode nk r).map (fun r1 => rebalance (Tree.node l k v m r1))
    else (deleteNode nk l).map (fun l1 => rebalance (Tree.node l1 k v m r))

/-- `AATree::erase`. -/
def erase (s : StateP V) (key : Int) : Option (StateP V × Nat) :=
  match (Tree.descend key s.root_ []).1 with
  | Tree.nil => some (s, 0)
  | Tree.node _ k _ _ _ =>
    (deleteNode k s.root_).map (fun t => (⟨t, s.nodes_ - 1, s.next⟩, 1))

/-- One call of the interface. -/
def step (s : StateP V) : Op V → Option (StateP V × Ret)
  | Op.insert k v => (insert s k v).map (fun p => (p.1, Ret.inserted p.2))
  | Op.erase k => (erase s k).map (fun p => (p.1, Ret.erased p.2))

/-- A call sequence, from state `s`: the final state and the results in order. -/
def run : List (Op V) → StateP V → Option (StateP V × List Ret)
  | [], s => some (s, [])
  | op :: ops, s =>
    (step s op).bind (fun p => (run ops p.1).map (fun q => (q.1, p.2 :: q.2)))

end AAP

/-- The parent links and the addresses of a container are in order: the root has `nullptr` as
`parent_` and every child has the address of the node it hangs under, no two nodes have the
same address, and every address has been returned by an allocation. -/
def StateP.Wf (s : StateP V) : Prop :=
  Tree.LinkedAt none s.root_ ∧ (Tree.ids s.root_).Nodup ∧ ∀ i ∈ Tree.ids s.root_, i < s.next

/-! ## Part 2: theorems -/

/-! ### Key sequences -/


theorem inc_insert {A B : List Int} {k : Int} (h : Inc (A ++ B)) (hA : ∀ a ∈ A, a < k)
    (hB : ∀ b ∈ B, k < b) : Inc (A ++ k :: B) := by
  simp only [Inc, List.pairwise_append, List.pairwise_cons, List.mem_cons] at h ⊢
  obtain ⟨h1, h2, h3⟩ := h
  refine ⟨h1, ⟨hB, h2⟩, ?_⟩
  intro a ha b hb
  rcases hb with rfl | hb
  · exact hA a ha
  · exact h3 a ha b hb

theorem inc_remove {A B : List Int} {k : Int} (h : Inc (A ++ k :: B)) :
    Inc (A ++ B) ∧ (∀ a ∈ A, a < k) ∧ (∀ b ∈ B, k < b) := by
  simp only [Inc, List.pairwise_append, List.pairwise_cons, List.mem_cons] at h ⊢
  obtain ⟨h1, ⟨h2, h3⟩, h4⟩ := h
  exact ⟨⟨h1, h3, fun a ha b hb => h4 a ha b (Or.inr hb)⟩, fun a ha => h4 a ha k (Or.inl rfl), h2⟩

theorem absent_of_bounds {A B : List Int} {k : Int} (hA : ∀ a ∈ A, a < k)
    (hB : ∀ b ∈ B, k < b) : k ∉ A ++ B := by
  intro h
  rcases List.mem_append.1 h with h | h
  · exact lt_irrefl _ (hA k h)
  · exact lt_irrefl _ (hB k h)


theorem holds_insert {t u : Tree M V} {s : Finset Int} {A B : List Int} {k : Int}
    (h : Holds t s) (ht : Tree.keys t = A ++ B) (hu : Tree.keys u = A ++ k :: B)
    (hA : ∀ a ∈ A, a < k) (hB : ∀ b ∈ B, k < b) : Holds u (insert k s) ∧ k ∉ s := by
  obtain ⟨h1, h2⟩ := h
  rw [ht] at h1
  refine ⟨⟨by rw [hu]; exact inc_insert h1 hA hB, fun x => ?_⟩, ?_⟩
  · rw [hu, Finset.mem_insert, ← h2 x, ht]
    simp only [List.mem_append, List.mem_cons]
    tauto
  · rw [← h2 k, ht]
    exact absent_of_bounds hA hB

theorem holds_erase {t u : Tree M V} {s : Finset Int} {A B : List Int} {k : Int}
    (h : Holds t s) (ht : Tree.keys t = A ++ k :: B) (hu : Tree.keys u = A ++ B) :
    Holds u (s.erase k) ∧ k ∈ s := by
  obtain ⟨h1, h2⟩ := h
  rw [ht] at h1
  obtain ⟨h3, hA, hB⟩ := inc_remove h1
  refine ⟨⟨by rw [hu]; exact h3, fun x => ?_⟩, ?_⟩
  · rw [hu, Finset.mem_erase, ← h2 x, ht]
    simp only [List.mem_append, List.mem_cons]
    constructor
    · rintro (hx | hx)
      · exact ⟨ne_of_lt (hA x hx), Or.inl hx⟩
      · exact ⟨ne_of_gt (hB x hx), Or.inr (Or.inr hx)⟩
    · rintro ⟨hne, hx | hx | hx⟩
      · exact Or.inl hx
      · exact absurd hx hne
      · exact Or.inr hx
  · rw [← h2 k, ht]
    simp

theorem holds_absent {t : Tree M V} {s : Finset Int} {A B : List Int} {k : Int}
    (h : Holds t s) (ht : Tree.keys t = A ++ B)
    (hA : ∀ a ∈ A, a < k) (hB : ∀ b ∈ B, k < b) : k ∉ s := by
  rw [← h.2 k, ht]
  exact absent_of_bounds hA hB

theorem holds_nil : Holds (Tree.nil : Tree M V) ∅ := by
  constructor
  · simp [Tree.keys, Inc]
  · intro k; simp [Tree.keys]

/-! ### Contexts -/

namespace Tree

theorem keys_fill (p : List (Frame M V)) (t : Tree M V) :
    keys (fill p t) = before p ++ keys t ++ after p := by
  induction p generalizing t with
  | nil => simp [fill, before, after]
  | cons f up ih =>
    obtain ⟨d, k, v, m, s⟩ := f
    cases d <;> simp [fill, Frame.fill, before, after, ih, keys]

theorem fill_append (p q : List (Frame M V)) (t : Tree M V) :
    fill (p ++ q) t = fill q (fill p t) := by
  induction p generalizing t with
  | nil => rfl
  | cons f up ih => simp [fill, ih]

theorem before_append (p q : List (Frame M V)) : before (p ++ q) = before q ++ before p := by
  induction p with
  | nil => simp [before]
  | cons f up ih =>
    obtain ⟨d, k, v, m, s⟩ := f
    cases d <;> simp [before, ih]

theorem after_append (p q : List (Frame M V)) : after (p ++ q) = after p ++ after q := by
  induction p with
  | nil => simp [after]
  | cons f up ih =>
    obtain ⟨d, k, v, m, s⟩ := f
    cases d <;> simp [after, ih]

theorem size_fill (p : List (Frame M V)) (t u : Tree M V) :
    size (fill p t) + size u = size (fill p u) + size t := by
  induction p generalizing t u with
  | nil => simp [fill]; omega
  | cons f up ih =>
    obtain ⟨d, k, v, m, s⟩ := f
    cases d
    · simp only [fill, Frame.fill]
      have := ih (node t k v m s) (node u k v m s)
      simp only [size] at this ⊢
      omega
    · simp only [fill, Frame.fill]
      have := ih (node s k v m t) (node s k v m u)
      simp only [size] at this ⊢
      omega

theorem descend_fill (key : Int) (t : Tree M V) (p : List (Frame M V)) :
    fill (descend key t p).2 (descend key t p).1 = fill p t := by
  induction t generalizing p with
  | nil => rfl
  | node l k v m r ihl ihr =>
    unfold descend
    split
    · rw [ihl]; rfl
    · split
      · rw [ihr]; rfl
      · rfl

/-- Where the descent for `key` stops in an increasing tree: every key before the hole is
smaller, every key after it is larger, and a node reached holds `key`. -/
theorem descend_bounds (key : Int) (t : Tree M V) (p : List (Frame M V))
    (hs : Inc (keys t)) (hb : ∀ a ∈ before p, a < key) (ha : ∀ a ∈ after p, key < a) :
    (∀ a ∈ before (descend key t p).2, a < key) ∧ (∀ a ∈ after (descend key t p).2, key < a) ∧
    ((descend key t p).1 = nil ∨ ∃ l v m r, (descend key t p).1 = node l key v m r) := by
  induction t generalizing p with
  | nil => exact ⟨hb, ha, Or.inl rfl⟩
  | node l k v m r ihl ihr =>
    simp only [keys, Inc, List.pairwise_append, List.pairwise_cons, List.mem_cons] at hs
    obtain ⟨hl, ⟨hkr, hr⟩, hlr⟩ := hs
    unfold descend
    split
    · rename_i hlt
      apply ihl _ hl
      · simpa [before] using hb
      · intro a h
        simp only [after, List.mem_append, List.mem_cons] at h
        rcases h with (rfl | h) | h
        · exact hlt
        · exact lt_trans hlt (hkr a h)
        · exact ha a h
    · split
      · rename_i hnlt hlt
        apply ihr _ hr
        · intro a h
          simp only [before, List.mem_append, List.mem_singleton] at h
          rcases h with h | h | h
          · exact hb a h
          · exact lt_trans (hlr a h k (Or.inl rfl)) hlt
          · rw [h]; exact hlt
        · simpa [after] using ha
      · rename_i h1 h2
        have : key = k := by omega
        subst this
        exact ⟨hb, ha, Or.inr ⟨l, v, m, r, rfl⟩⟩

theorem inc_of_fill {p : List (Frame M V)} {t : Tree M V} (h : Inc (keys (fill p t))) :
    Inc (keys t) := by
  rw [keys_fill] at h
  simp only [Inc, List.pairwise_append] at h
  exact h.1.2.1

/-- The descent from the root of an increasing tree splits its key sequence around `key`. -/
theorem descend_root (key : Int) (t : Tree M V) (hs : Inc (keys t)) :
    keys t = before (descend key t []).2 ++ keys (descend key t []).1 ++ after (descend key t []).2 ∧
    (∀ a ∈ before (descend key t []).2, a < key) ∧ (∀ a ∈ after (descend key t []).2, key < a) ∧
    ((descend key t []).1 = nil ∨ ∃ l v m r, (descend key t []).1 = node l key v m r) := by
  refine ⟨?_, descend_bounds key t [] hs (by simp [before]) (by simp [after])⟩
  rw [← keys_fill, descend_fill]
  rfl

theorem minimum_spec (t : Tree M V) (p : List (Frame M V)) (ht : t ≠ nil) :
    ∃ yk yv ym yr spine, minimum t p = (node nil yk yv ym yr, spine ++ p) ∧
      fill spine (node nil yk yv ym yr) = t ∧ before spine = [] := by
  induction t generalizing p with
  | nil => exact absurd rfl ht
  | node l k v m r ihl _ =>
    cases l with
    | nil => exact ⟨k, v, m, r, [], rfl, rfl, rfl⟩
    | node ll lk lv lm lr =>
      obtain ⟨yk, yv, ym, yr, spine, h1, h2, h3⟩ := ihl (⟨Dir.left, k, v, m, r⟩ :: p) (by simp)
      refine ⟨yk, yv, ym, yr, spine ++ [⟨Dir.left, k, v, m, r⟩], ?_, ?_, ?_⟩
      · rw [minimum, h1]; simp
      · rw [fill_append, h2]; rfl
      · rw [before_append, h3]; rfl

theorem maximum_spec (t : Tree M V) (p : List (Frame M V)) (ht : t ≠ nil) :
    ∃ yl yk yv ym spine, maximum t p = (node yl yk yv ym nil, spine ++ p) ∧
      fill spine (node yl yk yv ym nil) = t ∧ after spine = [] := by
  induction t generalizing p with
  | nil => exact absurd rfl ht
  | node l k v m r _ ihr =>
    cases r with
    | nil => exact ⟨l, k, v, m, [], rfl, rfl, rfl⟩
    | node rl rk rv rm rr =>
      obtain ⟨yl, yk, yv, ym, spine, h1, h2, h3⟩ := ihr (⟨Dir.right, k, v, m, l⟩ :: p) (by simp)
      refine ⟨yl, yk, yv, ym, spine ++ [⟨Dir.right, k, v, m, l⟩], ?_, ?_, ?_⟩
      · rw [maximum, h1]; simp
      · rw [fill_append, h2]; rfl
      · rw [after_append, h3]; rfl

end Tree

/-! ### Unbalanced tree -/

namespace BST

theorem bst_keys_eraseNode (l r : Tree Unit V) :
    Tree.keys (eraseNode l r) = Tree.keys l ++ Tree.keys r := by
  cases l with
  | nil => simp [eraseNode, Tree.keys]
  | node ll lk lv lm lr =>
    cases r with
    | nil => simp [eraseNode, Tree.keys]
    | node rl rk rv rm rr =>
      obtain ⟨yk, yv, ym, yr, spine, h1, h2, h3⟩ :=
        Tree.minimum_spec (Tree.node rl rk rv rm rr) [] (by simp)
      have hk : Tree.keys (Tree.node rl rk rv rm rr) = yk :: Tree.keys yr ++ Tree.after spine := by
        rw [← h2, Tree.keys_fill, h3]; simp [Tree.keys]
      simp only [eraseNode, h1, List.append_nil]
      cases spine with
      | nil =>
        simp only [Tree.after, List.append_nil] at hk
        simp only [Tree.keys] at hk ⊢
        rw [hk]
      | cons f sp =>
        simp only [Tree.keys, Tree.keys_fill, h3, List.nil_append] at hk ⊢
        rw [hk]; simp

theorem bst_step_holds (st : State Unit V) (s : Finset Int) (op : Op V) (h : Holds st.root_ s) :
    Holds (step st op).1.root_ (specStep s op).1 ∧ (step st op).2 = (specStep s op).2 := by
  obtain ⟨hk, hb, ha, hx⟩ := Tree.descend_root (match op with | Op.insert k _ => k | Op.erase k => k)
    st.root_ h.1
  cases op with
  | insert key value =>
    simp only at hk hb ha hx
    simp only [step, insert, specStep]
    rcases hx with hx | ⟨l, v, m, r, hx⟩
    · generalize Tree.descend key st.root_ [] = d at hk hb ha hx
      obtain ⟨x, path⟩ := d
      simp only at hx hk hb ha
      subst hx
      simp only [Tree.keys, List.append_nil] at hk
      have := holds_insert (u := Tree.fill path (Tree.node Tree.nil key value () Tree.nil)) h hk
        (by simp [Tree.keys_fill, Tree.keys]) hb ha
      simp [this.1, this.2]
    · generalize Tree.descend key st.root_ [] = d at hk hb ha hx
      obtain ⟨x, path⟩ := d
      simp only at hx hk hb ha
      subst hx
      have hmem : key ∈ s := by
        rw [← h.2 key, hk]; simp [Tree.keys]
      simp [hmem, h]
  | erase key =>
    simp only at hk hb ha hx
    simp only [step, erase, specStep]
    rcases hx with hx | ⟨l, v, m, r, hx⟩
    · generalize Tree.descend key st.root_ [] = d at hk hb ha hx
      obtain ⟨x, path⟩ := d
      simp only at hx hk hb ha
      subst hx
      simp only [Tree.keys, List.append_nil] at hk
      have hab := holds_absent h hk hb ha
      simp [hab, h]
    · generalize Tree.descend key st.root_ [] = d at hk hb ha hx
      obtain ⟨x, path⟩ := d
      simp only at hx hk hb ha
      subst hx
      have := holds_erase (u := Tree.fill path (eraseNode l r)) (A := Tree.before path ++ Tree.keys l)
        (B := Tree.keys r ++ Tree.after path) (k := key) h (by rw [hk]; simp [Tree.keys])
        (by simp [Tree.keys_fill, bst_keys_eraseNode])
      simp [this.1, this.2]

theorem bst_run_holds (ops : List (Op V)) (st : State Unit V) (s : Finset Int) (h : Holds st.root_ s) :
    Holds (run ops st).1.root_ (specRun ops s).1 ∧ (run ops st).2 = (specRun ops s).2 := by
  induction ops generalizing st s with
  | nil => exact ⟨h, rfl⟩
  | cons op ops ih =>
    obtain ⟨h1, h2⟩ := bst_step_holds st s op h
    obtain ⟨h3, h4⟩ := ih _ _ h1
    exact ⟨h3, by simp only [run, specRun, h2, h4]⟩

end BST

/-- C4. Unbalanced tree as a set: after any sequence of `insert` and `erase` calls on the empty
tree, the results returned are the ones the set semantics gives (`true` iff the key was absent,
`1` iff it was present, else `0`), the in-order key sequence is strictly increasing, and it
lists exactly the keys of the set obtained by the same insertions and removals. -/
theorem bst_set_semantics (ops : List (Op V)) :
    (BST.run ops State.empty).2 = (specRun ops ∅).2 ∧
    List.Sorted (· < ·) (Tree.keys (BST.run ops State.empty).1.root_) ∧
    ∀ k, k ∈ Tree.keys (BST.run ops State.empty).1.root_ ↔ k ∈ (specRun ops ∅).1 := by
  obtain ⟨h1, h2⟩ := BST.bst_run_holds ops State.empty ∅ holds_nil
  exact ⟨h2, h1.1, h1.2⟩

/-! ### Heights -/

namespace Tree

theorem height_ge (t : Tree M V) : -1 ≤ height t := by
  induction t with
  | nil => simp [height]
  | node l k v m r ihl ihr =>
    unfold height
    cases l <;> cases r <;> simp only [] <;> omega

theorem height_node (l : Tree M V) (k : Int) (v : V) (m : M) (r : Tree M V) :
    height (node l k v m r) = 1 + max (height l) (height r) := by
  have hl := height_ge l
  have hr := height_ge r
  cases l <;> cases r <;> simp only [height] at hl hr ⊢ <;> omega

theorem height_nil : height (nil : Tree M V) = -1 := rfl

theorem height_neg_iff (t : Tree M V) : height t = -1 ↔ t = nil := by
  cases t with
  | nil => simp [height]
  | node l k v m r =>
    have hl := height_ge l
    have hr := height_ge r
    rw [height_node]
    simp
    omega

theorem height_fill (p : List (Frame M V)) (t : Tree M V) :
    height (fill p t) = heightAbove p (height t) := by
  induction p generalizing t with
  | nil => rfl
  | cons f up ih =>
    obtain ⟨d, k, v, m, s⟩ := f
    cases d
    · simp only [fill, Frame.fill, heightAbove, ih, height_node]
    · simp only [fill, Frame.fill, heightAbove, ih, height_node, max_comm]

theorem heightAbove_append (p q : List (Frame M V)) (h : Int) :
    heightAbove (p ++ q) h = heightAbove q (heightAbove p h) := by
  induction p generalizing h with
  | nil => rfl
  | cons f up ih => simp [heightAbove, ih]

end Tree

/-! ### Height-balanced tree -/

namespace AVL

theorem avl_fill_balanced (p : List (Frame Int V)) (t : Tree Int V) (h : Int)
    (hp : PathOK p h) (ht : Balanced t) (hh : Tree.height t = h) : Balanced (Tree.fill p t) := by
  induction p generalizing t h with
  | nil => exact ht
  | cons f up ih =>
    obtain ⟨d, k, v, m, s⟩ := f
    obtain ⟨h1, h2, h3, h4, h5⟩ := hp
    cases d
    · simp only at h1 h2 h3 h4 h5
      refine ih _ _ h5 ⟨ht, h1, ?_, h3, h4⟩ ?_
      · dsimp only; omega
      · simp only [Frame.fill, Tree.height_node, hh]
    · simp only at h1 h2 h3 h4 h5
      refine ih _ _ h5 ⟨h1, ht, ?_, h3, h4⟩ ?_
      · dsimp only; omega
      · simp only [Frame.fill, Tree.height_node, hh]
        rw [max_comm]

theorem avl_balanced_of_fill (p : List (Frame Int V)) (t : Tree Int V)
    (h : Balanced (Tree.fill p t)) : Balanced t ∧ PathOK p (Tree.height t) := by
  induction p generalizing t with
  | nil => exact ⟨h, trivial⟩
  | cons f up ih =>
    obtain ⟨d, k, v, m, s⟩ := f
    cases d
    · obtain ⟨⟨h1, h2, h3, h4, h5⟩, h6⟩ := ih _ h
      simp only [Frame.fill, Tree.height_node] at h6
      exact ⟨h1, h2, h3, h4, h5, h6⟩
    · obtain ⟨⟨h1, h2, h3, h4, h5⟩, h6⟩ := ih _ h
      simp only [Frame.fill, Tree.height_node] at h6
      rw [max_comm] at h6
      exact ⟨h2, h1, h3, h4, h5, h6⟩

theorem avl_pathOK_append (p q : List (Frame Int V)) (h : Int) (hp : PathOK p h)
    (hq : PathOK q (Tree.heightAbove p h)) : PathOK (p ++ q) h := by
  induction p generalizing h with
  | nil => exact hq
  | cons f up ih =>
    obtain ⟨h1, h2, h3, h4, h5⟩ := hp
    exact ⟨h1, h2, h3, h4, ih _ h5 hq⟩

end AVL

namespace AVL

/-- `rotateRight` at a node whose left subtree is two levels higher than the right one and
does not lean right: the result is balanced, keeps the keys, and has the stated height. -/
theorem avl_rotateRight_spec (ll lr r : Tree Int V) (lk k : Int) (lv v : V) (lb b : Int)
    (hll : Balanced ll) (hlr : Balanced lr) (hr : Balanced r)
    (hlb : lb = Tree.height ll - Tree.height lr) (h0 : 0 ≤ lb) (h1 : lb ≤ 1)
    (hd : Tree.height ll = Tree.height r + 1) :
    ∃ n, rotateRight (Tree.node (Tree.node ll lk lv lb lr) k v b r) = some n ∧
      Tree.keys n = Tree.keys (Tree.node (Tree.node ll lk lv lb lr) k v b r) ∧ Balanced n ∧
      bal n = lb - 1 ∧ Tree.height n = Tree.height r + 3 - lb := by
  refine ⟨_, rfl, by simp [Tree.keys], ?_, rfl, ?_⟩
  · simp only [Balanced, Tree.height_node]
    refine ⟨hll, ⟨hlr, hr, ?_, ?_, ?_⟩, ?_, ?_, ?_⟩ <;> omega
  · simp only [Tree.height_node]; omega

theorem avl_rotateLeft_spec (l rl rr : Tree Int V) (rk k : Int) (rv v : V) (rb b : Int)
    (hl : Balanced l) (hrl : Balanced rl) (hrr : Balanced rr)
    (hrb : rb = Tree.height rl - Tree.height rr) (h0 : -1 ≤ rb) (h1 : rb ≤ 0)
    (hd : Tree.height rr = Tree.height l + 1) :
    ∃ n, rotateLeft (Tree.node l k v b (Tree.node rl rk rv rb rr)) = some n ∧
      Tree.keys n = Tree.keys (Tree.node l k v b (Tree.node rl rk rv rb rr)) ∧ Balanced n ∧
      bal n = rb + 1 ∧ Tree.height n = Tree.height l + 3 + rb := by
  refine ⟨_, rfl, by simp [Tree.keys], ?_, rfl, ?_⟩
  · simp only [Balanced, Tree.height_node]
    refine ⟨⟨hl, hrl, ?_, ?_, ?_⟩, hrr, ?_, ?_, ?_⟩ <;> omega
  · simp only [Tree.height_node]; omega

/-- `rotateLeftRight` at a node whose left subtree is two levels higher than the right one and
leans right. -/
theorem avl_rotateLeftRight_spec (ll lr r : Tree Int V) (lk k : Int) (lv v : V) (lb b : Int)
    (hll : Balanced ll) (hlr : Balanced lr) (hr : Balanced r)
    (hd1 : Tree.height lr = Tree.height ll + 1) (hd2 : Tree.height ll = Tree.height r) :
    ∃ n, rotateLeftRight (Tree.node (Tree.node ll lk lv lb lr) k v b r) = some n ∧
      Tree.keys n = Tree.keys (Tree.node (Tree.node ll lk lv lb lr) k v b r) ∧ Balanced n ∧
      bal n = 0 ∧ Tree.height n = Tree.height r + 2 := by
  have hgll := Tree.height_ge ll
  cases lr with
  | nil => simp only [Tree.height_nil] at hd1; omega
  | node lrl lrk lrv lrb lrr =>
    obtain ⟨hlrl, hlrr, hlrb, hlrb1, hlrb2⟩ := hlr
    simp only [Tree.height_node] at hd1
    simp only [rotateLeftRight]
    split_ifs with c1 c2
    · refine ⟨_, rfl, by simp [Tree.keys], ?_, rfl, ?_⟩
      · simp only [Balanced, Tree.height_node]
        refine ⟨⟨hll, hlrl, ?_, ?_, ?_⟩, ⟨hlrr, hr, ?_, ?_, ?_⟩, ?_, ?_, ?_⟩ <;> omega
      · simp only [Tree.height_node]; omega
    · refine ⟨_, rfl, by simp [Tree.keys], ?_, rfl, ?_⟩
      · simp only [Balanced, Tree.height_node]
        refine ⟨⟨hll, hlrl, ?_, ?_, ?_⟩, ⟨hlrr, hr, ?_, ?_, ?_⟩, ?_, ?_, ?_⟩ <;> omega
      · simp only [Tree.height_node]; omega
    · refine ⟨_, rfl, by simp [Tree.keys], ?_, rfl, ?_⟩
      · simp only [Balanced, Tree.height_node]
        refine ⟨⟨hll, hlrl, ?_, ?_, ?_⟩, ⟨hlrr, hr, ?_, ?_, ?_⟩, ?_, ?_, ?_⟩ <;> omega
      · simp only [Tree.height_node]; omega

theorem avl_rotateRightLeft_spec (l rl rr : Tree Int V) (rk k : Int) (rv v : V) (rb b : Int)
    (hl : Balanced l) (hrl : Balanced rl) (hrr : Balanced rr)
    (hd1 : Tree.height rl = Tree.height rr + 1) (hd2 : Tree.height rr = Tree.height l) :
    ∃ n, rotateRightLeft (Tree.node l k v b (Tree.node rl rk rv rb rr)) = some n ∧
      Tree.keys n = Tree.keys (Tree.node l k v b (Tree.node rl rk rv rb rr)) ∧ Balanced n ∧
      bal n = 0 ∧ Tree.height n = Tree.height l + 2 := by
  have hgrr := Tree.height_ge rr
  cases rl with
  | nil => simp only [Tree.height_nil] at hd1; omega
  | node rll rlk rlv rlb rlr =>
    obtain ⟨hrll, hrlr, hrlb, hrlb1, hrlb2⟩ := hrl
    simp only [Tree.height_node] at hd1
    simp only [rotateRightLeft]
    split_ifs with c1 c2
    · refine ⟨_, rfl, by simp [Tree.keys], ?_, rfl, ?_⟩
      · simp only [Balanced, Tree.height_node]
        refine ⟨⟨hl, hrll, ?_, ?_, ?_⟩, ⟨hrlr, hrr, ?_, ?_, ?_⟩, ?_, ?_, ?_⟩ <;> omega
      · simp only [Tree.height_node]; omega
    · refine ⟨_, rfl, by simp [Tree.keys], ?_, rfl, ?_⟩
      · simp only [Balanced, Tree.height_node]
        refine ⟨⟨hl, hrll, ?_, ?_, ?_⟩, ⟨hrlr, hrr, ?_, ?_, ?_⟩, ?_, ?_, ?_⟩ <;> omega
      · simp only [Tree.height_node]; omega
    · refine ⟨_, rfl, by simp [Tree.keys], ?_, rfl, ?_⟩
      · simp only [Balanced, Tree.height_node]
        refine ⟨⟨hl, hrll, ?_, ?_, ?_⟩, ⟨hrlr, hrr, ?_, ?_, ?_⟩, ?_, ?_, ?_⟩ <;> omega
      · simp only [Tree.height_node]; omega

end AVL

namespace AVL

theorem avl_insertBalanceStep_left (l r : Tree Int V) (k : Int) (v : V) (b h : Int)
    (hl : Balanced l) (hr : Balanced r) (hb1 : -1 ≤ b) (hb2 : b ≤ 1)
    (hb : b = (Tree.height l - 1) - Tree.height r)
    (hh : h = 1 + max (Tree.height l - 1) (Tree.height r))
    (hz : Tree.height l = 0 ∨ bal l ≠ 0) :
    ∃ n c, insertBalanceStep (Tree.node l k v b r) 1 = some (n, c) ∧
      Tree.keys n = Tree.keys (Tree.node l k v b r) ∧ Balanced n ∧
      (c = false → Tree.height n = h) ∧ (c = true → Tree.height n = h + 1 ∧ bal n ≠ 0) := by
  have hgl := Tree.height_ge l
  have hgr := Tree.height_ge r
  simp only [insertBalanceStep]
  by_cases h0 : b + 1 = 0
  · rw [if_pos h0]
    refine ⟨_, _, rfl, rfl, ⟨hl, hr, by omega, by omega, by omega⟩, ?_, by simp⟩
    intro _; rw [Tree.height_node]; omega
  rw [if_neg h0]
  by_cases h2 : b + 1 = 2
  · rw [if_pos h2]
    cases l with
    | nil => simp only [Tree.height_nil] at hb; omega
    | node ll lk lv lb lr =>
      obtain ⟨hll, hlr, hlb, hlb1, hlb2⟩ := hl
      have hgll := Tree.height_ge ll
      have hglr := Tree.height_ge lr
      simp only [Tree.height_node, bal] at hb hh hz
      have hhr : h = Tree.height r + 2 := by omega
      by_cases h1 : lb = 1
      · obtain ⟨n, e1, e2, e3, e4, e5⟩ := avl_rotateRight_spec ll lr r lk k lv v lb (b + 1)
          hll hlr hr hlb (by omega) (by omega) (by omega)
        simp only [h1, if_true] at e1 ⊢
        rw [e1]
        exact ⟨n, false, rfl, by rw [e2]; rfl, e3, fun _ => by omega, by simp⟩
      · obtain ⟨n, e1, e2, e3, e4, e5⟩ := avl_rotateLeftRight_spec ll lr r lk k lv v lb (b + 1)
          hll hlr hr (by omega) (by omega)
        simp only [h1, if_false]
        rw [e1]
        exact ⟨n, false, rfl, by rw [e2]; rfl, e3, fun _ => by omega, by simp⟩
  rw [if_neg h2]
  have h3 : ¬ (b + 1 = -2) := by omega
  rw [if_neg h3]
  refine ⟨_, _, rfl, rfl, ⟨hl, hr, by omega, by omega, by omega⟩, by simp, ?_⟩
  intro _; rw [Tree.height_node]; simp only [bal]; omega

theorem avl_insertBalanceStep_right (l r : Tree Int V) (k : Int) (v : V) (b h : Int)
    (hl : Balanced l) (hr : Balanced r) (hb1 : -1 ≤ b) (hb2 : b ≤ 1)
    (hb : b = Tree.height l - (Tree.height r - 1))
    (hh : h = 1 + max (Tree.height l) (Tree.height r - 1))
    (hz : Tree.height r = 0 ∨ bal r ≠ 0) :
    ∃ n c, insertBalanceStep (Tree.node l k v b r) (-1) = some (n, c) ∧
      Tree.keys n = Tree.keys (Tree.node l k v b r) ∧ Balanced n ∧
      (c = false → Tree.height n = h) ∧ (c = true → Tree.height n = h + 1 ∧ bal n ≠ 0) := by
  have hgl := Tree.height_ge l
  have hgr := Tree.height_ge r
  simp only [insertBalanceStep]
  by_cases h0 : b + -1 = 0
  · rw [if_pos h0]
    refine ⟨_, _, rfl, rfl, ⟨hl, hr, by omega, by omega, by omega⟩, ?_, by simp⟩
    intro _; rw [Tree.height_node]; omega
  rw [if_neg h0]
  have h2 : ¬ (b + -1 = 2) := by omega
  rw [if_neg h2]
  by_cases h3 : b + -1 = -2
  · rw [if_pos h3]
    cases r with
    | nil => simp only [Tree.height_nil] at hb; omega
    | node rl rk rv rb rr =>
      obtain ⟨hrl, hrr, hrb, hrb1, hrb2⟩ := hr
      have hgrl := Tree.height_ge rl
      have hgrr := Tree.height_ge rr
      simp only [Tree.height_node, bal] at hb hh hz
      have hhl : h = Tree.height l + 2 := by omega
      by_cases h1 : rb = -1
      · obtain ⟨n, e1, e2, e3, e4, e5⟩ := avl_rotateLeft_spec l rl rr rk k rv v rb (b + -1)
          hl hrl hrr hrb (by omega) (by omega) (by omega)
        simp only [h1, if_true] at e1 ⊢
        rw [e1]
        exact ⟨n, false, rfl, by rw [e2]; rfl, e3, fun _ => by omega, by simp⟩
      · obtain ⟨n, e1, e2, e3, e4, e5⟩ := avl_rotateRightLeft_spec l rl rr rk k rv v rb (b + -1)
          hl hrl hrr (by omega) (by omega)
        simp only [h1, if_false]
        rw [e1]
        exact ⟨n, false, rfl, by rw [e2]; rfl, e3, fun _ => by omega, by simp⟩
  rw [if_neg h3]
  refine ⟨_, _, rfl, rfl, ⟨hl, hr, by omega, by omega, by omega⟩, by simp, ?_⟩
  intro _; rw [Tree.height_node]; simp only [bal]; omega

theorem avl_insertBalanceStep_spec (t : Tree Int V) (d h : Int) (hg : Grown t d h) :
    ∃ n c, insertBalanceStep t d = some (n, c) ∧ Tree.keys n = Tree.keys t ∧ Balanced n ∧
      (c = false → Tree.height n = h) ∧ (c = true → Tree.height n = h + 1 ∧ bal n ≠ 0) := by
  cases t with
  | nil => exact absurd hg (by simp [Grown])
  | node l k v b r =>
    obtain ⟨hl, hr, hb1, hb2, hd⟩ := hg
    rcases hd with ⟨rfl, hb, hh, hz⟩ | ⟨rfl, hb, hh, hz⟩
    · exact avl_insertBalanceStep_left l r k v b h hl hr hb1 hb2 hb hh hz
    · exact avl_insertBalanceStep_right l r k v b h hl hr hb1 hb2 hb hh hz

end AVL

namespace AVL

theorem avl_deleteBalanceStep_left (l r : Tree Int V) (k : Int) (v : V) (b h : Int)
    (hl : Balanced l) (hr : Balanced r) (hb1 : -1 ≤ b) (hb2 : b ≤ 1)
    (hb : b = (Tree.height l + 1) - Tree.height r)
    (hh : h = 1 + max (Tree.height l + 1) (Tree.height r)) :
    ∃ n c, deleteBalanceStep (Tree.node l k v b r) (-1) = some (n, c) ∧
      Tree.keys n = Tree.keys (Tree.node l k v b r) ∧ Balanced n ∧
      (c = false → Tree.height n = h) ∧ (c = true → Tree.height n = h - 1) := by
  have hgl := Tree.height_ge l
  have hgr := Tree.height_ge r
  simp only [deleteBalanceStep]
  have h2 : ¬ (b + -1 = 2) := by omega
  rw [if_neg h2]
  by_cases h3 : b + -1 = -2
  · rw [if_pos h3]
    cases r with
    | nil => simp only [Tree.height_nil] at hb; omega
    | node rl rk rv rb rr =>
      obtain ⟨hrl, hrr, hrb, hrb1, hrb2⟩ := hr
      have hgrl := Tree.height_ge rl
      have hgrr := Tree.height_ge rr
      simp only [Tree.height_node] at hb hh
      have hhl : h = Tree.height l + 3 := by omega
      by_cases h1 : rb ≤ 0
      · obtain ⟨n, e1, e2, e3, e4, e5⟩ := avl_rotateLeft_spec l rl rr rk k rv v rb (b + -1)
          hl hrl hrr hrb (by omega) h1 (by omega)
        simp only [h1, if_true]
        rw [e1]
        cases n with
        | nil => simp only [Tree.height_nil] at e5; omega
        | node nl nk nv nb nr =>
          simp only [bal] at e4
          refine ⟨_, _, rfl, by rw [e2]; rfl, e3, ?_, ?_⟩
          · intro hc
            simp only [ne_eq, decide_not, Bool.not_eq_false', decide_eq_true_eq] at hc
            omega
          · intro hc
            simp only [ne_eq, decide_not, Bool.not_eq_true', decide_eq_false_iff_not] at hc
            omega
      · obtain ⟨n, e1, e2, e3, e4, e5⟩ := avl_rotateRightLeft_spec l rl rr rk k rv v rb (b + -1)
          hl hrl hrr (by omega) (by omega)
        simp only [h1, if_false]
        rw [e1]
        exact ⟨n, true, rfl, by rw [e2]; rfl, e3, by simp, fun _ => by omega⟩
  rw [if_neg h3]
  by_cases h0 : b + -1 = 0
  · simp only [h0, ne_eq, not_true_eq_false, if_false]
    refine ⟨_, _, rfl, rfl, ⟨hl, hr, by omega, by omega, by omega⟩, by simp, ?_⟩
    intro _; rw [Tree.height_node]; omega
  · simp only [ne_eq, h0, not_false_eq_true, if_true]
    refine ⟨_, _, rfl, rfl, ⟨hl, hr, by omega, by omega, by omega⟩, ?_, by simp⟩
    intro _; rw [Tree.height_node]; omega

theorem avl_deleteBalanceStep_right (l r : Tree Int V) (k : Int) (v : V) (b h : Int)
    (hl : Balanced l) (hr : Balanced r) (hb1 : -1 ≤ b) (hb2 : b ≤ 1)
    (hb : b = Tree.height l - (Tree.height r + 1))
    (hh : h = 1 + max (Tree.height l) (Tree.height r + 1)) :
    ∃ n c, deleteBalanceStep (Tree.node l k v b r) 1 = some (n, c) ∧
      Tree.keys n = Tree.keys (Tree.node l k v b r) ∧ Balanced n ∧
      (c = false → Tree.height n = h) ∧ (c = true → Tree.height n = h - 1) := by
  have hgl := Tree.height_ge l
  have hgr := Tree.height_ge r
  simp only [deleteBalanceStep]
  by_cases h2 : b + 1 = 2
  · rw [if_pos h2]
    cases l with
    | nil => simp only [Tree.height_nil] at hb; omega
    | node ll lk lv lb lr =>
      obtain ⟨hll, hlr, hlb, hlb1, hlb2⟩ := hl
      have hgll := Tree.height_ge ll
      have hglr := Tree.height_ge lr
      simp only [Tree.height_node] at hb hh
      have hhr : h = Tree.height r + 3 := by omega
      by_cases h1 : lb ≥ 0
      · obtain ⟨n, e1, e2, e3, e4, e5⟩ := avl_rotateRight_spec ll lr r lk k lv v lb (b + 1)
          hll hlr hr hlb h1 (by omega) (by omega)
        simp only [h1, if_true]
        rw [e1]
        cases n with
        | nil => simp only [Tree.height_nil] at e5; omega
        | node nl nk nv nb nr =>
          simp only [bal] at e4
          refine ⟨_, _, rfl, by rw [e2]; rfl, e3, ?_, ?_⟩
          · intro hc
            simp only [ne_eq, decide_not, Bool.not_eq_false', decide_eq_true_eq] at hc
            omega
          · intro hc
            simp only [ne_eq, decide_not, Bool.not_eq_true', decide_eq_false_iff_not] at hc
            omega
      · obtain ⟨n, e1, e2, e3, e4, e5⟩ := avl_rotateLeftRight_spec ll lr r lk k lv v lb (b + 1)
          hll hlr hr (by omega) (by omega)
        simp only [h1, if_false]
        rw [e1]
        exact ⟨n, true, rfl, by rw [e2]; rfl, e3, by simp, fun _ => by omega⟩
  rw [if_neg h2]
  have h3 : ¬ (b + 1 = -2) := by omega
  rw [if_neg h3]
  by_cases h0 : b + 1 = 0
  · simp only [h0, ne_eq, not_true_eq_false, if_false]
    refine ⟨_, _, rfl, rfl, ⟨hl, hr, by omega, by omega, by omega⟩, by simp, ?_⟩
    intro _; rw [Tree.height_node]; omega
  · simp only [ne_eq, h0, not_false_eq_true, if_true]
    refine ⟨_, _, rfl, rfl, ⟨hl, hr, by omega, by omega, by omega⟩, ?_, by simp⟩
    intro _; rw [Tree.height_node]; omega

theorem avl_deleteBalanceStep_spec (t : Tree Int V) (d h : Int) (hg : Shrunk t d h) :
    ∃ n c, deleteBalanceStep t d = some (n, c) ∧ Tree.keys n = Tree.keys t ∧ Balanced n ∧
      (c = false → Tree.height n = h) ∧ (c = true → Tree.height n = h - 1) := by
  cases t with
  | nil => exact absurd hg (by simp [Shrunk])
  | node l k v b r =>
    rcases hg with ⟨rfl, hl, hr, hb1, hb2, hb, hh⟩ | ⟨rfl, hl, hr, hb1, hb2, hb, hh⟩ |
      ⟨rfl, hbal, rfl, hh⟩
    · exact avl_deleteBalanceStep_left l r k v b h hl hr hb1 hb2 hb hh
    · exact avl_deleteBalanceStep_right l r k v b h hl hr hb1 hb2 hb hh
    · refine ⟨_, true, ?_, rfl, hbal, by simp, fun _ => by omega⟩
      simp [deleteBalanceStep]

end AVL

namespace AVL

theorem avl_grown_fill (g : Frame Int V) (up : List (Frame Int V)) (n : Tree Int V) (h : Int)
    (hp : PathOK (g :: up) h) (hn : Balanced n) (hh : Tree.height n = h + 1)
    (hz : Tree.height n = 0 ∨ bal n ≠ 0) :
    Grown (g.fill n) (if g.dir = Dir.left then 1 else -1) (1 + max h (Tree.height g.sib)) := by
  obtain ⟨d, k, v, m, s⟩ := g
  obtain ⟨h1, h2, h3, h4, _⟩ := hp
  cases d
  · simp only [Frame.fill, if_true, Grown] at h2 ⊢
    exact ⟨hn, h1, h3, h4, Or.inl ⟨trivial, by omega, by rw [hh]; simp, hz⟩⟩
  · simp only [Frame.fill, Grown] at h2 ⊢
    refine ⟨h1, hn, h3, h4, Or.inr ⟨by simp, by omega, ?_, hz⟩⟩
    rw [hh, max_comm]; simp

theorem avl_insertBalance_spec (up : List (Frame Int V)) (t : Tree Int V) (d h : Int)
    (hp : PathOK up h) (hg : Grown t d h) :
    ∃ u, insertBalance up t d = some u ∧ Balanced u ∧
      Tree.keys u = Tree.before up ++ Tree.keys t ++ Tree.after up := by
  induction up generalizing t d h with
  | nil =>
    obtain ⟨n, c, e1, e2, e3, e4, e5⟩ := avl_insertBalanceStep_spec t d h hg
    unfold insertBalance
    rw [e1]
    cases c <;> exact ⟨n, rfl, e3, by simp [Tree.before, Tree.after, e2]⟩
  | cons g up ih =>
    obtain ⟨n, c, e1, e2, e3, e4, e5⟩ := avl_insertBalanceStep_spec t d h hg
    unfold insertBalance
    rw [e1]
    cases c
    · exact ⟨_, rfl, avl_fill_balanced _ _ h hp e3 (e4 rfl), by rw [Tree.keys_fill, e2]⟩
    · obtain ⟨e6, e7⟩ := e5 rfl
      obtain ⟨u, f1, f2, f3⟩ := ih _ _ _ hp.2.2.2.2 (avl_grown_fill g up n h hp e3 e6 (Or.inr e7))
      refine ⟨u, f1, f2, ?_⟩
      rw [f3, ← e2]
      obtain ⟨gd, gk, gv, gm, gs⟩ := g
      cases gd <;> simp [Frame.fill, Tree.keys, Tree.before, Tree.after]

theorem avl_shrunk_fill (g : Frame Int V) (up : List (Frame Int V)) (n : Tree Int V) (h : Int)
    (hp : PathOK (g :: up) h) (hn : Balanced n) (hh : Tree.height n = h - 1) :
    Shrunk (g.fill n) (if g.dir = Dir.left then -1 else 1) (1 + max h (Tree.height g.sib)) := by
  obtain ⟨d, k, v, m, s⟩ := g
  obtain ⟨h1, h2, h3, h4, _⟩ := hp
  cases d
  · simp only [Frame.fill, if_true, Shrunk] at h2 ⊢
    exact Or.inl ⟨trivial, hn, h1, h3, h4, by omega, by rw [hh]; simp⟩
  · simp only [Frame.fill, Shrunk] at h2 ⊢
    refine Or.inr (Or.inl ⟨by simp, h1, hn, h3, h4, by omega, ?_⟩)
    rw [hh, max_comm]; simp

theorem avl_deleteBalance_spec (up : List (Frame Int V)) (t : Tree Int V) (d h : Int)
    (hp : PathOK up h) (hg : Shrunk t d h) :
    ∃ u, deleteBalance up t d = some u ∧ Balanced u ∧
      Tree.keys u = Tree.before up ++ Tree.keys t ++ Tree.after up := by
  induction up generalizing t d h with
  | nil =>
    obtain ⟨n, c, e1, e2, e3, e4, e5⟩ := avl_deleteBalanceStep_spec t d h hg
    unfold deleteBalance
    rw [e1]
    cases c <;> exact ⟨n, rfl, e3, by simp [Tree.before, Tree.after, e2]⟩
  | cons g up ih =>
    obtain ⟨n, c, e1, e2, e3, e4, e5⟩ := avl_deleteBalanceStep_spec t d h hg
    unfold deleteBalance
    rw [e1]
    cases c
    · exact ⟨_, rfl, avl_fill_balanced _ _ h hp e3 (e4 rfl), by rw [Tree.keys_fill, e2]⟩
    · obtain ⟨u, f1, f2, f3⟩ := ih _ _ _ hp.2.2.2.2 (avl_shrunk_fill g up n h hp e3 (e5 rfl))
      refine ⟨u, f1, f2, ?_⟩
      rw [f3, ← e2]
      obtain ⟨gd, gk, gv, gm, gs⟩ := g
      cases gd <;> simp [Frame.fill, Tree.keys, Tree.before, Tree.after]

end AVL

namespace Tree

theorem descend_dir (key : Int) (t : Tree M V) (p : List (Frame M V))
    (hp : ∀ f ∈ p, (f.dir = Dir.left ↔ key < f.key)) :
    ∀ f ∈ (descend key t p).2, (f.dir = Dir.left ↔ key < f.key) := by
  induction t generalizing p with
  | nil => exact hp
  | node l k v m r ihl ihr =>
    unfold descend
    split
    · rename_i hlt
      apply ihl
      intro f hf
      rcases List.mem_cons.1 hf with rfl | hf
      · simp [hlt]
      · exact hp f hf
    · split
      · rename_i hnlt hlt
        apply ihr
        intro f hf
        rcases List.mem_cons.1 hf with rfl | hf
        · simp [hnlt]
        · exact hp f hf
      · exact hp

theorem keys_length (t : Tree M V) : (keys t).length = size t := by
  induction t with
  | nil => rfl
  | node l k v m r ihl ihr => simp [keys, size, ihl, ihr]; omega

end Tree

namespace AVL

theorem avl_eraseNode_deep (path : List (Frame Int V)) (l rl rr : Tree Int V) (k rk : Int) (rv v : V)
    (b rb : Int) (hrl : rl ≠ Tree.nil)
    (hbal : Balanced (Tree.node l k v b (Tree.node rl rk rv rb rr)))
    (hp : PathOK path (Tree.height (Tree.node l k v b (Tree.node rl rk rv rb rr)))) :
    ∃ sk sv sm sr sp spine,
      Tree.minimum rl [⟨Dir.left, rk, rv, rb, rr⟩] = (Tree.node Tree.nil sk sv sm sr, sp :: spine) ∧
      ∃ u, deleteBalance (spine ++ ⟨Dir.right, sk, sv, b, l⟩ :: path) (sp.fill sr) (-1) = some u ∧
        Balanced u ∧
        Tree.keys u = Tree.before path ++ (Tree.keys l ++ Tree.keys (Tree.node rl rk rv rb rr)) ++
          Tree.after path := by
  obtain ⟨sk, sv, sm, sr, spine0, h1, h2, h3⟩ :=
    Tree.minimum_spec rl [⟨Dir.left, rk, rv, rb, rr⟩] hrl
  obtain ⟨sp, spine, hS⟩ : ∃ sp spine, spine0 ++ [(⟨Dir.left, rk, rv, rb, rr⟩ : Frame Int V)] =
      sp :: spine := by
    cases spine0 with
    | nil => exact ⟨_, _, rfl⟩
    | cons a rest => exact ⟨_, _, rfl⟩
  have hfill : Tree.fill (sp :: spine) (Tree.node Tree.nil sk sv sm sr) = Tree.node rl rk rv rb rr := by
    rw [← hS, Tree.fill_append, h2]; rfl
  have hbef : Tree.before (sp :: spine) = [] := by
    rw [← hS, Tree.before_append, h3]; rfl
  rw [hS] at h1
  refine ⟨sk, sv, sm, sr, sp, spine, h1, ?_⟩
  obtain ⟨hl, hr, hb, hb1, hb2⟩ := hbal
  rw [← hfill] at hr
  obtain ⟨hy, hpy⟩ := avl_balanced_of_fill _ _ hr
  have hgsr := Tree.height_ge sr
  have hhy : Tree.height (Tree.node Tree.nil sk sv sm sr) = Tree.height sr + 1 := by
    rw [Tree.height_node, Tree.height_nil]; omega
  have hspd : sp.dir = Dir.left := by
    obtain ⟨d, k1, v1, m1, s1⟩ := sp
    cases d
    · rfl
    · simp [Tree.before] at hbef
  have hbs : Tree.before spine = [] := by
    obtain ⟨d, k1, v1, m1, s1⟩ := sp
    simp only at hspd
    subst hspd
    simpa [Tree.before] using hbef
  have hsh := avl_shrunk_fill sp spine sr _ hpy hy.2.1 (by omega)
  rw [hspd] at hsh
  simp only [if_true] at hsh
  have hhr : Tree.height (Tree.node rl rk rv rb rr) =
      Tree.heightAbove spine (1 + max (Tree.height (Tree.node Tree.nil sk sv sm sr)) (Tree.height sp.sib)) := by
    rw [← hfill, Tree.height_fill]; rfl
  have hpath : PathOK (spine ++ ⟨Dir.right, sk, sv, b, l⟩ :: path)
      (1 + max (Tree.height (Tree.node Tree.nil sk sv sm sr)) (Tree.height sp.sib)) := by
    apply avl_pathOK_append _ _ _ hpy.2.2.2.2
    rw [← hhr]
    refine ⟨hl, ?_, hb1, hb2, ?_⟩
    · simp only; rw [hb]
    · rw [Tree.height_node, max_comm] at hp
      exact hp
  obtain ⟨u, f1, f2, f3⟩ := avl_deleteBalance_spec _ _ _ _ hpath hsh
  refine ⟨u, f1, f2, ?_⟩
  rw [f3, ← hfill, Tree.keys_fill, hbef, Tree.before_append, Tree.after_append, hbs]
  obtain ⟨d, k1, v1, m1, s1⟩ := sp
  simp only at hspd
  subst hspd
  simp [Tree.before, Tree.after, Tree.keys, Frame.fill]

end AVL

namespace AVL

theorem avl_eraseNode_spec (path : List (Frame Int V)) (l r : Tree Int V) (k : Int) (v : V) (b : Int)
    (hbal : Balanced (Tree.node l k v b r))
    (hp : PathOK path (Tree.height (Tree.node l k v b r))) :
    ∃ u, eraseNode path l v b r = some u ∧ Balanced u ∧
      Tree.keys u = Tree.before path ++ (Tree.keys l ++ Tree.keys r) ++ Tree.after path := by
  have hbal0 := hbal
  obtain ⟨hl, hr, hb, hb1, hb2⟩ := hbal
  cases l with
  | nil =>
    cases r with
    | nil =>
      cases path with
      | nil => exact ⟨Tree.nil, rfl, trivial, by simp [Tree.keys, Tree.before, Tree.after]⟩
      | cons f up =>
        have hsh := avl_shrunk_fill f up Tree.nil _ hp trivial
          (by simp [Tree.height_node, Tree.height_nil])
        obtain ⟨u, f1, f2, f3⟩ := avl_deleteBalance_spec _ _ _ _ hp.2.2.2.2 hsh
        refine ⟨u, f1, f2, ?_⟩
        rw [f3]
        obtain ⟨d, k1, v1, m1, s1⟩ := f
        cases d <;> simp [Tree.before, Tree.after, Tree.keys, Frame.fill]
    | node rl rk rv rb rr =>
      obtain ⟨hrl, hrr, hrb, hrb1, hrb2⟩ := hr
      have hgrl := Tree.height_ge rl
      have hgrr := Tree.height_ge rr
      simp only [Tree.height_node, Tree.height_nil] at hb hrb hp
      have e1 : rl = Tree.nil := (Tree.height_neg_iff rl).1 (by omega)
      have e2 : rr = Tree.nil := (Tree.height_neg_iff rr).1 (by omega)
      subst e1 e2
      simp only [Tree.height_nil] at hb hrb hp
      have hsh : Shrunk (Tree.node Tree.nil rk v rb (Tree.nil : Tree Int V)) 0 (1 + max (-1) (1 + max (-1) (-1))) := by
        refine Or.inr (Or.inr ⟨rfl, ⟨trivial, trivial, ?_, hrb1, hrb2⟩, ?_, ?_⟩)
        · simp only [Tree.height_nil]; omega
        · omega
        · simp only [Tree.height_node, Tree.height_nil]; omega
      obtain ⟨u, f1, f2, f3⟩ := avl_deleteBalance_spec _ _ _ _ hp hsh
      exact ⟨u, by simpa [eraseNode, replace] using f1, f2, by rw [f3]; simp [Tree.keys]⟩
  | node ll lk lv lb lr =>
    cases r with
    | nil =>
      obtain ⟨hll, hlr, hlb, hlb1, hlb2⟩ := hl
      have hgll := Tree.height_ge ll
      have hglr := Tree.height_ge lr
      simp only [Tree.height_node, Tree.height_nil] at hb hlb hp
      have e1 : ll = Tree.nil := (Tree.height_neg_iff ll).1 (by omega)
      have e2 : lr = Tree.nil := (Tree.height_neg_iff lr).1 (by omega)
      subst e1 e2
      simp only [Tree.height_nil] at hb hlb hp
      have hsh : Shrunk (Tree.node Tree.nil lk v lb (Tree.nil : Tree Int V)) 0 (1 + max (1 + max (-1) (-1)) (-1)) := by
        refine Or.inr (Or.inr ⟨rfl, ⟨trivial, trivial, ?_, hlb1, hlb2⟩, ?_, ?_⟩)
        · simp only [Tree.height_nil]; omega
        · omega
        · simp only [Tree.height_node, Tree.height_nil]; omega
      obtain ⟨u, f1, f2, f3⟩ := avl_deleteBalance_spec _ _ _ _ hp hsh
      exact ⟨u, by simpa [eraseNode, replace] using f1, f2, by rw [f3]; simp [Tree.keys]⟩
    | node rl rk rv rb rr =>
      cases rl with
      | nil =>
        obtain ⟨hrl, hrr, hrb, hrb1, hrb2⟩ := hr
        have hgrr := Tree.height_ge rr
        have hrh : Tree.height (Tree.node (Tree.nil : Tree Int V) rk rv rb rr) = Tree.height rr + 1 := by
          rw [Tree.height_node, Tree.height_nil]; omega
        have hsh : Shrunk (Tree.node (Tree.node ll lk lv lb lr) rk rv b rr) 1
            (Tree.height (Tree.node (Tree.node ll lk lv lb lr) k v b
              (Tree.node Tree.nil rk rv rb rr))) := by
          refine Or.inr (Or.inl ⟨rfl, hl, hrr, hb1, hb2, ?_, ?_⟩)
          · rw [hb, hrh]
          · rw [Tree.height_node (Tree.node ll lk lv lb lr), hrh]
        obtain ⟨u, f1, f2, f3⟩ := avl_deleteBalance_spec _ _ _ _ hp hsh
        exact ⟨u, by simpa [eraseNode] using f1, f2, by rw [f3]; simp [Tree.keys]⟩
      | node rll rlk rlv rlb rlr =>
        obtain ⟨sk, sv, sm, sr, sp, spine, g1, u, g2, g3, g4⟩ :=
          avl_eraseNode_deep path (Tree.node ll lk lv lb lr) (Tree.node rll rlk rlv rlb rlr) rr k rk rv v
            b rb (by simp) hbal0 hp
        refine ⟨u, ?_, g3, g4⟩
        simp only [eraseNode, g1]
        exact g2

theorem avl_insert_spec (st : State Int V) (s : Finset Int) (key : Int) (value : V)
    (hb : Balanced st.root_) (hr : Holds st.root_ s) :
    ∃ st1, insert st key value = some (st1, decide (key ∉ s)) ∧ Balanced st1.root_ ∧
      Holds st1.root_ (Insert.insert key s) := by
  obtain ⟨hk, hbe, haf, hx⟩ := Tree.descend_root key st.root_ hr.1
  have hfill := Tree.descend_fill key st.root_ []
  have hdir := Tree.descend_dir key st.root_ [] (by simp)
  simp only [insert]
  generalize Tree.descend key st.root_ [] = d at hk hbe haf hx hfill hdir
  obtain ⟨x, path⟩ := d
  simp only [Tree.fill] at hk hbe haf hx hfill hdir
  rw [← hfill] at hb
  obtain ⟨hbx, hpx⟩ := avl_balanced_of_fill _ _ hb
  rcases hx with rfl | ⟨l, v, m, r, rfl⟩
  · simp only [Tree.keys, List.append_nil] at hk
    cases path with
    | nil =>
      have hrep := holds_insert (u := Tree.node Tree.nil key value 0 Tree.nil) hr hk
        (by simp [Tree.keys, Tree.before, Tree.after]) hbe haf
      refine ⟨⟨Tree.node Tree.nil key value 0 Tree.nil, st.nodes_ + 1⟩, ?_, ?_, hrep.1⟩
      · simp [hrep.2]
      · exact ⟨trivial, trivial, by simp [Tree.height_nil], by omega, by omega⟩
    | cons f up =>
      have hleaf : Balanced (Tree.node Tree.nil key value 0 (Tree.nil : Tree Int V)) :=
        ⟨trivial, trivial, by simp [Tree.height_nil], by omega, by omega⟩
      have hgr := avl_grown_fill f up _ _ hpx hleaf
        (by simp [Tree.height_node, Tree.height_nil]) (Or.inl (by simp [Tree.height_node, Tree.height_nil]))
      have hd : (if key < f.key then (1 : Int) else -1) = if f.dir = Dir.left then 1 else -1 := by
        have := hdir f (by simp)
        by_cases hc : key < f.key
        · simp [hc, this.2 hc]
        · have : ¬ f.dir = Dir.left := fun h => hc (this.1 h)
          simp [hc, this]
      obtain ⟨u, f1, f2, f3⟩ := avl_insertBalance_spec _ _ _ _ hpx.2.2.2.2 hgr
      have hrep := holds_insert (u := u) hr hk
        (by
          rw [f3]
          obtain ⟨d, k1, v1, m1, s1⟩ := f
          cases d <;> simp [Tree.before, Tree.after, Tree.keys, Frame.fill]) hbe haf
      refine ⟨⟨u, st.nodes_ + 1⟩, ?_, f2, hrep.1⟩
      simp only [hd, f1, Option.map_some', hrep.2, not_false_eq_true, decide_True]
  · have hmem : key ∈ s := by
      rw [← hr.2 key, hk]; simp [Tree.keys]
    refine ⟨st, by simp [hmem], by rw [← hfill]; exact hb, ?_⟩
    rw [Finset.insert_eq_of_mem hmem]
    exact hr

theorem avl_erase_spec (st : State Int V) (s : Finset Int) (key : Int)
    (hb : Balanced st.root_) (hr : Holds st.root_ s) :
    ∃ st1, erase st key = some (st1, if key ∈ s then 1 else 0) ∧ Balanced st1.root_ ∧
      Holds st1.root_ (s.erase key) := by
  obtain ⟨hk, hbe, haf, hx⟩ := Tree.descend_root key st.root_ hr.1
  have hfill := Tree.descend_fill key st.root_ []
  simp only [erase]
  generalize Tree.descend key st.root_ [] = d at hk hbe haf hx hfill
  obtain ⟨x, path⟩ := d
  simp only [Tree.fill] at hk hbe haf hx hfill
  have hb0 := hb
  rw [← hfill] at hb
  obtain ⟨hbx, hpx⟩ := avl_balanced_of_fill _ _ hb
  rcases hx with rfl | ⟨l, v, m, r, rfl⟩
  · simp only [Tree.keys, List.append_nil] at hk
    have hab := holds_absent hr hk hbe haf
    refine ⟨st, by simp [hab], hb0, ?_⟩
    rw [Finset.erase_eq_of_not_mem hab]
    exact hr
  · obtain ⟨u, f1, f2, f3⟩ := avl_eraseNode_spec path l r key v m hbx hpx
    have hrep := holds_erase (u := u) (A := Tree.before path ++ Tree.keys l)
      (B := Tree.keys r ++ Tree.after path) (k := key) hr (by rw [hk]; simp [Tree.keys])
      (by rw [f3]; simp)
    refine ⟨⟨u, st.nodes_ - 1⟩, ?_, f2, hrep.1⟩
    simp [f1, hrep.2]

theorem avl_step_spec (st : State Int V) (s : Finset Int) (op : Op V)
    (hb : Balanced st.root_) (hr : Holds st.root_ s) :
    ∃ st1, step st op = some (st1, (specStep s op).2) ∧ Balanced st1.root_ ∧
      Holds st1.root_ (specStep s op).1 := by
  cases op with
  | insert k v =>
    obtain ⟨st1, h1, h2, h3⟩ := avl_insert_spec st s k v hb hr
    exact ⟨st1, by simp [step, h1, specStep], h2, h3⟩
  | erase k =>
    obtain ⟨st1, h1, h2, h3⟩ := avl_erase_spec st s k hb hr
    exact ⟨st1, by simp [step, h1, specStep], h2, h3⟩

theorem avl_run_spec (ops : List (Op V)) (st : State Int V) (s : Finset Int)
    (hb : Balanced st.root_) (hr : Holds st.root_ s) :
    ∃ st1, run ops st = some (st1, (specRun ops s).2) ∧ Balanced st1.root_ ∧
      Holds st1.root_ (specRun ops s).1 := by
  induction ops generalizing st s with
  | nil => exact ⟨st, rfl, hb, hr⟩
  | cons op ops ih =>
    obtain ⟨st1, h1, h2, h3⟩ := avl_step_spec st s op hb hr
    obtain ⟨st2, h4, h5, h6⟩ := ih st1 _ h2 h3
    exact ⟨st2, by simp [run, h1, h4, specRun], h5, h6⟩

end AVL

/-- C1. Height-balanced tree as a set: every sequence of `insert` and `erase` calls on the
empty tree runs to the end, returns the results the set semantics gives (`true` iff the key
was absent, `1` iff it was present, else `0`), and leaves a tree whose in-order key sequence
is strictly increasing and lists exactly the keys of the set obtained by the same insertions
and removals. -/
theorem avl_set_semantics (ops : List (Op V)) :
    ∃ st, AVL.run ops State.empty = some (st, (specRun ops ∅).2) ∧
      List.Sorted (· < ·) (Tree.keys st.root_) ∧
      ∀ k, k ∈ Tree.keys st.root_ ↔ k ∈ (specRun ops ∅).1 := by
  obtain ⟨st, h1, _, h3⟩ := AVL.avl_run_spec ops State.empty ∅ trivial holds_nil
  exact ⟨st, h1, h3.1, h3.2⟩

/-- C5. Height-balanced tree, insertion: every sequence of `insert` calls on the empty tree
runs to the end, and in the resulting tree every node's stored balance factor equals
`height(left) - height(right)` (absent subtree `-1`) and lies between `-1` and `1`. -/
theorem avl_insert_balanced (kvs : List (Int × V)) :
    ∃ st rets, AVL.run (kvs.map (fun p => Op.insert p.1 p.2)) State.empty = some (st, rets) ∧
      AVL.Balanced st.root_ := by
  obtain ⟨st, h1, h2, _⟩ :=
    AVL.avl_run_spec (kvs.map (fun p => Op.insert p.1 p.2)) State.empty ∅ trivial holds_nil
  exact ⟨st, _, h1, h2⟩

/-- C6. Height-balanced tree, deletion: in every state reached from the empty tree by
`insert` and `erase` calls, every `erase` returns, and in the tree it leaves every node's
stored balance factor equals `height(left) - height(right)` and lies between `-1` and `1`. -/
theorem avl_erase_balanced (ops : List (Op V)) (key : Int) :
    ∃ st rets st1 n, AVL.run ops State.empty = some (st, rets) ∧
      AVL.erase st key = some (st1, n) ∧ AVL.Balanced st1.root_ := by
  obtain ⟨st, h1, h2, h3⟩ := AVL.avl_run_spec ops State.empty ∅ trivial holds_nil
  obtain ⟨st1, h4, h5, _⟩ := AVL.avl_erase_spec st _ key h2 h3
  exact ⟨st, _, st1, _, h1, h4, h5⟩

/-! ### Level-balanced tree -/

namespace AA

theorem aa_level_nonneg (t : Tree Int V) (h : Inv t) : 0 ≤ level t := by
  induction t with
  | nil => simp [level]
  | node l k v lv r ihl _ =>
    have := ihl h.1
    have := h.2.2.1
    simp only [level]; omega

theorem aa_level_pos (l r : Tree Int V) (k : Int) (v : V) (lv : Int)
    (h : Inv (Tree.node l k v lv r)) : 1 ≤ lv := by
  have := aa_level_nonneg l h.1
  have := h.2.2.1
  omega

theorem aa_nil_of_level (t : Tree Int V) (h : Inv t) (h0 : level t ≤ 0) : t = Tree.nil := by
  cases t with
  | nil => rfl
  | node l k v lv r =>
    have := aa_level_pos l r k v lv h
    simp only [level] at h0; omega

theorem aa_right_level_le (t : Tree Int V) (h : Inv t) : level (right t) ≤ level t := by
  cases t with
  | nil => simp [right, level]
  | node l k v lv r =>
    have := h.2.2.2.1
    show level r ≤ lv
    omega

theorem aa_keys_skew (t : Tree Int V) : Tree.keys (skew t) = Tree.keys t := by
  cases t with
  | nil => rfl
  | node l k v lv r =>
    cases l with
    | nil => rfl
    | node ll lk lvl llv lr =>
      simp only [skew]
      split_ifs <;> simp [Tree.keys]

theorem aa_keys_split (t : Tree Int V) : Tree.keys (split t) = Tree.keys t := by
  cases t with
  | nil => rfl
  | node l k v lv r =>
    cases r with
    | nil => rfl
    | node rl rk rv rlv rr =>
      cases rr with
      | nil => rfl
      | node rrl rrk rrv rrlv rrr =>
        simp only [split]
        split_ifs <;> simp [Tree.keys]

theorem aa_skew_inv (t : Tree Int V) (h : Inv t) : skew t = t := by
  cases t with
  | nil => rfl
  | node l k v lv r =>
    cases l with
    | nil => rfl
    | node ll lk lvl llv lr =>
      have := h.2.2.1
      simp only [level] at this
      simp only [skew]
      rw [if_neg (by omega)]

theorem aa_split_inv (t : Tree Int V) (h : Inv t) : split t = t := by
  cases t with
  | nil => rfl
  | node l k v lv r =>
    cases r with
    | nil => rfl
    | node rl rk rv rlv rr =>
      cases rr with
      | nil => rfl
      | node rrl rrk rrv rrlv rrr =>
        have := h.2.2.2.2
        simp only [level, right] at this
        simp only [split]
        rw [if_neg (by omega)]

end AA

namespace AA

theorem aa_level_nil : level (Tree.nil : Tree Int V) = 0 := rfl

theorem aa_level_node (l r : Tree Int V) (k : Int) (v : V) (lv : Int) :
    level (Tree.node l k v lv r) = lv := rfl

theorem aa_right_nil : right (Tree.nil : Tree Int V) = Tree.nil := rfl

theorem aa_right_node (l r : Tree Int V) (k : Int) (v : V) (lv : Int) :
    right (Tree.node l k v lv r) = r := rfl

theorem aa_ins_left (l r u : Tree Int V) (k : Int) (v : V) (lv : Int)
    (h : Inv (Tree.node l k v lv r)) (hu : PostIns l u) :
    PostIns (Tree.node l k v lv r) (split (skew (Tree.node u k v lv r))) := by
  obtain ⟨hl, hr, h1, h2, h3⟩ := h
  obtain ⟨hiu, hlu⟩ := hu
  have hl0 := aa_level_nonneg l hl
  rcases hlu with hlu | ⟨hlu, hru, _⟩
  · have hi : Inv (Tree.node u k v lv r) := ⟨hiu, hr, by omega, h2, h3⟩
    rw [aa_skew_inv _ hi, aa_split_inv _ hi]
    exact ⟨hi, Or.inl rfl⟩
  · cases u with
    | nil => have := aa_level_nonneg l hl; simp only [aa_level_nil, aa_level_node] at hlu; omega
    | node a uk uv ulv b =>
      obtain ⟨ha, hb, hu1, hu2, hu3⟩ := hiu
      simp only [aa_level_nil, aa_level_node, aa_right_nil, aa_right_node] at hlu hru
      have hbr := aa_right_level_le b hb
      have e : lv = ulv := by omega
      subst e
      simp only [skew, if_true]
      cases r with
      | nil =>
        simp only [split]
        refine ⟨⟨ha, ⟨hb, trivial, by omega, h2, h3⟩, hu1, Or.inl rfl, ?_⟩, Or.inl rfl⟩
        simp only [aa_level_nil, aa_level_node, aa_right_nil, aa_right_node]; omega
      | node rl rk rv rlv rr =>
        simp only [aa_level_nil, aa_level_node, aa_right_nil, aa_right_node] at h2 h3
        simp only [split]
        split_ifs with c
        · subst c
          refine ⟨⟨⟨ha, hb, hu1, by omega, by omega⟩, hr, rfl, Or.inr rfl, ?_⟩, Or.inr ⟨rfl, rfl, rfl⟩⟩
          have := aa_right_level_le _ hr
          simp only [aa_level_nil, aa_level_node, aa_right_nil, aa_right_node] at this ⊢; omega
        · refine ⟨⟨ha, ⟨hb, hr, by omega, h2, h3⟩, hu1, Or.inl rfl, ?_⟩, Or.inl rfl⟩
          simp only [aa_level_nil, aa_level_node, aa_right_nil, aa_right_node]; omega

theorem aa_ins_right (l r u : Tree Int V) (k : Int) (v : V) (lv : Int)
    (h : Inv (Tree.node l k v lv r)) (hu : PostIns r u) :
    PostIns (Tree.node l k v lv r) (split (skew (Tree.node l k v lv u))) := by
  obtain ⟨hl, hr, h1, h2, h3⟩ := h
  obtain ⟨hiu, hlu⟩ := hu
  have hsk : skew (Tree.node l k v lv u) = Tree.node l k v lv u := by
    cases l with
    | nil => rfl
    | node ll lk lvl llv lr =>
      simp only [aa_level_nil, aa_level_node] at h1
      simp only [skew]
      rw [if_neg (by omega)]
  rw [hsk]
  have hur := aa_right_level_le u hiu
  have hrr := aa_right_level_le r hr
  have hl0 := aa_level_nonneg l hl
  cases u with
  | nil =>
    have := aa_level_nonneg r hr
    simp only [aa_level_nil, aa_level_node] at hlu
    have hi : Inv (Tree.node l k v lv (Tree.nil : Tree Int V)) :=
      ⟨hl, trivial, h1, by simp only [aa_level_nil, aa_level_node]; omega, by simp only [aa_level_nil, aa_level_node, aa_right_nil, aa_right_node]; omega⟩
    simp only [split]
    exact ⟨hi, Or.inl rfl⟩
  | node a uk uv ulv b =>
    obtain ⟨ha, hb, hu1, hu2, hu3⟩ := hiu
    simp only [aa_level_nil, aa_level_node, aa_right_nil, aa_right_node] at hlu hur
    cases b with
    | nil =>
      simp only [split]
      refine ⟨⟨hl, ⟨ha, hb, hu1, hu2, hu3⟩, h1, ?_, ?_⟩, Or.inl rfl⟩
      · simp only [aa_level_nil, aa_level_node] at hu2 ⊢; omega
      · simp only [aa_level_nil, aa_level_node, aa_right_nil, aa_right_node]; omega
    | node bl bk bv blv br =>
      simp only [aa_level_nil, aa_level_node, aa_right_nil, aa_right_node] at hu2 hu3 hlu
      simp only [split]
      split_ifs with c
      · subst c
        have hbi := hb
        obtain ⟨hbl, hbr, hb1, hb2, hb3⟩ := hb
        have e : ulv = lv := by omega
        subst e
        refine ⟨⟨⟨hl, ha, h1, by omega, ?_⟩, hbi, rfl, Or.inr rfl, ?_⟩, Or.inr ⟨rfl, rfl, ?_⟩⟩
        · have := aa_right_level_le a ha; omega
        · simp only [aa_level_nil, aa_level_node, aa_right_nil, aa_right_node]; omega
        · simp only [aa_level_nil, aa_level_node, aa_right_nil, aa_right_node]; omega
      · refine ⟨⟨hl, ⟨ha, hb, hu1, ?_, ?_⟩, h1, ?_, ?_⟩, Or.inl rfl⟩
        · simp only [aa_level_nil, aa_level_node]; omega
        · simp only [aa_level_nil, aa_level_node, aa_right_nil, aa_right_node]; omega
        · simp only [aa_level_nil, aa_level_node]; omega
        · simp only [aa_level_nil, aa_level_node, aa_right_nil, aa_right_node]; omega

end AA

theorem inc_left {L L1 R : List Int} {k : Int} (h : Inc (L ++ k :: R)) (h1 : Inc L1)
    (hlt : ∀ x ∈ L1, x < k) : Inc (L1 ++ k :: R) := by
  simp only [Inc, List.pairwise_append, List.pairwise_cons, List.mem_cons] at h ⊢
  obtain ⟨_, ⟨h3, h4⟩, _⟩ := h
  refine ⟨h1, ⟨h3, h4⟩, ?_⟩
  intro a ha b hb
  rcases hb with rfl | hb
  · exact hlt a ha
  · exact lt_trans (hlt a ha) (h3 b hb)

theorem inc_right {L R R1 : List Int} {k : Int} (h : Inc (L ++ k :: R)) (h1 : Inc R1)
    (hlt : ∀ x ∈ R1, k < x) : Inc (L ++ k :: R1) := by
  simp only [Inc, List.pairwise_append, List.pairwise_cons, List.mem_cons] at h ⊢
  obtain ⟨h2, _, h5⟩ := h
  refine ⟨h2, ⟨hlt, h1⟩, ?_⟩
  intro a ha b hb
  rcases hb with rfl | hb
  · exact h5 a ha _ (Or.inl rfl)
  · exact lt_trans (h5 a ha k (Or.inl rfl)) (hlt b hb)

theorem inc_parts {L R : List Int} {k : Int} (h : Inc (L ++ k :: R)) :
    Inc L ∧ Inc R ∧ (∀ x ∈ L, x < k) ∧ (∀ x ∈ R, k < x) := by
  simp only [Inc, List.pairwise_append, List.pairwise_cons, List.mem_cons] at h
  obtain ⟨h2, ⟨h3, h4⟩, h5⟩ := h
  exact ⟨h2, h4, fun x hx => h5 x hx k (Or.inl rfl), h3⟩

theorem holds_of_mem_insert {t u : Tree M V} {s : Finset Int} {k : Int} (h : Holds t s)
    (hu : Inc (Tree.keys u)) (hm : ∀ x, x ∈ Tree.keys u ↔ x = k ∨ x ∈ Tree.keys t) :
    Holds u (insert k s) :=
  ⟨hu, fun x => by rw [hm x, Finset.mem_insert, h.2 x]⟩

theorem holds_of_mem_erase {t u : Tree M V} {s : Finset Int} {k : Int} (h : Holds t s)
    (hu : Inc (Tree.keys u)) (hm : ∀ x, x ∈ Tree.keys u ↔ x ≠ k ∧ x ∈ Tree.keys t) :
    Holds u (s.erase k) :=
  ⟨hu, fun x => by rw [hm x, Finset.mem_erase, h.2 x]⟩

namespace AA

theorem aa_inv_leaf (key : Int) (value : V) :
    PostIns (Tree.nil : Tree Int V) (Tree.node Tree.nil key value 1 Tree.nil) := by
  refine ⟨⟨trivial, trivial, ?_, ?_, ?_⟩, Or.inr ⟨?_, ?_, ?_⟩⟩ <;>
    simp [aa_level_nil, aa_level_node, aa_right_nil, aa_right_node]

theorem aa_insertNode_spec (key : Int) (value : V) (t : Tree Int V) (ht : t ≠ Tree.nil)
    (hi : Inv t) (hs : Inc (Tree.keys t)) (hab : key ∉ Tree.keys t) :
    ∃ u, insertNode key value t = some u ∧ PostIns t u ∧ Inc (Tree.keys u) ∧
      ∀ x, x ∈ Tree.keys u ↔ x = key ∨ x ∈ Tree.keys t := by
  induction t with
  | nil => exact absurd rfl ht
  | node l k v lv r ihl ihr =>
    simp only [Tree.keys, List.mem_append, List.mem_cons, not_or] at hab
    obtain ⟨habl, hne, habr⟩ := hab
    obtain ⟨hsl, hsr, hlk, hkr⟩ := inc_parts hs
    by_cases hlt : key < k
    · have hex : ∃ u, insertNode key value (Tree.node l k v lv r) =
            some (split (skew (Tree.node u k v lv r))) ∧ PostIns l u ∧ Inc (Tree.keys u) ∧
            ∀ x, x ∈ Tree.keys u ↔ x = key ∨ x ∈ Tree.keys l := by
        cases l with
        | nil =>
          refine ⟨Tree.node Tree.nil key value 1 Tree.nil, ?_, aa_inv_leaf key value, ?_, ?_⟩
          · rw [insertNode.eq_def]; simp only [hlt, if_true, if_false]
          · simp [Tree.keys, Inc]
          · intro x; simp [Tree.keys]
        | node ll lk lvl llv lr =>
          obtain ⟨u, h1, h2, h3, h4⟩ := ihl (by simp) hi.1 hsl habl
          exact ⟨u, by rw [insertNode.eq_def]; simp only [hlt, if_true, if_false, h1, Option.map_some'], h2, h3, h4⟩
      obtain ⟨u, h1, h2, h3, h4⟩ := hex
      refine ⟨_, h1, aa_ins_left l r u k v lv hi h2, ?_, ?_⟩
      · rw [aa_keys_split, aa_keys_skew]
        simp only [Tree.keys]
        apply inc_left hs h3
        intro x hx
        rcases (h4 x).1 hx with rfl | hx
        · exact hlt
        · exact hlk x hx
      · intro x
        rw [aa_keys_split, aa_keys_skew]
        simp only [Tree.keys, List.mem_append, List.mem_cons, h4 x]
        constructor
        · rintro ((h | h) | h | h) <;> simp [h]
        · rintro (h | h | h | h) <;> simp [h]
    · have hgt : k < key := by omega
      have hex : ∃ u, insertNode key value (Tree.node l k v lv r) =
            some (split (skew (Tree.node l k v lv u))) ∧ PostIns r u ∧ Inc (Tree.keys u) ∧
            ∀ x, x ∈ Tree.keys u ↔ x = key ∨ x ∈ Tree.keys r := by
        cases r with
        | nil =>
          refine ⟨Tree.node Tree.nil key value 1 Tree.nil, ?_, aa_inv_leaf key value, ?_, ?_⟩
          · rw [insertNode.eq_def]; simp only [hlt, if_true, if_false]
          · simp [Tree.keys, Inc]
          · intro x; simp [Tree.keys]
        | node rl rk rv rlv rr =>
          obtain ⟨u, h1, h2, h3, h4⟩ := ihr (by simp) hi.2.1 hsr habr
          exact ⟨u, by rw [insertNode.eq_def]; simp only [hlt, if_true, if_false, h1, Option.map_some'], h2, h3, h4⟩
      obtain ⟨u, h1, h2, h3, h4⟩ := hex
      refine ⟨_, h1, aa_ins_right l r u k v lv hi h2, ?_, ?_⟩
      · rw [aa_keys_split, aa_keys_skew]
        simp only [Tree.keys]
        apply inc_right hs h3
        intro x hx
        rcases (h4 x).1 hx with rfl | hx
        · exact hgt
        · exact hkr x hx
      · intro x
        rw [aa_keys_split, aa_keys_skew]
        simp only [Tree.keys, List.mem_append, List.mem_cons, h4 x]
        constructor
        · rintro (h | h | h | h) <;> simp [h]
        · rintro (h | h | h | h) <;> simp [h]

theorem aa_insert_spec (st : State Int V) (s : Finset Int) (key : Int) (value : V)
    (hi : Inv st.root_) (hr : Holds st.root_ s) :
    ∃ st1, insert st key value = some (st1, decide (key ∉ s)) ∧ Inv st1.root_ ∧
      Holds st1.root_ (Insert.insert key s) := by
  obtain ⟨hk, hbe, haf, hx⟩ := Tree.descend_root key st.root_ hr.1
  simp only [insert, find]
  generalize Tree.descend key st.root_ [] = d at hk hbe haf hx
  obtain ⟨x, path⟩ := d
  simp only at hk hbe haf hx
  rcases hx with rfl | ⟨l, v, m, r, rfl⟩
  · simp only [Tree.keys, List.append_nil] at hk
    have hab : key ∉ Tree.keys st.root_ := by rw [hk]; exact absent_of_bounds hbe haf
    have hns : key ∉ s := fun h => hab ((hr.2 key).2 h)
    obtain ⟨root, n⟩ := st
    simp only at hi hr hab ⊢
    cases root with
    | nil =>
      refine ⟨⟨Tree.node Tree.nil key value 1 Tree.nil, n + 1⟩, by simp [hns],
        (aa_inv_leaf key value).1, ?_⟩
      exact holds_of_mem_insert hr (by simp [Tree.keys, Inc]) (by intro x; simp [Tree.keys])
    | node l k v lv r =>
      obtain ⟨u, h1, h2, h3, h4⟩ :=
        aa_insertNode_spec key value (Tree.node l k v lv r) (by simp) hi hr.1 hab
      refine ⟨⟨u, n + 1⟩, ?_, h2.1, holds_of_mem_insert hr h3 h4⟩
      rw [h1]
      simp [hns]
  · have hmem : key ∈ s := by
      rw [← hr.2 key, hk]; simp [Tree.keys]
    refine ⟨st, by simp [hmem], hi, ?_⟩
    rw [Finset.insert_eq_of_mem hmem]
    exact hr

end AA

namespace AA

theorem aa_keys_mapRight (f : Tree Int V → Tree Int V) (hf : ∀ t, Tree.keys (f t) = Tree.keys t)
    (t : Tree Int V) : Tree.keys (mapRight f t) = Tree.keys t := by
  cases t with
  | nil => rfl
  | node l k v lv r => simp [mapRight, Tree.keys, hf]

theorem aa_keys_decreaseLevel (t : Tree Int V) : Tree.keys (decreaseLevel t) = Tree.keys t := by
  cases t with
  | nil => rfl
  | node l k v lv r =>
    simp only [decreaseLevel]
    split_ifs
    · cases r with
      | nil => rfl
      | node rl rk rv rlv rr =>
        simp only []
        split_ifs <;> rfl
    · rfl

theorem aa_keys_rebalance (t : Tree Int V) : Tree.keys (rebalance t) = Tree.keys t := by
  unfold rebalance
  rw [aa_keys_mapRight _ aa_keys_split, aa_keys_split,
    aa_keys_mapRight _ (aa_keys_mapRight _ aa_keys_skew), aa_keys_mapRight _ aa_keys_skew,
    aa_keys_skew, aa_keys_decreaseLevel]

theorem aa_mapRight_nil (f : Tree Int V → Tree Int V) : mapRight f Tree.nil = Tree.nil := rfl

theorem aa_mapRight_node (f : Tree Int V → Tree Int V) (l r : Tree Int V) (k : Int) (v : V)
    (lv : Int) : mapRight f (Tree.node l k v lv r) = Tree.node l k v lv (f r) := rfl

theorem aa_rebalance_inv (t : Tree Int V) (h : Inv t) : rebalance t = t := by
  cases t with
  | nil => rfl
  | node l k v lv r =>
    have hd : decreaseLevel (Tree.node l k v lv r) = Tree.node l k v lv r := by
      have h1 := h.2.2.1
      have h2 := h.2.2.2.1
      simp only [decreaseLevel]
      rw [if_neg (by omega)]
    have hr := h.2.1
    have e2 : mapRight skew r = r := by
      cases r with
      | nil => rfl
      | node rl rk rv rlv rr => rw [aa_mapRight_node, aa_skew_inv _ hr.2.1]
    unfold rebalance
    rw [hd, aa_skew_inv _ h, aa_mapRight_node, aa_skew_inv _ hr, aa_mapRight_node, e2,
      aa_split_inv _ h, aa_mapRight_node, aa_split_inv _ hr]

end AA

namespace AA

theorem aa_skew_of_ne (l r : Tree Int V) (k : Int) (v : V) (lv : Int) (h : level l ≠ lv) :
    skew (Tree.node l k v lv r) = Tree.node l k v lv r := by
  cases l with
  | nil => rfl
  | node ll lk lvl llv lr =>
    simp only [aa_level_node] at h
    simp only [skew]
    rw [if_neg (fun e => h e.symm)]

theorem aa_skew_of_eq (ll lr r : Tree Int V) (lk k : Int) (lvl v : V) (lv : Int) :
    skew (Tree.node (Tree.node ll lk lvl lv lr) k v lv r) =
      Tree.node ll lk lvl lv (Tree.node lr k v lv r) := by
  simp only [skew, if_true]

theorem aa_split_of_ne (l r : Tree Int V) (k : Int) (v : V) (lv : Int)
    (h : level (right r) ≠ lv) : split (Tree.node l k v lv r) = Tree.node l k v lv r := by
  cases r with
  | nil => rfl
  | node rl rk rv rlv rr =>
    cases rr with
    | nil => rfl
    | node rrl rrk rrv rrlv rrr =>
      simp only [aa_level_node, aa_right_node] at h
      simp only [split]
      rw [if_neg (fun e => h e.symm)]

theorem aa_split_of_eq (l rl rrl rrr : Tree Int V) (k rk rrk : Int) (v rv rrv : V) (lv rlv : Int) :
    split (Tree.node l k v lv (Tree.node rl rk rv rlv (Tree.node rrl rrk rrv lv rrr))) =
      Tree.node (Tree.node l k v lv rl) rk rv (rlv + 1) (Tree.node rrl rrk rrv lv rrr) := by
  simp only [split, if_true]

theorem aa_decreaseLevel_low (l r : Tree Int V) (k : Int) (v : V) (lv m : Int)
    (hm : m = min (level l) (level r) + 1) (h1 : m < lv) (h2 : level r ≤ m) :
    decreaseLevel (Tree.node l k v lv r) = Tree.node l k v m r := by
  subst hm
  simp only [decreaseLevel]
  rw [if_pos h1]
  cases r with
  | nil => rfl
  | node rl rk rv rlv rr =>
    simp only [aa_level_node] at h2 ⊢
    rw [if_neg (by omega)]

theorem aa_decreaseLevel_both (l rl rr : Tree Int V) (k rk : Int) (v rv : V) (lv rlv m : Int)
    (hm : m = min (level l) rlv + 1) (h1 : m < lv) (h2 : m < rlv) :
    decreaseLevel (Tree.node l k v lv (Tree.node rl rk rv rlv rr)) =
      Tree.node l k v m (Tree.node rl rk rv m rr) := by
  subst hm
  simp only [decreaseLevel, aa_level_node]
  rw [if_pos h1, if_pos h2]

theorem aa_mapRight_skew_inv (t : Tree Int V) (h : Inv t) : mapRight skew t = t := by
  cases t with
  | nil => rfl
  | node l k v lv r => rw [aa_mapRight_node, aa_skew_inv _ h.2.1]

theorem aa_node_of_level (t : Tree Int V) (h : 1 ≤ level t) :
    ∃ l k v r, t = Tree.node l k v (level t) r := by
  cases t with
  | nil => simp only [aa_level_nil] at h; omega
  | node l k v lv r => exact ⟨l, k, v, r, rfl⟩

end AA

namespace AA

/-- Rebalancing after the left subtree lost a level, right child one level below the node. -/
theorem aa_rebalance_left_single (u r : Tree Int V) (k1 : Int) (v1 : V) (lv : Int)
    (hiu : Inv u) (hr : Inv r) (hlu : level u + 2 = lv) (h2 : level r + 1 = lv) :
    Inv (rebalance (Tree.node u k1 v1 lv r)) ∧
      ((level (rebalance (Tree.node u k1 v1 lv r)) = lv ∧
          level (right (rebalance (Tree.node u k1 v1 lv r))) < lv) ∨
        level (rebalance (Tree.node u k1 v1 lv r)) + 1 = lv) := by
  have hu0 := aa_level_nonneg u hiu
  have hrr := aa_right_level_le r hr
  have hd := aa_decreaseLevel_low u r k1 v1 lv (lv - 1) (by omega) (by omega) (by omega)
  unfold rebalance
  rw [hd, aa_skew_of_ne _ _ _ _ _ (by omega), aa_mapRight_node, aa_skew_inv _ hr,
    aa_mapRight_node, aa_mapRight_skew_inv _ hr]
  by_cases hc : level (right r) = lv - 1
  · cases r with
    | nil => simp only [aa_level_nil] at h2; omega
    | node a rk rv rlv b =>
      simp only [aa_level_node, aa_right_node] at h2 hc hrr
      cases b with
      | nil => simp only [aa_level_nil] at hc; omega
      | node bl bk bv blv br =>
        simp only [aa_level_node] at hc
        obtain rfl : blv = lv - 1 := hc
        obtain ⟨ha, hb, hr1, hr2, hr3⟩ := hr
        simp only [aa_level_node, aa_right_node] at hr1 hr2 hr3
        have har := aa_right_level_le a ha
        have hbr := aa_right_level_le _ hb
        simp only [aa_level_node, aa_right_node] at hbr
        rw [aa_split_of_eq, aa_mapRight_node, aa_split_inv _ hb]
        simp only [Inv, aa_level_node, aa_right_node]
        refine ⟨⟨⟨hiu, ha, ?_, ?_, ?_⟩, hb, ?_, ?_, ?_⟩, Or.inl ⟨?_, ?_⟩⟩ <;> first | trivial | omega | simp
  · rw [aa_split_of_ne _ _ _ _ _ hc, aa_mapRight_node, aa_split_inv _ hr]
    simp only [Inv, aa_level_node, aa_right_node]
    refine ⟨⟨hiu, hr, ?_, ?_, ?_⟩, Or.inr ?_⟩ <;> first | trivial | omega | simp

/-- Rebalancing after the left subtree lost a level, right child on the level of the node. -/
theorem aa_rebalance_left_double (u r : Tree Int V) (k1 : Int) (v1 : V) (lv : Int)
    (hiu : Inv u) (hr : Inv r) (hlu : level u + 2 = lv) (h2 : level r = lv)
    (h3 : level (right r) < lv) :
    Inv (rebalance (Tree.node u k1 v1 lv r)) ∧
      level (rebalance (Tree.node u k1 v1 lv r)) = lv := by
  have hu0 := aa_level_nonneg u hiu
  cases r with
  | nil => simp only [aa_level_nil] at h2; omega
  | node a rk rv rlv b =>
    simp only [aa_level_node, aa_right_node] at h2 h3
    subst h2
    obtain ⟨ha, hb, hr1, hr2, hr3⟩ := hr
    cases a with
    | nil => simp only [aa_level_nil] at hr1; omega
    | node al ak av alv c =>
      simp only [aa_level_node] at hr1
      cases b with
      | nil => simp only [aa_level_nil] at hr2; omega
      | node bl bk bv blv d =>
        simp only [aa_level_node, aa_right_node] at hr2 hr3 h3
        obtain rfl : alv = rlv - 1 := by omega
        obtain rfl : blv = rlv - 1 := by omega
        have hai := ha
        have hbi := hb
        obtain ⟨hal, hc, ha1, ha2, ha3⟩ := ha
        obtain ⟨hbl, hdi, hb1, hb2, hb3⟩ := hb
        have hcr := aa_right_level_le c hc
        have hdr := aa_right_level_le d hdi
        have halr := aa_right_level_le al hal
        have hblr := aa_right_level_le bl hbl
        have hd := aa_decreaseLevel_both u (Tree.node al ak av (rlv - 1) c)
          (Tree.node bl bk bv (rlv - 1) d) k1 rk v1 rv rlv rlv (rlv - 1) (by omega) (by omega)
          (by omega)
        unfold rebalance
        rw [hd, aa_skew_of_ne _ _ _ _ _ (by omega), aa_mapRight_node, aa_skew_of_eq,
          aa_mapRight_node, aa_mapRight_node]
        by_cases hcl : level c = rlv - 1
        · cases c with
          | nil => simp only [aa_level_nil] at hcl; omega
          | node cl ck cv clv cr =>
            simp only [aa_level_node, aa_right_node] at hcl ha2 ha3 hcr
            subst hcl
            obtain ⟨hcl1, hcr1, hc1, hc2, hc3⟩ := hc
            have hcrr := aa_right_level_le cr hcr1
            have hclr := aa_right_level_le cl hcl1
            rw [aa_skew_of_eq, aa_split_of_eq, aa_mapRight_node, aa_split_of_eq]
            simp only [Inv, aa_level_node, aa_right_node]
            refine ⟨⟨⟨hiu, hal, ?_, ?_, ?_⟩, ⟨⟨hcl1, hcr1, ?_, ?_, ?_⟩, hbi, ?_, ?_, ?_⟩, ?_, ?_, ?_⟩, ?_⟩ <;>
              first | trivial | omega | simp
        · have hal0 := aa_level_nonneg al hal
          rw [aa_skew_of_ne _ _ _ _ _ hcl, aa_split_of_eq, aa_mapRight_node]
          by_cases hdl : level d = rlv - 1
          · cases d with
            | nil => simp only [aa_level_nil] at hdl; omega
            | node dl dk dv dlv dr =>
              simp only [aa_level_node, aa_right_node] at hdl hb2 hb3 hdr
              subst hdl
              rw [aa_split_of_eq]
              simp only [Inv, aa_level_node, aa_right_node]
              refine ⟨⟨⟨hiu, hal, ?_, ?_, ?_⟩, ⟨⟨hc, hbl, ?_, ?_, ?_⟩, hdi, ?_, ?_, ?_⟩, ?_, ?_, ?_⟩, ?_⟩ <;>
                first | trivial | omega | simp
          · rw [aa_split_of_ne _ _ _ _ _ (by simpa only [aa_right_node] using hdl)]
            simp only [Inv, aa_level_node, aa_right_node]
            refine ⟨⟨⟨hiu, hal, ?_, ?_, ?_⟩, ⟨hc, hbi, ?_, ?_, ?_⟩, ?_, ?_, ?_⟩, ?_⟩ <;> first | trivial | omega | simp

end AA

namespace AA

theorem aa_rebalance_left (l r u : Tree Int V) (k k1 : Int) (v v1 : V) (lv : Int)
    (h : Inv (Tree.node l k v lv r)) (hu : PostDel l u) :
    PostDel (Tree.node l k v lv r) (rebalance (Tree.node u k1 v1 lv r)) := by
  obtain ⟨hl, hr, h1, h2, h3⟩ := h
  obtain ⟨hiu, hlu⟩ := hu
  rcases hlu with ⟨hlu, _⟩ | hlu
  · have hi : Inv (Tree.node u k1 v1 lv r) := ⟨hiu, hr, by omega, h2, h3⟩
    rw [aa_rebalance_inv _ hi]
    exact ⟨hi, Or.inl ⟨rfl, fun h => h⟩⟩
  · rcases h2 with h2 | h2
    · obtain ⟨e1, e2⟩ := aa_rebalance_left_double u r k1 v1 lv hiu hr (by omega) h2 h3
      refine ⟨e1, Or.inl ⟨e2, fun hc => ?_⟩⟩
      simp only [aa_level_node, aa_right_node] at hc
      omega
    · obtain ⟨e1, e2⟩ := aa_rebalance_left_single u r k1 v1 lv hiu hr (by omega) h2
      refine ⟨e1, ?_⟩
      rcases e2 with ⟨e2, e3⟩ | e2
      · exact Or.inl ⟨e2, fun _ => by rw [e2]; exact e3⟩
      · exact Or.inr e2

/-- Rebalancing after the right subtree, one level below the node, lost a level. -/
theorem aa_rebalance_right_low (l u : Tree Int V) (k1 : Int) (v1 : V) (lv : Int)
    (hl : Inv l) (hiu : Inv u) (h1 : level l + 1 = lv) (hlu : level u + 2 = lv) :
    Inv (rebalance (Tree.node l k1 v1 lv u)) ∧
      ((level (rebalance (Tree.node l k1 v1 lv u)) = lv ∧
          level (right (rebalance (Tree.node l k1 v1 lv u))) < lv) ∨
        level (rebalance (Tree.node l k1 v1 lv u)) + 1 = lv) := by
  have hu0 := aa_level_nonneg u hiu
  have hur := aa_right_level_le u hiu
  cases l with
  | nil => simp only [aa_level_nil] at h1; omega
  | node ll lk lvl llv c =>
    simp only [aa_level_node] at h1
    obtain rfl : llv = lv - 1 := by omega
    obtain ⟨hll, hc, hl1, hl2, hl3⟩ := hl
    have hllr := aa_right_level_le ll hll
    have hcr := aa_right_level_le c hc
    have hd := aa_decreaseLevel_low (Tree.node ll lk lvl (lv - 1) c) u k1 v1 lv (lv - 1)
      (by simp only [aa_level_node]; omega) (by omega) (by omega)
    unfold rebalance
    rw [hd, aa_skew_of_eq, aa_mapRight_node]
    by_cases hcl : level c = lv - 1
    · cases c with
      | nil => simp only [aa_level_nil] at hcl; omega
      | node cl ck cv clv cr =>
        simp only [aa_level_node, aa_right_node] at hcl hl2 hl3 hcr
        subst hcl
        obtain ⟨hcl1, hcr1, hc1, hc2, hc3⟩ := hc
        have hclr := aa_right_level_le cl hcl1
        rw [aa_skew_of_eq, aa_mapRight_node, aa_mapRight_node,
          aa_skew_of_ne _ _ _ _ _ (by omega), aa_split_of_eq, aa_mapRight_node,
          aa_split_of_ne _ _ _ _ _ (by omega)]
        simp only [Inv, aa_level_node, aa_right_node]
        refine ⟨⟨⟨hll, hcl1, ?_, ?_, ?_⟩, ⟨hcr1, hiu, ?_, ?_, ?_⟩, ?_, ?_, ?_⟩, Or.inl ⟨?_, ?_⟩⟩ <;>
          first | trivial | omega | simp
    · rw [aa_skew_of_ne _ _ _ _ _ hcl, aa_mapRight_node, aa_mapRight_node, aa_skew_inv _ hiu,
        aa_split_of_ne _ _ _ _ _ (by simp only [aa_right_node]; omega), aa_mapRight_node,
        aa_split_of_ne _ _ _ _ _ (by omega)]
      simp only [Inv, aa_level_node, aa_right_node]
      refine ⟨⟨hll, ⟨hc, hiu, ?_, ?_, ?_⟩, ?_, ?_, ?_⟩, Or.inr ?_⟩ <;>
        first | trivial | omega | simp

theorem aa_rebalance_right (l r u : Tree Int V) (k k1 : Int) (v v1 : V) (lv : Int)
    (h : Inv (Tree.node l k v lv r)) (hu : PostDel r u) :
    PostDel (Tree.node l k v lv r) (rebalance (Tree.node l k1 v1 lv u)) := by
  obtain ⟨hl, hr, h1, h2, h3⟩ := h
  obtain ⟨hiu, hlu⟩ := hu
  have hur := aa_right_level_le u hiu
  rcases hlu with ⟨hlu, hsn⟩ | hlu
  · have hi : Inv (Tree.node l k1 v1 lv u) := by
      refine ⟨hl, hiu, h1, by omega, ?_⟩
      rcases h2 with h2 | h2
      · have := hsn (by omega)
        omega
      · omega
    rw [aa_rebalance_inv _ hi]
    refine ⟨hi, Or.inl ⟨rfl, fun hc => ?_⟩⟩
    simp only [aa_level_node, aa_right_node] at hc ⊢
    omega
  · rcases h2 with h2 | h2
    · have hi : Inv (Tree.node l k1 v1 lv u) := ⟨hl, hiu, h1, by omega, by omega⟩
      rw [aa_rebalance_inv _ hi]
      refine ⟨hi, Or.inl ⟨rfl, fun hc => ?_⟩⟩
      simp only [aa_level_node, aa_right_node] at hc
      omega
    · obtain ⟨e1, e2⟩ := aa_rebalance_right_low l u k1 v1 lv hl hiu h1 (by omega)
      refine ⟨e1, ?_⟩
      rcases e2 with ⟨e2, e3⟩ | e2
      · exact Or.inl ⟨e2, fun _ => by rw [e2]; exact e3⟩
      · exact Or.inr e2

end AA

namespace AA

theorem aa_inv_of_fill (p : List (Frame Int V)) (t : Tree Int V) (h : Inv (Tree.fill p t)) :
    Inv t := by
  induction p generalizing t with
  | nil => exact h
  | cons f up ih =>
    obtain ⟨d, k, v, m, s⟩ := f
    cases d
    · exact (ih _ h).1
    · exact (ih _ h).2.1

/-- In a tree satisfying the invariant the rightmost node has no child. -/
theorem aa_maximum_leaf (t : Tree Int V) (ht : t ≠ Tree.nil) (hi : Inv t) (hs : Inc (Tree.keys t)) :
    ∃ pk pv pm spine, Tree.maximum t [] = (Tree.node Tree.nil pk pv pm Tree.nil, spine) ∧
      pk ∈ Tree.keys t ∧ ∀ x ∈ Tree.keys t, x ≠ pk → x < pk := by
  obtain ⟨yl, yk, yv, ym, spine, h1, h2, h3⟩ := Tree.maximum_spec t [] ht
  have hy : Inv (Tree.node yl yk yv ym Tree.nil) := aa_inv_of_fill spine _ (by rw [h2]; exact hi)
  have hyl := aa_level_nonneg yl hy.1
  have e1 := hy.2.2.1
  have e2 := hy.2.2.2.1
  simp only [aa_level_nil] at e2
  have hnil : yl = Tree.nil := aa_nil_of_level yl hy.1 (by omega)
  subst hnil
  have hk : Tree.keys t = Tree.before spine ++ [yk] := by
    rw [← h2, Tree.keys_fill, h3]; simp [Tree.keys]
  refine ⟨yk, yv, ym, spine, by simpa using h1, by rw [hk]; simp, ?_⟩
  intro x hx hne
  rw [hk] at hx hs
  simp only [Inc, List.pairwise_append, List.pairwise_cons, List.mem_singleton] at hs
  rcases List.mem_append.1 hx with hx | hx
  · exact hs.2.2 x hx yk rfl
  · simp only [List.mem_singleton] at hx
    exact absurd hx hne

theorem aa_deleteNode_found_leaf (k : Int) (v : V) (lv : Int) :
    deleteNode k (Tree.node Tree.nil k v lv (Tree.nil : Tree Int V)) = some Tree.nil := by
  show (if k = k then _ else if k > k then _ else _) = _
  rw [if_pos rfl]

theorem aa_deleteNode_found_right (rl rr : Tree Int V) (k rk : Int) (v rv : V) (lv rlv : Int) :
    deleteNode k (Tree.node Tree.nil k v lv (Tree.node rl rk rv rlv rr)) =
      match Tree.minimum (Tree.node rl rk rv rlv rr) [] with
      | (Tree.node Tree.nil sk _ _ Tree.nil, _) =>
        (deleteNode sk (Tree.node rl rk rv rlv rr)).map
          (fun r1 => rebalance (Tree.node Tree.nil sk v lv r1))
      | _ => none := by
  show (if k = k then _ else if k > k then _ else _) = _
  rw [if_pos rfl] <;> rfl

theorem aa_deleteNode_found_left (ll lr r : Tree Int V) (k lk : Int) (v lvl : V) (lv llv : Int) :
    deleteNode k (Tree.node (Tree.node ll lk lvl llv lr) k v lv r) =
      match Tree.maximum (Tree.node ll lk lvl llv lr) [] with
      | (Tree.node Tree.nil pk _ _ Tree.nil, _) =>
        (deleteNode pk (Tree.node ll lk lvl llv lr)).map
          (fun l1 => rebalance (Tree.node l1 pk v lv r))
      | _ => none := by
  show (if k = k then _ else if k > k then _ else _) = _
  rw [if_pos rfl] <;> (cases r <;> rfl)

theorem aa_deleteNode_right (nk : Int) (l r : Tree Int V) (k : Int) (v : V) (lv : Int)
    (h1 : ¬ nk = k) (h : nk > k) :
    deleteNode nk (Tree.node l k v lv r) =
      (deleteNode nk r).map (fun r1 => rebalance (Tree.node l k v lv r1)) := by
  show (if nk = k then _ else if nk > k then _ else _) = _
  rw [if_neg h1, if_pos h]

theorem aa_deleteNode_left (nk : Int) (l r : Tree Int V) (k : Int) (v : V) (lv : Int)
    (h1 : ¬ nk = k) (h : ¬ nk > k) :
    deleteNode nk (Tree.node l k v lv r) =
      (deleteNode nk l).map (fun l1 => rebalance (Tree.node l1 k v lv r)) := by
  show (if nk = k then _ else if nk > k then _ else _) = _
  rw [if_neg h1, if_neg h]

theorem aa_deleteNode_spec (nk : Int) (t : Tree Int V) (hi : Inv t) (hs : Inc (Tree.keys t)) :
    ∃ u, deleteNode nk t = some u ∧ PostDel t u ∧ Inc (Tree.keys u) ∧
      ∀ x, x ∈ Tree.keys u ↔ x ≠ nk ∧ x ∈ Tree.keys t := by
  induction t generalizing nk with
  | nil =>
    refine ⟨Tree.nil, rfl, ⟨trivial, Or.inl ⟨rfl, fun h => h⟩⟩, hs, ?_⟩
    intro x; simp [Tree.keys]
  | node l k v lv r ihl ihr =>
    obtain ⟨hsl, hsr, hlk, hkr⟩ := inc_parts hs
    have hil := hi.1
    have hir := hi.2.1
    by_cases hk : nk = k
    · subst hk
      cases l with
      | nil =>
        cases r with
        | nil =>
          have e1 := hi.2.2.1
          simp only [aa_level_nil] at e1
          refine ⟨Tree.nil, aa_deleteNode_found_leaf nk v lv, ⟨trivial, Or.inr ?_⟩,
            by simp [Tree.keys, Inc], ?_⟩
          · simp only [aa_level_nil, aa_level_node]; omega
          · intro x; simp [Tree.keys]
        | node rl rk rv rlv rr =>
          have e1 := hi.2.2.1
          have e2 := hi.2.2.2.1
          have e3 := hi.2.2.2.2
          have e4 := hir.2.2.1
          have hrl0 := aa_level_nonneg rl hir.1
          have hrr0 := aa_level_nonneg rr hir.2.1
          simp only [aa_level_nil, aa_level_node, aa_right_node] at e1 e2 e3 e4
          have hrl : rl = Tree.nil := aa_nil_of_level rl hir.1 (by omega)
          have hrr : rr = Tree.nil := aa_nil_of_level rr hir.2.1 (by omega)
          subst hrl hrr
          have hrk : nk < rk := hkr rk (by simp [Tree.keys])
          have hdel := aa_deleteNode_found_leaf rk rv rlv
          have hinv : Inv (Tree.node Tree.nil rk v lv (Tree.nil : Tree Int V)) := by
            refine ⟨trivial, trivial, ?_, ?_, ?_⟩ <;>
              simp only [aa_level_nil, aa_level_node, aa_right_nil] <;> omega
          rw [aa_deleteNode_found_right]
          simp only [Tree.minimum, hdel, Option.map_some', aa_rebalance_inv _ hinv]
          refine ⟨_, rfl, ⟨hinv, Or.inl ⟨rfl, fun hc => ?_⟩⟩, by simp [Tree.keys, Inc], ?_⟩
          · simp only [aa_level_node, aa_right_node] at hc; omega
          · intro x
            simp only [Tree.keys, List.nil_append, List.mem_cons, List.mem_singleton,
              List.not_mem_nil, or_false]
            constructor
            · rintro rfl
              exact ⟨by omega, Or.inr rfl⟩
            · rintro ⟨h1, h2 | h2⟩
              · exact absurd h2 h1
              · exact h2
      | node ll lk lvl llv lr =>
        obtain ⟨pk, pv, pm, spine, h1, h2, h3⟩ :=
          aa_maximum_leaf (Tree.node ll lk lvl llv lr) (by simp) hil hsl
        obtain ⟨u, f1, f2, f3, f4⟩ := ihl pk hil hsl
        rw [aa_deleteNode_found_left]
        simp only [h1, f1, Option.map_some']
        generalize Tree.node ll lk lvl llv lr = L at *
        refine ⟨_, rfl, aa_rebalance_left _ r u nk pk v v lv hi f2, ?_, ?_⟩
        · rw [aa_keys_rebalance]
          simp only [Tree.keys]
          have hpk : pk < nk := hlk pk h2
          have : Inc (Tree.keys u ++ nk :: Tree.keys r) := by
            apply inc_left hs f3
            intro x hx
            exact hlk x ((f4 x).1 hx).2
          simp only [Inc, List.pairwise_append, List.pairwise_cons, List.mem_cons] at this ⊢
          obtain ⟨g1, ⟨g2, g3⟩, g4⟩ := this
          refine ⟨g1, ⟨fun y hy => lt_trans hpk (g2 y hy), g3⟩, ?_⟩
          intro a ha b hb
          rcases hb with rfl | hb
          · exact h3 a ((f4 a).1 ha).2 ((f4 a).1 ha).1
          · exact g4 a ha b (Or.inr hb)
        · intro x
          rw [aa_keys_rebalance]
          simp only [Tree.keys, List.mem_append, List.mem_cons, f4 x]
          constructor
          · rintro (⟨_, h⟩ | rfl | h)
            · exact ⟨ne_of_lt (hlk x h), Or.inl h⟩
            · exact ⟨ne_of_lt (hlk x h2), Or.inl h2⟩
            · exact ⟨ne_of_gt (hkr x h), Or.inr (Or.inr h)⟩
          · rintro ⟨hne, h | h | h⟩
            · by_cases hx : x = pk
              · exact Or.inr (Or.inl hx)
              · exact Or.inl ⟨hx, h⟩
            · exact absurd h hne
            · exact Or.inr (Or.inr h)
    · by_cases hgt : nk > k
      · obtain ⟨u, f1, f2, f3, f4⟩ := ihr nk hir hsr
        rw [aa_deleteNode_right nk l r k v lv hk hgt]
        simp only [f1, Option.map_some']
        refine ⟨_, rfl, aa_rebalance_right l r u k k v v lv hi f2, ?_, ?_⟩
        · rw [aa_keys_rebalance]
          simp only [Tree.keys]
          apply inc_right hs f3
          intro x hx
          exact hkr x ((f4 x).1 hx).2
        · intro x
          rw [aa_keys_rebalance]
          simp only [Tree.keys, List.mem_append, List.mem_cons, f4 x]
          constructor
          · rintro (h | rfl | ⟨hne, h⟩)
            · exact ⟨ne_of_lt (lt_trans (hlk x h) hgt), Or.inl h⟩
            · exact ⟨fun e => hk e.symm, Or.inr (Or.inl rfl)⟩
            · exact ⟨hne, Or.inr (Or.inr h)⟩
          · rintro ⟨hne, h | h | h⟩
            · exact Or.inl h
            · exact Or.inr (Or.inl h)
            · exact Or.inr (Or.inr ⟨hne, h⟩)
      · have hlt : nk < k := by omega
        obtain ⟨u, f1, f2, f3, f4⟩ := ihl nk hil hsl
        rw [aa_deleteNode_left nk l r k v lv hk hgt]
        simp only [f1, Option.map_some']
        refine ⟨_, rfl, aa_rebalance_left l r u k k v v lv hi f2, ?_, ?_⟩
        · rw [aa_keys_rebalance]
          simp only [Tree.keys]
          apply inc_left hs f3
          intro x hx
          exact hlk x ((f4 x).1 hx).2
        · intro x
          rw [aa_keys_rebalance]
          simp only [Tree.keys, List.mem_append, List.mem_cons, f4 x]
          constructor
          · rintro (⟨hne, h⟩ | rfl | h)
            · exact ⟨hne, Or.inl h⟩
            · exact ⟨fun e => hk e.symm, Or.inr (Or.inl rfl)⟩
            · exact ⟨ne_of_gt (lt_trans hlt (hkr x h)), Or.inr (Or.inr h)⟩
          · rintro ⟨hne, h | h | h⟩
            · exact Or.inl ⟨hne, h⟩
            · exact Or.inr (Or.inl h)
            · exact Or.inr (Or.inr h)

end AA

namespace AA

theorem aa_valid_of_inv (t : Tree Int V) (h : Inv t) : Valid t := by
  induction t with
  | nil => trivial
  | node l k v lv r ihl ihr =>
    obtain ⟨hl, hr, h1, h2, h3⟩ := h
    have hl0 := aa_level_nonneg l hl
    refine ⟨ihl hl, ihr hr, by omega, ?_, ?_, ?_⟩
    · rintro rfl _
      simp only [aa_level_nil] at h1; omega
    · cases l with
      | nil => trivial
      | node ll lk lvl llv lr =>
        simp only [aa_level_node] at h1
        show llv < lv
        omega
    · cases r with
      | nil => trivial
      | node rl rk rv rlv rr =>
        simp only [aa_level_node, aa_right_node] at h2 h3
        refine ⟨by omega, ?_⟩
        cases rr with
        | nil => trivial
        | node rrl rrk rrv rrlv rrr =>
          simp only [aa_level_node] at h3
          exact h3

theorem aa_validErased_of_inv (t : Tree Int V) (h : Inv t) : ValidErased t := by
  induction t with
  | nil => trivial
  | node l k v lv r ihl ihr =>
    obtain ⟨hl, hr, h1, h2, h3⟩ := h
    have hl0 := aa_level_nonneg l hl
    refine ⟨ihl hl, ihr hr, ?_, ?_, ?_⟩
    · rintro rfl _
      simp only [aa_level_nil] at h1; omega
    · cases l with
      | nil => trivial
      | node ll lk lvl llv lr =>
        simp only [aa_level_node] at h1
        show llv ≠ lv
        omega
    · cases r with
      | nil => trivial
      | node rl rk rv rlv rr =>
        simp only [aa_level_node, aa_right_node] at h2 h3
        refine ⟨by omega, ?_⟩
        cases rr with
        | nil => trivial
        | node rrl rrk rrv rrlv rrr =>
          simp only [aa_level_node] at h3
          show rrlv ≠ lv
          omega

theorem aa_erase_spec (st : State Int V) (s : Finset Int) (key : Int)
    (hi : Inv st.root_) (hr : Holds st.root_ s) :
    ∃ st1, erase st key = some (st1, if key ∈ s then 1 else 0) ∧ Inv st1.root_ ∧
      Holds st1.root_ (s.erase key) := by
  obtain ⟨hk, hbe, haf, hx⟩ := Tree.descend_root key st.root_ hr.1
  simp only [erase, find]
  generalize Tree.descend key st.root_ [] = d at hk hbe haf hx
  obtain ⟨x, path⟩ := d
  simp only at hk hbe haf hx
  rcases hx with rfl | ⟨l, v, m, r, rfl⟩
  · simp only [Tree.keys, List.append_nil] at hk
    have hab := holds_absent hr hk hbe haf
    refine ⟨st, by simp [hab], hi, ?_⟩
    rw [Finset.erase_eq_of_not_mem hab]
    exact hr
  · have hmem : key ∈ s := by
      rw [← hr.2 key, hk]; simp [Tree.keys]
    obtain ⟨u, h1, h2, h3, h4⟩ := aa_deleteNode_spec key st.root_ hi hr.1
    refine ⟨⟨u, st.nodes_ - 1⟩, ?_, h2.1, holds_of_mem_erase hr h3 h4⟩
    simp only [h1, Option.map_some', hmem, if_true]

theorem aa_step_spec (st : State Int V) (s : Finset Int) (op : Op V)
    (hb : Inv st.root_) (hr : Holds st.root_ s) :
    ∃ st1, step st op = some (st1, (specStep s op).2) ∧ Inv st1.root_ ∧
      Holds st1.root_ (specStep s op).1 := by
  cases op with
  | insert k v =>
    obtain ⟨st1, h1, h2, h3⟩ := aa_insert_spec st s k v hb hr
    exact ⟨st1, by simp [step, h1, specStep], h2, h3⟩
  | erase k =>
    obtain ⟨st1, h1, h2, h3⟩ := aa_erase_spec st s k hb hr
    exact ⟨st1, by simp [step, h1, specStep], h2, h3⟩

theorem aa_run_spec (ops : List (Op V)) (st : State Int V) (s : Finset Int)
    (hb : Inv st.root_) (hr : Holds st.root_ s) :
    ∃ st1, run ops st = some (st1, (specRun ops s).2) ∧ Inv st1.root_ ∧
      Holds st1.root_ (specRun ops s).1 := by
  induction ops generalizing st s with
  | nil => exact ⟨st, rfl, hb, hr⟩
  | cons op ops ih =>
    obtain ⟨st1, h1, h2, h3⟩ := aa_step_spec st s op hb hr
    obtain ⟨st2, h4, h5, h6⟩ := ih st1 _ h2 h3
    exact ⟨st2, by simp [run, h1, h4, specRun], h5, h6⟩

end AA

/-- C3. Level-balanced tree as a set: every sequence of `insert` and `erase` calls on the
empty tree runs to the end (the node unlinked by `deleteNode` always has no child), returns
the results the set semantics gives (`true` iff the key was absent, `1` iff it was present,
else `0`), and leaves a tree whose in-order key sequence is strictly increasing and lists
exactly the keys of the set obtained by the same insertions and removals. -/
theorem aa_set_semantics (ops : List (Op V)) :
    ∃ st, AA.run ops State.empty = some (st, (specRun ops ∅).2) ∧
      List.Sorted (· < ·) (Tree.keys st.root_) ∧
      ∀ k, k ∈ Tree.keys st.root_ ↔ k ∈ (specRun ops ∅).1 := by
  obtain ⟨st, h1, _, h3⟩ := AA.aa_run_spec ops State.empty ∅ trivial holds_nil
  exact ⟨st, h1, h3.1, h3.2⟩

/-- C9. Level-balanced tree, insertion: every sequence of `insert` calls on the empty tree runs
to the end, and in the resulting tree every node has level at least `1`, every node without
children has level `1`, every left child is strictly below its parent, every right child is on
the level of its parent or one below, and every right child of a right child is strictly below
its grandparent. -/
theorem aa_insert_valid (kvs : List (Int × V)) :
    ∃ st rets, AA.run (kvs.map (fun p => Op.insert p.1 p.2)) State.empty = some (st, rets) ∧
      AA.Valid st.root_ := by
  obtain ⟨st, h1, h2, _⟩ :=
    AA.aa_run_spec (kvs.map (fun p => Op.insert p.1 p.2)) State.empty ∅ trivial holds_nil
  exact ⟨st, _, h1, AA.aa_valid_of_inv _ h2⟩

/-- C10. Level-balanced tree, deletion: in every state reached from the empty tree by `insert`
and `erase` calls, every `erase` returns, and in the tree it leaves no node has a left child on
its own level, no node has a right child of its right child on its own level, every right
child is on the level of its parent or one below, and every node without children has
level `1`. -/
theorem aa_erase_valid (ops : List (Op V)) (key : Int) :
    ∃ st rets st1 n, AA.run ops State.empty = some (st, rets) ∧
      AA.erase st key = some (st1, n) ∧ AA.ValidErased st1.root_ := by
  obtain ⟨st, h1, h2, h3⟩ := AA.aa_run_spec ops State.empty ∅ trivial holds_nil
  obtain ⟨st1, h4, h5, _⟩ := AA.aa_erase_spec st _ key h2 h3
  exact ⟨st, _, st1, _, h1, h4, AA.aa_validErased_of_inv _ h5⟩

/-! ### Color-balanced tree -/

namespace RB

theorem rb_color_nil : color (Tree.nil : Tree Color V) = Color.black := rfl

theorem rb_color_node (l r : Tree Color V) (k : Int) (v : V) (c : Color) :
    color (Tree.node l k v c r) = c := rfl

theorem rb_bh_nil : bh (Tree.nil : Tree Color V) = 0 := rfl

theorem rb_bh_node (l r : Tree Color V) (k : Int) (v : V) (c : Color) :
    bh (Tree.node l k v c r) = bh l + (if c = Color.black then 1 else 0) := rfl

theorem rb_color_cases (c : Color) : c = Color.red ∨ c = Color.black := by
  cases c <;> simp

theorem rb_keys_blacken (t : Tree Color V) : Tree.keys (blacken t) = Tree.keys t := by
  cases t <;> rfl

theorem rb_bal_blacken (t : Tree Color V) (h : Bal t) : Bal (blacken t) := by
  cases t with
  | nil => trivial
  | node l k v c r => exact ⟨h.1, h.2.1, h.2.2.1, fun e => by cases e⟩

theorem rb_color_blacken (t : Tree Color V) : color (blacken t) = Color.black := by
  cases t <;> rfl

theorem rb_bh_blacken_red (t : Tree Color V) (h : color t = Color.red) :
    bh (blacken t) = bh t + 1 := by
  cases t with
  | nil => cases h
  | node l k v c r =>
    simp only [rb_color_node] at h
    subst h
    simp [blacken, bh]

theorem rb_bh_blacken_black (t : Tree Color V) (h : color t = Color.black) :
    bh (blacken t) = bh t := by
  cases t with
  | nil => rfl
  | node l k v c r =>
    simp only [rb_color_node] at h
    subst h
    simp [blacken, bh]

theorem rb_pathBal_black (p : List (Frame Color V)) (n : Nat) (c : Color) (h : PathBal p n c) :
    PathBal p n Color.black := by
  cases p with
  | nil => trivial
  | cons f up => exact ⟨h.1, h.2.1, fun e => ⟨rfl, (h.2.2.1 e).2⟩, h.2.2.2⟩

theorem rb_fill_bal (p : List (Frame Color V)) (t : Tree Color V) (n : Nat) (c : Color)
    (hp : PathBal p n c) (ht : Bal t) (hn : bh t = n) (hc : color t = c) :
    Bal (Tree.fill p t) := by
  induction p generalizing t n c with
  | nil => exact ht
  | cons f up ih =>
    obtain ⟨d, k, v, m, s⟩ := f
    obtain ⟨h1, h2, h3, h4⟩ := hp
    simp only at h1 h2 h3 h4
    cases d
    · refine ih _ _ _ h4 ⟨ht, h1, ?_, fun e => ?_⟩ ?_ rfl
      · dsimp only; omega
      · rw [hc]; exact h3 e
      · simp only [Frame.fill, rb_bh_node, hn]
    · refine ih _ _ _ h4 ⟨h1, ht, ?_, fun e => ?_⟩ ?_ rfl
      · dsimp only; omega
      · rw [hc]; exact ⟨(h3 e).2, (h3 e).1⟩
      · simp only [Frame.fill, rb_bh_node, h2]

theorem rb_bal_of_fill (p : List (Frame Color V)) (t : Tree Color V)
    (h : Bal (Tree.fill p t)) : Bal t ∧ PathBal p (bh t) (color t) := by
  induction p generalizing t with
  | nil => exact ⟨h, trivial⟩
  | cons f up ih =>
    obtain ⟨d, k, v, m, s⟩ := f
    cases d
    · obtain ⟨⟨h1, h2, h3, h4⟩, h5⟩ := ih _ h
      simp only [Frame.fill, rb_bh_node, rb_color_node] at h5
      exact ⟨h1, h2, h3.symm, fun e => h4 e, h5⟩
    · obtain ⟨⟨h1, h2, h3, h4⟩, h5⟩ := ih _ h
      simp only [Frame.fill, rb_bh_node, rb_color_node] at h5
      refine ⟨h2, h1, h3, fun e => ⟨(h4 e).2, (h4 e).1⟩, ?_⟩
      simp only
      rw [← h3]
      exact h5

theorem rb_color_fill (p : List (Frame Color V)) (t : Tree Color V) :
    color (Tree.fill p t) = colorAbove p (color t) := by
  induction p generalizing t with
  | nil => rfl
  | cons f up ih =>
    obtain ⟨d, k, v, m, s⟩ := f
    cases d <;> simp only [Tree.fill, Frame.fill, ih, rb_color_node, colorAbove]

theorem rb_rootBlack_iff (p : List (Frame Color V)) (c : Color) :
    RootBlack p c ↔ colorAbove p c = Color.black := by
  induction p generalizing c with
  | nil => rfl
  | cons f up ih => exact ih f.info

theorem rb_rootBlack_cons (f : Frame Color V) (up : List (Frame Color V)) (c d : Color)
    (h : RootBlack (f :: up) c) : RootBlack (f :: up) d := h

theorem rb_bh_fill (p : List (Frame Color V)) (t : Tree Color V) (n : Nat) (c : Color)
    (hp : PathBal p n c) (hn : bh t = n) : bh (Tree.fill p t) = bhAbove p n := by
  induction p generalizing t n c with
  | nil => exact hn
  | cons f up ih =>
    obtain ⟨d, k, v, m, s⟩ := f
    obtain ⟨h1, h2, h3, h4⟩ := hp
    simp only at h1 h2 h3 h4
    cases d
    · exact ih _ _ _ h4 (by simp only [Frame.fill, rb_bh_node, hn])
    · exact ih _ _ _ h4 (by simp only [Frame.fill, rb_bh_node, h2])

theorem rb_pathBal_append (p q : List (Frame Color V)) (n : Nat) (c : Color)
    (hp : PathBal p n c) (hq : PathBal q (bhAbove p n) (colorAbove p c)) :
    PathBal (p ++ q) n c := by
  induction p generalizing n c with
  | nil => exact hq
  | cons f up ih =>
    obtain ⟨h1, h2, h3, h4⟩ := hp
    exact ⟨h1, h2, h3, ih _ _ h4 hq⟩

theorem rb_rootBlack_append (p q : List (Frame Color V)) (c : Color)
    (hq : RootBlack q (colorAbove p c)) : RootBlack (p ++ q) c := by
  induction p generalizing c with
  | nil => exact hq
  | cons f up ih => exact ih _ hq

end RB

namespace RB

theorem rb_bh_red (l r : Tree Color V) (k : Int) (v : V) :
    bh (Tree.node l k v Color.red r) = bh l := by
  simp [bh]

theorem rb_bh_black (l r : Tree Color V) (k : Int) (v : V) :
    bh (Tree.node l k v Color.black r) = bh l + 1 := by
  simp [bh]

theorem rb_node_of_red (t : Tree Color V) (h : color t = Color.red) :
    ∃ l k v r, t = Tree.node l k v Color.red r := by
  cases t with
  | nil => cases h
  | node l k v c r =>
    simp only [rb_color_node] at h
    subst h
    exact ⟨l, k, v, r, rfl⟩

/-- The Black-uncle branch of `insertFix`, parent a left child: the rotated subtree has a Black
root, the red-black structure and the black height the grandparent had. -/
theorem rb_insertFixLeft_spec (xdir : Dir) (x s u : Tree Color V) (pk gk : Int) (pv gv : V)
    (gc : Color) (n : Nat) (hx : Bal x) (hxc : color x = Color.red) (hxn : bh x = n)
    (hs : Bal s) (hsc : color s = Color.black) (hsn : bh s = n)
    (hu : Bal u) (huc : color u = Color.black) (hun : bh u = n) :
    ∃ sub, insertFixLeft xdir (Tree.node (Frame.fill ⟨xdir, pk, pv, Color.red, s⟩ x) gk gv gc u) =
        some sub ∧ Bal sub ∧ color sub = Color.black ∧ bh sub = n + 1 ∧
      Tree.keys sub =
        Tree.keys (Tree.node (Frame.fill ⟨xdir, pk, pv, Color.red, s⟩ x) gk gv gc u) := by
  obtain ⟨xl, xk, xv, xr, rfl⟩ := rb_node_of_red x hxc
  obtain ⟨hxl, hxr, hxe, hxcc⟩ := hx
  simp only [rb_bh_red] at hxn
  cases xdir
  · refine ⟨Tree.node (Tree.node xl xk xv Color.red xr) pk pv Color.black
      (Tree.node s gk gv Color.red u), rfl, ?_, rfl, ?_, ?_⟩
    · refine ⟨⟨hxl, hxr, hxe, hxcc⟩, ⟨hs, hu, by omega, fun _ => ⟨hsc, huc⟩⟩, ?_, fun e => by cases e⟩
      simp only [rb_bh_red]; omega
    · simp only [rb_bh_red, rb_bh_black]; omega
    · simp [Tree.keys, Frame.fill]
  · refine ⟨Tree.node (Tree.node s pk pv Color.red xl) xk xv Color.black
      (Tree.node xr gk gv Color.red u), rfl, ?_, rfl, ?_, ?_⟩
    · refine ⟨⟨hs, hxl, by omega, fun _ => ⟨hsc, (hxcc rfl).1⟩⟩,
        ⟨hxr, hu, by omega, fun _ => ⟨(hxcc rfl).2, huc⟩⟩, ?_, fun e => by cases e⟩
      simp only [rb_bh_red]; omega
    · simp only [rb_bh_red, rb_bh_black]; omega
    · simp [Tree.keys, Frame.fill]

theorem rb_insertFixRight_spec (xdir : Dir) (x s u : Tree Color V) (pk gk : Int) (pv gv : V)
    (gc : Color) (n : Nat) (hx : Bal x) (hxc : color x = Color.red) (hxn : bh x = n)
    (hs : Bal s) (hsc : color s = Color.black) (hsn : bh s = n)
    (hu : Bal u) (huc : color u = Color.black) (hun : bh u = n) :
    ∃ sub, insertFixRight xdir (Tree.node u gk gv gc (Frame.fill ⟨xdir, pk, pv, Color.red, s⟩ x)) =
        some sub ∧ Bal sub ∧ color sub = Color.black ∧ bh sub = n + 1 ∧
      Tree.keys sub =
        Tree.keys (Tree.node u gk gv gc (Frame.fill ⟨xdir, pk, pv, Color.red, s⟩ x)) := by
  obtain ⟨xl, xk, xv, xr, rfl⟩ := rb_node_of_red x hxc
  obtain ⟨hxl, hxr, hxe, hxcc⟩ := hx
  simp only [rb_bh_red] at hxn
  cases xdir
  · refine ⟨Tree.node (Tree.node u gk gv Color.red xl) xk xv Color.black
      (Tree.node xr pk pv Color.red s), rfl, ?_, rfl, ?_, ?_⟩
    · refine ⟨⟨hu, hxl, by omega, fun _ => ⟨huc, (hxcc rfl).1⟩⟩,
        ⟨hxr, hs, by omega, fun _ => ⟨(hxcc rfl).2, hsc⟩⟩, ?_, fun e => by cases e⟩
      simp only [rb_bh_red]; omega
    · simp only [rb_bh_red, rb_bh_black]; omega
    · simp [Tree.keys, Frame.fill]
  · refine ⟨Tree.node (Tree.node u gk gv Color.red s) pk pv Color.black
      (Tree.node xl xk xv Color.red xr), rfl, ?_, rfl, ?_, ?_⟩
    · refine ⟨⟨hu, hs, by omega, fun _ => ⟨huc, hsc⟩⟩, ⟨hxl, hxr, hxe, hxcc⟩, ?_, fun e => by cases e⟩
      simp only [rb_bh_red]; omega
    · simp only [rb_bh_red, rb_bh_black]; omega
    · simp [Tree.keys, Frame.fill]

end RB

namespace RB

theorem rb_insertFix_exit (path : List (Frame Color V)) (t : Tree Color V) (n : Nat)
    (hp : PathBal path n Color.black) (hh : ∀ f up, path = f :: up → f.info = Color.black)
    (ht : Bal t) (hn : bh t = n) :
    Bal (blacken (Tree.fill path t)) ∧ color (blacken (Tree.fill path t)) = Color.black ∧
      Tree.keys (blacken (Tree.fill path t)) =
        Tree.before path ++ Tree.keys t ++ Tree.after path := by
  refine ⟨rb_bal_blacken _ ?_, rb_color_blacken _, by rw [rb_keys_blacken, Tree.keys_fill]⟩
  apply rb_fill_bal path t n (color t) _ ht hn rfl
  cases path with
  | nil => trivial
  | cons f up =>
    have hf := hh f up rfl
    refine ⟨hp.1, hp.2.1, ?_, hp.2.2.2⟩
    intro e
    rw [hf] at e
    cases e

theorem rb_insertFix_two (up : List (Frame Color V)) :
    (∀ (t : Tree Color V) (n : Nat), PathBal up n Color.black → RootBlack up Color.black →
      Bal t → bh t = n → color t = Color.red →
      ∃ u, insertFix up t = some u ∧ Bal u ∧ color u = Color.black ∧
        Tree.keys u = Tree.before up ++ Tree.keys t ++ Tree.after up) ∧
    (∀ (g : Frame Color V) (t : Tree Color V) (n : Nat), PathBal (g :: up) n Color.black →
      RootBlack (g :: up) Color.black → Bal t → bh t = n → color t = Color.red →
      ∃ u, insertFix (g :: up) t = some u ∧ Bal u ∧ color u = Color.black ∧
        Tree.keys u = Tree.before (g :: up) ++ Tree.keys t ++ Tree.after (g :: up)) := by
  induction up with
  | nil =>
    constructor
    · intro t n hp _ ht hn _
      exact ⟨_, rfl, rb_insertFix_exit [] t n hp (by simp) ht hn⟩
    · intro g t n hp hr ht hn _
      have hg : g.info = Color.black := hr
      have hne : ¬ g.info = Color.red := by rw [hg]; simp
      refine ⟨blacken (g.fill t), ?_, rb_insertFix_exit [g] t n hp (by intro f up e; cases e; exact hg) ht hn⟩
      simp only [insertFix, if_neg hne]
  | cons g up ih =>
    refine ⟨ih.2 g, ?_⟩
    intro p t n hp hr ht hn hc
    obtain ⟨hps, hpn, hpc, hp2⟩ := hp
    by_cases hpr : p.info = Color.red
    · simp only [hpr, if_neg (by simp : ¬ Color.red = Color.black), Nat.add_zero] at hp2
      obtain ⟨hgs, hgn, hgc, hg2⟩ := hp2
      have hgb : g.info = Color.black := by
        rcases rb_color_cases g.info with e | e
        · exact absurd (hgc e).1 (by simp)
        · exact e
      simp only [hgb, if_true] at hg2
      have hpsc := (hpc hpr).2
      obtain ⟨pd, pk, pv, pc, ps⟩ := p
      obtain ⟨gd, gk, gv, gc, gs⟩ := g
      simp only at hpr hgb hps hpn hpsc hgs hgn hgc hg2
      subst hpr hgb
      simp only [insertFix, if_true]
      by_cases hu : color gs = Color.red
      · rw [if_pos hu]
        have hP : Bal (Frame.fill ⟨pd, pk, pv, Color.black, ps⟩ t) := by
          cases pd <;> simp only [Frame.fill]
          · exact ⟨ht, hps, by omega, fun e => by cases e⟩
          · exact ⟨hps, ht, by omega, fun e => by cases e⟩
        have hPn : bh (Frame.fill ⟨pd, pk, pv, Color.black, ps⟩ t) = n + 1 := by
          cases pd <;> simp only [Frame.fill, rb_bh_black] <;> omega
        have hG : Bal (Frame.fill ⟨gd, gk, gv, Color.red, blacken gs⟩
            (Frame.fill ⟨pd, pk, pv, Color.black, ps⟩ t)) := by
          have := rb_bh_blacken_red gs hu
          cases gd <;> simp only [Frame.fill] at hP hPn ⊢
          · refine ⟨hP, rb_bal_blacken _ hgs, by omega, fun _ => ⟨?_, rb_color_blacken _⟩⟩
            cases pd <;> rfl
          · refine ⟨rb_bal_blacken _ hgs, hP, by omega, fun _ => ⟨rb_color_blacken _, ?_⟩⟩
            cases pd <;> rfl
        have hGn : bh (Frame.fill ⟨gd, gk, gv, Color.red, blacken gs⟩
            (Frame.fill ⟨pd, pk, pv, Color.black, ps⟩ t)) = n + 1 := by
          have := rb_bh_blacken_red gs hu
          simp only [Frame.fill] at hPn
          cases gd <;> simp only [Frame.fill, rb_bh_red] <;> omega
        have hGc : color (Frame.fill ⟨gd, gk, gv, Color.red, blacken gs⟩
            (Frame.fill ⟨pd, pk, pv, Color.black, ps⟩ t)) = Color.red := by
          cases gd <;> rfl
        obtain ⟨u, h1, h2, h3, h4⟩ := ih.1 _ (n + 1) (rb_pathBal_black _ _ _ hg2)
          (by
            cases up with
            | nil => rfl
            | cons a b => exact hr) hG hGn hGc
        refine ⟨u, h1, h2, h3, ?_⟩
        rw [h4]
        cases gd <;> cases pd <;>
          simp [Frame.fill, Tree.keys, Tree.before, Tree.after, rb_keys_blacken]
      · rw [if_neg hu]
        have hub : color gs = Color.black := by
          rcases rb_color_cases (color gs) with e | e
          · exact absurd e hu
          · exact e
        cases gd
        · obtain ⟨sub, h1, h2, h3, h4, h5⟩ := rb_insertFixLeft_spec pd t ps gs pk gk pv gv
            Color.black n ht hc hn hps hpsc hpn hgs hub hgn
          simp only [Frame.fill] at h1 h5 ⊢
          rw [h1]
          refine ⟨_, rfl, rb_bal_blacken _ (rb_fill_bal up sub (n + 1) _ hg2 h2 h4 h3),
            rb_color_blacken _, ?_⟩
          simp only [Option.map_some', rb_keys_blacken, Tree.keys_fill, h5]
          cases pd <;> simp [Tree.keys, Tree.before, Tree.after]
        · obtain ⟨sub, h1, h2, h3, h4, h5⟩ := rb_insertFixRight_spec pd t ps gs pk gk pv gv
            Color.black n ht hc hn hps hpsc hpn hgs hub hgn
          simp only [Frame.fill] at h1 h5 ⊢
          rw [h1]
          refine ⟨_, rfl, rb_bal_blacken _ (rb_fill_bal up sub (n + 1) _ hg2 h2 h4 h3),
            rb_color_blacken _, ?_⟩
          simp only [Option.map_some', rb_keys_blacken, Tree.keys_fill, h5]
          cases pd <;> simp [Tree.keys, Tree.before, Tree.after]
    · refine ⟨blacken (Tree.fill (p :: g :: up) t), ?_, rb_insertFix_exit (p :: g :: up) t n
        ⟨hps, hpn, hpc, hp2⟩ ?_ ht hn⟩
      · simp only [insertFix, if_neg hpr]
      · intro f up1 hf
        cases hf
        rcases rb_color_cases p.info with e | e
        · exact absurd e hpr
        · exact e

theorem rb_insertFix_spec (path : List (Frame Color V)) (t : Tree Color V) (n : Nat)
    (hp : PathBal path n Color.black) (hr : RootBlack path Color.black) (ht : Bal t)
    (hn : bh t = n) (hc : color t = Color.red) :
    ∃ u, insertFix path t = some u ∧ Bal u ∧ color u = Color.black ∧
      Tree.keys u = Tree.before path ++ Tree.keys t ++ Tree.after path :=
  (rb_insertFix_two path).1 t n hp hr ht hn hc

end RB

namespace RB

theorem rb_black_of_not_red (c : Color) (h : ¬ c = Color.red) : c = Color.black := by
  cases c
  · exact absurd rfl h
  · rfl

theorem rb_blacken_of_black (t : Tree Color V) (h : color t = Color.black) : blacken t = t := by
  cases t with
  | nil => rfl
  | node l k v c r =>
    simp only [rb_color_node] at h
    subst h
    rfl

theorem rb_bh_color (c : Color) (l r : Tree Color V) (k : Int) (v : V) :
    bh (Tree.node l k v c r) = bh l + (if c = Color.black then 1 else 0) := rfl

/-- The rest of a pass of `deleteFix` for a left child `x` with a Black sibling `w`. -/
theorem rb_deleteFixLeftRest_spec (x w : Tree Color V) (pk : Int) (pv : V) (px : Color) (n : Nat)
    (hx : Bal x) (hxn : bh x = n)
    (hw : Bal w) (hwn : bh w = n + 1) (hwc : color w = Color.black) :
    ∃ sub b, deleteFixLeftRest x pk pv px w = some (sub, b) ∧
      Tree.keys sub = Tree.keys x ++ pk :: Tree.keys w ∧ color sub = px ∧
      (b = true → Bal sub ∧ bh sub = n + 1 + (if px = Color.black then 1 else 0)) ∧
      (b = false → Bal (blacken sub) ∧ bh sub = n + (if px = Color.black then 1 else 0)) := by
  cases w with
  | nil => simp only [rb_bh_nil] at hwn; omega
  | node wl wk wv wc wr =>
    simp only [rb_color_node] at hwc
    subst hwc
    obtain ⟨hwl, hwr, hwe, _⟩ := hw
    simp only [rb_bh_black] at hwn
    simp only [deleteFixLeftRest]
    by_cases hbb : color wl = Color.black ∧ color wr = Color.black
    · rw [if_pos hbb]
      refine ⟨_, false, rfl, by simp [Tree.keys], rfl, by simp, fun _ => ⟨?_, ?_⟩⟩
      · exact ⟨hx, ⟨hwl, hwr, hwe, fun _ => hbb⟩, by simp only [rb_bh_red]; omega,
          fun e => by cases e⟩
      · cases px <;> first | (simp [bh]; done) | (simp [bh]; omega) | omega
    · rw [if_neg hbb]
      by_cases hrb : color wr = Color.black
      · rw [if_pos hrb]
        have hlr : color wl = Color.red := by
          rcases rb_color_cases (color wl) with e | e
          · exact e
          · exact absurd ⟨e, hrb⟩ hbb
        obtain ⟨wll, wlk, wlv, wlr, rfl⟩ := rb_node_of_red wl hlr
        obtain ⟨hwll, hwlr, hwle, hwlc⟩ := hwl
        simp only [rb_bh_red] at hwe hwn
        refine ⟨Tree.node (Tree.node x pk pv Color.black wll) wlk wlv px
          (Tree.node wlr wk wv Color.black wr), true, rfl, by simp [Tree.keys], rfl,
          fun _ => ⟨?_, ?_⟩, by simp⟩
        · refine ⟨⟨hx, hwll, by omega, fun e => by cases e⟩,
            ⟨hwlr, hwr, by omega, fun e => by cases e⟩, ?_, fun _ => ⟨rfl, rfl⟩⟩
          simp only [rb_bh_black]; omega
        · cases px <;> first | (simp [bh]; done) | (simp [bh]; omega) | omega
      · rw [if_neg hrb]
        have hrr : color wr = Color.red := by
          rcases rb_color_cases (color wr) with e | e
          · exact e
          · exact absurd e hrb
        have hbr := rb_bh_blacken_red wr hrr
        refine ⟨Tree.node (Tree.node x pk pv Color.black wl) wk wv px (blacken wr), true, rfl,
          by simp [Tree.keys, rb_keys_blacken], rfl, fun _ => ⟨?_, ?_⟩, by simp⟩
        · refine ⟨⟨hx, hwl, by omega, fun e => by cases e⟩, rb_bal_blacken _ hwr, ?_,
            fun _ => ⟨rfl, rb_color_blacken _⟩⟩
          simp only [rb_bh_black]; omega
        · cases px <;> first | (simp [bh]; done) | (simp [bh]; omega) | omega

/-- The rest of a pass of `deleteFix` for a right child `x` with a Black sibling `w`. -/
theorem rb_deleteFixRightRest_spec (x w : Tree Color V) (pk : Int) (pv : V) (px : Color) (n : Nat)
    (hx : Bal x) (hxn : bh x = n)
    (hw : Bal w) (hwn : bh w = n + 1) (hwc : color w = Color.black) :
    ∃ sub b, deleteFixRightRest x pk pv px w = some (sub, b) ∧
      Tree.keys sub = Tree.keys w ++ pk :: Tree.keys x ∧ color sub = px ∧
      (b = true → Bal sub ∧ bh sub = n + 1 + (if px = Color.black then 1 else 0)) ∧
      (b = false → Bal (blacken sub) ∧ bh sub = n + (if px = Color.black then 1 else 0)) := by
  cases w with
  | nil => simp only [rb_bh_nil] at hwn; omega
  | node wl wk wv wc wr =>
    simp only [rb_color_node] at hwc
    subst hwc
    obtain ⟨hwl, hwr, hwe, _⟩ := hw
    simp only [rb_bh_black] at hwn
    simp only [deleteFixRightRest]
    by_cases hbb : color wr = Color.black ∧ color wl = Color.black
    · rw [if_pos hbb]
      refine ⟨_, false, rfl, by simp [Tree.keys], rfl, by simp, fun _ => ⟨?_, ?_⟩⟩
      · exact ⟨⟨hwl, hwr, hwe, fun _ => ⟨hbb.2, hbb.1⟩⟩, hx, by simp only [rb_bh_red]; omega,
          fun e => by cases e⟩
      · cases px <;> first | (simp [bh]; done) | (simp [bh]; omega) | omega
    · rw [if_neg hbb]
      by_cases hlb : color wl = Color.black
      · rw [if_pos hlb]
        have hrr : color wr = Color.red := by
          rcases rb_color_cases (color wr) with e | e
          · exact e
          · exact absurd ⟨e, hlb⟩ hbb
        obtain ⟨wrl, wrk, wrv, wrr, rfl⟩ := rb_node_of_red wr hrr
        obtain ⟨hwrl, hwrr, hwre, hwrc⟩ := hwr
        simp only [rb_bh_red] at hwe
        refine ⟨Tree.node (Tree.node wl wk wv Color.black wrl) wrk wrv px
          (Tree.node wrr pk pv Color.black x), true, rfl, by simp [Tree.keys], rfl,
          fun _ => ⟨?_, ?_⟩, by simp⟩
        · refine ⟨⟨hwl, hwrl, by omega, fun e => by cases e⟩,
            ⟨hwrr, hx, by omega, fun e => by cases e⟩, ?_, fun _ => ⟨rfl, rfl⟩⟩
          simp only [rb_bh_black]; omega
        · cases px <;> first | (simp [bh]; done) | (simp [bh]; omega) | omega
      · rw [if_neg hlb]
        have hlr : color wl = Color.red := by
          rcases rb_color_cases (color wl) with e | e
          · exact e
          · exact absurd e hlb
        have hbl := rb_bh_blacken_red wl hlr
        refine ⟨Tree.node (blacken wl) wk wv px (Tree.node wr pk pv Color.black x), true, rfl,
          by simp [Tree.keys, rb_keys_blacken], rfl, fun _ => ⟨?_, ?_⟩, by simp⟩
        · refine ⟨rb_bal_blacken _ hwl, ⟨hwr, hx, by omega, fun e => by cases e⟩, ?_,
            fun _ => ⟨rb_color_blacken _, rfl⟩⟩
          simp only [rb_bh_black]; omega
        · cases px <;> first | (simp [bh]; done) | (simp [bh]; omega) | omega

end RB

namespace RB

theorem rb_deleteFixStep_spec (p : Frame Color V) (x : Tree Color V) (n : Nat)
    (hx : Bal x) (hxn : bh x = n) (hs : Bal p.sib) (hsn : bh p.sib = n + 1)
    (hsc : p.info = Color.red → color p.sib = Color.black) :
    ∃ nx, deleteFixStep p x = some nx ∧
      StepOK (n + 1 + (if p.info = Color.black then 1 else 0)) p.info
        (Tree.keys (p.fill x)) nx := by
  obtain ⟨d, pk, pv, pc, w⟩ := p
  simp only at hs hsn hsc
  cases w with
  | nil => simp only [rb_bh_nil] at hsn; omega
  | node wl wk wv wc wr =>
    cases d
    · simp only [deleteFixStep]
      by_cases hwc : wc = Color.red
      · subst hwc
        have hpc : pc = Color.black := by
          rcases rb_color_cases pc with e | e
          · exact absurd (hsc e) (by simp [rb_color_node])
          · exact e
        subst hpc
        obtain ⟨hwl, hwr, hwe, hwcc⟩ := hs
        simp only [rb_bh_red] at hsn
        obtain ⟨sub, b, h1, h2, h3, h4, h5⟩ := rb_deleteFixLeftRest_spec x wl pk pv Color.red n
          hx hxn hwl hsn (hwcc rfl).1
        simp only [if_true, h1, Option.map_some']
        cases b
        · obtain ⟨h6, h7⟩ := h5 rfl
          have h8 := rb_bh_blacken_red sub h3
          refine ⟨_, rfl, ⟨h6, hwr, ?_, fun e => by cases e⟩, ?_, rfl, ?_⟩
          · simp at h7; omega
          · simp only [rb_bh_black]; simp at h7 ⊢; omega
          · simp [Tree.keys, rb_keys_blacken, h2, Frame.fill]
        · obtain ⟨h6, h7⟩ := h4 rfl
          refine ⟨_, rfl, ⟨h6, hwr, ?_, fun e => by cases e⟩, ?_, rfl, ?_⟩
          · simp at h7; omega
          · simp only [rb_bh_black]; simp at h7 ⊢; omega
          · simp [Tree.keys, h2, Frame.fill]
      · have hwb := rb_black_of_not_red wc hwc
        subst hwb
        obtain ⟨sub, b, h1, h2, h3, h4, h5⟩ := rb_deleteFixLeftRest_spec x
          (Tree.node wl wk wv Color.black wr) pk pv pc n hx hxn hs hsn rfl
        simp only [if_neg (by simp : ¬ Color.black = Color.red), h1, Option.map_some']
        cases b
        · obtain ⟨h6, h7⟩ := h5 rfl
          exact ⟨_, rfl, h6, by omega, h3, by simp [h2, Frame.fill, Tree.keys]⟩
        · obtain ⟨h6, h7⟩ := h4 rfl
          exact ⟨_, rfl, h6, h7, h3, by simp [h2, Frame.fill, Tree.keys]⟩
    · simp only [deleteFixStep]
      by_cases hwc : wc = Color.red
      · subst hwc
        have hpc : pc = Color.black := by
          rcases rb_color_cases pc with e | e
          · exact absurd (hsc e) (by simp [rb_color_node])
          · exact e
        subst hpc
        obtain ⟨hwl, hwr, hwe, hwcc⟩ := hs
        simp only [rb_bh_red] at hsn
        obtain ⟨sub, b, h1, h2, h3, h4, h5⟩ := rb_deleteFixRightRest_spec x wr pk pv Color.red n
          hx hxn hwr (by omega) (hwcc rfl).2
        simp only [if_true, h1, Option.map_some']
        cases b
        · obtain ⟨h6, h7⟩ := h5 rfl
          have h8 := rb_bh_blacken_red sub h3
          refine ⟨_, rfl, ⟨hwl, h6, ?_, fun e => by cases e⟩, ?_, rfl, ?_⟩
          · simp at h7; omega
          · simp only [rb_bh_black]; omega
          · simp [Tree.keys, rb_keys_blacken, h2, Frame.fill]
        · obtain ⟨h6, h7⟩ := h4 rfl
          refine ⟨_, rfl, ⟨hwl, h6, ?_, fun e => by cases e⟩, ?_, rfl, ?_⟩
          · simp at h7; omega
          · simp only [rb_bh_black]; omega
          · simp [Tree.keys, h2, Frame.fill]
      · have hwb := rb_black_of_not_red wc hwc
        subst hwb
        obtain ⟨sub, b, h1, h2, h3, h4, h5⟩ := rb_deleteFixRightRest_spec x
          (Tree.node wl wk wv Color.black wr) pk pv pc n hx hxn hs hsn rfl
        simp only [if_neg (by simp : ¬ Color.black = Color.red), h1, Option.map_some']
        cases b
        · obtain ⟨h6, h7⟩ := h5 rfl
          exact ⟨_, rfl, h6, by omega, h3, by simp [h2, Frame.fill, Tree.keys]⟩
        · obtain ⟨h6, h7⟩ := h4 rfl
          exact ⟨_, rfl, h6, h7, h3, by simp [h2, Frame.fill, Tree.keys]⟩

end RB

namespace RB

theorem rb_color_fill_black (up : List (Frame Color V)) (t : Tree Color V) (c : Color)
    (hr : RootBlack up c) (hc : color t = c) : color (Tree.fill up t) = Color.black := by
  rw [rb_color_fill, hc]
  exact (rb_rootBlack_iff up c).1 hr

theorem rb_rootBlack_up (p : Frame Color V) (up : List (Frame Color V)) (c d : Color)
    (hr : RootBlack (p :: up) c) (hd : up = [] → d = p.info) : RootBlack up d := by
  cases up with
  | nil =>
    rw [hd rfl]
    exact hr
  | cons a b => exact hr

theorem rb_deleteFix_spec (path : List (Frame Color V)) (t : Tree Color V) (n : Nat)
    (hp : PathBal path (n + 1) Color.black) (hr : RootBlack path Color.black)
    (ht : Bal (blacken t)) (hn : bh t = n) :
    ∃ u, deleteFix path t = some u ∧ Bal u ∧ color u = Color.black ∧
      Tree.keys u = Tree.before path ++ Tree.keys t ++ Tree.after path := by
  induction path generalizing t n with
  | nil =>
    exact ⟨blacken t, rfl, ht, rb_color_blacken _, by simp [rb_keys_blacken, Tree.before, Tree.after]⟩
  | cons p up ih =>
    by_cases hc : color t = Color.red
    · refine ⟨Tree.fill (p :: up) (blacken t), by simp only [deleteFix, if_pos hc], ?_, ?_, ?_⟩
      · exact rb_fill_bal _ _ (n + 1) Color.black hp ht
          (by rw [rb_bh_blacken_red t hc, hn]) (rb_color_blacken _)
      · exact rb_color_fill_black _ _ Color.black hr (rb_color_blacken _)
      · rw [Tree.keys_fill, rb_keys_blacken]
    · have hcb := rb_black_of_not_red _ hc
      rw [rb_blacken_of_black t hcb] at ht
      obtain ⟨hps, hpn, hpc, hp2⟩ := hp
      obtain ⟨nx, h1, h2⟩ := rb_deleteFixStep_spec p t n ht hn hps hpn (fun e => (hpc e).2)
      simp only [deleteFix, if_neg hc, h1]
      have hkeys : Tree.before up ++ Tree.keys (p.fill t) ++ Tree.after up =
          Tree.before (p :: up) ++ Tree.keys t ++ Tree.after (p :: up) := by
        obtain ⟨d, pk, pv, pc, ps⟩ := p
        cases d <;> simp [Frame.fill, Tree.keys, Tree.before, Tree.after]
      cases nx with
      | goUp sub =>
        obtain ⟨g1, g2, g3, g4⟩ := h2
        obtain ⟨u, f1, f2, f3, f4⟩ := ih sub (bh sub)
          (by rw [g2]; exact rb_pathBal_black _ _ _ hp2)
          (rb_rootBlack_up p up _ _ hr (fun _ => rfl) |> fun h => by
            cases up with
            | nil => rfl
            | cons a b => exact h) g1 rfl
        exact ⟨u, f1, f2, f3, by rw [f4, g4, hkeys]⟩
      | stop sub =>
        obtain ⟨g1, g2, g3, g4⟩ := h2
        refine ⟨_, rfl, rb_fill_bal up sub _ Color.black (rb_pathBal_black _ _ _ hp2) g1 g2 g3,
          ?_, by rw [Tree.keys_fill, g4, hkeys]⟩
        apply rb_color_fill_black up sub Color.black _ g3
        cases up with
        | nil => rfl
        | cons a b => exact hr
      | stopRoot sub =>
        obtain ⟨g1, g2, g3, g4⟩ := h2
        exact ⟨_, rfl, rb_bal_blacken _ (rb_fill_bal up sub _ p.info hp2 g1 g2 g3),
          rb_color_blacken _, by rw [rb_keys_blacken, Tree.keys_fill, g4, hkeys]⟩

end RB

namespace RB

theorem rb_rootBlack_of_red (path : List (Frame Color V)) (c : Color)
    (h : RootBlack path Color.red) : RootBlack path c := by
  cases path with
  | nil => cases h
  | cons f up => exact h

theorem rb_colorAbove_cons (path : List (Frame Color V)) (c d : Color) (h : path ≠ []) :
    colorAbove path c = colorAbove path d := by
  cases path with
  | nil => exact absurd rfl h
  | cons f up => rfl

theorem rb_eraseNode_two (path : List (Frame Color V)) (l rl rr : Tree Color V) (k rk : Int)
    (v rv : V) (c rc : Color)
    (hb : Bal (Tree.node l k v c (Tree.node rl rk rv rc rr)))
    (hp : PathBal path (bh (Tree.node l k v c (Tree.node rl rk rv rc rr))) c)
    (hr : RootBlack path c) :
    ∃ yk yv yc x spine, Tree.minimum (Tree.node rl rk rv rc rr) [] =
        (Tree.node Tree.nil yk yv yc x, spine) ∧
      ∃ u, (if yc = Color.black then deleteFix (spine ++ ⟨Dir.right, yk, yv, c, l⟩ :: path) x
          else some (Tree.fill (spine ++ ⟨Dir.right, yk, yv, c, l⟩ :: path) x)) = some u ∧
        Bal u ∧ color u = Color.black ∧
        Tree.keys u = Tree.before path ++ (Tree.keys l ++ Tree.keys (Tree.node rl rk rv rc rr)) ++
          Tree.after path := by
  obtain ⟨yk, yv, yc, x, spine, h1, h2, h3⟩ := Tree.minimum_spec (Tree.node rl rk rv rc rr) []
    (by simp)
  simp only [List.append_nil] at h1
  refine ⟨yk, yv, yc, x, spine, h1, ?_⟩
  obtain ⟨hbl, hbr, hbe, hbc⟩ := hb
  rw [← h2] at hbr
  obtain ⟨hy, hps⟩ := rb_bal_of_fill _ _ hbr
  obtain ⟨_, hx, hxe, hyc⟩ := hy
  simp only [rb_bh_nil] at hxe
  simp only [rb_color_node] at hps hyc
  have hbhr : bh (Tree.node rl rk rv rc rr) =
      bhAbove spine (bh (Tree.node Tree.nil yk yv yc x)) := by
    rw [← h2]; exact rb_bh_fill _ _ _ _ hps rfl
  have hcolr : color (Tree.node rl rk rv rc rr) = colorAbove spine yc := by
    rw [← h2, rb_color_fill]; rfl
  have hnew : PathBal ((⟨Dir.right, yk, yv, c, l⟩ : Frame Color V) :: path)
      (bhAbove spine (bh (Tree.node Tree.nil yk yv yc x))) (colorAbove spine Color.black) := by
    refine ⟨hbl, by rw [← hbhr]; exact hbe, fun e => ⟨?_, (hbc e).1⟩, ?_⟩
    · by_cases hsp : spine = []
      · subst hsp; rfl
      · rw [rb_colorAbove_cons spine Color.black yc hsp, ← hcolr]
        exact (hbc e).2
    · simp only
      rw [← hbhr, ← hbe]
      exact hp
  have hP : PathBal (spine ++ ⟨Dir.right, yk, yv, c, l⟩ :: path)
      (bh (Tree.node Tree.nil yk yv yc x)) Color.black :=
    rb_pathBal_append _ _ _ _ (rb_pathBal_black _ _ _ hps) hnew
  have hR : RootBlack (spine ++ ⟨Dir.right, yk, yv, c, l⟩ :: path) Color.black :=
    rb_rootBlack_append _ _ _ hr
  have hkeys : Tree.before (spine ++ ⟨Dir.right, yk, yv, c, l⟩ :: path) ++ Tree.keys x ++
      Tree.after (spine ++ ⟨Dir.right, yk, yv, c, l⟩ :: path) =
      Tree.before path ++ (Tree.keys l ++ Tree.keys (Tree.node rl rk rv rc rr)) ++
        Tree.after path := by
    rw [← h2, Tree.keys_fill, h3, Tree.before_append, Tree.after_append, h3]
    simp [Tree.before, Tree.after, Tree.keys]
  by_cases hyb : yc = Color.black
  · subst hyb
    rw [if_pos rfl]
    simp only [rb_bh_black, rb_bh_nil] at hP
    obtain ⟨u, f1, f2, f3, f4⟩ := rb_deleteFix_spec _ x 0 hP hR (rb_bal_blacken _ hx) hxe.symm
    exact ⟨u, f1, f2, f3, by rw [f4, hkeys]⟩
  · rw [if_neg hyb]
    have hyr : yc = Color.red := by
      rcases rb_color_cases yc with e | e
      · exact e
      · exact absurd e hyb
    subst hyr
    simp only [rb_bh_red, rb_bh_nil] at hP
    refine ⟨_, rfl, rb_fill_bal _ x 0 Color.black hP hx hxe.symm (hyc rfl).2,
      rb_color_fill_black _ x Color.black hR (hyc rfl).2, ?_⟩
    rw [Tree.keys_fill, hkeys]

theorem rb_eraseNode_spec (path : List (Frame Color V)) (l r : Tree Color V) (k : Int) (v : V)
    (c : Color) (hb : Bal (Tree.node l k v c r))
    (hp : PathBal path (bh (Tree.node l k v c r)) c) (hr : RootBlack path c) :
    ∃ u, eraseNode path l c r = some u ∧ Bal u ∧ color u = Color.black ∧
      Tree.keys u = Tree.before path ++ (Tree.keys l ++ Tree.keys r) ++ Tree.after path := by
  have hb0 := hb
  obtain ⟨hbl, hbr, hbe, hbc⟩ := hb
  cases l with
  | nil =>
    simp only [rb_bh_nil] at hbe
    simp only [eraseNode, eraseSplice, Option.some_bind, eraseFinish]
    by_cases hcb : c = Color.black
    · subst hcb
      simp only [if_true]
      simp only [rb_bh_black, rb_bh_nil] at hp
      obtain ⟨u, f1, f2, f3, f4⟩ := rb_deleteFix_spec path r 0 hp hr (rb_bal_blacken _ hbr)
        hbe.symm
      exact ⟨u, f1, f2, f3, by rw [f4]; simp [Tree.keys]⟩
    · have hcr : c = Color.red := by
        rcases rb_color_cases c with e | e
        · exact e
        · exact absurd e hcb
      subst hcr
      simp only [if_neg hcb]
      simp only [rb_bh_red, rb_bh_nil] at hp
      refine ⟨_, rfl, rb_fill_bal path r 0 Color.black (rb_pathBal_black _ _ _ hp) hbr hbe.symm
        (hbc rfl).2, rb_color_fill_black _ r Color.black (rb_rootBlack_of_red _ _ hr) (hbc rfl).2, ?_⟩
      rw [Tree.keys_fill]; simp [Tree.keys]
  | node ll lk lv lc lr =>
    cases r with
    | nil =>
      simp only [rb_bh_nil] at hbe
      simp only [eraseNode, eraseSplice, Option.some_bind, eraseFinish]
      by_cases hcb : c = Color.black
      · subst hcb
        simp only [if_true]
        rw [rb_bh_black, hbe] at hp
        obtain ⟨u, f1, f2, f3, f4⟩ := rb_deleteFix_spec path (Tree.node ll lk lv lc lr) 0 hp hr
          (rb_bal_blacken _ hbl) hbe
        exact ⟨u, f1, f2, f3, by rw [f4]; simp [Tree.keys]⟩
      · have hcr : c = Color.red := by
          rcases rb_color_cases c with e | e
          · exact e
          · exact absurd e hcb
        subst hcr
        simp only [if_neg hcb]
        rw [rb_bh_red, hbe] at hp
        refine ⟨_, rfl, rb_fill_bal path _ 0 Color.black (rb_pathBal_black _ _ _ hp) hbl hbe
          (hbc rfl).1, rb_color_fill_black _ _ Color.black (rb_rootBlack_of_red _ _ hr) (hbc rfl).1,
          ?_⟩
        rw [Tree.keys_fill]; simp [Tree.keys]
    | node rl rk rv rc rr =>
      obtain ⟨yk, yv, yc, x, spine, g1, u, g2, g3, g4, g5⟩ :=
        rb_eraseNode_two path (Tree.node ll lk lv lc lr) rl rr k rk v rv c rc hb0 hp hr
      refine ⟨u, ?_, g3, g4, g5⟩
      simp only [eraseNode, eraseSplice, g1, Option.some_bind, eraseFinish]
      exact g2

end RB

namespace RB

theorem rb_bh_mem_counts (t : Tree Color V) : bh t ∈ blackCounts t := by
  induction t with
  | nil => simp [bh, blackCounts]
  | node l k v c r ihl _ =>
    simp only [blackCounts, bh, List.mem_map, List.mem_append]
    exact ⟨bh l, Or.inl ihl, rfl⟩

theorem rb_counts_of_bal (t : Tree Color V) (h : Bal t) : ∀ m ∈ blackCounts t, m = bh t := by
  induction t with
  | nil => intro m hm; simpa [blackCounts, bh] using hm
  | node l k v c r ihl ihr =>
    intro m hm
    simp only [blackCounts, List.mem_map, List.mem_append] at hm
    obtain ⟨a, ha, rfl⟩ := hm
    rcases ha with ha | ha
    · rw [ihl h.1 a ha]; rfl
    · rw [ihr h.2.1 a ha, ← h.2.2.1]; rfl

theorem rb_noRedRed_of_bal (t : Tree Color V) (h : Bal t) : NoRedRed t := by
  induction t with
  | nil => trivial
  | node l k v c r ihl ihr => exact ⟨ihl h.1, ihr h.2.1, h.2.2.2⟩

theorem rb_bal_of_counts (t : Tree Color V) (h1 : NoRedRed t)
    (h2 : ∃ n, ∀ m ∈ blackCounts t, m = n) : Bal t := by
  induction t with
  | nil => trivial
  | node l k v c r ihl ihr =>
    obtain ⟨n, hn⟩ := h2
    have hl : ∀ m ∈ blackCounts l, m = bh l := by
      intro m hm
      have e1 := hn (m + (if c = Color.black then 1 else 0))
        (by simp only [blackCounts, List.mem_map, List.mem_append]; exact ⟨m, Or.inl hm, rfl⟩)
      have e2 := hn (bh l + (if c = Color.black then 1 else 0))
        (by
          simp only [blackCounts, List.mem_map, List.mem_append]
          exact ⟨bh l, Or.inl (rb_bh_mem_counts l), rfl⟩)
      omega
    have hr : ∀ m ∈ blackCounts r, m = bh r := by
      intro m hm
      have e1 := hn (m + (if c = Color.black then 1 else 0))
        (by simp only [blackCounts, List.mem_map, List.mem_append]; exact ⟨m, Or.inr hm, rfl⟩)
      have e2 := hn (bh r + (if c = Color.black then 1 else 0))
        (by
          simp only [blackCounts, List.mem_map, List.mem_append]
          exact ⟨bh r, Or.inr (rb_bh_mem_counts r), rfl⟩)
      omega
    refine ⟨ihl h1.1 ⟨_, hl⟩, ihr h1.2.1 ⟨_, hr⟩, ?_, h1.2.2⟩
    have e1 := hn (bh l + (if c = Color.black then 1 else 0))
      (by
        simp only [blackCounts, List.mem_map, List.mem_append]
        exact ⟨bh l, Or.inl (rb_bh_mem_counts l), rfl⟩)
    have e2 := hn (bh r + (if c = Color.black then 1 else 0))
      (by
        simp only [blackCounts, List.mem_map, List.mem_append]
        exact ⟨bh r, Or.inr (rb_bh_mem_counts r), rfl⟩)
    omega

theorem rb_isRedBlack_iff (t : Tree Color V) :
    IsRedBlack t ↔ color t = Color.black ∧ Bal t := by
  constructor
  · rintro ⟨h1, h2, h3⟩
    exact ⟨h1, rb_bal_of_counts t h2 h3⟩
  · rintro ⟨h1, h2⟩
    exact ⟨h1, rb_noRedRed_of_bal t h2, bh t, rb_counts_of_bal t h2⟩

theorem rb_insert_spec (st : State Color V) (s : Finset Int) (key : Int) (value : V)
    (hb : Bal st.root_) (hc : color st.root_ = Color.black) (hr : Holds st.root_ s) :
    ∃ st1, insert st key value = some (st1, decide (key ∉ s)) ∧ Bal st1.root_ ∧
      color st1.root_ = Color.black ∧ Holds st1.root_ (Insert.insert key s) := by
  obtain ⟨hk, hbe, haf, hx⟩ := Tree.descend_root key st.root_ hr.1
  have hfill := Tree.descend_fill key st.root_ []
  simp only [insert]
  generalize Tree.descend key st.root_ [] = d at hk hbe haf hx hfill
  obtain ⟨x, path⟩ := d
  simp only [Tree.fill] at hk hbe haf hx hfill
  rcases hx with rfl | ⟨l, v, m, r, rfl⟩
  · simp only [Tree.keys, List.append_nil] at hk
    have hb1 := hb
    rw [← hfill] at hb1
    obtain ⟨_, hpx⟩ := rb_bal_of_fill _ _ hb1
    have hroot : RootBlack path Color.black := by
      rw [rb_rootBlack_iff]
      rw [← hfill, rb_color_fill] at hc
      exact hc
    obtain ⟨u, f1, f2, f3, f4⟩ := rb_insertFix_spec path
      (Tree.node Tree.nil key value Color.red Tree.nil) 0 hpx hroot
      ⟨trivial, trivial, rfl, fun _ => ⟨rfl, rfl⟩⟩ (by simp [bh]) rfl
    have hrep := holds_insert (u := u) hr hk (by rw [f4]; simp [Tree.keys]) hbe haf
    refine ⟨⟨u, st.nodes_ + 1⟩, ?_, f2, f3, hrep.1⟩
    simp only [f1, Option.map_some', hrep.2, not_false_eq_true, decide_True]
  · have hmem : key ∈ s := by
      rw [← hr.2 key, hk]; simp [Tree.keys]
    refine ⟨st, by simp [hmem], hb, hc, ?_⟩
    rw [Finset.insert_eq_of_mem hmem]
    exact hr

theorem rb_erase_spec (st : State Color V) (s : Finset Int) (key : Int)
    (hb : Bal st.root_) (hc : color st.root_ = Color.black) (hr : Holds st.root_ s)
    (hmem : key ∈ s) :
    ∃ l k v c r path, ∃ q : List (Frame Color V) × Tree Color V, ∃ t1, find st key = Ptr.node (Tree.node l k v c r) path ∧
      eraseSplice path l c r = some (q.1, q.2, removedColor l c r) ∧
      eraseFinish (q.1, q.2, removedColor l c r) = some t1 ∧
      erase st key = some (⟨t1, st.nodes_ - 1⟩, 1) ∧ Bal t1 ∧ color t1 = Color.black ∧
      Holds t1 (s.erase key) := by
  obtain ⟨hk, hbe, haf, hx⟩ := Tree.descend_root key st.root_ hr.1
  have hfill := Tree.descend_fill key st.root_ []
  simp only [erase, find]
  generalize Tree.descend key st.root_ [] = d at hk hbe haf hx hfill
  obtain ⟨x, path⟩ := d
  simp only [Tree.fill] at hk hbe haf hx hfill
  rcases hx with rfl | ⟨l, v, m, r, rfl⟩
  · simp only [Tree.keys, List.append_nil] at hk
    exact absurd hmem (holds_absent hr hk hbe haf)
  · have hb1 := hb
    rw [← hfill] at hb1
    obtain ⟨hbx, hpx⟩ := rb_bal_of_fill _ _ hb1
    have hroot : RootBlack path m := by
      rw [rb_rootBlack_iff]
      rw [← hfill, rb_color_fill] at hc
      exact hc
    obtain ⟨u, f1, f2, f3, f4⟩ := rb_eraseNode_spec path l r key v m hbx hpx hroot
    have hrep := holds_erase (u := u) (A := Tree.before path ++ Tree.keys l)
      (B := Tree.keys r ++ Tree.after path) (k := key) hr (by rw [hk]; simp [Tree.keys])
      (by rw [f4]; simp)
    have hsp : ∃ q : List (Frame Color V) × Tree Color V,
        eraseSplice path l m r = some (q.1, q.2, removedColor l m r) := by
      cases l with
      | nil => exact ⟨(path, r), rfl⟩
      | node ll lk lv lc lr =>
        cases r with
        | nil => exact ⟨(path, Tree.node ll lk lv lc lr), rfl⟩
        | node rl rk rv rc rr =>
          obtain ⟨yk, yv, ym, yr, spine, h1, _, _⟩ :=
            Tree.minimum_spec (Tree.node rl rk rv rc rr) [] (by simp)
          refine ⟨(spine ++ ⟨Dir.right, yk, yv, m, Tree.node ll lk lv lc lr⟩ :: path, yr), ?_⟩
          simp only [eraseSplice, removedColor, h1, List.append_nil, rb_color_node]
    obtain ⟨q, hq⟩ := hsp
    have hfin : eraseFinish (q.1, q.2, removedColor l m r) = some u := by
      have := f1
      simp only [eraseNode, hq, Option.some_bind] at this
      exact this
    refine ⟨l, key, v, m, r, path, q, u, rfl, hq, hfin, ?_, f2, f3, hrep.1⟩
    simp only [f1, Option.map_some']

end RB

namespace RB

theorem rb_step_spec (st : State Color V) (s : Finset Int) (op : Op V)
    (hb : Bal st.root_) (hc : color st.root_ = Color.black) (hr : Holds st.root_ s)
    (hp : ErasesPresent [op] s) :
    ∃ st1, step st op = some (st1, (specStep s op).2) ∧ Bal st1.root_ ∧
      color st1.root_ = Color.black ∧ Holds st1.root_ (specStep s op).1 := by
  cases op with
  | insert k v =>
    obtain ⟨st1, h1, h2, h3, h4⟩ := rb_insert_spec st s k v hb hc hr
    exact ⟨st1, by simp [step, h1, specStep], h2, h3, h4⟩
  | erase k =>
    have hmem : k ∈ s := hp.1
    obtain ⟨_, _, _, _, _, _, _, t1, _, _, _, h1, h2, h3, h4⟩ := rb_erase_spec st s k hb hc hr hmem
    exact ⟨⟨t1, st.nodes_ - 1⟩, by simp [step, h1, specStep, hmem], h2, h3, h4⟩

theorem rb_run_spec (ops : List (Op V)) (st : State Color V) (s : Finset Int)
    (hb : Bal st.root_) (hc : color st.root_ = Color.black) (hr : Holds st.root_ s)
    (hp : ErasesPresent ops s) :
    ∃ st1, run ops st = some (st1, (specRun ops s).2) ∧ Bal st1.root_ ∧
      color st1.root_ = Color.black ∧ Holds st1.root_ (specRun ops s).1 := by
  induction ops generalizing st s with
  | nil => exact ⟨st, rfl, hb, hc, hr⟩
  | cons op ops ih =>
    have hp1 : ErasesPresent [op] s ∧ ErasesPresent ops (specStep s op).1 := by
      cases op with
      | insert k v => exact ⟨trivial, hp⟩
      | erase k => exact ⟨⟨hp.1, trivial⟩, hp.2⟩
    obtain ⟨st1, h1, h2, h3, h4⟩ := rb_step_spec st s op hb hc hr hp1.1
    obtain ⟨st2, h5, h6, h7, h8⟩ := ih st1 _ h2 h3 h4 hp1.2
    exact ⟨st2, by simp [run, h1, h5, specRun], h6, h7, h8⟩

theorem rb_erasesPresent_inserts (kvs : List (Int × V)) (s : Finset Int) :
    ErasesPresent (kvs.map (fun p => Op.insert p.1 p.2)) s := by
  induction kvs generalizing s with
  | nil => trivial
  | cons p kvs ih => exact ih _

end RB

/-- C2. Color-balanced tree as a set: every sequence of `insert` calls and of `erase` calls
whose key is in the set at the time of the call, applied to the empty tree, runs to the end,
returns the results the set semantics gives (`true` iff the key was absent; `1` for each such
`erase`), and leaves a tree whose in-order key sequence is strictly increasing and lists
exactly the keys of the set obtained by the same insertions and removals. -/
theorem rb_set_semantics (ops : List (Op V)) (hp : RB.ErasesPresent ops ∅) :
    ∃ st, RB.run ops State.empty = some (st, (specRun ops ∅).2) ∧
      List.Sorted (· < ·) (Tree.keys st.root_) ∧
      ∀ k, k ∈ Tree.keys st.root_ ↔ k ∈ (specRun ops ∅).1 := by
  obtain ⟨st, h1, _, _, h3⟩ := RB.rb_run_spec ops State.empty ∅ trivial rfl holds_nil hp
  exact ⟨st, h1, h3.1, h3.2⟩

/-- Witness of C2: the calls `insert 1`, `insert 2`, `erase 1`. -/
theorem rb_set_semantics_witness :
    RB.ErasesPresent [Op.insert 1 (), Op.insert 2 (), Op.erase 1] ∅ ∧
    ∃ st, RB.run [Op.insert 1 (), Op.insert 2 (), Op.erase 1] State.empty =
        some (st, (specRun [Op.insert 1 (), Op.insert 2 (), Op.erase 1] ∅).2) ∧
      List.Sorted (· < ·) (Tree.keys st.root_) ∧
      ∀ k, k ∈ Tree.keys st.root_ ↔
        k ∈ (specRun [Op.insert 1 (), Op.insert 2 (), Op.erase 1] ∅).1 :=
  ⟨by simp [RB.ErasesPresent],
   rb_set_semantics [Op.insert 1 (), Op.insert 2 (), Op.erase 1] (by simp [RB.ErasesPresent])⟩

/-- C7. Color-balanced tree, insertion: every sequence of `insert` calls on the empty tree runs
to the end, and the resulting tree has a Black root, no Red node with a Red child, and the same
number of Black nodes on every path from the root to a sentinel leaf. -/
theorem rb_insert_redblack (kvs : List (Int × V)) :
    ∃ st rets, RB.run (kvs.map (fun p => Op.insert p.1 p.2)) State.empty = some (st, rets) ∧
      RB.IsRedBlack st.root_ := by
  obtain ⟨st, h1, h2, h3, _⟩ := RB.rb_run_spec (kvs.map (fun p => Op.insert p.1 p.2))
    State.empty ∅ trivial rfl holds_nil (RB.rb_erasesPresent_inserts kvs ∅)
  exact ⟨st, _, h1, (RB.rb_isRedBlack_iff _).2 ⟨h3, h2⟩⟩

/-- C8. Color-balanced tree, deletion: in a search tree with the three red-black invariants,
`erase` of a key present finds its node, returns `1`, and leaves a tree with the three
invariants again; `yOriginalColor` is the color of the node physically removed (the node
found, when it has at most one child) or moved (the minimum of its right subtree, when it has
two), and the tree left is the result of `deleteFix` when that color is Black and the relinked
tree, with no fix-up, otherwise. -/
theorem rb_erase_redblack (st : State Color V) (key : Int)
    (h : RB.IsRedBlack st.root_) (hs : List.Sorted (· < ·) (Tree.keys st.root_))
    (hk : key ∈ Tree.keys st.root_) :
    ∃ l k v c r path p x t1,
      RB.find st key = RB.Ptr.node (Tree.node l k v c r) path ∧
      RB.eraseSplice path l c r = some (p, x, RB.removedColor l c r) ∧
      (if RB.removedColor l c r = Color.black then RB.deleteFix p x
        else some (Tree.fill p x)) = some t1 ∧
      RB.erase st key = some (⟨t1, st.nodes_ - 1⟩, 1) ∧ RB.IsRedBlack t1 := by
  obtain ⟨hc, hb⟩ := (RB.rb_isRedBlack_iff _).1 h
  have hr : Holds st.root_ (Tree.keys st.root_).toFinset := ⟨hs, fun k => by simp⟩
  obtain ⟨l, k, v, c, r, path, q, t1, h1, h2, h3, h4, h5, h6, _⟩ :=
    RB.rb_erase_spec st _ key hb hc hr (by simpa using hk)
  exact ⟨l, k, v, c, r, path, q.1, q.2, t1, h1, h2, h3, h4, (RB.rb_isRedBlack_iff _).2 ⟨h6, h5⟩⟩

/-- Witness of C8: erasing the key of a one-node tree. -/
theorem rb_erase_redblack_witness :
    RB.IsRedBlack (Tree.node Tree.nil 5 () Color.black Tree.nil) ∧
    List.Sorted (· < ·) (Tree.keys (Tree.node Tree.nil 5 () Color.black Tree.nil)) ∧
    (5 : Int) ∈ Tree.keys (Tree.node Tree.nil 5 () Color.black Tree.nil) ∧
    ∃ l k v c r path p x t1,
      RB.find (⟨Tree.node Tree.nil 5 () Color.black Tree.nil, 1⟩ : State Color Unit) 5 =
        RB.Ptr.node (Tree.node l k v c r) path ∧
      RB.eraseSplice path l c r = some (p, x, RB.removedColor l c r) ∧
      (if RB.removedColor l c r = Color.black then RB.deleteFix p x
        else some (Tree.fill p x)) = some t1 ∧
      RB.erase (⟨Tree.node Tree.nil 5 () Color.black Tree.nil, 1⟩ : State Color Unit) 5 =
        some (⟨t1, (⟨Tree.node Tree.nil 5 () Color.black Tree.nil, 1⟩ : State Color Unit).nodes_ - 1⟩, 1) ∧
      RB.IsRedBlack t1 :=
  ⟨by simp [RB.IsRedBlack, RB.color, RB.NoRedRed, RB.blackCounts],
   by simp [Tree.keys],
   by simp [Tree.keys],
   rb_erase_redblack ⟨Tree.node Tree.nil 5 () Color.black Tree.nil, 1⟩ 5
     (by simp [RB.IsRedBlack, RB.color, RB.NoRedRed, RB.blackCounts])
     (by simp [Tree.keys]) (by simp [Tree.keys])⟩

/-! ### Stored values -/

namespace Tree

theorem keys_eq_map (t : Tree M V) : keys t = (entries t).map Prod.fst := by
  induction t with
  | nil => rfl
  | node l k v m r ihl ihr => simp [keys, entries, ihl, ihr]

theorem key_of_entry {t : Tree M V} {k : Int} {v : V} (h : (k, v) ∈ entries t) :
    k ∈ keys t := by
  rw [keys_eq_map]
  exact List.mem_map.2 ⟨(k, v), h, rfl⟩

theorem entries_frame_congr (f : Frame M V) {t u : Tree M V} (h : entries t = entries u) :
    entries (f.fill t) = entries (f.fill u) := by
  obtain ⟨d, k, v, m, sib⟩ := f
  cases d <;> simp [Frame.fill, entries, h]

theorem entries_fill_congr (p : List (Frame M V)) {t u : Tree M V}
    (h : entries t = entries u) : entries (fill p t) = entries (fill p u) := by
  induction p generalizing t u with
  | nil => exact h
  | cons f up ih => exact ih (entries_frame_congr f h)

theorem mem_entries_frame (f : Frame M V) {t : Tree M V} {e : Int × V} (h : e ∈ entries t) :
    e ∈ entries (f.fill t) := by
  obtain ⟨d, k, v, m, sib⟩ := f
  cases d <;> simp [Frame.fill, entries, h]

theorem mem_entries_fill (p : List (Frame M V)) {t : Tree M V} {e : Int × V}
    (h : e ∈ entries t) : e ∈ entries (fill p t) := by
  induction p generalizing t with
  | nil => exact h
  | cons f up ih => exact ih (mem_entries_frame f h)

/-- The descent reaches the node that stores the pair `(key, v)`. -/
theorem descend_of_entry (key : Int) (v : V) (t : Tree M V) (p : List (Frame M V))
    (hs : Inc (keys t)) (h : (key, v) ∈ entries t) :
    ∃ l m r, (descend key t p).1 = node l key v m r := by
  induction t generalizing p with
  | nil => simp [entries] at h
  | node l k w m r ihl ihr =>
    obtain ⟨hl, hr, hlt, hgt⟩ := inc_parts hs
    simp only [entries, List.mem_append, List.mem_cons, Prod.mk.injEq] at h
    simp only [descend]
    rcases h with h | ⟨rfl, rfl⟩ | h
    · have := hlt key (key_of_entry h)
      rw [if_pos this]
      exact ihl _ hl h
    · rw [if_neg (lt_irrefl _), if_neg (lt_irrefl _)]
      exact ⟨l, m, r, rfl⟩
    · have := hgt key (key_of_entry h)
      rw [if_neg (not_lt.2 (le_of_lt this)), if_pos this]
      exact ihr _ hr h

/-- The descent ends at the absent node exactly for the keys that do not occur. -/
theorem descend_absent (key : Int) (t : Tree M V) (p : List (Frame M V))
    (h : key ∉ keys t) : (descend key t p).1 = nil := by
  induction t generalizing p with
  | nil => rfl
  | node l k w m r ihl ihr =>
    simp only [keys, List.mem_append, List.mem_cons, not_or] at h
    simp only [descend]
    by_cases h1 : key < k
    · rw [if_pos h1]; exact ihl _ h.1
    · rw [if_neg h1]
      by_cases h2 : k < key
      · rw [if_pos h2]; exact ihr _ h.2.2
      · exact absurd (le_antisymm (not_lt.1 h2) (not_lt.1 h1)) h.2.1

/-- In a search tree the descent reaches a node holding the key when the key occurs. -/
theorem descend_present (key : Int) (t : Tree M V) (hs : Inc (keys t)) (h : key ∈ keys t) :
    ∃ l v m r, (descend key t []).1 = node l key v m r := by
  obtain ⟨hk, hbe, haf, hx⟩ := descend_root key t hs
  rcases hx with hx | hx
  · rw [hx] at hk
    simp only [keys, List.append_nil] at hk
    rw [hk] at h
    exact absurd h (absent_of_bounds hbe haf)
  · exact hx

end Tree

namespace AVL

theorem avl_entries_rotateLeft {t u : Tree Int V} (h : rotateLeft t = some u) :
    Tree.entries u = Tree.entries t := by
  rcases t with _ | ⟨l, k, v, b, _ | ⟨rl, rk, rv, rb, rr⟩⟩ <;> simp only [rotateLeft] at h
  · exact absurd h (by simp)
  · exact absurd h (by simp)
  · cases h; simp [Tree.entries]

theorem avl_entries_rotateRight {t u : Tree Int V} (h : rotateRight t = some u) :
    Tree.entries u = Tree.entries t := by
  rcases t with _ | ⟨_ | ⟨ll, lk, lv, lb, lr⟩, k, v, b, r⟩ <;> simp only [rotateRight] at h
  · exact absurd h (by simp)
  · exact absurd h (by simp)
  · cases h; simp [Tree.entries]

theorem avl_entries_rotateLeftRight {t u : Tree Int V} (h : rotateLeftRight t = some u) :
    Tree.entries u = Tree.entries t := by
  rcases t with _ | ⟨_ | ⟨ll, lk, lv, lb, _ | ⟨lrl, lrk, lrv, lrb, lrr⟩⟩, k, v, b, r⟩ <;>
    simp only [rotateLeftRight] at h
  · exact absurd h (by simp)
  · exact absurd h (by simp)
  · exact absurd h (by simp)
  · split_ifs at h <;> cases h <;> simp [Tree.entries]

theorem avl_entries_rotateRightLeft {t u : Tree Int V} (h : rotateRightLeft t = some u) :
    Tree.entries u = Tree.entries t := by
  rcases t with _ | ⟨l, k, v, b, _ | ⟨_ | ⟨rll, rlk, rlv, rlb, rlr⟩, rk, rv, rb, rr⟩⟩ <;>
    simp only [rotateRightLeft] at h
  · exact absurd h (by simp)
  · exact absurd h (by simp)
  · exact absurd h (by simp)
  · split_ifs at h <;> cases h <;> simp [Tree.entries]

theorem avl_entries_insertBalanceStep {t n : Tree Int V} {d : Int} {b : Bool}
    (h : insertBalanceStep t d = some (n, b)) : Tree.entries n = Tree.entries t := by
  cases t with
  | nil => simp [insertBalanceStep] at h
  | node l k v bal r =>
    have e : ∀ c : Int, Tree.entries (Tree.node l k v c r) = Tree.entries (Tree.node l k v bal r) :=
      fun _ => rfl
    simp only [insertBalanceStep] at h
    split_ifs at h with h1 h2 h3
    · cases h; rfl
    · cases l with
      | nil => simp at h
      | node ll lk lv lb lr =>
        simp only at h
        split_ifs at h
        · obtain ⟨a, ha, hb⟩ := Option.map_eq_some'.1 h
          cases hb
          rw [avl_entries_rotateRight ha]; rfl
        · obtain ⟨a, ha, hb⟩ := Option.map_eq_some'.1 h
          cases hb
          rw [avl_entries_rotateLeftRight ha]; rfl
    · cases r with
      | nil => simp at h
      | node rl rk rv rb rr =>
        simp only at h
        split_ifs at h
        · obtain ⟨a, ha, hb⟩ := Option.map_eq_some'.1 h
          cases hb
          rw [avl_entries_rotateLeft ha]; rfl
        · obtain ⟨a, ha, hb⟩ := Option.map_eq_some'.1 h
          cases hb
          rw [avl_entries_rotateRightLeft ha]; rfl
    · cases h; rfl

theorem avl_entries_insertBalance (up : List (Frame Int V)) (t : Tree Int V) (d : Int)
    {u : Tree Int V} (h : insertBalance up t d = some u) :
    Tree.entries u = Tree.entries (Tree.fill up t) := by
  induction up generalizing t d with
  | nil =>
    rw [insertBalance] at h
    cases hs : insertBalanceStep t d with
    | none => rw [hs] at h; simp at h
    | some q =>
      obtain ⟨n, b⟩ := q
      rw [hs] at h
      cases b <;> simp only [Option.some.injEq] at h <;> subst h <;>
        exact avl_entries_insertBalanceStep hs
  | cons g up1 ih =>
    rw [insertBalance] at h
    cases hs : insertBalanceStep t d with
    | none => rw [hs] at h; simp at h
    | some q =>
      obtain ⟨n, b⟩ := q
      rw [hs] at h
      cases b
      · simp only [Option.some.injEq] at h
        subst h
        exact Tree.entries_fill_congr _ (avl_entries_insertBalanceStep hs)
      · simp only at h
        rw [ih _ _ h]
        exact Tree.entries_fill_congr up1
          (Tree.entries_frame_congr g (avl_entries_insertBalanceStep hs))

/-- After a successful `insert` the tree stores the pair inserted. -/
theorem avl_insert_entry (st st1 : State Int V) (key : Int) (value : V)
    (h : insert st key value = some (st1, true)) : (key, value) ∈ Tree.entries st1.root_ := by
  simp only [insert] at h
  generalize Tree.descend key st.root_ [] = d at h
  obtain ⟨x, path⟩ := d
  cases x with
  | node l k v m r => simp at h
  | nil =>
    cases path with
    | nil =>
      simp only [Option.some.injEq, Prod.mk.injEq, and_true] at h
      subst h
      simp [Tree.entries]
    | cons f up =>
      simp only at h
      obtain ⟨a, ha, hb⟩ := Option.map_eq_some'.1 h
      cases hb
      simp only
      rw [avl_entries_insertBalance _ _ _ ha]
      exact Tree.mem_entries_fill up (Tree.mem_entries_frame f (by simp [Tree.entries]))

end AVL

namespace RB

theorem rb_entries_blacken (t : Tree Color V) : Tree.entries (blacken t) = Tree.entries t := by
  cases t <;> rfl

theorem rb_entries_rotateLeft {t u : Tree Color V} (h : rotateLeft t = some u) :
    Tree.entries u = Tree.entries t := by
  rcases t with _ | ⟨l, k, v, b, _ | ⟨rl, rk, rv, rb, rr⟩⟩ <;> simp only [rotateLeft] at h
  · exact absurd h (by simp)
  · exact absurd h (by simp)
  · cases h; simp [Tree.entries]

theorem rb_entries_rotateRight {t u : Tree Color V} (h : rotateRight t = some u) :
    Tree.entries u = Tree.entries t := by
  rcases t with _ | ⟨_ | ⟨ll, lk, lv, lb, lr⟩, k, v, b, r⟩ <;> simp only [rotateRight] at h
  · exact absurd h (by simp)
  · exact absurd h (by simp)
  · cases h; simp [Tree.entries]

theorem rb_entries_insertFixLeft {xdir : Dir} {t u : Tree Color V}
    (h : insertFixLeft xdir t = some u) : Tree.entries u = Tree.entries t := by
  cases t with
  | nil => simp [insertFixLeft] at h
  | node p gk gv gc un =>
    simp only [insertFixLeft] at h
    obtain ⟨p1, hp1, h2⟩ := Option.bind_eq_some.1 h
    have e1 : Tree.entries p1 = Tree.entries p := by
      cases xdir
      · simp only [Option.some.injEq] at hp1; rw [hp1]
      · exact rb_entries_rotateLeft hp1
    rw [rb_entries_rotateRight h2]
    simp [Tree.entries, rb_entries_blacken, e1]

theorem rb_entries_insertFixRight {xdir : Dir} {t u : Tree Color V}
    (h : insertFixRight xdir t = some u) : Tree.entries u = Tree.entries t := by
  cases t with
  | nil => simp [insertFixRight] at h
  | node un gk gv gc p =>
    simp only [insertFixRight] at h
    obtain ⟨p1, hp1, h2⟩ := Option.bind_eq_some.1 h
    have e1 : Tree.entries p1 = Tree.entries p := by
      cases xdir
      · exact rb_entries_rotateRight hp1
      · simp only [Option.some.injEq] at hp1; rw [hp1]
    rw [rb_entries_rotateLeft h2]
    simp [Tree.entries, rb_entries_blacken, e1]

theorem rb_entries_recolor (f : Frame Color V) (c : Color) (s t : Tree Color V)
    (hs : Tree.entries s = Tree.entries f.sib) :
    Tree.entries (Frame.fill ⟨f.dir, f.key, f.value, c, s⟩ t) = Tree.entries (f.fill t) := by
  obtain ⟨d, k, v, m, sib⟩ := f
  cases d <;> simp [Frame.fill, Tree.entries] <;> exact hs

theorem rb_entries_insertFix_two (path : List (Frame Color V)) :
    (∀ (t u : Tree Color V), insertFix path t = some u →
      Tree.entries u = Tree.entries (Tree.fill path t)) ∧
    (∀ (f : Frame Color V) (t u : Tree Color V), insertFix (f :: path) t = some u →
      Tree.entries u = Tree.entries (Tree.fill (f :: path) t)) := by
  induction path with
  | nil =>
    constructor
    · intro t u h
      simp only [insertFix, Option.some.injEq] at h
      subst h
      exact rb_entries_blacken t
    · intro f t u h
      simp only [insertFix] at h
      split_ifs at h
      simp only [Option.some.injEq] at h
      subst h
      exact rb_entries_blacken _
  | cons g up ih =>
    refine ⟨ih.2 g, ?_⟩
    intro f t u h
    simp only [insertFix] at h
    split_ifs at h with h1 h2
    · rw [ih.1 _ _ h]
      simp only [Tree.fill]
      apply Tree.entries_fill_congr
      rw [rb_entries_recolor g Color.red (blacken g.sib) _ (rb_entries_blacken _)]
      apply Tree.entries_frame_congr
      exact rb_entries_recolor f Color.black f.sib t rfl
    · obtain ⟨n, hn, hu⟩ := Option.map_eq_some'.1 h
      subst hu
      rw [rb_entries_blacken]
      simp only [Tree.fill]
      apply Tree.entries_fill_congr
      cases hd : g.dir <;> rw [hd] at hn
      · exact rb_entries_insertFixLeft hn
      · exact rb_entries_insertFixRight hn
    · simp only [Option.some.injEq] at h
      subst h
      exact rb_entries_blacken _

/-- After a successful `insert` the tree stores the pair inserted. -/
theorem rb_insert_entry (st st1 : State Color V) (key : Int) (value : V)
    (h : insert st key value = some (st1, true)) : (key, value) ∈ Tree.entries st1.root_ := by
  simp only [insert] at h
  generalize Tree.descend key st.root_ [] = d at h
  obtain ⟨x, path⟩ := d
  cases x with
  | node l k v m r => simp at h
  | nil =>
    simp only at h
    obtain ⟨a, ha, hb⟩ := Option.map_eq_some'.1 h
    cases hb
    simp only
    rw [(rb_entries_insertFix_two path).1 _ _ ha]
    exact Tree.mem_entries_fill path (by simp [Tree.entries])

end RB

namespace AA

theorem aa_entries_skew (t : Tree Int V) : Tree.entries (skew t) = Tree.entries t := by
  rcases t with _ | ⟨_ | ⟨ll, lk, lv, llv, lr⟩, k, v, lv1, r⟩
  · rfl
  · rfl
  · simp only [skew]
    split_ifs <;> simp [Tree.entries]

theorem aa_entries_split (t : Tree Int V) : Tree.entries (split t) = Tree.entries t := by
  rcases t with _ | ⟨l, k, v, lv, _ | ⟨rl, rk, rv, rlv, _ | ⟨rrl, rrk, rrv, rrlv, rrr⟩⟩⟩
  · rfl
  · rfl
  · rfl
  · simp only [split]
    split_ifs <;> simp [Tree.entries]

theorem aa_insertNode_entry (key : Int) (value : V) (t u : Tree Int V)
    (h : insertNode key value t = some u) : (key, value) ∈ Tree.entries u := by
  induction t generalizing u with
  | nil => simp [insertNode] at h
  | node l k v lv r ihl ihr =>
    rw [insertNode.eq_def] at h
    simp only at h
    split_ifs at h
    · cases l with
      | nil =>
        simp only [Option.some.injEq] at h
        subst h
        simp [aa_entries_split, aa_entries_skew, Tree.entries]
      | node ll lk lvv llv lr =>
        simp only at h
        obtain ⟨l1, hl1, hu⟩ := Option.map_eq_some'.1 h
        subst hu
        have := ihl l1 hl1
        simp [aa_entries_split, aa_entries_skew, Tree.entries, this]
    · cases r with
      | nil =>
        simp only [Option.some.injEq] at h
        subst h
        simp [aa_entries_split, aa_entries_skew, Tree.entries]
      | node rl rk rvv rlv rr =>
        simp only at h
        obtain ⟨r1, hr1, hu⟩ := Option.map_eq_some'.1 h
        subst hu
        have := ihr r1 hr1
        simp [aa_entries_split, aa_entries_skew, Tree.entries, this]

/-- After a successful `insert` the tree stores the pair inserted. -/
theorem aa_insert_entry (st st1 : State Int V) (key : Int) (value : V)
    (h : insert st key value = some (st1, true)) : (key, value) ∈ Tree.entries st1.root_ := by
  simp only [insert] at h
  cases hf : find st key with
  | node l k v m r => rw [hf] at h; simp at h
  | nil =>
    rw [hf] at h
    cases hroot : st.root_ with
    | nil =>
      rw [hroot] at h
      simp only [Option.some.injEq, Prod.mk.injEq, and_true] at h
      subst h
      simp [Tree.entries]
    | node l k v m r =>
      rw [hroot] at h
      simp only at h
      obtain ⟨a, ha, hb⟩ := Option.map_eq_some'.1 h
      cases hb
      exact aa_insertNode_entry key value _ a ha

end AA

namespace BST

/-- After a successful `insert` the tree stores the pair inserted. -/
theorem bst_insert_entry (st : State Unit V) (key : Int) (value : V)
    (h : (insert st key value).2 = true) :
    (key, value) ∈ Tree.entries (insert st key value).1.root_ := by
  simp only [insert] at h ⊢
  generalize Tree.descend key st.root_ [] = d at h ⊢
  obtain ⟨x, path⟩ := d
  cases x with
  | node l k v m r => simp at h
  | nil => exact Tree.mem_entries_fill path (by simp [Tree.entries])

end BST

/-! ### Reachable states -/

theorem holds_self {t : Tree M V} (h : Inc (Tree.keys t)) : Holds t (Tree.keys t).toFinset :=
  ⟨h, fun k => by simp⟩

theorem holds_card {t : Tree M V} {s : Finset Int} (h : Holds t s) : Tree.size t = s.card := by
  rw [← Tree.keys_length]
  have hn : (Tree.keys t).Nodup := h.1.imp (fun h => ne_of_lt h)
  rw [← List.toFinset_card_of_nodup hn]
  congr 1
  ext k
  simp [h.2 k]

theorem bst_reachable_inc (st : State Unit V) (h : BST.Reachable st) :
    Inc (Tree.keys st.root_) := by
  obtain ⟨ops, rfl⟩ := h
  exact (BST.bst_run_holds ops State.empty ∅ holds_nil).1.1

theorem avl_reachable_inv (st : State Int V) (h : AVL.Reachable st) :
    AVL.Balanced st.root_ ∧ Inc (Tree.keys st.root_) := by
  obtain ⟨ops, rets, h⟩ := h
  obtain ⟨st1, h1, h2, h3⟩ := AVL.avl_run_spec ops State.empty ∅ trivial holds_nil
  rw [h1] at h
  cases h
  exact ⟨h2, h3.1⟩

theorem aa_reachable_inv (st : State Int V) (h : AA.Reachable st) :
    AA.Inv st.root_ ∧ Inc (Tree.keys st.root_) := by
  obtain ⟨ops, rets, h⟩ := h
  obtain ⟨st1, h1, h2, h3⟩ := AA.aa_run_spec ops State.empty ∅ trivial holds_nil
  rw [h1] at h
  cases h
  exact ⟨h2, h3.1⟩

namespace RB

theorem rb_find_absent (st : State Color V) (key : Int) (h : key ∉ Tree.keys st.root_) :
    find st key = (if key < -1 then Ptr.null else if -1 < key then Ptr.null else Ptr.sentinel) := by
  have := Tree.descend_absent key st.root_ [] h
  simp only [find]
  generalize Tree.descend key st.root_ [] = d at this
  obtain ⟨x, path⟩ := d
  simp only at this
  subst this
  rfl

/-- An `erase` of an absent key that returns leaves the state as it was and gives `0`. -/
theorem rb_erase_absent (st st1 : State Color V) (key : Int) (n : Nat)
    (h : key ∉ Tree.keys st.root_) (he : erase st key = some (st1, n)) : st1 = st ∧ n = 0 := by
  simp only [erase, rb_find_absent st key h] at he
  split_ifs at he
  simp only [Option.some.injEq, Prod.mk.injEq] at he
  exact ⟨he.1.symm, he.2.symm⟩

theorem rb_step_any (st st1 : State Color V) (s : Finset Int) (op : Op V) (r : Ret)
    (hb : Bal st.root_) (hc : color st.root_ = Color.black) (hr : Holds st.root_ s)
    (h : step st op = some (st1, r)) :
    r = (specStep s op).2 ∧ Bal st1.root_ ∧ color st1.root_ = Color.black ∧
      Holds st1.root_ (specStep s op).1 := by
  by_cases hp : ErasesPresent [op] s
  · obtain ⟨st2, h1, h2, h3, h4⟩ := rb_step_spec st s op hb hc hr hp
    rw [h1] at h
    cases h
    exact ⟨rfl, h2, h3, h4⟩
  · cases op with
    | insert k v => exact absurd trivial hp
    | erase k =>
      have hk : k ∉ s := fun hk => hp ⟨hk, trivial⟩
      simp only [step] at h
      obtain ⟨q, hq, e⟩ := Option.map_eq_some'.1 h
      obtain ⟨q1, q2⟩ := q
      cases e
      obtain ⟨rfl, rfl⟩ := rb_erase_absent st q1 k q2 (fun hm => hk ((hr.2 k).1 hm)) hq
      refine ⟨by simp [specStep, hk], hb, hc, ?_⟩
      simp only [specStep, Finset.erase_eq_of_not_mem hk]
      exact hr

theorem rb_run_any (ops : List (Op V)) (st st1 : State Color V) (s : Finset Int)
    (rets : List Ret)
    (hb : Bal st.root_) (hc : color st.root_ = Color.black) (hr : Holds st.root_ s)
    (h : run ops st = some (st1, rets)) :
    rets = (specRun ops s).2 ∧ Bal st1.root_ ∧ color st1.root_ = Color.black ∧
      Holds st1.root_ (specRun ops s).1 := by
  induction ops generalizing st s rets with
  | nil =>
    simp only [run, Option.some.injEq, Prod.mk.injEq] at h
    obtain ⟨rfl, rfl⟩ := h
    exact ⟨rfl, hb, hc, hr⟩
  | cons op ops ih =>
    simp only [run] at h
    obtain ⟨p, hp, h2⟩ := Option.bind_eq_some.1 h
    obtain ⟨q, hq, e⟩ := Option.map_eq_some'.1 h2
    obtain ⟨p1, p2⟩ := p
    obtain ⟨q1, q2⟩ := q
    simp only [Prod.mk.injEq] at e
    obtain ⟨rfl, rfl⟩ := e
    obtain ⟨e1, h3, h4, h5⟩ := rb_step_any st p1 s op p2 hb hc hr hp
    obtain ⟨e2, h6, h7, h8⟩ := ih p1 _ q2 h3 h4 h5 hq
    exact ⟨by simp [specRun, e1, e2], h6, h7, h8⟩

end RB

theorem rb_reachable_inv (st : State Color V) (h : RB.Reachable st) :
    RB.Bal st.root_ ∧ RB.color st.root_ = Color.black ∧ Inc (Tree.keys st.root_) := by
  obtain ⟨ops, rets, h⟩ := h
  obtain ⟨_, h2, h3, h4⟩ := RB.rb_run_any ops State.empty st ∅ rets trivial rfl holds_nil h
  exact ⟨h2, h3, h4.1⟩

theorem bst_round_trip (st : State Unit V) (k : Int) (v : V) (hr : BST.Reachable st)
    (hk : k ∉ Tree.keys st.root_) :
    (BST.insert st k v).2 = true ∧
    (∃ l m r, BST.find (BST.insert st k v).1 k = Tree.node l k v m r) ∧
    (BST.erase (BST.insert st k v).1 k).2 = 1 ∧
    BST.find (BST.erase (BST.insert st k v).1 k).1 k = Tree.nil := by
  have hs := holds_self (bst_reachable_inc st hr)
  have hks : k ∉ (Tree.keys st.root_).toFinset := by simpa using hk
  have h1 := BST.bst_step_holds st _ (Op.insert k v) hs
  simp only [BST.step, specStep, hks, not_false_eq_true, decide_True, Ret.inserted.injEq] at h1
  have h2 := BST.bst_step_holds (BST.insert st k v).1 _ (Op.erase k) h1.1
  simp only [BST.step, specStep, Finset.mem_insert, true_or, if_true, Ret.erased.injEq] at h2
  refine ⟨h1.2, ?_, h2.2, ?_⟩
  · exact Tree.descend_of_entry k v _ [] h1.1.1 (BST.bst_insert_entry st k v h1.2)
  · exact Tree.descend_absent k _ [] (fun hm => by simpa using (h2.1.2 k).1 hm)

theorem avl_round_trip (st : State Int V) (k : Int) (v : V) (hr : AVL.Reachable st)
    (hk : k ∉ Tree.keys st.root_) :
    ∃ st1 st2, AVL.insert st k v = some (st1, true) ∧
      (∃ l m r, AVL.find st1 k = Tree.node l k v m r) ∧
      AVL.erase st1 k = some (st2, 1) ∧ AVL.find st2 k = Tree.nil := by
  obtain ⟨hb, hi⟩ := avl_reachable_inv st hr
  have hks : k ∉ (Tree.keys st.root_).toFinset := by simpa using hk
  obtain ⟨st1, h1, h2, h3⟩ := AVL.avl_insert_spec st _ k v hb (holds_self hi)
  simp only [hks, not_false_eq_true, decide_True] at h1
  obtain ⟨st2, h4, _, h6⟩ := AVL.avl_erase_spec st1 _ k h2 h3
  simp only [Finset.mem_insert, true_or, if_true] at h4
  refine ⟨st1, st2, h1, ?_, h4, ?_⟩
  · exact Tree.descend_of_entry k v _ [] h3.1 (AVL.avl_insert_entry st st1 k v h1)
  · exact Tree.descend_absent k _ [] (fun hm => by simpa using (h6.2 k).1 hm)

theorem aa_round_trip (st : State Int V) (k : Int) (v : V) (hr : AA.Reachable st)
    (hk : k ∉ Tree.keys st.root_) :
    ∃ st1 st2, AA.insert st k v = some (st1, true) ∧
      (∃ l m r, AA.find st1 k = Tree.node l k v m r) ∧
      AA.erase st1 k = some (st2, 1) ∧ AA.find st2 k = Tree.nil := by
  obtain ⟨hb, hi⟩ := aa_reachable_inv st hr
  have hks : k ∉ (Tree.keys st.root_).toFinset := by simpa using hk
  obtain ⟨st1, h1, h2, h3⟩ := AA.aa_insert_spec st _ k v hb (holds_self hi)
  simp only [hks, not_false_eq_true, decide_True] at h1
  obtain ⟨st2, h4, _, h6⟩ := AA.aa_erase_spec st1 _ k h2 h3
  simp only [Finset.mem_insert, true_or, if_true] at h4
  refine ⟨st1, st2, h1, ?_, h4, ?_⟩
  · exact Tree.descend_of_entry k v _ [] h3.1 (AA.aa_insert_entry st st1 k v h1)
  · exact Tree.descend_absent k _ [] (fun hm => by simpa using (h6.2 k).1 hm)

theorem rb_round_trip (st : State Color V) (k : Int) (v : V) (hr : RB.Reachable st)
    (hk : k ∉ Tree.keys st.root_) :
    ∃ st1 st2, RB.insert st k v = some (st1, true) ∧
      (∃ l c r path, RB.find st1 k = RB.Ptr.node (Tree.node l k v c r) path) ∧
      RB.erase st1 k = some (st2, 1) ∧
      (RB.find st2 k = RB.Ptr.null ∨ RB.find st2 k = RB.Ptr.sentinel) := by
  obtain ⟨hb, hc, hi⟩ := rb_reachable_inv st hr
  have hks : k ∉ (Tree.keys st.root_).toFinset := by simpa using hk
  obtain ⟨st1, h1, h2, h2c, h3⟩ := RB.rb_insert_spec st _ k v hb hc (holds_self hi)
  simp only [hks, not_false_eq_true, decide_True] at h1
  obtain ⟨_, _, _, _, _, _, _, t1, _, _, _, h4, _, _, h6⟩ :=
    RB.rb_erase_spec st1 _ k h2 h2c h3 (Finset.mem_insert_self _ _)
  refine ⟨st1, _, h1, ?_, h4, ?_⟩
  · obtain ⟨l, m, r, e⟩ :=
      Tree.descend_of_entry k v _ [] h3.1 (RB.rb_insert_entry st st1 k v h1)
    simp only [RB.find]
    generalize Tree.descend k st1.root_ [] = d at e
    obtain ⟨x, path⟩ := d
    simp only at e
    subst e
    exact ⟨l, m, r, path, rfl⟩
  · have hab : k ∉ Tree.keys t1 := fun hm => by simpa using (h6.2 k).1 hm
    rw [RB.rb_find_absent ⟨t1, st1.nodes_ - 1⟩ k hab]
    split_ifs
    · exact Or.inl rfl
    · exact Or.inl rfl
    · exact Or.inr rfl

/-- C11. Round trip in the four variants: in every state reached from the empty tree by
`insert` and `erase`, for every key `k` that is not in the tree and every value `v`,
`insert(k, v)` returns `true`, the `find(k)` that follows returns a node with key `k` and
value `v`, the `erase(k)` that follows returns `1`, and the `find(k)` after it returns no node
of the tree (`nullptr`; in the color-balanced tree `nullptr` or the sentinel). -/
theorem round_trip_all :
    (∀ (st : State Unit V) (k : Int) (v : V), BST.Reachable st → k ∉ Tree.keys st.root_ →
      (BST.insert st k v).2 = true ∧
      (∃ l m r, BST.find (BST.insert st k v).1 k = Tree.node l k v m r) ∧
      (BST.erase (BST.insert st k v).1 k).2 = 1 ∧
      BST.find (BST.erase (BST.insert st k v).1 k).1 k = Tree.nil) ∧
    (∀ (st : State Int V) (k : Int) (v : V), AVL.Reachable st → k ∉ Tree.keys st.root_ →
      ∃ st1 st2, AVL.insert st k v = some (st1, true) ∧
        (∃ l m r, AVL.find st1 k = Tree.node l k v m r) ∧
        AVL.erase st1 k = some (st2, 1) ∧ AVL.find st2 k = Tree.nil) ∧
    (∀ (st : State Int V) (k : Int) (v : V), AA.Reachable st → k ∉ Tree.keys st.root_ →
      ∃ st1 st2, AA.insert st k v = some (st1, true) ∧
        (∃ l m r, AA.find st1 k = Tree.node l k v m r) ∧
        AA.erase st1 k = some (st2, 1) ∧ AA.find st2 k = Tree.nil) ∧
    (∀ (st : State Color V) (k : Int) (v : V), RB.Reachable st → k ∉ Tree.keys st.root_ →
      ∃ st1 st2, RB.insert st k v = some (st1, true) ∧
        (∃ l c r path, RB.find st1 k = RB.Ptr.node (Tree.node l k v c r) path) ∧
        RB.erase st1 k = some (st2, 1) ∧
        (RB.find st2 k = RB.Ptr.null ∨ RB.find st2 k = RB.Ptr.sentinel)) :=
  ⟨fun st k v hr hk => bst_round_trip st k v hr hk,
   fun st k v hr hk => avl_round_trip st k v hr hk,
   fun st k v hr hk => aa_round_trip st k v hr hk,
   fun st k v hr hk => rb_round_trip st k v hr hk⟩

/-- Witness of C11: the key `1` with value `7` in the trees that hold the key `2`. -/
theorem round_trip_all_witness :
    ((BST.insert (⟨Tree.node Tree.nil 2 5 () Tree.nil, 1⟩ : State Unit Nat) 1 7).2 = true ∧
      (∃ l m r, BST.find (BST.insert (⟨Tree.node Tree.nil 2 5 () Tree.nil, 1⟩ : State Unit Nat)
        1 7).1 1 = Tree.node l 1 7 m r) ∧
      (BST.erase (BST.insert (⟨Tree.node Tree.nil 2 5 () Tree.nil, 1⟩ : State Unit Nat)
        1 7).1 1).2 = 1 ∧
      BST.find (BST.erase (BST.insert (⟨Tree.node Tree.nil 2 5 () Tree.nil, 1⟩ : State Unit Nat)
        1 7).1 1).1 1 = Tree.nil) ∧
    (∃ st1 st2, AVL.insert (⟨Tree.node Tree.nil 2 5 0 Tree.nil, 1⟩ : State Int Nat) 1 7 =
        some (st1, true) ∧
      (∃ l m r, AVL.find st1 1 = Tree.node l 1 7 m r) ∧
      AVL.erase st1 1 = some (st2, 1) ∧ AVL.find st2 1 = Tree.nil) ∧
    (∃ st1 st2, AA.insert (⟨Tree.node Tree.nil 2 5 1 Tree.nil, 1⟩ : State Int Nat) 1 7 =
        some (st1, true) ∧
      (∃ l m r, AA.find st1 1 = Tree.node l 1 7 m r) ∧
      AA.erase st1 1 = some (st2, 1) ∧ AA.find st2 1 = Tree.nil) ∧
    (∃ st1 st2, RB.insert (⟨Tree.node Tree.nil 2 5 Color.black Tree.nil, 1⟩ : State Color Nat)
        1 7 = some (st1, true) ∧
      (∃ l c r path, RB.find st1 1 = RB.Ptr.node (Tree.node l 1 7 c r) path) ∧
      RB.erase st1 1 = some (st2, 1) ∧
      (RB.find st2 1 = RB.Ptr.null ∨ RB.find st2 1 = RB.Ptr.sentinel)) :=
  ⟨round_trip_all.1 ⟨Tree.node Tree.nil 2 5 () Tree.nil, 1⟩ 1 7 ⟨[Op.insert 2 5], rfl⟩
      (by decide),
   round_trip_all.2.1 ⟨Tree.node Tree.nil 2 5 0 Tree.nil, 1⟩ 1 7
      ⟨[Op.insert 2 5], [Ret.inserted true], rfl⟩ (by decide),
   round_trip_all.2.2.1 ⟨Tree.node Tree.nil 2 5 1 Tree.nil, 1⟩ 1 7
      ⟨[Op.insert 2 5], [Ret.inserted true], rfl⟩ (by decide),
   round_trip_all.2.2.2 ⟨Tree.node Tree.nil 2 5 Color.black Tree.nil, 1⟩ 1 7
      ⟨[Op.insert 2 5], [Ret.inserted true], rfl⟩ (by decide)⟩

/-- C12. Height-balanced tree, values after `erase`: after `insert(1, 10)`, `insert(2, 20)` and
`erase(1)` the tree is one node with key `2` and the value `10` that was inserted with key `1`:
`replace` copies `balance_`, `key_` and the child links of the only child into the node found
and leaves the value of the node found in place, so `find(2)` returns a node holding `10`, not
the value `20` inserted with key `2`. -/
theorem avl_erase_keeps_erased_value :
    AVL.run [Op.insert 1 10, Op.insert 2 20, Op.erase 1] (State.empty : State Int Nat) =
      some (⟨Tree.node Tree.nil 2 10 0 Tree.nil, 1⟩,
        [Ret.inserted true, Ret.inserted true, Ret.erased 1]) ∧
    AVL.find (⟨Tree.node Tree.nil 2 10 0 Tree.nil, 1⟩ : State Int Nat) 2 =
      Tree.node Tree.nil 2 10 0 Tree.nil ∧
    ∀ l m r, AVL.find (⟨Tree.node Tree.nil 2 10 0 Tree.nil, 1⟩ : State Int Nat) 2 ≠
      Tree.node l 2 20 m r :=
  ⟨rfl, rfl, fun l m r h => by simp [AVL.find, Tree.descend] at h⟩

/-- C13. Level-balanced tree, values after `erase`: after `insert(1, 10)`, `insert(2, 20)` and
`erase(1)` the tree is one node with key `2` and the value `10` that was inserted with key `1`:
`deleteNode` copies only `key_` of the successor into the node found, so `find(2)` returns a
node holding `10`, not the value `20` inserted with key `2`. -/
theorem aa_erase_keeps_erased_value :
    AA.run [Op.insert 1 10, Op.insert 2 20, Op.erase 1] (State.empty : State Int Nat) =
      some (⟨Tree.node Tree.nil 2 10 1 Tree.nil, 1⟩,
        [Ret.inserted true, Ret.inserted true, Ret.erased 1]) ∧
    AA.find (⟨Tree.node Tree.nil 2 10 1 Tree.nil, 1⟩ : State Int Nat) 2 =
      Tree.node Tree.nil 2 10 1 Tree.nil ∧
    ∀ l m r, AA.find (⟨Tree.node Tree.nil 2 10 1 Tree.nil, 1⟩ : State Int Nat) 2 ≠
      Tree.node l 2 20 m r :=
  ⟨rfl, rfl, fun l m r h => by simp [AA.find, Tree.descend] at h⟩

/-- C14. Color-balanced tree, `erase` of an absent key: on the empty tree and on the tree built
by `insert(1, 10)`, `find(5)` returns `nullptr`, which is not the sentinel `erase` compares
with, and `erase(5)` goes on to read `y->color_` through it: the call has no result. -/
theorem rb_erase_absent_no_result :
    RB.find (State.empty : State Color Nat) 5 = RB.Ptr.null ∧
    RB.erase (State.empty : State Color Nat) 5 = none ∧
    RB.run [Op.insert 1 10] (State.empty : State Color Nat) =
      some (⟨Tree.node Tree.nil 1 10 Color.black Tree.nil, 1⟩, [Ret.inserted true]) ∧
    RB.erase (⟨Tree.node Tree.nil 1 10 Color.black Tree.nil, 1⟩ : State Color Nat) 5 = none :=
  ⟨rfl, rfl, rfl, rfl⟩

/-- C17. Color-balanced tree, `find` of an absent key: on the tree built by `insert(1, 10)`
(and on the empty tree) `find(-1)` returns the sentinel, a node that is not null and is not a
node of the tree, while `find(5)` returns `nullptr`: the two absent keys do not get the same
result. -/
theorem rb_find_returns_sentinel :
    RB.run [Op.insert 1 10] (State.empty : State Color Nat) =
      some (⟨Tree.node Tree.nil 1 10 Color.black Tree.nil, 1⟩, [Ret.inserted true]) ∧
    RB.find (⟨Tree.node Tree.nil 1 10 Color.black Tree.nil, 1⟩ : State Color Nat) (-1) =
      RB.Ptr.sentinel ∧
    RB.find (⟨Tree.node Tree.nil 1 10 Color.black Tree.nil, 1⟩ : State Color Nat) 5 =
      RB.Ptr.null ∧
    RB.find (State.empty : State Color Nat) (-1) = RB.Ptr.sentinel ∧
    RB.find (State.empty : State Color Nat) 5 = RB.Ptr.null :=
  ⟨rfl, rfl, rfl, rfl, rfl⟩

/-- C15. `erase` of an absent key in the unbalanced, height-balanced and level-balanced trees:
in every state reached from the empty tree by `insert` and `erase`, for every key that is not
in the tree, `erase` returns `0` and the state after it is the state before it (the same tree,
node for node with keys, values and per-node metadata, and the same `nodes_`). -/
theorem erase_absent_unchanged :
    (∀ (st : State Unit V) (key : Int), BST.Reachable st → key ∉ Tree.keys st.root_ →
      BST.erase st key = (st, 0)) ∧
    (∀ (st : State Int V) (key : Int), AVL.Reachable st → key ∉ Tree.keys st.root_ →
      AVL.erase st key = some (st, 0)) ∧
    (∀ (st : State Int V) (key : Int), AA.Reachable st → key ∉ Tree.keys st.root_ →
      AA.erase st key = some (st, 0)) := by
  refine ⟨fun st key _ hk => ?_, fun st key _ hk => ?_, fun st key _ hk => ?_⟩
  · have := Tree.descend_absent key st.root_ [] hk
    simp only [BST.erase]
    generalize Tree.descend key st.root_ [] = d at this
    obtain ⟨x, path⟩ := d
    simp only at this
    subst this
    rfl
  · have := Tree.descend_absent key st.root_ [] hk
    simp only [AVL.erase]
    generalize Tree.descend key st.root_ [] = d at this
    obtain ⟨x, path⟩ := d
    simp only at this
    subst this
    rfl
  · have : AA.find st key = Tree.nil := Tree.descend_absent key st.root_ [] hk
    simp only [AA.erase, this]

/-- Witness of C15: `erase(3)` on the trees that hold the key `2`. -/
theorem erase_absent_unchanged_witness :
    BST.erase (⟨Tree.node Tree.nil 2 5 () Tree.nil, 1⟩ : State Unit Nat) 3 =
      (⟨Tree.node Tree.nil 2 5 () Tree.nil, 1⟩, 0) ∧
    AVL.erase (⟨Tree.node Tree.nil 2 5 0 Tree.nil, 1⟩ : State Int Nat) 3 =
      some (⟨Tree.node Tree.nil 2 5 0 Tree.nil, 1⟩, 0) ∧
    AA.erase (⟨Tree.node Tree.nil 2 5 1 Tree.nil, 1⟩ : State Int Nat) 3 =
      some (⟨Tree.node Tree.nil 2 5 1 Tree.nil, 1⟩, 0) :=
  ⟨erase_absent_unchanged.1 ⟨Tree.node Tree.nil 2 5 () Tree.nil, 1⟩ 3 ⟨[Op.insert 2 5], rfl⟩
      (by decide),
   erase_absent_unchanged.2.1 ⟨Tree.node Tree.nil 2 5 0 Tree.nil, 1⟩ 3
      ⟨[Op.insert 2 5], [Ret.inserted true], rfl⟩ (by decide),
   erase_absent_unchanged.2.2 ⟨Tree.node Tree.nil 2 5 1 Tree.nil, 1⟩ 3
      ⟨[Op.insert 2 5], [Ret.inserted true], rfl⟩ (by decide)⟩

theorem descend_present_node (key : Int) (t : Tree M V) (hs : Inc (Tree.keys t))
    (h : key ∈ Tree.keys t) :
    ∃ l v m r path, Tree.descend key t [] = (Tree.node l key v m r, path) ∧
      Tree.fill path (Tree.node l key v m r) = t := by
  obtain ⟨l, v, m, r, e⟩ := Tree.descend_present key t hs h
  have hf := Tree.descend_fill key t []
  generalize Tree.descend key t [] = d at e hf
  obtain ⟨x, path⟩ := d
  simp only at e
  subst e
  exact ⟨l, v, m, r, path, rfl, hf⟩

/-- C16. `insert` of a present key in the four variants: in every state reached from the empty
tree by `insert` and `erase`, for every key that is in the tree and every value, `insert`
returns `false` and the state after it is the state before it (the same tree, node for node
with keys, stored values and per-node metadata, and the same `nodes_`). -/
theorem insert_present_unchanged :
    (∀ (st : State Unit V) (k : Int) (v : V), BST.Reachable st → k ∈ Tree.keys st.root_ →
      BST.insert st k v = (st, false)) ∧
    (∀ (st : State Int V) (k : Int) (v : V), AVL.Reachable st → k ∈ Tree.keys st.root_ →
      AVL.insert st k v = some (st, false)) ∧
    (∀ (st : State Int V) (k : Int) (v : V), AA.Reachable st → k ∈ Tree.keys st.root_ →
      AA.insert st k v = some (st, false)) ∧
    (∀ (st : State Color V) (k : Int) (v : V), RB.Reachable st → k ∈ Tree.keys st.root_ →
      RB.insert st k v = some (st, false)) := by
  refine ⟨fun st k v hr hk => ?_, fun st k v hr hk => ?_, fun st k v hr hk => ?_,
    fun st k v hr hk => ?_⟩
  · obtain ⟨l, w, m, r, path, e, _⟩ :=
      descend_present_node k st.root_ (bst_reachable_inc st hr) hk
    simp only [BST.insert, e]
  · obtain ⟨l, w, m, r, path, e, _⟩ :=
      descend_present_node k st.root_ (avl_reachable_inv st hr).2 hk
    simp only [AVL.insert, e]
  · obtain ⟨l, w, m, r, path, e, _⟩ :=
      descend_present_node k st.root_ (aa_reachable_inv st hr).2 hk
    simp only [AA.insert, AA.find, e]
  · obtain ⟨l, w, m, r, path, e, _⟩ :=
      descend_present_node k st.root_ (rb_reachable_inv st hr).2.2 hk
    simp only [RB.insert, e]

/-- Witness of C16: `insert(2, 9)` on the trees that hold the key `2` with value `5`. -/
theorem insert_present_unchanged_witness :
    BST.insert (⟨Tree.node Tree.nil 2 5 () Tree.nil, 1⟩ : State Unit Nat) 2 9 =
      (⟨Tree.node Tree.nil 2 5 () Tree.nil, 1⟩, false) ∧
    AVL.insert (⟨Tree.node Tree.nil 2 5 0 Tree.nil, 1⟩ : State Int Nat) 2 9 =
      some (⟨Tree.node Tree.nil 2 5 0 Tree.nil, 1⟩, false) ∧
    AA.insert (⟨Tree.node Tree.nil 2 5 1 Tree.nil, 1⟩ : State Int Nat) 2 9 =
      some (⟨Tree.node Tree.nil 2 5 1 Tree.nil, 1⟩, false) ∧
    RB.insert (⟨Tree.node Tree.nil 2 5 Color.black Tree.nil, 1⟩ : State Color Nat) 2 9 =
      some (⟨Tree.node Tree.nil 2 5 Color.black Tree.nil, 1⟩, false) :=
  ⟨insert_present_unchanged.1 ⟨Tree.node Tree.nil 2 5 () Tree.nil, 1⟩ 2 9
      ⟨[Op.insert 2 5], rfl⟩ (by decide),
   insert_present_unchanged.2.1 ⟨Tree.node Tree.nil 2 5 0 Tree.nil, 1⟩ 2 9
      ⟨[Op.insert 2 5], [Ret.inserted true], rfl⟩ (by decide),
   insert_present_unchanged.2.2.1 ⟨Tree.node Tree.nil 2 5 1 Tree.nil, 1⟩ 2 9
      ⟨[Op.insert 2 5], [Ret.inserted true], rfl⟩ (by decide),
   insert_present_unchanged.2.2.2 ⟨Tree.node Tree.nil 2 5 Color.black Tree.nil, 1⟩ 2 9
      ⟨[Op.insert 2 5], [Ret.inserted true], rfl⟩ (by decide)⟩

/-- C18. `find` in the unbalanced, height-balanced and level-balanced trees: on every tree
whose in-order key sequence is strictly increasing, `find(key)` returns a node of the tree
(the subtree at some position of the tree) whose key is `key` when the key occurs in the tree,
and `nullptr` when it does not. -/
theorem find_spec :
    (∀ (st : State Unit V) (key : Int), List.Sorted (· < ·) (Tree.keys st.root_) →
      (key ∈ Tree.keys st.root_ → ∃ l v m r path, BST.find st key = Tree.node l key v m r ∧
        Tree.fill path (Tree.node l key v m r) = st.root_) ∧
      (key ∉ Tree.keys st.root_ → BST.find st key = Tree.nil)) ∧
    (∀ (st : State Int V) (key : Int), List.Sorted (· < ·) (Tree.keys st.root_) →
      (key ∈ Tree.keys st.root_ → ∃ l v m r path, AVL.find st key = Tree.node l key v m r ∧
        Tree.fill path (Tree.node l key v m r) = st.root_) ∧
      (key ∉ Tree.keys st.root_ → AVL.find st key = Tree.nil)) ∧
    (∀ (st : State Int V) (key : Int), List.Sorted (· < ·) (Tree.keys st.root_) →
      (key ∈ Tree.keys st.root_ → ∃ l v m r path, AA.find st key = Tree.node l key v m r ∧
        Tree.fill path (Tree.node l key v m r) = st.root_) ∧
      (key ∉ Tree.keys st.root_ → AA.find st key = Tree.nil)) := by
  refine ⟨fun st key hs => ⟨fun hk => ?_, fun hk => Tree.descend_absent key _ [] hk⟩,
    fun st key hs => ⟨fun hk => ?_, fun hk => Tree.descend_absent key _ [] hk⟩,
    fun st key hs => ⟨fun hk => ?_, fun hk => Tree.descend_absent key _ [] hk⟩⟩
  · obtain ⟨l, v, m, r, path, e, hf⟩ := descend_present_node key st.root_ hs hk
    exact ⟨l, v, m, r, path, by simp only [BST.find, e], hf⟩
  · obtain ⟨l, v, m, r, path, e, hf⟩ := descend_present_node key st.root_ hs hk
    exact ⟨l, v, m, r, path, by simp only [AVL.find, e], hf⟩
  · obtain ⟨l, v, m, r, path, e, hf⟩ := descend_present_node key st.root_ hs hk
    exact ⟨l, v, m, r, path, by simp only [AA.find, e], hf⟩

/-! ### The counter `nodes_` -/

theorem card_insert_decide (s : Finset Int) (k : Int) :
    (Insert.insert k s).card = s.card + (if decide (k ∉ s) = true then 1 else 0) := by
  by_cases h : k ∈ s
  · simp [h]
  · simp [h]

theorem card_erase_ite (s : Finset Int) (k : Int) :
    (s.erase k).card = s.card - (if k ∈ s then 1 else 0) := by
  by_cases h : k ∈ s
  · simp [h]
  · simp [h]

namespace BST

theorem bst_insert_nodes (st : State Unit V) (k : Int) (v : V) :
    (insert st k v).1.nodes_ = st.nodes_ + (if (insert st k v).2 = true then 1 else 0) := by
  rcases hd : Tree.descend k st.root_ [] with ⟨x, path⟩
  cases x <;> simp [insert, hd]

theorem bst_erase_nodes (st : State Unit V) (k : Int) :
    (erase st k).1.nodes_ = st.nodes_ - (erase st k).2 := by
  rcases hd : Tree.descend k st.root_ [] with ⟨x, path⟩
  cases x <;> simp [erase, hd]

theorem bst_run_counted (ops : List (Op V)) (st : State Unit V) (s : Finset Int)
    (h : Holds st.root_ s) (hn : st.nodes_ = s.card) :
    (run ops st).1.nodes_ = (specRun ops s).1.card := by
  induction ops generalizing st s with
  | nil => exact hn
  | cons op ops ih =>
    have hs := bst_step_holds st s op h
    simp only [run, specRun]
    apply ih _ _ hs.1
    cases op with
    | insert k v =>
      have e := hs.2
      simp only [step, specStep, Ret.inserted.injEq] at e ⊢
      rw [bst_insert_nodes, e, hn, card_insert_decide]
    | erase k =>
      have e := hs.2
      simp only [step, specStep, Ret.erased.injEq] at e ⊢
      rw [bst_erase_nodes, e, hn, card_erase_ite]

end BST

namespace AVL

theorem avl_insert_nodes {st st1 : State Int V} {k : Int} {v : V} {b : Bool}
    (h : insert st k v = some (st1, b)) :
    st1.nodes_ = st.nodes_ + (if b = true then 1 else 0) := by
  simp only [insert] at h
  generalize Tree.descend k st.root_ [] = d at h
  obtain ⟨x, path⟩ := d
  cases x with
  | node l k1 v1 m r =>
    simp only [Option.some.injEq, Prod.mk.injEq] at h
    obtain ⟨rfl, rfl⟩ := h
    simp
  | nil =>
    cases path with
    | nil =>
      simp only [Option.some.injEq, Prod.mk.injEq] at h
      obtain ⟨rfl, rfl⟩ := h
      simp
    | cons f up =>
      simp only at h
      obtain ⟨a, _, e⟩ := Option.map_eq_some'.1 h
      simp only [Prod.mk.injEq] at e
      obtain ⟨rfl, rfl⟩ := e
      simp

theorem avl_erase_nodes {st st1 : State Int V} {k : Int} {n : Nat}
    (h : erase st k = some (st1, n)) : st1.nodes_ = st.nodes_ - n := by
  simp only [erase] at h
  generalize Tree.descend k st.root_ [] = d at h
  obtain ⟨x, path⟩ := d
  cases x with
  | nil =>
    simp only [Option.some.injEq, Prod.mk.injEq] at h
    obtain ⟨rfl, rfl⟩ := h
    simp
  | node l k1 v1 m r =>
    simp only at h
    obtain ⟨a, _, e⟩ := Option.map_eq_some'.1 h
    simp only [Prod.mk.injEq] at e
    obtain ⟨rfl, rfl⟩ := e
    rfl

theorem avl_run_counted (ops : List (Op V)) (st : State Int V) (s : Finset Int)
    (hb : Balanced st.root_) (hr : Holds st.root_ s) (hn : st.nodes_ = s.card) :
    ∃ st1, run ops st = some (st1, (specRun ops s).2) ∧
      st1.nodes_ = (specRun ops s).1.card ∧ Holds st1.root_ (specRun ops s).1 := by
  induction ops generalizing st s with
  | nil => exact ⟨st, rfl, hn, hr⟩
  | cons op ops ih =>
    cases op with
    | insert k v =>
      obtain ⟨st1, h1, h2, h3⟩ := avl_insert_spec st s k v hb hr
      obtain ⟨st2, h4, h5, h6⟩ := ih st1 _ h2 h3
        (by rw [avl_insert_nodes h1, hn, card_insert_decide])
      exact ⟨st2, by simp [run, step, h1, h4, specRun, specStep], h5, h6⟩
    | erase k =>
      obtain ⟨st1, h1, h2, h3⟩ := avl_erase_spec st s k hb hr
      obtain ⟨st2, h4, h5, h6⟩ := ih st1 _ h2 h3
        (by rw [avl_erase_nodes h1, hn, card_erase_ite])
      exact ⟨st2, by simp [run, step, h1, h4, specRun, specStep], h5, h6⟩

end AVL

namespace AA

theorem aa_insert_nodes {st st1 : State Int V} {k : Int} {v : V} {b : Bool}
    (h : insert st k v = some (st1, b)) :
    st1.nodes_ = st.nodes_ + (if b = true then 1 else 0) := by
  simp only [insert] at h
  cases hf : find st k with
  | node l k1 v1 m r =>
    rw [hf] at h
    simp only [Option.some.injEq, Prod.mk.injEq] at h
    obtain ⟨rfl, rfl⟩ := h
    simp
  | nil =>
    rw [hf] at h
    cases hroot : st.root_ with
    | nil =>
      rw [hroot] at h
      simp only [Option.some.injEq, Prod.mk.injEq] at h
      obtain ⟨rfl, rfl⟩ := h
      simp
    | node l k1 v1 m r =>
      rw [hroot] at h
      simp only at h
      obtain ⟨a, _, e⟩ := Option.map_eq_some'.1 h
      simp only [Prod.mk.injEq] at e
      obtain ⟨rfl, rfl⟩ := e
      simp

theorem aa_erase_nodes {st st1 : State Int V} {k : Int} {n : Nat}
    (h : erase st k = some (st1, n)) : st1.nodes_ = st.nodes_ - n := by
  simp only [erase] at h
  cases hf : find st k with
  | nil =>
    rw [hf] at h
    simp only [Option.some.injEq, Prod.mk.injEq] at h
    obtain ⟨rfl, rfl⟩ := h
    simp
  | node l k1 v1 m r =>
    rw [hf] at h
    simp only at h
    obtain ⟨a, _, e⟩ := Option.map_eq_some'.1 h
    simp only [Prod.mk.injEq] at e
    obtain ⟨rfl, rfl⟩ := e
    rfl

theorem aa_run_counted (ops : List (Op V)) (st : State Int V) (s : Finset Int)
    (hb : Inv st.root_) (hr : Holds st.root_ s) (hn : st.nodes_ = s.card) :
    ∃ st1, run ops st = some (st1, (specRun ops s).2) ∧
      st1.nodes_ = (specRun ops s).1.card ∧ Holds st1.root_ (specRun ops s).1 := by
  induction ops generalizing st s with
  | nil => exact ⟨st, rfl, hn, hr⟩
  | cons op ops ih =>
    cases op with
    | insert k v =>
      obtain ⟨st1, h1, h2, h3⟩ := aa_insert_spec st s k v hb hr
      obtain ⟨st2, h4, h5, h6⟩ := ih st1 _ h2 h3
        (by rw [aa_insert_nodes h1, hn, card_insert_decide])
      exact ⟨st2, by simp [run, step, h1, h4, specRun, specStep], h5, h6⟩
    | erase k =>
      obtain ⟨st1, h1, h2, h3⟩ := aa_erase_spec st s k hb hr
      obtain ⟨st2, h4, h5, h6⟩ := ih st1 _ h2 h3
        (by rw [aa_erase_nodes h1, hn, card_erase_ite])
      exact ⟨st2, by simp [run, step, h1, h4, specRun, specStep], h5, h6⟩

end AA

namespace RB

theorem rb_insert_nodes {st st1 : State Color V} {k : Int} {v : V} {b : Bool}
    (h : insert st k v = some (st1, b)) :
    st1.nodes_ = st.nodes_ + (if b = true then 1 else 0) := by
  simp only [insert] at h
  generalize Tree.descend k st.root_ [] = d at h
  obtain ⟨x, path⟩ := d
  cases x with
  | node l k1 v1 m r =>
    simp only [Option.some.injEq, Prod.mk.injEq] at h
    obtain ⟨rfl, rfl⟩ := h
    simp
  | nil =>
    simp only at h
    obtain ⟨a, _, e⟩ := Option.map_eq_some'.1 h
    simp only [Prod.mk.injEq] at e
    obtain ⟨rfl, rfl⟩ := e
    simp

theorem rb_run_counted (ops : List (Op V)) (st : State Color V) (s : Finset Int)
    (hb : Bal st.root_) (hc : color st.root_ = Color.black) (hr : Holds st.root_ s)
    (hn : st.nodes_ = s.card) (hp : ErasesPresent ops s) :
    ∃ st1, run ops st = some (st1, (specRun ops s).2) ∧
      st1.nodes_ = (specRun ops s).1.card ∧ Holds st1.root_ (specRun ops s).1 := by
  induction ops generalizing st s with
  | nil => exact ⟨st, rfl, hn, hr⟩
  | cons op ops ih =>
    cases op with
    | insert k v =>
      obtain ⟨st1, h1, h2, h3, h3h⟩ := rb_insert_spec st s k v hb hc hr
      obtain ⟨st2, h4, h5, h6⟩ := ih st1 _ h2 h3 h3h
        (by rw [rb_insert_nodes h1, hn, card_insert_decide]) hp
      exact ⟨st2, by simp [run, step, h1, h4, specRun, specStep], h5, h6⟩
    | erase k =>
      obtain ⟨_, _, _, _, _, _, _, t1, _, _, _, h1, h2, h3, h3h⟩ :=
        rb_erase_spec st s k hb hc hr hp.1
      obtain ⟨st2, h4, h5, h6⟩ := ih ⟨t1, st.nodes_ - 1⟩ _ h2 h3 h3h
        (by simp only [hn, card_erase_ite, hp.1, if_true]) hp.2
      exact ⟨st2, by simp [run, step, h1, h4, specRun, specStep, hp.1], h5, h6⟩

end RB

/-- C19. Size consistency in the four variants: after every sequence of `insert` and `erase`
calls on the empty tree (in the color-balanced tree: with every `erase` given a key that is in
the tree at that time), `nodes_`, which `size()` returns, is the number of nodes reachable from
`root_`, which is the length of the in-order key sequence. -/
theorem size_consistency (ops : List (Op V)) :
    ((BST.run ops State.empty).1.nodes_ = Tree.size (BST.run ops State.empty).1.root_ ∧
      (BST.run ops State.empty).1.nodes_ = (Tree.keys (BST.run ops State.empty).1.root_).length) ∧
    (∃ st rets, AVL.run ops State.empty = some (st, rets) ∧
      st.nodes_ = Tree.size st.root_ ∧ st.nodes_ = (Tree.keys st.root_).length) ∧
    (∃ st rets, AA.run ops State.empty = some (st, rets) ∧
      st.nodes_ = Tree.size st.root_ ∧ st.nodes_ = (Tree.keys st.root_).length) ∧
    (RB.ErasesPresent ops ∅ → ∃ st rets, RB.run ops State.empty = some (st, rets) ∧
      st.nodes_ = Tree.size st.root_ ∧ st.nodes_ = (Tree.keys st.root_).length) := by
  refine ⟨?_, ?_, ?_, fun hp => ?_⟩
  · have h1 := BST.bst_run_counted ops State.empty ∅ holds_nil rfl
    have h2 := holds_card (BST.bst_run_holds ops State.empty ∅ holds_nil).1
    exact ⟨by rw [h1, h2], by rw [Tree.keys_length, h1, h2]⟩
  · obtain ⟨st, h1, h2, h3⟩ := AVL.avl_run_counted ops State.empty ∅ trivial holds_nil rfl
    exact ⟨st, _, h1, by rw [h2, holds_card h3], by rw [Tree.keys_length, h2, holds_card h3]⟩
  · obtain ⟨st, h1, h2, h3⟩ := AA.aa_run_counted ops State.empty ∅ trivial holds_nil rfl
    exact ⟨st, _, h1, by rw [h2, holds_card h3], by rw [Tree.keys_length, h2, holds_card h3]⟩
  · obtain ⟨st, h1, h2, h3⟩ :=
      RB.rb_run_counted ops State.empty ∅ trivial rfl holds_nil rfl hp
    exact ⟨st, _, h1, by rw [h2, holds_card h3], by rw [Tree.keys_length, h2, holds_card h3]⟩

/-- Witness of C19 for the color-balanced tree: the calls `insert 1`, `insert 2`, `erase 1`. -/
theorem size_consistency_witness :
    RB.ErasesPresent [Op.insert 1 (), Op.insert 2 (), Op.erase 1] ∅ ∧
    ∃ st rets, RB.run [Op.insert 1 (), Op.insert 2 (), Op.erase 1] State.empty =
        some (st, rets) ∧
      st.nodes_ = Tree.size st.root_ ∧ st.nodes_ = (Tree.keys st.root_).length :=
  ⟨by simp [RB.ErasesPresent],
   (size_consistency [Op.insert 1 (), Op.insert 2 (), Op.erase 1]).2.2.2
     (by simp [RB.ErasesPresent])⟩

/-! ### Height bound -/

/-- A balanced tree of height `h` has at least `Fib(h + 3) - 1` nodes. -/
theorem avl_fib_le_size (t : Tree Int V) (hb : AVL.Balanced t) :
    Nat.fib (Int.toNat (Tree.height t + 3)) ≤ Tree.size t + 1 := by
  induction t with
  | nil => simp [Tree.height, Tree.size]
  | node l k v b r ihl ihr =>
    obtain ⟨hbl, hbr, hbe, hb1, hb2⟩ := hb
    have il := ihl hbl
    have ir := ihr hbr
    have gl := Tree.height_ge l
    have gr := Tree.height_ge r
    obtain ⟨a, ha⟩ : ∃ a : Nat, Tree.height l = (a : Int) - 1 :=
      ⟨(Tree.height l + 1).toNat, by omega⟩
    obtain ⟨c, hc⟩ : ∃ c : Nat, Tree.height r = (c : Int) - 1 :=
      ⟨(Tree.height r + 1).toNat, by omega⟩
    rw [Tree.height_node, ha, hc]
    rw [ha] at il
    rw [hc] at ir
    have ea : Int.toNat ((a : Int) - 1 + 3) = a + 2 := by omega
    have ec : Int.toNat ((c : Int) - 1 + 3) = c + 2 := by omega
    rw [ea] at il
    rw [ec] at ir
    simp only [Tree.size]
    rcases le_total a c with hac | hac
    · have e : Int.toNat (1 + max ((a : Int) - 1) ((c : Int) - 1) + 3) = c + 1 + 2 := by omega
      rw [e, Nat.fib_add_two]
      have hm : Nat.fib (c + 1) ≤ Nat.fib (a + 2) := Nat.fib_mono (by omega)
      have e2 : Nat.fib (c + 1 + 1) = Nat.fib (c + 2) := rfl
      omega
    · have e : Int.toNat (1 + max ((a : Int) - 1) ((c : Int) - 1) + 3) = a + 1 + 2 := by omega
      rw [e, Nat.fib_add_two]
      have hm : Nat.fib (a + 1) ≤ Nat.fib (c + 2) := Nat.fib_mono (by omega)
      have e2 : Nat.fib (a + 1 + 1) = Nat.fib (a + 2) := rfl
      omega

theorem specRun_inserts_card (kvs : List (Int × V)) (s : Finset Int)
    (hd : (kvs.map Prod.fst).Nodup) (hs : ∀ k ∈ kvs.map Prod.fst, k ∉ s) :
    (specRun (kvs.map (fun p => Op.insert p.1 p.2)) s).1.card = s.card + kvs.length := by
  induction kvs generalizing s with
  | nil => rfl
  | cons p kvs ih =>
    simp only [List.map_cons, List.nodup_cons] at hd
    simp only [List.map_cons, specRun, specStep, List.length_cons]
    have hp : p.1 ∉ s := hs p.1 (by simp)
    rw [ih _ hd.2, Finset.card_insert_of_not_mem hp]
    · omega
    · intro k hk
      simp only [Finset.mem_insert, not_or]
      refine ⟨fun e => ?_, hs k (by simp only [List.map_cons, List.mem_cons]; exact Or.inr hk)⟩
      subst e
      exact hd.1 hk

/-- C20. Height bound of the height-balanced tree: after `insert` of `N` distinct keys, in any
order, into the empty tree, `height() = h` satisfies `Fib(h + 3) - 1 ≤ N`, with
`Fib(1) = Fib(2) = 1`. -/
theorem avl_height_bound (kvs : List (Int × V)) (hd : (kvs.map Prod.fst).Nodup) :
    ∃ st rets, AVL.run (kvs.map (fun p => Op.insert p.1 p.2)) State.empty = some (st, rets) ∧
      Nat.fib (Int.toNat (AVL.height st + 3)) - 1 ≤ kvs.length := by
  obtain ⟨st, h1, h2, h3⟩ :=
    AVL.avl_run_spec (kvs.map (fun p => Op.insert p.1 p.2)) State.empty ∅ trivial holds_nil
  refine ⟨st, _, h1, ?_⟩
  have hf := avl_fib_le_size st.root_ h2
  have hc := specRun_inserts_card kvs ∅ hd (fun _ _ => Finset.not_mem_empty _)
  rw [holds_card h3, hc] at hf
  simp only [Finset.card_empty, Nat.zero_add] at hf
  simp only [AVL.height]
  omega

/-- Witness of C20: the keys `10, 20, 30, 40, 50, 25` give height `2`, and
`Fib(5) - 1 = 4 ≤ 6`. -/
theorem avl_height_bound_witness :
    ([(10, ()), (20, ()), (30, ()), (40, ()), (50, ()), (25, ())].map Prod.fst).Nodup ∧
    ∃ st rets, AVL.run ([(10, ()), (20, ()), (30, ()), (40, ()), (50, ()), (25, ())].map
        (fun p => Op.insert p.1 p.2)) State.empty = some (st, rets) ∧
      Nat.fib (Int.toNat (AVL.height st + 3)) - 1 ≤
        [(10, ()), (20, ()), (30, ()), (40, ()), (50, ()), ((25 : Int), ())].length :=
  ⟨by decide,
   avl_height_bound [(10, ()), (20, ()), (30, ()), (40, ()), (50, ()), (25, ())] (by decide)⟩

/-- Witness of C18: `find(2)` and `find(3)` on the trees that hold the key `2`. -/
theorem find_spec_witness :
    ((∃ l v m r path, BST.find (⟨Tree.node Tree.nil 2 5 () Tree.nil, 1⟩ : State Unit Nat) 2 =
        Tree.node l 2 v m r ∧
        Tree.fill path (Tree.node l 2 v m r) = Tree.node Tree.nil 2 5 () Tree.nil) ∧
      BST.find (⟨Tree.node Tree.nil 2 5 () Tree.nil, 1⟩ : State Unit Nat) 3 = Tree.nil) ∧
    ((∃ l v m r path, AVL.find (⟨Tree.node Tree.nil 2 5 0 Tree.nil, 1⟩ : State Int Nat) 2 =
        Tree.node l 2 v m r ∧
        Tree.fill path (Tree.node l 2 v m r) = Tree.node Tree.nil 2 5 0 Tree.nil) ∧
      AVL.find (⟨Tree.node Tree.nil 2 5 0 Tree.nil, 1⟩ : State Int Nat) 3 = Tree.nil) ∧
    ((∃ l v m r path, AA.find (⟨Tree.node Tree.nil 2 5 1 Tree.nil, 1⟩ : State Int Nat) 2 =
        Tree.node l 2 v m r ∧
        Tree.fill path (Tree.node l 2 v m r) = Tree.node Tree.nil 2 5 1 Tree.nil) ∧
      AA.find (⟨Tree.node Tree.nil 2 5 1 Tree.nil, 1⟩ : State Int Nat) 3 = Tree.nil) :=
  ⟨⟨(find_spec.1 ⟨Tree.node Tree.nil 2 5 () Tree.nil, 1⟩ 2 (by simp [Tree.keys])).1 (by decide),
    (find_spec.1 ⟨Tree.node Tree.nil 2 5 () Tree.nil, 1⟩ 3 (by simp [Tree.keys])).2 (by decide)⟩,
   ⟨(find_spec.2.1 ⟨Tree.node Tree.nil 2 5 0 Tree.nil, 1⟩ 2 (by simp [Tree.keys])).1 (by decide),
    (find_spec.2.1 ⟨Tree.node Tree.nil 2 5 0 Tree.nil, 1⟩ 3 (by simp [Tree.keys])).2
      (by decide)⟩,
   ⟨(find_spec.2.2 ⟨Tree.node Tree.nil 2 5 1 Tree.nil, 1⟩ 2 (by simp [Tree.keys])).1 (by decide),
    (find_spec.2.2 ⟨Tree.node Tree.nil 2 5 1 Tree.nil, 1⟩ 3 (by simp [Tree.keys])).2
      (by decide)⟩⟩

/-! ### Height bounds of the color-balanced and level-balanced trees -/

theorem pow_height_le_sq (h : Int) (b n : Nat) (h1 : h + 1 ≤ 2 * (b : Int)) (h2 : 2 ^ b ≤ n + 1) :
    2 ^ Int.toNat (h + 1) ≤ (n + 1) ^ 2 := by
  calc 2 ^ Int.toNat (h + 1) ≤ 2 ^ (2 * b) := Nat.pow_le_pow_right (by norm_num) (by omega)
    _ = (2 ^ b) ^ 2 := by rw [← pow_mul, Nat.mul_comm]
    _ ≤ (n + 1) ^ 2 := Nat.pow_le_pow_left h2 2

namespace RB

theorem rb_height_le (t : Tree Color V) (hb : Bal t) :
    Tree.height t + 1 ≤ 2 * (bh t : Int) + (if color t = Color.red then 1 else 0) := by
  induction t with
  | nil => simp [Tree.height, bh, color]
  | node l k v c r ihl ihr =>
    obtain ⟨hl, hr, he, hc⟩ := hb
    have il := ihl hl
    have ir := ihr hr
    rw [Tree.height_node]
    cases c with
    | red =>
      obtain ⟨cl, cr⟩ := hc rfl
      rw [cl] at il
      rw [cr] at ir
      simp only [rb_bh_red, rb_color_node, if_true]
      simp only [if_neg (show ¬ Color.black = Color.red by decide)] at il ir
      omega
    | black =>
      simp only [rb_bh_black, rb_color_node, if_neg (show ¬ Color.black = Color.red by decide)]
      have : (if color l = Color.red then (1 : Int) else 0) ≤ 1 := by split_ifs <;> omega
      have : (if color r = Color.red then (1 : Int) else 0) ≤ 1 := by split_ifs <;> omega
      push_cast
      omega

theorem rb_pow_bh_le (t : Tree Color V) (hb : Bal t) : 2 ^ bh t ≤ Tree.size t + 1 := by
  induction t with
  | nil => simp [bh, Tree.size]
  | node l k v c r ihl ihr =>
    obtain ⟨hl, hr, he, _⟩ := hb
    have il := ihl hl
    have ir := ihr hr
    rw [← he] at ir
    simp only [Tree.size]
    cases c with
    | red => simp only [rb_bh_red]; omega
    | black => simp only [rb_bh_black, pow_succ]; omega

end RB

/-- C21. Height bound of the color-balanced tree: after `insert` of `N` distinct keys, in any
order, into the empty tree, `height() = h` satisfies `2^(h+1) ≤ (N+1)^2`. -/
theorem rb_height_bound (kvs : List (Int × V)) (hd : (kvs.map Prod.fst).Nodup) :
    ∃ st rets, RB.run (kvs.map (fun p => Op.insert p.1 p.2)) State.empty = some (st, rets) ∧
      2 ^ Int.toNat (RB.height st + 1) ≤ (kvs.length + 1) ^ 2 := by
  obtain ⟨st, h1, h2, h3, h4⟩ := RB.rb_run_spec (kvs.map (fun p => Op.insert p.1 p.2))
    State.empty ∅ trivial rfl holds_nil (RB.rb_erasesPresent_inserts kvs ∅)
  refine ⟨st, _, h1, ?_⟩
  have hh := RB.rb_height_le st.root_ h2
  rw [h3, if_neg (by decide)] at hh
  have hs := RB.rb_pow_bh_le st.root_ h2
  have hc := specRun_inserts_card kvs ∅ hd (fun _ _ => Finset.not_mem_empty _)
  rw [holds_card h4, hc] at hs
  simp only [Finset.card_empty, Nat.zero_add] at hs
  exact pow_height_le_sq _ _ _ (by simpa using hh) hs

/-- Witness of C21: the keys `1, ..., 7` in ascending order. -/
theorem rb_height_bound_witness :
    ([(1, ()), (2, ()), (3, ()), (4, ()), (5, ()), (6, ()), (7, ())].map Prod.fst).Nodup ∧
    ∃ st rets, RB.run ([(1, ()), (2, ()), (3, ()), (4, ()), (5, ()), (6, ()), (7, ())].map
        (fun p => Op.insert p.1 p.2)) State.empty = some (st, rets) ∧
      2 ^ Int.toNat (RB.height st + 1) ≤
        ([(1, ()), (2, ()), (3, ()), (4, ()), (5, ()), (6, ()), ((7 : Int), ())].length + 1) ^ 2 :=
  ⟨by decide,
   rb_height_bound [(1, ()), (2, ()), (3, ()), (4, ()), (5, ()), (6, ()), (7, ())] (by decide)⟩

namespace AA

theorem aa_height_le (t : Tree Int V) (hi : Inv t) :
    Tree.height t + 1 ≤ 2 * level t ∧
      (level (right t) < level t → Tree.height t + 1 ≤ 2 * level t - 1) := by
  induction t with
  | nil => simp [Tree.height, level, right]
  | node l k v lv r ihl ihr =>
    obtain ⟨hl, hr, hll, hrl, hrr⟩ := hi
    have il := (ihl hl).1
    obtain ⟨ir1, ir2⟩ := ihr hr
    rw [Tree.height_node]
    simp only [aa_level_node, aa_right_node]
    rcases hrl with e | e
    · have := ir2 (by omega)
      constructor
      · omega
      · intro h; omega
    · constructor
      · omega
      · intro _; omega

theorem aa_pow_level_le (t : Tree Int V) (hi : Inv t) :
    2 ^ Int.toNat (level t) ≤ Tree.size t + 1 := by
  induction t with
  | nil => simp [level, Tree.size]
  | node l k v lv r ihl ihr =>
    obtain ⟨hl, hr, hll, hrl, _⟩ := hi
    have il := ihl hl
    have ir := ihr hr
    have nl := aa_level_nonneg l hl
    simp only [aa_level_node, Tree.size]
    have e1 : Int.toNat lv = Int.toNat (level l) + 1 := by omega
    have e2 : 2 ^ Int.toNat (level l) ≤ 2 ^ Int.toNat (level r) :=
      Nat.pow_le_pow_right (by norm_num) (by omega)
    rw [e1, pow_succ]
    omega

end AA

/-- C22. Height bound of the level-balanced tree: after `insert` of `N` distinct keys, in any
order, into the empty tree, `height() = h` satisfies `2^(h+1) ≤ (N+1)^2`. -/
theorem aa_height_bound (kvs : List (Int × V)) (hd : (kvs.map Prod.fst).Nodup) :
    ∃ st rets, AA.run (kvs.map (fun p => Op.insert p.1 p.2)) State.empty = some (st, rets) ∧
      2 ^ Int.toNat (AA.height st + 1) ≤ (kvs.length + 1) ^ 2 := by
  obtain ⟨st, h1, h2, h4⟩ := AA.aa_run_spec (kvs.map (fun p => Op.insert p.1 p.2))
    State.empty ∅ trivial holds_nil
  refine ⟨st, _, h1, ?_⟩
  have hh := (AA.aa_height_le st.root_ h2).1
  have hn := AA.aa_level_nonneg st.root_ h2
  have hs := AA.aa_pow_level_le st.root_ h2
  have hc := specRun_inserts_card kvs ∅ hd (fun _ _ => Finset.not_mem_empty _)
  rw [holds_card h4, hc] at hs
  simp only [Finset.card_empty, Nat.zero_add] at hs
  exact pow_height_le_sq _ (Int.toNat (AA.level st.root_)) _
    (by simp only [AA.height]; omega) hs

/-- Witness of C22: the keys `1, ..., 7` in ascending order. -/
theorem aa_height_bound_witness :
    ([(1, ()), (2, ()), (3, ()), (4, ()), (5, ()), (6, ()), (7, ())].map Prod.fst).Nodup ∧
    ∃ st rets, AA.run ([(1, ()), (2, ()), (3, ()), (4, ()), (5, ()), (6, ()), (7, ())].map
        (fun p => Op.insert p.1 p.2)) State.empty = some (st, rets) ∧
      2 ^ Int.toNat (AA.height st + 1) ≤
        ([(1, ()), (2, ()), (3, ()), (4, ()), (5, ()), (6, ()), ((7 : Int), ())].length + 1) ^ 2 :=
  ⟨by decide,
   aa_height_bound [(1, ()), (2, ()), (3, ()), (4, ()), (5, ()), (6, ()), (7, ())] (by decide)⟩

/-! ### Scenarios -/

/-- The height-balanced tree after `insert` of the keys `10, 20, 30, 40, 50, 25` in that order,
with any values. -/
theorem avl_scenario_run (a b c d e f : V) :
    AVL.run [Op.insert 10 a, Op.insert 20 b, Op.insert 30 c, Op.insert 40 d, Op.insert 50 e,
        Op.insert 25 f] State.empty =
      some (⟨Tree.node (Tree.node (Tree.node Tree.nil 10 a 0 Tree.nil) 20 b 0
                (Tree.node Tree.nil 25 f 0 Tree.nil)) 30 c 0
              (Tree.node Tree.nil 40 d (-1) (Tree.node Tree.nil 50 e 0 Tree.nil)), 6⟩,
        [Ret.inserted true, Ret.inserted true, Ret.inserted true, Ret.inserted true,
          Ret.inserted true, Ret.inserted true]) := rfl

/-- C23, as stated, fails: after `insert` of the keys `10, 20, 30, 40, 50, 25` into the empty
height-balanced tree the root does not hold the key `20`. -/
theorem avl_scenario_root_not_20 :
    ¬ ∃ st rets, AVL.run [Op.insert 10 (), Op.insert 20 (), Op.insert 30 (), Op.insert 40 (),
        Op.insert 50 (), Op.insert 25 ()] State.empty = some (st, rets) ∧
      Tree.rootKey st.root_ = some 20 := by
  rintro ⟨st, rets, h, hk⟩
  rw [avl_scenario_run] at h
  cases h
  simp [Tree.rootKey] at hk

/-- C23, amended: after `insert` of the keys `10, 20, 30, 40, 50, 25` in that order into the
empty height-balanced tree, with any values, the root holds the key `30`: the last insert
leaves the balance `-2` at `20` above a right child `40` of balance `1`, and the double
rotation `rotateRightLeft` makes `30` the root. -/
theorem avl_scenario_root (a b c d e f : V) :
    ∃ st rets, AVL.run [Op.insert 10 a, Op.insert 20 b, Op.insert 30 c, Op.insert 40 d,
        Op.insert 50 e, Op.insert 25 f] State.empty = some (st, rets) ∧
      Tree.rootKey st.root_ = some 30 :=
  ⟨_, _, avl_scenario_run a b c d e f, rfl⟩

/-- C24. Height-balanced scenario, contents: after `insert` of the keys
`10, 20, 30, 40, 50, 25` in that order into the empty tree, with any values, the in-order key
sequence is `[10, 20, 25, 30, 40, 50]`, `size()` is `6` and `height()` is `2`. -/
theorem avl_scenario_contents (a b c d e f : V) :
    ∃ st rets, AVL.run [Op.insert 10 a, Op.insert 20 b, Op.insert 30 c, Op.insert 40 d,
        Op.insert 50 e, Op.insert 25 f] State.empty = some (st, rets) ∧
      Tree.keys st.root_ = [10, 20, 25, 30, 40, 50] ∧ st.nodes_ = 6 ∧ AVL.height st = 2 :=
  ⟨_, _, avl_scenario_run a b c d e f, rfl, rfl, rfl⟩

/-- C25. Height-balanced scenario, first rotation: after `insert` of `10` and `20` the tree is
`10` (balance `-1`) above its right child `20`; the `insert` of `30` hangs `30` under `20`, its
`insertBalance` reaches the node `10` with the delta `-1`, where the balance becomes `-2` above
a right child of balance `-1`, and the pass at `10` is the single rotation `rotateLeft`; the
tree it leaves has root `20`, left child `10` and right child `30`, all balances `0`. -/
theorem avl_scenario_first_rotation (a b c : V) :
    AVL.run [Op.insert 10 a, Op.insert 20 b] State.empty =
      some (⟨Tree.node Tree.nil 10 a (-1) (Tree.node Tree.nil 20 b 0 Tree.nil), 2⟩,
        [Ret.inserted true, Ret.inserted true]) ∧
    AVL.insertBalanceStep
        (Tree.node Tree.nil 10 a (-1)
          (Tree.node Tree.nil 20 b (-1) (Tree.node Tree.nil 30 c 0 Tree.nil))) (-1) =
      (AVL.rotateLeft
        (Tree.node Tree.nil 10 a (-2)
          (Tree.node Tree.nil 20 b (-1) (Tree.node Tree.nil 30 c 0 Tree.nil)))).map
        (fun n => (n, false)) ∧
    AVL.rotateLeft
        (Tree.node Tree.nil 10 a (-2)
          (Tree.node Tree.nil 20 b (-1) (Tree.node Tree.nil 30 c 0 Tree.nil))) =
      some (Tree.node (Tree.node Tree.nil 10 a 0 Tree.nil) 20 b 0
        (Tree.node Tree.nil 30 c 0 Tree.nil)) ∧
    AVL.insert ⟨Tree.node Tree.nil 10 a (-1) (Tree.node Tree.nil 20 b 0 Tree.nil), 2⟩ 30 c =
      some (⟨Tree.node (Tree.node Tree.nil 10 a 0 Tree.nil) 20 b 0
        (Tree.node Tree.nil 30 c 0 Tree.nil), 3⟩, true) :=
  ⟨rfl, rfl, rfl, rfl⟩

/-- C26. Color-balanced scenario: after `insert` of the keys `1, ..., 7` in ascending order
into the empty tree, with any values, every path from the root to a sentinel passes through
exactly `2` Black nodes and no Red node has a Red child. -/
theorem rb_scenario_ascending (a b c d e f g : V) :
    ∃ st rets, RB.run [Op.insert 1 a, Op.insert 2 b, Op.insert 3 c, Op.insert 4 d,
        Op.insert 5 e, Op.insert 6 f, Op.insert 7 g] State.empty = some (st, rets) ∧
      (∀ m ∈ RB.blackCounts st.root_, m = 2) ∧ RB.NoRedRed st.root_ := by
  refine ⟨⟨Tree.node (Tree.node Tree.nil 1 a Color.black Tree.nil) 2 b Color.black
      (Tree.node (Tree.node Tree.nil 3 c Color.black Tree.nil) 4 d Color.red
        (Tree.node (Tree.node Tree.nil 5 e Color.red Tree.nil) 6 f Color.black
          (Tree.node Tree.nil 7 g Color.red Tree.nil))), 7⟩, _, rfl, ?_, ?_⟩
  · intro m hm
    simp [RB.blackCounts] at hm
    omega
  · simp [RB.NoRedRed, RB.color]

/-- C27. Level-balanced scenario: on the tree of size `2` whose root holds the key `10` on level
`1` and whose only child is a left child holding the key `5` on level `1`, `erase(10)` returns
`1` and leaves one node without children, on level `1`, holding the key `5`, with `size()`
`1`.  (The node left is the former root: it takes the key of its predecessor and keeps its own
value.) -/
theorem aa_scenario_erase_root (a b : V) :
    AA.erase ⟨Tree.node (Tree.node Tree.nil 5 a 1 Tree.nil) 10 b 1 Tree.nil, 2⟩ 10 =
      some (⟨Tree.node Tree.nil 5 b 1 Tree.nil, 1⟩, 1) := rfl

/-! ### In-order navigation -/

namespace Tree

theorem levels_keys (t : Tree M V) (d : Nat) : (levels t d).map Prod.fst = keys t := by
  induction t generalizing d with
  | nil => rfl
  | node l k v m r ihl ihr => simp [levels, keys, ihl, ihr]

theorem levelsAfter_keys (p : List (Frame M V)) : (levelsAfter p).map Prod.fst = after p := by
  induction p with
  | nil => rfl
  | cons f up ih =>
    obtain ⟨d, k, v, m, sib⟩ := f
    cases d <;> simp [levelsAfter, after, levels_keys, ih]

/-- The leftmost node of a subtree is the first node of its in-order sequence. -/
theorem minimum_levels (t : Tree M V) (p : List (Frame M V)) (ht : t ≠ nil) :
    ∃ k v m r q, minimum t p = (node nil k v m r, q) ∧
      fill q (node nil k v m r) = fill p t ∧ before q = before p ∧
      levels t p.length ++ levelsAfter p =
        (k, q.length) :: (levels r (q.length + 1) ++ levelsAfter q) := by
  induction t generalizing p with
  | nil => exact absurd rfl ht
  | node l k v m r ihl _ =>
    cases l with
    | nil => exact ⟨k, v, m, r, p, rfl, rfl, rfl, by simp [levels]⟩
    | node ll lk lv lm lr =>
      obtain ⟨k1, v1, m1, r1, q, h1, h2, h3, h4⟩ :=
        ihl (⟨Dir.left, k, v, m, r⟩ :: p) (by simp)
      refine ⟨k1, v1, m1, r1, q, ?_, ?_, ?_, ?_⟩
      · simp only [minimum]; exact h1
      · rw [h2]; rfl
      · rw [h3]; rfl
      · rw [← h4]
        simp [levels, levelsAfter]

/-- The walk up ends at the node that follows the subtree left in the in-order sequence. -/
theorem climb_levels (x : Tree M V) (p : List (Frame M V)) :
    (levelsAfter p = [] ∧ climb x p = (nil, [])) ∨
    ∃ l k v m r q, climb x p = (node l k v m r, q) ∧
      fill q (node l k v m r) = fill p x ∧ before q ++ keys l = before p ++ keys x ∧
      levelsAfter p = (k, q.length) :: (levels r (q.length + 1) ++ levelsAfter q) := by
  induction p generalizing x with
  | nil => exact Or.inl ⟨rfl, rfl⟩
  | cons f up ih =>
    obtain ⟨d, k, v, m, sib⟩ := f
    cases d with
    | left =>
      exact Or.inr ⟨x, k, v, m, sib, up, rfl, rfl, rfl, rfl⟩
    | right =>
      rcases ih (Frame.fill ⟨Dir.right, k, v, m, sib⟩ x) with ⟨h1, h2⟩ | ⟨l1, k1, v1, m1, r1, q, h1, h2, h3, h4⟩
      · exact Or.inl ⟨h1, h2⟩
      · refine Or.inr ⟨l1, k1, v1, m1, r1, q, h1, h2, ?_, h4⟩
        rw [h3]
        simp [Frame.fill, before, keys]

/-- The node `successor` returns is the next node of the in-order sequence. -/
theorem successor_levels (l r : Tree M V) (k : Int) (v : V) (m : M) (p : List (Frame M V)) :
    (levels r (p.length + 1) ++ levelsAfter p = [] ∧ successor (node l k v m r) p = (nil, [])) ∨
    ∃ l1 k1 v1 m1 r1 q, successor (node l k v m r) p = (node l1 k1 v1 m1 r1, q) ∧
      fill q (node l1 k1 v1 m1 r1) = fill p (node l k v m r) ∧
      before q ++ keys l1 = before p ++ keys l ++ [k] ∧
      levels r (p.length + 1) ++ levelsAfter p =
        (k1, q.length) :: (levels r1 (q.length + 1) ++ levelsAfter q) := by
  cases r with
  | nil =>
    rcases climb_levels (node l k v m nil) p with ⟨h1, h2⟩ | ⟨l1, k1, v1, m1, r1, q, h1, h2, h3, h4⟩
    · exact Or.inl ⟨by simp [levels, h1], h2⟩
    · refine Or.inr ⟨l1, k1, v1, m1, r1, q, h1, h2, ?_, by simp [levels, h4]⟩
      rw [h3]; simp [keys]
  | node rl rk rv rm rr =>
    obtain ⟨k1, v1, m1, r1, q, h1, h2, h3, h4⟩ :=
      minimum_levels (node rl rk rv rm rr) (⟨Dir.right, k, v, m, l⟩ :: p) (by simp)
    refine Or.inr ⟨nil, k1, v1, m1, r1, q, h1, ?_, ?_, ?_⟩
    · rw [h2]; rfl
    · rw [h3]; simp [before, keys]
    · rw [← h4]; simp [levelsAfter]

/-- The sequence of successors from a node lists the rest of the in-order sequence. -/
theorem visit_levels (fuel : Nat) (l r : Tree M V) (k : Int) (v : V) (m : M)
    (p : List (Frame M V))
    (hf : (levels r (p.length + 1) ++ levelsAfter p).length < fuel) :
    visit fuel (node l k v m r, p) =
      k :: (levels r (p.length + 1) ++ levelsAfter p).map Prod.fst := by
  induction fuel generalizing l r k v m p with
  | zero => omega
  | succ n ih =>
    simp only [visit]
    rcases successor_levels l r k v m p with ⟨h1, h2⟩ | ⟨l1, k1, v1, m1, r1, q, h1, _, _, h4⟩
    · rw [h1, h2]
      cases n <;> rfl
    · rw [h1, h4]
      rw [h4] at hf
      simp only [List.length_cons] at hf
      rw [ih l1 r1 k1 v1 m1 q (by omega)]
      rfl

theorem levels_length (t : Tree M V) (d : Nat) : (levels t d).length = size t := by
  rw [← keys_length, ← levels_keys t d, List.length_map]

/-- From `minimum()` the sequence of successors lists the in-order key sequence. -/
theorem visit_minimum (t : Tree M V) (fuel : Nat) (hf : size t ≤ fuel) :
    visit fuel (minimum t []) = keys t := by
  cases t with
  | nil => cases fuel <;> rfl
  | node l k v m r =>
    obtain ⟨k1, v1, m1, r1, q, h1, _, _, h4⟩ := minimum_levels (node l k v m r) [] (by simp)
    have hlen := levels_length (node l k v m r) 0
    simp only [levelsAfter, List.append_nil, List.length_nil] at h4
    rw [h4] at hlen
    simp only [List.length_cons] at hlen
    rw [h1, visit_levels fuel nil r1 k1 v1 m1 q (by omega), ← levels_keys _ 0, h4]
    rfl

end Tree

namespace Tree

theorem minimum_least (t : Tree M V) (hs : Inc (keys t)) (ht : t ≠ nil) :
    ∃ k v m r q, minimum t [] = (node nil k v m r, q) ∧ fill q (node nil k v m r) = t ∧
      ∀ j ∈ keys t, k ≤ j := by
  obtain ⟨k, v, m, r, q, h1, h2, h3, _⟩ := minimum_levels t [] ht
  refine ⟨k, v, m, r, q, h1, h2, ?_⟩
  have hk : keys t = k :: (keys r ++ after q) := by
    have := keys_fill q (node nil k v m r)
    rw [h2] at this
    simp only [fill] at this
    rw [this, h3]
    simp [before, keys]
  rw [hk] at hs ⊢
  intro j hj
  rcases List.mem_cons.1 hj with rfl | hj
  · exact le_refl _
  · exact le_of_lt (List.rel_of_pairwise_cons hs hj)

theorem successor_next (t l r : Tree M V) (k : Int) (v : V) (m : M) (p : List (Frame M V))
    (hs : Inc (keys t)) (hf : fill p (node l k v m r) = t) :
    ((successor (node l k v m r) p).1 = nil ∧ ∀ j ∈ keys t, j ≤ k) ∨
    ∃ l1 k1 v1 m1 r1 q, successor (node l k v m r) p = (node l1 k1 v1 m1 r1, q) ∧
      fill q (node l1 k1 v1 m1 r1) = t ∧ k < k1 ∧ ∀ j ∈ keys t, k < j → k1 ≤ j := by
  have hk := keys_fill p (node l k v m r)
  rw [hf] at hk
  rcases successor_levels l r k v m p with ⟨h1, h2⟩ | ⟨l1, k1, v1, m1, r1, q, h1, h2, h3, _⟩
  · left
    refine ⟨by rw [h2], ?_⟩
    have e := congrArg (List.map Prod.fst) h1
    simp only [List.map_append, levels_keys, levelsAfter_keys, List.map_nil,
      List.append_eq_nil] at e
    rw [hk] at hs ⊢
    simp only [keys, e.1, e.2, List.append_nil] at hs ⊢
    have hs1 : Inc ((before p ++ keys l) ++ [k]) := by simpa using hs
    intro j hj
    have hj1 : j ∈ (before p ++ keys l) ++ [k] := by simpa using hj
    rcases List.mem_append.1 hj1 with hj2 | hj2
    · exact le_of_lt ((List.pairwise_append.1 hs1).2.2 j hj2 k (by simp))
    · simp only [List.mem_singleton] at hj2
      exact le_of_eq hj2
  · right
    refine ⟨l1, k1, v1, m1, r1, q, h1, by rw [h2, hf], ?_⟩
    have hk2 := keys_fill q (node l1 k1 v1 m1 r1)
    rw [h2, hf] at hk2
    have hk3 : keys t = (before p ++ keys l ++ [k]) ++ k1 :: (keys r1 ++ after q) := by
      rw [hk2, ← h3]; simp [keys]
    rw [hk3] at hs ⊢
    have hp := List.pairwise_append.1 hs
    constructor
    · exact hp.2.2 k (by simp) k1 (by simp)
    · intro j hj hkj
      rcases List.mem_append.1 hj with hj | hj
      · rcases List.mem_append.1 hj with hj | hj
        · have := (List.pairwise_append.1 hp.1).2.2 j hj k (by simp)
          omega
        · simp only [List.mem_singleton] at hj
          omega
      · rcases List.mem_cons.1 hj with rfl | hj
        · exact le_refl _
        · exact le_of_lt (List.rel_of_pairwise_cons hp.2.1 hj)

theorem successor_maximum (t l r : Tree M V) (k : Int) (v : V) (m : M)
    (q : List (Frame M V)) (h : maximum t [] = (node l k v m r, q)) :
    (successor (node l k v m r) q).1 = nil := by
  obtain ⟨yl, yk, yv, ym, spine, h1, _, h3⟩ := maximum_spec t [] (by
    intro e; subst e; simp [maximum] at h)
  rw [h1] at h
  simp only [List.append_nil, Prod.mk.injEq, node.injEq] at h
  obtain ⟨⟨rfl, rfl, rfl, rfl, rfl⟩, rfl⟩ := h
  rcases successor_levels yl nil yk yv ym spine with ⟨_, h2⟩ | ⟨l1, k1, v1, m1, r1, q, _, _, _, h4⟩
  · rw [h2]
  · have e := congrArg (List.map Prod.fst) h4
    simp [levels_keys, levelsAfter_keys, h3, keys] at e

end Tree

/-- C30. In-order navigation: on every tree whose in-order key sequence is strictly increasing
(the chain of ancestors of a node stands for its parent links), `minimum()` returns the absent
node for the empty tree and otherwise a node of the tree that holds the smallest key; for every
node `n` of the tree `successor(n)` is a node of the tree that holds the smallest key greater
than the key of `n`, or the absent node when `n` holds the largest key; the sequence
`minimum(), successor(minimum()), ...` lists the in-order key sequence, every node once in
increasing order, and `successor(maximum())` is the absent node. -/
theorem inorder_navigation (t : Tree M V) (hs : List.Sorted (· < ·) (Tree.keys t)) :
    ((t = Tree.nil ∧ (Tree.minimum t []).1 = Tree.nil) ∨
      ∃ k v m r q, Tree.minimum t [] = (Tree.node Tree.nil k v m r, q) ∧
        Tree.fill q (Tree.node Tree.nil k v m r) = t ∧ ∀ j ∈ Tree.keys t, k ≤ j) ∧
    (∀ l k v m r p, Tree.fill p (Tree.node l k v m r) = t →
      ((Tree.successor (Tree.node l k v m r) p).1 = Tree.nil ∧ ∀ j ∈ Tree.keys t, j ≤ k) ∨
      ∃ l1 k1 v1 m1 r1 q,
        Tree.successor (Tree.node l k v m r) p = (Tree.node l1 k1 v1 m1 r1, q) ∧
        Tree.fill q (Tree.node l1 k1 v1 m1 r1) = t ∧ k < k1 ∧
        ∀ j ∈ Tree.keys t, k < j → k1 ≤ j) ∧
    (∀ fuel, Tree.size t ≤ fuel → Tree.visit fuel (Tree.minimum t []) = Tree.keys t) ∧
    (∀ l k v m r q, Tree.maximum t [] = (Tree.node l k v m r, q) →
      (Tree.successor (Tree.node l k v m r) q).1 = Tree.nil) := by
  refine ⟨?_, fun l k v m r p hf => Tree.successor_next t l r k v m p hs hf,
    fun fuel hf => Tree.visit_minimum t fuel hf,
    fun l k v m r q h => Tree.successor_maximum t l r k v m q h⟩
  by_cases ht : t = Tree.nil
  · left; subst ht; exact ⟨rfl, rfl⟩
  · right; exact Tree.minimum_least t hs ht

/-- Witness of C30: the tree with root `2` and children `1` and `3`. -/
theorem inorder_navigation_witness :
    List.Sorted (· < ·) (Tree.keys (Tree.node (Tree.node Tree.nil 1 () () Tree.nil) 2 () ()
      (Tree.node Tree.nil 3 () () Tree.nil))) ∧
    Tree.visit 3 (Tree.minimum (Tree.node (Tree.node Tree.nil 1 () () Tree.nil) 2 () ()
      (Tree.node Tree.nil 3 () () Tree.nil)) []) =
      Tree.keys (Tree.node (Tree.node Tree.nil 1 () () Tree.nil) 2 () ()
        (Tree.node Tree.nil 3 () () Tree.nil)) :=
  ⟨by simp [Tree.keys],
   (inorder_navigation (Tree.node (Tree.node Tree.nil 1 () () Tree.nil) 2 () ()
      (Tree.node Tree.nil 3 () () Tree.nil)) (by simp [Tree.keys])).2.2.1 3 (by decide)⟩

/-! ### The height computed by the in-order walk -/

namespace Tree

theorem height_eq_specHeight (t : Tree M V) : height t = specHeight t := by
  induction t with
  | nil => rfl
  | node l k v m r ihl ihr => rw [height_node, ihl, ihr]; rfl

theorem specHeight_ge (t : Tree M V) : -1 ≤ specHeight t := by
  rw [← height_eq_specHeight]; exact height_ge t

/-- Every node of a subtree is at a depth between the depth of its root and that depth plus
the height. -/
theorem levels_bounds (t : Tree M V) (d : Nat) :
    ∀ e ∈ levels t d, d ≤ e.2 ∧ (e.2 : Int) ≤ d + specHeight t := by
  induction t generalizing d with
  | nil => intro e he; simp [levels] at he
  | node l k v m r ihl ihr =>
    intro e he
    have gl := specHeight_ge l
    have gr := specHeight_ge r
    simp only [levels, List.mem_append, List.mem_cons] at he
    simp only [specHeight]
    rcases he with he | rfl | he
    · have := ihl (d + 1) e he
      push_cast at this
      omega
    · simp only
      omega
    · have := ihr (d + 1) e he
      push_cast at this
      omega

/-- Some node of a subtree is at the depth of its root plus the height. -/
theorem levels_deepest (t : Tree M V) (d : Nat) (ht : t ≠ nil) :
    ∃ e ∈ levels t d, (e.2 : Int) = d + specHeight t := by
  induction t generalizing d with
  | nil => exact absurd rfl ht
  | node l k v m r ihl ihr =>
    have gl := specHeight_ge l
    have gr := specHeight_ge r
    simp only [specHeight]
    by_cases hl : l = nil
    · by_cases hr : r = nil
      · subst hl; subst hr
        exact ⟨(k, d), by simp [levels], by simp [specHeight]⟩
      · obtain ⟨e, he, h⟩ := ihr (d + 1) hr
        subst hl
        refine ⟨e, by simp [levels, he], ?_⟩
        simp only [specHeight] at h ⊢
        push_cast at h
        omega
    · by_cases hr : r = nil
      · obtain ⟨e, he, h⟩ := ihl (d + 1) hl
        subst hr
        refine ⟨e, by simp [levels, he], ?_⟩
        simp only [specHeight] at h ⊢
        push_cast at h
        omega
      · rcases le_total (specHeight l) (specHeight r) with hlr | hlr
        · obtain ⟨e, he, h⟩ := ihr (d + 1) hr
          refine ⟨e, by simp [levels, he], ?_⟩
          push_cast at h
          omega
        · obtain ⟨e, he, h⟩ := ihl (d + 1) hl
          refine ⟨e, by simp [levels, he], ?_⟩
          push_cast at h
          omega

theorem levels_root (l r : Tree M V) (k : Int) (v : V) (m : M) (d : Nat) :
    (k, d) ∈ levels (node l k v m r) d := by
  simp [levels]

end Tree

namespace BST

theorem bst_heightLeft_levels (t : Tree Unit V) (p : List (Frame Unit V)) (h : Int)
    (ht : t ≠ Tree.nil) :
    ∃ k v m r q, heightLeft t p h = (Tree.node Tree.nil k v m r, q, h + p.length - q.length) ∧
      Tree.levels t p.length ++ Tree.levelsAfter p =
        (k, q.length) :: (Tree.levels r (q.length + 1) ++ Tree.levelsAfter q) := by
  induction t generalizing p h with
  | nil => exact absurd rfl ht
  | node l k v m r ihl _ =>
    cases l with
    | nil =>
      refine ⟨k, v, m, r, p, ?_, by simp [Tree.levels]⟩
      simp only [heightLeft, Prod.mk.injEq, true_and]
      omega
    | node ll lk lv lm lr =>
      obtain ⟨k1, v1, m1, r1, q, h1, h4⟩ :=
        ihl (⟨Dir.left, k, v, m, r⟩ :: p) (h - 1) (by simp)
      refine ⟨k1, v1, m1, r1, q, ?_, ?_⟩
      · simp only [heightLeft]
        rw [h1]
        simp only [List.length_cons, Prod.mk.injEq, true_and]
        push_cast
        omega
      · rw [← h4]
        simp [Tree.levels, Tree.levelsAfter]

theorem bst_heightUp_levels (x : Tree Unit V) (p : List (Frame Unit V)) (h : Int) :
    (Tree.levelsAfter p = [] ∧ (heightUp x p h).1 = Tree.nil) ∨
    ∃ l k v m r q, heightUp x p h = (Tree.node l k v m r, q, h + p.length - q.length) ∧
      Tree.levelsAfter p =
        (k, q.length) :: (Tree.levels r (q.length + 1) ++ Tree.levelsAfter q) := by
  induction p generalizing x h with
  | nil => exact Or.inl ⟨rfl, rfl⟩
  | cons f up ih =>
    obtain ⟨d, k, v, m, sib⟩ := f
    cases d with
    | left =>
      refine Or.inr ⟨x, k, v, m, sib, up, ?_, rfl⟩
      simp only [heightUp, Frame.fill, List.length_cons, Prod.mk.injEq, true_and]
      push_cast
      omega
    | right =>
      rcases ih (Frame.fill ⟨Dir.right, k, v, m, sib⟩ x) (h + 1) with
        ⟨h1, h2⟩ | ⟨l1, k1, v1, m1, r1, q, h1, h4⟩
      · exact Or.inl ⟨h1, h2⟩
      · refine Or.inr ⟨l1, k1, v1, m1, r1, q, ?_, h4⟩
        simp only [heightUp]
        rw [h1]
        simp only [List.length_cons, Prod.mk.injEq, true_and]
        push_cast
        omega

/-- One pass of the loop moves to the next node in order and keeps `h + depth` constant. -/
theorem bst_heightNext_levels (l r : Tree Unit V) (k : Int) (v : V) (m : Unit)
    (p : List (Frame Unit V)) (h : Int) :
    (Tree.levels r (p.length + 1) ++ Tree.levelsAfter p = [] ∧
      (heightNext (Tree.node l k v m r) p h).1 = Tree.nil) ∨
    ∃ l1 k1 v1 m1 r1 q,
      heightNext (Tree.node l k v m r) p h =
        (Tree.node l1 k1 v1 m1 r1, q, h + p.length - q.length) ∧
      Tree.levels r (p.length + 1) ++ Tree.levelsAfter p =
        (k1, q.length) :: (Tree.levels r1 (q.length + 1) ++ Tree.levelsAfter q) := by
  cases r with
  | nil =>
    rcases bst_heightUp_levels (Tree.node l k v m Tree.nil) p h with
      ⟨h1, h2⟩ | ⟨l1, k1, v1, m1, r1, q, h1, h4⟩
    · exact Or.inl ⟨by simp [Tree.levels, h1], h2⟩
    · exact Or.inr ⟨l1, k1, v1, m1, r1, q, h1, by simp [Tree.levels, h4]⟩
  | node rl rk rv rm rr =>
    obtain ⟨k1, v1, m1, r1, q, h1, h4⟩ :=
      bst_heightLeft_levels (Tree.node rl rk rv rm rr) (⟨Dir.right, k, v, m, l⟩ :: p) (h - 1)
        (by simp)
    refine Or.inr ⟨Tree.nil, k1, v1, m1, r1, q, ?_, ?_⟩
    · simp only [heightNext]
      rw [h1]
      simp only [List.length_cons, Prod.mk.injEq, true_and]
      push_cast
      omega
    · rw [← h4]; simp [Tree.levelsAfter]

/-- The loop returns the spread of `c - depth` over the start values and the nodes that follow
in order, `c` being the constant `h + depth`. -/
theorem bst_heightLoop_spec (fuel : Nat) (l r : Tree Unit V) (k : Int) (v : V) (m : Unit)
    (p : List (Frame Unit V)) (h hMax hMin : Int)
    (hf : (Tree.levels r (p.length + 1) ++ Tree.levelsAfter p).length < fuel) :
    heightLoop fuel (Tree.node l k v m r) p h hMax hMin =
      some ((Tree.levels r (p.length + 1) ++ Tree.levelsAfter p).foldl
          (fun a e => max a (h + p.length - (e.2 : Int))) hMax -
        (Tree.levels r (p.length + 1) ++ Tree.levelsAfter p).foldl
          (fun a e => min a (h + p.length - (e.2 : Int))) hMin) := by
  induction fuel generalizing l r k v m p h hMax hMin with
  | zero => omega
  | succ n ih =>
    simp only [heightLoop]
    rcases bst_heightNext_levels l r k v m p h with ⟨h1, h2⟩ | ⟨l1, k1, v1, m1, r1, q, h1, h4⟩
    · rw [h1, h2]
      simp only [Tree.isNil, List.foldl_nil]
      cases n <;> simp [heightLoop]
    · rw [h4] at hf ⊢
      simp only [List.length_cons] at hf
      rw [h1]
      simp only [Tree.isNil, true_and, List.foldl_cons]
      rw [ih l1 r1 k1 v1 m1 q _ _ _ (by omega)]
      have e : h + (p.length : Int) - (q.length : Int) + (q.length : Int) = h + p.length := by
        omega
      simp only [e]
      congr 3
      · split_ifs with hc
        · exact (max_eq_right (le_of_lt hc)).symm
        · exact (max_eq_left (not_lt.1 hc)).symm
      · split_ifs with hc
        · exact (min_eq_right (le_of_lt hc)).symm
        · exact (min_eq_left (not_lt.1 hc)).symm

theorem foldl_max_eq (c M : Int) (R : List (Int × Nat)) (a : Int) (ha : a ≤ M)
    (hR : ∀ e ∈ R, c - (e.2 : Int) ≤ M) (hM : a = M ∨ ∃ e ∈ R, c - (e.2 : Int) = M) :
    R.foldl (fun a e => max a (c - (e.2 : Int))) a = M := by
  induction R generalizing a with
  | nil =>
    rcases hM with rfl | ⟨e, he, _⟩
    · rfl
    · simp at he
  | cons x R ih =>
    simp only [List.foldl_cons]
    have hx := hR x (by simp)
    apply ih
    · exact max_le ha hx
    · intro e he; exact hR e (by simp [he])
    · rcases hM with rfl | ⟨e, he, heq⟩
      · left; exact max_eq_left hx
      · rcases List.mem_cons.1 he with rfl | he
        · left; rw [heq]; exact max_eq_right ha
        · right; exact ⟨e, he, heq⟩

theorem foldl_min_eq (c M : Int) (R : List (Int × Nat)) (a : Int) (ha : M ≤ a)
    (hR : ∀ e ∈ R, M ≤ c - (e.2 : Int)) (hM : a = M ∨ ∃ e ∈ R, c - (e.2 : Int) = M) :
    R.foldl (fun a e => min a (c - (e.2 : Int))) a = M := by
  induction R generalizing a with
  | nil =>
    rcases hM with rfl | ⟨e, he, _⟩
    · rfl
    · simp at he
  | cons x R ih =>
    simp only [List.foldl_cons]
    have hx := hR x (by simp)
    apply ih
    · exact le_min ha hx
    · intro e he; exact hR e (by simp [he])
    · rcases hM with rfl | ⟨e, he, heq⟩
      · left; exact min_eq_left hx
      · rcases List.mem_cons.1 he with rfl | he
        · left; rw [heq]; exact min_eq_right ha
        · right; exact ⟨e, he, heq⟩

/-- The in-order walk of `BinarySearchTree::height()` returns the height of the tree. -/
theorem bst_height_spec (st : State Unit V) :
    height st = some (Tree.specHeight st.root_) := by
  obtain ⟨t, n⟩ := st
  cases t with
  | nil => rfl
  | node l k v m r =>
    simp only [height, heightAt]
    obtain ⟨k1, v1, m1, r1, q, h1, _, _, h4⟩ :=
      Tree.minimum_levels (Tree.node l k v m r) [] (by simp)
    simp only [Tree.levelsAfter, List.append_nil, List.length_nil] at h4
    have hlen := Tree.levels_length (Tree.node l k v m r) 0
    rw [h4] at hlen
    simp only [List.length_cons] at hlen
    rw [h1]
    simp only
    rw [bst_heightLoop_spec _ Tree.nil r1 k1 v1 m1 q 0 0 0 (by omega)]
    have hb := Tree.levels_bounds (Tree.node l k v m r) 0
    have hroot := Tree.levels_root l r k v m 0
    obtain ⟨e0, he0, hdeep⟩ := Tree.levels_deepest (Tree.node l k v m r) 0 (by simp)
    rw [h4] at hb hroot he0
    have hq := hb (k1, q.length) (by simp)
    simp only [Nat.cast_zero, zero_add] at hq hdeep hb
    rw [foldl_max_eq (0 + (q.length : Int)) (q.length : Int) _ 0 (by omega)
        (fun e _ => by omega) ?_,
      foldl_min_eq (0 + (q.length : Int))
        ((q.length : Int) - Tree.specHeight (Tree.node l k v m r)) _ 0 (by omega)
        (fun e he => by have := (hb e (by simp [he])).2; omega) ?_]
    · congr 1; omega
    · rcases List.mem_cons.1 he0 with rfl | he
      · left; simp only at hdeep; omega
      · right; exact ⟨e0, he, by omega⟩
    · rcases List.mem_cons.1 hroot with e | he
      · left
        have := congrArg Prod.snd e
        simp only at this
        omega
      · right; exact ⟨(k, 0), he, by simp⟩

end BST

/-- C28. Per-node height in the unbalanced tree: in the tree built by `insert(2)` and
`insert(1)`, root `2` with the left child `1`, `height(n)` for the leaf `n` holding `1` returns
`1`, the height of the whole tree, while the height of the subtree rooted at `n` is `0`:
`height(node)` starts its walk at `minimum()` of the whole tree and walks up to `root_`,
whatever `node` is. -/
theorem bst_height_of_leaf_is_tree_height :
    BST.run [Op.insert 2 (), Op.insert 1 ()] State.empty =
      (⟨Tree.node (Tree.node Tree.nil 1 () () Tree.nil) 2 () () Tree.nil, 2⟩,
        [Ret.inserted true, Ret.inserted true]) ∧
    BST.heightAt ⟨Tree.node (Tree.node Tree.nil 1 () () Tree.nil) 2 () () Tree.nil, 2⟩
      (Tree.node Tree.nil 1 () () Tree.nil) = some 1 ∧
    Tree.specHeight (Tree.node Tree.nil 1 () () Tree.nil : Tree Unit Unit) = 0 ∧
    1 + max (Tree.specHeight (Tree.nil : Tree Unit Unit))
      (Tree.specHeight (Tree.nil : Tree Unit Unit)) = 0 :=
  ⟨rfl, rfl, rfl, rfl⟩

/-- C29. Whole-tree height in the four variants: `height()` returns `-1` for the empty tree and
otherwise `1 + max` of the heights of the two subtrees of the root, an absent subtree counted
as `-1` (the number of edges on the longest path from the root to a leaf); the in-order walk
with the depth counter of the unbalanced tree returns, on every tree, the value that the
recursive computation of the other three variants returns. -/
theorem height_all_variants :
    (∀ st : State Unit V, BST.height st = some (Tree.specHeight st.root_)) ∧
    (∀ st : State Int V, AVL.height st = Tree.specHeight st.root_) ∧
    (∀ st : State Color V, RB.height st = Tree.specHeight st.root_) ∧
    (∀ st : State Int V, AA.height st = Tree.specHeight st.root_) ∧
    (∀ st : State Unit V, BST.height st = some (Tree.height st.root_)) ∧
    BST.height (State.empty : State Unit V) = some (-1) ∧
    AVL.height (State.empty : State Int V) = -1 ∧
    RB.height (State.empty : State Color V) = -1 ∧
    AA.height (State.empty : State Int V) = -1 :=
  ⟨fun st => BST.bst_height_spec st,
   fun st => Tree.height_eq_specHeight st.root_,
   fun st => Tree.height_eq_specHeight st.root_,
   fun st => Tree.height_eq_specHeight st.root_,
   fun st => by rw [BST.bst_height_spec, Tree.height_eq_specHeight],
   rfl, rfl, rfl, rfl⟩

/-! ### The unbalanced `erase` and the rule of the specification -/

namespace Tree

theorem removeMin_minimum (t : Tree M V) (p : List (Frame M V)) (ht : t ≠ nil) :
    ∃ yk yv ym yr spine, minimum t p = (node nil yk yv ym yr, spine ++ p) ∧
      removeMin t = fill spine yr ∧ minEntry t = some (yk, yv) := by
  induction t generalizing p with
  | nil => exact absurd rfl ht
  | node l k v m r ihl _ =>
    cases l with
    | nil => exact ⟨k, v, m, r, [], rfl, rfl, rfl⟩
    | node ll lk lv lm lr =>
      obtain ⟨yk, yv, ym, yr, spine, h1, h2, h3⟩ :=
        ihl (⟨Dir.left, k, v, m, r⟩ :: p) (by simp)
      refine ⟨yk, yv, ym, yr, spine ++ [⟨Dir.left, k, v, m, r⟩], ?_, ?_, ?_⟩
      · simp only [minimum, h1, List.append_assoc, List.singleton_append]
      · simp only [removeMin, h2, fill_append]
        rfl
      · simp only [minEntry, h3]

end Tree

namespace BST

theorem bst_eraseNode_spec (l r : Tree Unit V) :
    eraseNode l r = Tree.specEraseAt l () r := by
  cases l with
  | nil => cases r <;> rfl
  | node ll lk lv lm lr =>
    cases r with
    | nil => rfl
    | node rl rk rv rm rr =>
      obtain ⟨yk, yv, ym, yr, spine, h1, h2, h3⟩ :=
        Tree.removeMin_minimum (Tree.node rl rk rv rm rr) [] (by simp)
      simp only [eraseNode, Tree.specEraseAt, h1, h2, h3, List.append_nil]
      cases spine <;> rfl

theorem bst_erase_descend (key : Int) (t : Tree Unit V) (p : List (Frame Unit V)) :
    Tree.fill (Tree.descend key t p).2
        (match (Tree.descend key t p).1 with
         | Tree.nil => Tree.nil
         | Tree.node l _ _ _ r => eraseNode l r) =
      Tree.fill p (Tree.specErase key t) := by
  induction t generalizing p with
  | nil => rfl
  | node l k v m r ihl ihr =>
    simp only [Tree.descend, Tree.specErase]
    by_cases h1 : key < k
    · rw [if_pos h1, if_pos h1, ihl]; rfl
    · rw [if_neg h1, if_neg h1]
      by_cases h2 : k < key
      · rw [if_pos h2, if_pos h2, ihr]; rfl
      · rw [if_neg h2, if_neg h2]
        simp only [bst_eraseNode_spec]

end BST

/-- C31. The unbalanced `erase` and the rule of the specification: for every tree and every key
(in particular for a search tree and a key present in it), the tree that `erase` leaves, with
the in-order successor node relinked into the place of the erased node by `transplant`, is the
tree that the rule of the specification gives, the same shape with the same key and the same
value at every position. -/
theorem bst_erase_refines_spec (st : State Unit V) (key : Int) :
    (BST.erase st key).1.root_ = Tree.specErase key st.root_ := by
  have h := BST.bst_erase_descend key st.root_ []
  simp only [Tree.fill] at h
  rw [← h]
  simp only [BST.erase]
  rcases hd : Tree.descend key st.root_ [] with ⟨x, path⟩
  cases x with
  | nil =>
    have hf := Tree.descend_fill key st.root_ []
    rw [hd] at hf
    exact hf.symm
  | node l k v m r => rfl

/-! ### Rotation arithmetic -/

/-- C35, as stated, fails for the double rotation: in the tree below every stored balance is the
true `height(left) - height(right)`, the root has balance `2` and its left child balance `-1`,
but the right child of the left child has balance `2`; `rotateLeftRight` then stores `-1` in
the old root, whose subtrees have the heights `-1` and `1`, a difference of `-2`. -/
theorem avl_rotateLeftRight_middle_two :
    AVL.rotateLeftRight
        (Tree.node
          (Tree.node (Tree.node (Tree.node Tree.nil 5 () 0 Tree.nil) 10 () 1 Tree.nil) 20 () (-1)
            (Tree.node (Tree.node (Tree.node Tree.nil 25 () 0 Tree.nil) 30 () 1 Tree.nil)
              40 () 2 Tree.nil))
          50 () 2 (Tree.node (Tree.node Tree.nil 55 () 0 Tree.nil) 60 () 1 Tree.nil)) =
      some (Tree.node
        (Tree.node (Tree.node (Tree.node Tree.nil 5 () 0 Tree.nil) 10 () 1 Tree.nil) 20 () 0
          (Tree.node (Tree.node Tree.nil 25 () 0 Tree.nil) 30 () 1 Tree.nil))
        40 () 0
        (Tree.node Tree.nil 50 () (-1)
          (Tree.node (Tree.node Tree.nil 55 () 0 Tree.nil) 60 () 1 Tree.nil))) ∧
    (2 : Int) = Tree.height
        (Tree.node (Tree.node (Tree.node Tree.nil 5 () 0 Tree.nil) 10 () 1 Tree.nil) 20 () (-1)
          (Tree.node (Tree.node (Tree.node Tree.nil 25 () 0 Tree.nil) 30 () 1 Tree.nil)
            40 () 2 Tree.nil)) -
      Tree.height (Tree.node (Tree.node Tree.nil 55 () 0 Tree.nil) 60 () (1 : Int) Tree.nil) ∧
    (-1 : Int) = Tree.height (Tree.node (Tree.node Tree.nil 5 () 0 Tree.nil) 10 () (1 : Int)
        Tree.nil) -
      Tree.height (Tree.node (Tree.node (Tree.node Tree.nil 25 () 0 Tree.nil) 30 () 1 Tree.nil)
        40 () (2 : Int) Tree.nil) ∧
    (2 : Int) = Tree.height (Tree.node (Tree.node Tree.nil 25 () 0 Tree.nil) 30 () (1 : Int)
        Tree.nil) - Tree.height (Tree.nil : Tree Int Unit) ∧
    (-1 : Int) ≠ Tree.height (Tree.nil : Tree Int Unit) -
      Tree.height (Tree.node (Tree.node Tree.nil 55 () 0 Tree.nil) 60 () (1 : Int) Tree.nil) :=
  ⟨rfl, by decide, by decide, by decide, by decide⟩

/-- C35, amended: when `rotateLeft` is applied at a node of balance `-2` whose right child has
balance `-1` or `0`, `rotateRight` at a node of balance `2` whose left child has balance `1` or
`0`, `rotateLeftRight` at a node of balance `2` whose left child has balance `-1`, or
`rotateRightLeft` at a node of balance `-2` whose right child has balance `1`, the stored
balances being the true height differences and, for the two double rotations, the balance of
the grandchild that becomes the root being `-1`, `0` or `1`, then the balances stored in the
two or three participating nodes after the rotation are their true
`height(left) - height(right)` and the in-order key sequence is unchanged. -/
theorem avl_rotation_arithmetic :
    (∀ (l rl rr : Tree Int V) (k rk : Int) (v rv : V) (rb : Int),
      -2 = Tree.height l - Tree.height (Tree.node rl rk rv rb rr) →
      rb = Tree.height rl - Tree.height rr → (rb = -1 ∨ rb = 0) →
      ∃ b1 b2, AVL.rotateLeft (Tree.node l k v (-2) (Tree.node rl rk rv rb rr)) =
          some (Tree.node (Tree.node l k v b1 rl) rk rv b2 rr) ∧
        b1 = Tree.height l - Tree.height rl ∧
        b2 = Tree.height (Tree.node l k v b1 rl) - Tree.height rr ∧
        Tree.keys (Tree.node (Tree.node l k v b1 rl) rk rv b2 rr) =
          Tree.keys (Tree.node l k v (-2) (Tree.node rl rk rv rb rr))) ∧
    (∀ (ll lr r : Tree Int V) (k lk : Int) (v lv : V) (lb : Int),
      2 = Tree.height (Tree.node ll lk lv lb lr) - Tree.height r →
      lb = Tree.height ll - Tree.height lr → (lb = 1 ∨ lb = 0) →
      ∃ b1 b2, AVL.rotateRight (Tree.node (Tree.node ll lk lv lb lr) k v 2 r) =
          some (Tree.node ll lk lv b1 (Tree.node lr k v b2 r)) ∧
        b2 = Tree.height lr - Tree.height r ∧
        b1 = Tree.height ll - Tree.height (Tree.node lr k v b2 r) ∧
        Tree.keys (Tree.node ll lk lv b1 (Tree.node lr k v b2 r)) =
          Tree.keys (Tree.node (Tree.node ll lk lv lb lr) k v 2 r)) ∧
    (∀ (ll lrl lrr r : Tree Int V) (k lk lrk : Int) (v lv lrv : V) (lrb : Int),
      2 = Tree.height (Tree.node ll lk lv (-1) (Tree.node lrl lrk lrv lrb lrr)) - Tree.height r →
      -1 = Tree.height ll - Tree.height (Tree.node lrl lrk lrv lrb lrr) →
      lrb = Tree.height lrl - Tree.height lrr → -1 ≤ lrb → lrb ≤ 1 →
      ∃ b1 b0 b2, AVL.rotateLeftRight
            (Tree.node (Tree.node ll lk lv (-1) (Tree.node lrl lrk lrv lrb lrr)) k v 2 r) =
          some (Tree.node (Tree.node ll lk lv b1 lrl) lrk lrv b0 (Tree.node lrr k v b2 r)) ∧
        b1 = Tree.height ll - Tree.height lrl ∧ b2 = Tree.height lrr - Tree.height r ∧
        b0 = Tree.height (Tree.node ll lk lv b1 lrl) - Tree.height (Tree.node lrr k v b2 r) ∧
        Tree.keys (Tree.node (Tree.node ll lk lv b1 lrl) lrk lrv b0 (Tree.node lrr k v b2 r)) =
          Tree.keys
            (Tree.node (Tree.node ll lk lv (-1) (Tree.node lrl lrk lrv lrb lrr)) k v 2 r)) ∧
    (∀ (l rll rlr rr : Tree Int V) (k rk rlk : Int) (v rv rlv : V) (rlb : Int),
      -2 = Tree.height l - Tree.height (Tree.node (Tree.node rll rlk rlv rlb rlr) rk rv 1 rr) →
      1 = Tree.height (Tree.node rll rlk rlv rlb rlr) - Tree.height rr →
      rlb = Tree.height rll - Tree.height rlr → -1 ≤ rlb → rlb ≤ 1 →
      ∃ b1 b0 b2, AVL.rotateRightLeft
            (Tree.node l k v (-2) (Tree.node (Tree.node rll rlk rlv rlb rlr) rk rv 1 rr)) =
          some (Tree.node (Tree.node l k v b1 rll) rlk rlv b0 (Tree.node rlr rk rv b2 rr)) ∧
        b1 = Tree.height l - Tree.height rll ∧ b2 = Tree.height rlr - Tree.height rr ∧
        b0 = Tree.height (Tree.node l k v b1 rll) - Tree.height (Tree.node rlr rk rv b2 rr) ∧
        Tree.keys (Tree.node (Tree.node l k v b1 rll) rlk rlv b0 (Tree.node rlr rk rv b2 rr)) =
          Tree.keys
            (Tree.node l k v (-2) (Tree.node (Tree.node rll rlk rlv rlb rlr) rk rv 1 rr))) := by
  refine ⟨?_, ?_, ?_, ?_⟩
  · intro l rl rr k rk v rv rb h1 h2 h3
    refine ⟨-(rb + 1), rb + 1, rfl, ?_, ?_, by simp [Tree.keys]⟩
    · rw [Tree.height_node] at h1; omega
    · rw [Tree.height_node] at h1 ⊢; omega
  · intro ll lr r k lk v lv lb h1 h2 h3
    refine ⟨lb - 1, -(lb - 1), rfl, ?_, ?_, by simp [Tree.keys]⟩
    · rw [Tree.height_node] at h1; omega
    · rw [Tree.height_node] at h1 ⊢; omega
  · intro ll lrl lrr r k lk lrk v lv lrv lrb h1 h2 h3 h4 h5
    rw [Tree.height_node, Tree.height_node] at h1
    rw [Tree.height_node] at h2
    have hc : lrb = -1 ∨ lrb = 0 ∨ lrb = 1 := by omega
    rcases hc with e | e | e <;> subst e
    · refine ⟨1, 0, 0, rfl, ?_, ?_, ?_, by simp [Tree.keys]⟩ <;>
        (try rw [Tree.height_node, Tree.height_node]) <;> omega
    · refine ⟨0, 0, 0, rfl, ?_, ?_, ?_, by simp [Tree.keys]⟩ <;>
        (try rw [Tree.height_node, Tree.height_node]) <;> omega
    · refine ⟨0, 0, -1, rfl, ?_, ?_, ?_, by simp [Tree.keys]⟩ <;>
        (try rw [Tree.height_node, Tree.height_node]) <;> omega
  · intro l rll rlr rr k rk rlk v rv rlv rlb h1 h2 h3 h4 h5
    rw [Tree.height_node, Tree.height_node] at h1
    rw [Tree.height_node] at h2
    have hc : rlb = 1 ∨ rlb = 0 ∨ rlb = -1 := by omega
    rcases hc with e | e | e <;> subst e
    · refine ⟨0, 0, -1, rfl, ?_, ?_, ?_, by simp [Tree.keys]⟩ <;>
        (try rw [Tree.height_node, Tree.height_node]) <;> omega
    · refine ⟨0, 0, 0, rfl, ?_, ?_, ?_, by simp [Tree.keys]⟩ <;>
        (try rw [Tree.height_node, Tree.height_node]) <;> omega
    · refine ⟨1, 0, 0, rfl, ?_, ?_, ?_, by simp [Tree.keys]⟩ <;>
        (try rw [Tree.height_node, Tree.height_node]) <;> omega

/-- Witness of C35, amended: the four rotations on trees of three and four nodes. -/
theorem avl_rotation_arithmetic_witness :
    (∃ b1 b2, AVL.rotateLeft (Tree.node Tree.nil 10 () (-2)
          (Tree.node Tree.nil 20 () (-1) (Tree.node Tree.nil 30 () 0 Tree.nil))) =
        some (Tree.node (Tree.node Tree.nil 10 () b1 Tree.nil) 20 () b2
          (Tree.node Tree.nil 30 () 0 Tree.nil)) ∧
      b1 = Tree.height (Tree.nil : Tree Int Unit) - Tree.height (Tree.nil : Tree Int Unit) ∧
      b2 = Tree.height (Tree.node Tree.nil 10 () b1 Tree.nil) -
        Tree.height (Tree.node Tree.nil 30 () (0 : Int) Tree.nil) ∧
      Tree.keys (Tree.node (Tree.node Tree.nil 10 () b1 Tree.nil) 20 () b2
          (Tree.node Tree.nil 30 () 0 Tree.nil)) =
        Tree.keys (Tree.node Tree.nil 10 () (-2 : Int)
          (Tree.node Tree.nil 20 () (-1) (Tree.node Tree.nil 30 () 0 Tree.nil)))) ∧
    (∃ b1 b0 b2, AVL.rotateLeftRight
          (Tree.node (Tree.node Tree.nil 10 () (-1) (Tree.node Tree.nil 20 () 0 Tree.nil))
            30 () 2 Tree.nil) =
        some (Tree.node (Tree.node Tree.nil 10 () b1 Tree.nil) 20 () b0
          (Tree.node Tree.nil 30 () b2 Tree.nil)) ∧
      b1 = Tree.height (Tree.nil : Tree Int Unit) - Tree.height (Tree.nil : Tree Int Unit) ∧
      b2 = Tree.height (Tree.nil : Tree Int Unit) - Tree.height (Tree.nil : Tree Int Unit) ∧
      b0 = Tree.height (Tree.node Tree.nil 10 () b1 Tree.nil) -
        Tree.height (Tree.node Tree.nil 30 () b2 Tree.nil) ∧
      Tree.keys (Tree.node (Tree.node Tree.nil 10 () b1 Tree.nil) 20 () b0
          (Tree.node Tree.nil 30 () b2 Tree.nil)) =
        Tree.keys (Tree.node (Tree.node Tree.nil 10 () (-1 : Int)
          (Tree.node Tree.nil 20 () 0 Tree.nil)) 30 () 2 Tree.nil)) :=
  ⟨avl_rotation_arithmetic.1 Tree.nil Tree.nil (Tree.node Tree.nil 30 () 0 Tree.nil) 10 20 () ()
      (-1) (by decide) (by decide) (Or.inl rfl),
   avl_rotation_arithmetic.2.2.1 Tree.nil Tree.nil Tree.nil Tree.nil 30 10 20 () () () 0
      (by decide) (by decide) (by decide) (by decide) (by decide)⟩

/-- C38. Level-balanced `skew` and `split`: `skew(t)` returns `t` unless `t` has a left child
`L` on the level of `t`, and then returns `L` with `t` as its right child and the former right
subtree of `L` as the left subtree of `t`, all levels unchanged; `split(t)` returns `t` unless
the right child of the right child of `t` is on the level of `t`, and then returns the right
child `R` with `t` as its left child, the former left subtree of `R` as the right subtree of
`t`, and the level of `R` increased by `1`; both keep the in-order key sequence. -/
theorem aa_skew_split_spec :
    AA.skew (Tree.nil : Tree Int V) = Tree.nil ∧
    (∀ (k : Int) (v : V) (lv : Int) (r : Tree Int V),
      AA.skew (Tree.node Tree.nil k v lv r) = Tree.node Tree.nil k v lv r) ∧
    (∀ (ll lr r : Tree Int V) (k lk : Int) (v lvl : V) (lv llv : Int), llv ≠ lv →
      AA.skew (Tree.node (Tree.node ll lk lvl llv lr) k v lv r) =
        Tree.node (Tree.node ll lk lvl llv lr) k v lv r) ∧
    (∀ (ll lr r : Tree Int V) (k lk : Int) (v lvl : V) (lv : Int),
      AA.skew (Tree.node (Tree.node ll lk lvl lv lr) k v lv r) =
        Tree.node ll lk lvl lv (Tree.node lr k v lv r)) ∧
    AA.split (Tree.nil : Tree Int V) = Tree.nil ∧
    (∀ (l : Tree Int V) (k : Int) (v : V) (lv : Int),
      AA.split (Tree.node l k v lv Tree.nil) = Tree.node l k v lv Tree.nil) ∧
    (∀ (l rl : Tree Int V) (k rk : Int) (v rv : V) (lv rlv : Int),
      AA.split (Tree.node l k v lv (Tree.node rl rk rv rlv Tree.nil)) =
        Tree.node l k v lv (Tree.node rl rk rv rlv Tree.nil)) ∧
    (∀ (l rl rrl rrr : Tree Int V) (k rk rrk : Int) (v rv rrv : V) (lv rlv rrlv : Int),
      rrlv ≠ lv →
      AA.split (Tree.node l k v lv (Tree.node rl rk rv rlv (Tree.node rrl rrk rrv rrlv rrr))) =
        Tree.node l k v lv (Tree.node rl rk rv rlv (Tree.node rrl rrk rrv rrlv rrr))) ∧
    (∀ (l rl rrl rrr : Tree Int V) (k rk rrk : Int) (v rv rrv : V) (lv rlv : Int),
      AA.split (Tree.node l k v lv (Tree.node rl rk rv rlv (Tree.node rrl rrk rrv lv rrr))) =
        Tree.node (Tree.node l k v lv rl) rk rv (rlv + 1) (Tree.node rrl rrk rrv lv rrr)) ∧
    (∀ t : Tree Int V, Tree.keys (AA.skew t) = Tree.keys t) ∧
    (∀ t : Tree Int V, Tree.keys (AA.split t) = Tree.keys t) := by
  refine ⟨rfl, fun _ _ _ _ => rfl, ?_, ?_, rfl, fun _ _ _ _ => rfl,
    fun _ _ _ _ _ _ _ _ => rfl, ?_, ?_, AA.aa_keys_skew, AA.aa_keys_split⟩
  · intro ll lr r k lk v lvl lv llv h
    simp only [AA.skew]
    rw [if_neg (fun e => h e.symm)]
  · intro ll lr r k lk v lvl lv
    simp only [AA.skew, if_true]
  · intro l rl rrl rrr k rk rrk v rv rrv lv rlv rrlv h
    simp only [AA.split]
    rw [if_neg (fun e => h e.symm)]
  · intro l rl rrl rrr k rk rrk v rv rrv lv rlv
    simp only [AA.split, if_true]

/-! ### The rotation calls of the height-balanced tree -/

namespace AVL

theorem avl_rotateLeft_ok (t : Tree Int V) :
    (rotateLeft t).isSome = Rot.ok Rot.left t := by
  rcases t with _ | ⟨l, k, v, b, _ | ⟨rl, rk, rv, rb, rr⟩⟩ <;> rfl

theorem avl_rotateRight_ok (t : Tree Int V) :
    (rotateRight t).isSome = Rot.ok Rot.right t := by
  rcases t with _ | ⟨_ | ⟨ll, lk, lv, lb, lr⟩, k, v, b, r⟩ <;> rfl

theorem avl_rotateLeftRight_ok (t : Tree Int V) :
    (rotateLeftRight t).isSome = Rot.ok Rot.leftRight t := by
  rcases t with _ | ⟨_ | ⟨ll, lk, lv, lb, _ | ⟨lrl, lrk, lrv, lrb, lrr⟩⟩, k, v, b, r⟩
  · rfl
  · rfl
  · rfl
  · simp only [rotateLeftRight, Rot.ok]
    split_ifs <;> rfl

theorem avl_rotateRightLeft_ok (t : Tree Int V) :
    (rotateRightLeft t).isSome = Rot.ok Rot.rightLeft t := by
  rcases t with _ | ⟨l, k, v, b, _ | ⟨_ | ⟨rll, rlk, rlv, rlb, rlr⟩, rk, rv, rb, rr⟩⟩
  · rfl
  · rfl
  · rfl
  · simp only [rotateRightLeft, Rot.ok]
    split_ifs <;> rfl

/-- A pass of `insertBalance` that returns has made its rotation call, if any, on a node with
the expected children, and such a pass ends the loop. -/
theorem avl_insertBalanceCall_ok (t : Tree Int V) (d : Int) (q : Tree Int V × Bool)
    (c : Rot × Tree Int V) (hs : insertBalanceStep t d = some q)
    (hc : insertBalanceCall t d = some c) : Rot.ok c.1 c.2 = true ∧ q.2 = false := by
  cases t with
  | nil => simp [insertBalanceCall] at hc
  | node l k v b r =>
    simp only [insertBalanceCall] at hc
    simp only [insertBalanceStep] at hs
    split_ifs at hc hs with h1 h2 h3
    · cases l with
      | nil => simp at hc
      | node ll lk lv lb lr =>
        simp only at hc hs
        split_ifs at hc hs
        · cases hc
          obtain ⟨a, ha, rfl⟩ := Option.map_eq_some'.1 hs
          exact ⟨rfl, rfl⟩
        · cases hc
          obtain ⟨a, ha, rfl⟩ := Option.map_eq_some'.1 hs
          refine ⟨?_, rfl⟩
          rw [← avl_rotateLeftRight_ok, ha]; rfl
    · cases r with
      | nil => simp at hc
      | node rl rk rv rb rr =>
        simp only at hc hs
        split_ifs at hc hs
        · cases hc
          obtain ⟨a, ha, rfl⟩ := Option.map_eq_some'.1 hs
          exact ⟨rfl, rfl⟩
        · cases hc
          obtain ⟨a, ha, rfl⟩ := Option.map_eq_some'.1 hs
          refine ⟨?_, rfl⟩
          rw [← avl_rotateRightLeft_ok, ha]; rfl

theorem avl_deleteBalanceCall_ok (t : Tree Int V) (d : Int) (q : Tree Int V × Bool)
    (c : Rot × Tree Int V) (hs : deleteBalanceStep t d = some q)
    (hc : deleteBalanceCall t d = some c) : Rot.ok c.1 c.2 = true := by
  cases t with
  | nil => simp [deleteBalanceCall] at hc
  | node l k v b r =>
    simp only [deleteBalanceCall] at hc
    simp only [deleteBalanceStep] at hs
    split_ifs at hc hs with h1 h2 h3
    · cases l with
      | nil => simp at hc
      | node ll lk lv lb lr =>
        simp only at hc hs
        split_ifs at hc hs
        · cases hc; rfl
        · cases hc
          obtain ⟨a, ha, _⟩ := Option.map_eq_some'.1 hs
          rw [← avl_rotateLeftRight_ok, ha]; rfl
    · cases r with
      | nil => simp at hc
      | node rl rk rv rb rr =>
        simp only at hc hs
        split_ifs at hc hs
        · cases hc; rfl
        · cases hc
          obtain ⟨a, ha, _⟩ := Option.map_eq_some'.1 hs
          rw [← avl_rotateRightLeft_ok, ha]; rfl

theorem avl_insertBalanceCalls_ok (up : List (Frame Int V)) (t : Tree Int V) (d : Int)
    (u : Tree Int V) (h : insertBalance up t d = some u) :
    (∀ c ∈ insertBalanceCalls up t d, Rot.ok c.1 c.2 = true) ∧
      (insertBalanceCalls up t d).length ≤ 1 := by
  induction up generalizing t d with
  | nil =>
    rw [insertBalance] at h
    rw [insertBalanceCalls]
    cases hs : insertBalanceStep t d with
    | none => rw [hs] at h; simp at h
    | some q =>
      cases hc : insertBalanceCall t d with
      | none => obtain ⟨n, _ | _⟩ := q <;> simp
      | some c =>
        have := avl_insertBalanceCall_ok t d q c hs hc
        obtain ⟨n, b⟩ := q
        simp only at this
        obtain ⟨h1, rfl⟩ := this
        simp [h1]
  | cons g up1 ih =>
    rw [insertBalance] at h
    rw [insertBalanceCalls]
    cases hs : insertBalanceStep t d with
    | none => rw [hs] at h; simp at h
    | some q =>
      rw [hs] at h
      cases hc : insertBalanceCall t d with
      | none =>
        obtain ⟨n, _ | _⟩ := q
        · simp
        · simp only at h
          simpa using ih _ _ h
      | some c =>
        have := avl_insertBalanceCall_ok t d q c hs hc
        obtain ⟨n, b⟩ := q
        simp only at this
        obtain ⟨h1, rfl⟩ := this
        simp [h1]

theorem avl_deleteBalanceCalls_ok (up : List (Frame Int V)) (t : Tree Int V) (d : Int)
    (u : Tree Int V) (h : deleteBalance up t d = some u) :
    ∀ c ∈ deleteBalanceCalls up t d, Rot.ok c.1 c.2 = true := by
  induction up generalizing t d with
  | nil =>
    rw [deleteBalance] at h
    rw [deleteBalanceCalls]
    cases hs : deleteBalanceStep t d with
    | none => rw [hs] at h; simp at h
    | some q =>
      cases hc2 : deleteBalanceCall t d with
      | none => obtain ⟨n, _ | _⟩ := q <;> simp
      | some c =>
        have := avl_deleteBalanceCall_ok t d q c hs hc2
        obtain ⟨n, _ | _⟩ := q <;> simp [this]
  | cons g up1 ih =>
    rw [deleteBalance] at h
    rw [deleteBalanceCalls]
    cases hs : deleteBalanceStep t d with
    | none => rw [hs] at h; simp at h
    | some q =>
      rw [hs] at h
      obtain ⟨n, b⟩ := q
      have hcall : ∀ c ∈ (deleteBalanceCall t d).toList, Rot.ok c.1 c.2 = true := by
        intro c hc
        simp only [Option.mem_toList, Option.mem_def] at hc
        exact avl_deleteBalanceCall_ok t d (n, b) c hs hc
      cases b with
      | false =>
        intro c hc
        simp only [List.append_nil] at hc
        exact hcall c hc
      | true =>
        simp only at h
        intro c hc
        rcases List.mem_append.1 hc with hc | hc
        · exact hcall c hc
        · exact ih _ _ h c hc

theorem avl_eraseNode_args (path : List (Frame Int V)) (l : Tree Int V) (v : V) (b : Int)
    (r : Tree Int V) :
    eraseNode path l v b r =
      match eraseBalanceArgs path l v b r with
      | some q => deleteBalance q.1 q.2.1 q.2.2
      | none =>
        match l, r, path with
        | Tree.nil, Tree.nil, [] => some Tree.nil
        | _, _, _ => none := by
  rcases l with _ | ⟨ll, lk, lv, lb, lr⟩ <;> rcases r with _ | ⟨_ | ⟨rll, rlk, rlv, rlb, rlr⟩, rk, rv, rb, rr⟩
  · cases path <;> rfl
  · rfl
  · rfl
  · rfl
  · rfl
  · simp only [eraseNode, eraseBalanceArgs]
    rcases hm : Tree.minimum (Tree.node rll rlk rlv rlb rlr) [⟨Dir.left, rk, rv, rb, rr⟩] with
      ⟨y, sp⟩
    rcases y with _ | ⟨yl, sk, sv, sb, sr⟩
    · rfl
    · cases sp <;> rfl

end AVL

namespace AVL

/-- When `insertBalance` rotates, the subtree left at that place has the height the subtree at
that place had before the insertion, and the ancestors are left as they were. -/
theorem avl_insertBalanceSite_spec (up : List (Frame Int V)) (t : Tree Int V) (d h : Int)
    (up1 : List (Frame Int V)) (n : Tree Int V)
    (hp : PathOK up h) (hg : Grown t d h) (hs : insertBalanceSite up t d = some (up1, n)) :
    ∃ up0, up = up0 ++ up1 ∧ Tree.height n = Tree.heightAbove up0 h ∧
      insertBalance up t d = some (Tree.fill up1 n) := by
  induction up generalizing t d h with
  | nil =>
    obtain ⟨n1, c, e1, _, _, e4, _⟩ := avl_insertBalanceStep_spec t d h hg
    rw [insertBalanceSite] at hs
    rw [insertBalance, e1]
    cases hc : insertBalanceCall t d with
    | none =>
      rw [hc, e1] at hs
      cases c <;> simp at hs
    | some c1 =>
      rw [hc, e1] at hs
      simp only [Option.map_some', Option.some.injEq, Prod.mk.injEq] at hs
      obtain ⟨rfl, rfl⟩ := hs
      obtain ⟨_, e⟩ := avl_insertBalanceCall_ok t d (n1, c) c1 e1 hc
      simp only at e
      subst e
      exact ⟨[], rfl, e4 rfl, rfl⟩
  | cons g up2 ih =>
    obtain ⟨n1, c, e1, _, e3, e4, e5⟩ := avl_insertBalanceStep_spec t d h hg
    rw [insertBalanceSite] at hs
    rw [insertBalance, e1]
    cases hc : insertBalanceCall t d with
    | none =>
      rw [hc, e1] at hs
      cases c with
      | false => simp at hs
      | true =>
        simp only at hs ⊢
        obtain ⟨hh, hz⟩ := e5 rfl
        have hgr := avl_grown_fill g up2 n1 h hp e3 hh (Or.inr hz)
        obtain ⟨up0, f1, f2, f3⟩ := ih _ _ _ hp.2.2.2.2 hgr hs
        exact ⟨g :: up0, by rw [f1]; rfl, by rw [f2]; rfl, f3⟩
    | some c1 =>
      rw [hc, e1] at hs
      simp only [Option.map_some', Option.some.injEq, Prod.mk.injEq] at hs
      obtain ⟨rfl, rfl⟩ := hs
      obtain ⟨_, e⟩ := avl_insertBalanceCall_ok t d (n1, c) c1 e1 hc
      simp only at e
      subst e
      exact ⟨[], rfl, e4 rfl, rfl⟩

theorem avl_insertSite_spec (st : State Int V) (key : Int) (value : V)
    (up : List (Frame Int V)) (n : Tree Int V)
    (hb : Balanced st.root_)
    (hk : key ∉ Tree.keys st.root_) (hsite : insertSite st key value = some (up, n)) :
    ∃ o, Tree.fill up o = st.root_ ∧ Tree.height n = Tree.height o ∧
      insert st key value = some (⟨Tree.fill up n, st.nodes_ + 1⟩, true) := by
  have hfill := Tree.descend_fill key st.root_ []
  have hdir := Tree.descend_dir key st.root_ [] (by simp)
  have hnil := Tree.descend_absent key st.root_ [] hk
  simp only [insertSite] at hsite
  simp only [insert]
  rcases hd : Tree.descend key st.root_ [] with ⟨x, path⟩
  rw [hd] at hfill hdir hnil hsite
  simp only [Tree.fill] at hfill hdir hnil
  subst hnil
  cases path with
  | nil => simp at hsite
  | cons f up2 =>
    simp only at hsite ⊢
    rw [← hfill] at hb
    obtain ⟨_, hpx⟩ := avl_balanced_of_fill _ _ hb
    have hleaf : Balanced (Tree.node Tree.nil key value 0 (Tree.nil : Tree Int V)) :=
      ⟨trivial, trivial, by simp [Tree.height_nil], by omega, by omega⟩
    have hgr := avl_grown_fill f up2 _ _ hpx hleaf
      (by simp [Tree.height_node, Tree.height_nil])
      (Or.inl (by simp [Tree.height_node, Tree.height_nil]))
    have hdd : (if key < f.key then (1 : Int) else -1) = if f.dir = Dir.left then 1 else -1 := by
      have := hdir f (by simp)
      by_cases hc : key < f.key
      · simp [hc, this.2 hc]
      · have : ¬ f.dir = Dir.left := fun h => hc (this.1 h)
        simp [hc, this]
    rw [hdd] at hsite ⊢
    obtain ⟨up0, f1, f2, f3⟩ := avl_insertBalanceSite_spec _ _ _ _ up n hpx.2.2.2.2 hgr hsite
    refine ⟨Tree.fill (f :: up0) Tree.nil, ?_, ?_, ?_⟩
    · rw [← hfill, f1]
      show Tree.fill up (Tree.fill (f :: up0) Tree.nil) = Tree.fill ((f :: up0) ++ up) Tree.nil
      rw [Tree.fill_append]
    · rw [f2, Tree.height_fill]
      rfl
    · rw [f3]; rfl

theorem avl_insertCalls_ok (st st1 : State Int V) (key : Int) (value : V) (b : Bool)
    (h : insert st key value = some (st1, b)) :
    (∀ c ∈ insertCalls st key value, Rot.ok c.1 c.2 = true) ∧
      (insertCalls st key value).length ≤ 1 := by
  simp only [insert] at h
  simp only [insertCalls]
  rcases hd : Tree.descend key st.root_ [] with ⟨x, path⟩
  rw [hd] at h
  cases x with
  | node l k v m r => simp
  | nil =>
    cases path with
    | nil => simp
    | cons f up =>
      simp only at h ⊢
      obtain ⟨u, hu, _⟩ := Option.map_eq_some'.1 h
      exact avl_insertBalanceCalls_ok _ _ _ u hu

theorem avl_insertBalanceSite_isSome (up : List (Frame Int V)) (t u : Tree Int V) (d : Int)
    (h : insertBalance up t d = some u) :
    ((insertBalanceSite up t d).isSome ↔ insertBalanceCalls up t d ≠ []) := by
  induction up generalizing t d with
  | nil =>
    rw [insertBalance] at h
    rw [insertBalanceSite, insertBalanceCalls]
    cases hs : insertBalanceStep t d with
    | none => simp [hs] at h
    | some q =>
      obtain ⟨n, c⟩ := q
      cases hc : insertBalanceCall t d with
      | none => cases c <;> simp
      | some c1 => simp
  | cons g up2 ih =>
    rw [insertBalance] at h
    rw [insertBalanceSite, insertBalanceCalls]
    cases hs : insertBalanceStep t d with
    | none => simp [hs] at h
    | some q =>
      obtain ⟨n, c⟩ := q
      rw [hs] at h
      cases hc : insertBalanceCall t d with
      | none =>
        cases c with
        | false => simp
        | true =>
          simp only at h ⊢
          simpa using ih _ _ h
      | some c1 => simp

theorem avl_insertSite_isSome (st st1 : State Int V) (key : Int) (value : V) (b : Bool)
    (h : insert st key value = some (st1, b)) :
    ((insertSite st key value).isSome ↔ insertCalls st key value ≠ []) := by
  simp only [insert] at h
  simp only [insertCalls, insertSite]
  rcases hd : Tree.descend key st.root_ [] with ⟨x, path⟩
  rw [hd] at h
  cases x with
  | node l k v m r => simp
  | nil =>
    cases path with
    | nil => simp
    | cons f up =>
      simp only at h ⊢
      obtain ⟨u, hu, _⟩ := Option.map_eq_some'.1 h
      exact avl_insertBalanceSite_isSome _ _ u _ hu

theorem avl_eraseCalls_ok (st st1 : State Int V) (key : Int) (n : Nat)
    (h : erase st key = some (st1, n)) :
    ∀ c ∈ eraseCalls st key, Rot.ok c.1 c.2 = true := by
  simp only [erase] at h
  simp only [eraseCalls]
  rcases hd : Tree.descend key st.root_ [] with ⟨x, path⟩
  rw [hd] at h
  cases x with
  | nil => simp
  | node l k v b r =>
    simp only at h ⊢
    obtain ⟨u, hu, _⟩ := Option.map_eq_some'.1 h
    rw [avl_eraseNode_args] at hu
    cases ha : eraseBalanceArgs path l v b r with
    | none => simp
    | some q =>
      rw [ha] at hu
      exact avl_deleteBalanceCalls_ok _ _ _ u hu

end AVL

/-- C36. One fix-up suffices for the insertion of the height-balanced tree: for every valid tree
(balances stored right and within `-1..1`, keys increasing) and every absent key, when
`insertBalance` reaches an ancestor whose balance becomes `2` or `-2` and rotates there, the
subtree `n` at that place after the rotation has the height of the subtree `o` that was at that
place before the insert, the loop stops there and `insert` leaves the ancestors of that place
as they were; and `insert` makes at most one call of a rotation function, and makes one exactly
when there is such a place. -/
theorem avl_insert_one_fixup (st : State Int V) (key : Int) (value : V)
    (hb : AVL.Balanced st.root_) (hs : List.Sorted (· < ·) (Tree.keys st.root_))
    (hk : key ∉ Tree.keys st.root_) :
    (∀ up n, AVL.insertSite st key value = some (up, n) →
      ∃ o, Tree.fill up o = st.root_ ∧ Tree.height n = Tree.height o ∧
        AVL.insert st key value = some (⟨Tree.fill up n, st.nodes_ + 1⟩, true)) ∧
    (AVL.insertCalls st key value).length ≤ 1 ∧
    ((AVL.insertSite st key value).isSome ↔ AVL.insertCalls st key value ≠ []) := by
  obtain ⟨st1, h1, _, _⟩ := AVL.avl_insert_spec st _ key value hb (holds_self hs)
  refine ⟨fun up n hsite => AVL.avl_insertSite_spec st key value up n hb hk hsite,
    (AVL.avl_insertCalls_ok st st1 key value _ h1).2,
    AVL.avl_insertSite_isSome st st1 key value _ h1⟩

theorem avl_insert_one_fixup_witness :
    (∀ up n, AVL.insertSite (⟨Tree.node Tree.nil 10 () (-1) (Tree.node Tree.nil 20 () 0 Tree.nil), 2⟩ :
        State Int Unit) 30 () = some (up, n) →
      ∃ o, Tree.fill up o = Tree.node Tree.nil 10 () (-1) (Tree.node Tree.nil 20 () 0 Tree.nil) ∧
        Tree.height n = Tree.height o ∧
        AVL.insert (⟨Tree.node Tree.nil 10 () (-1) (Tree.node Tree.nil 20 () 0 Tree.nil), 2⟩ :
          State Int Unit) 30 () = some (⟨Tree.fill up n, 2 + 1⟩, true)) ∧
    AVL.insertSite (⟨Tree.node Tree.nil 10 () (-1) (Tree.node Tree.nil 20 () 0 Tree.nil), 2⟩ :
        State Int Unit) 30 () =
      some ([], Tree.node (Tree.node Tree.nil 10 () 0 Tree.nil) 20 () 0
        (Tree.node Tree.nil 30 () 0 Tree.nil)) ∧
    AVL.insertCalls (⟨Tree.node Tree.nil 10 () (-1) (Tree.node Tree.nil 20 () 0 Tree.nil), 2⟩ :
        State Int Unit) 30 () =
      [(AVL.Rot.left, Tree.node Tree.nil 10 () (-2)
        (Tree.node Tree.nil 20 () (-1) (Tree.node Tree.nil 30 () 0 Tree.nil)))] :=
  ⟨(avl_insert_one_fixup
      (⟨Tree.node Tree.nil 10 () (-1) (Tree.node Tree.nil 20 () 0 Tree.nil), 2⟩ : State Int Unit)
      30 () (by simp [AVL.Balanced, Tree.height]) (by simp [Tree.keys])
      (by simp [Tree.keys])).1, rfl, rfl⟩

/-- C37. Rotations are called with their expected children: for every valid height-balanced
tree, `insert` and `erase` return, and every call of `rotateLeft` they make is on a node with a
right child, every call of `rotateRight` on a node with a left child, every call of
`rotateLeftRight` on a node whose left child has a right child, and every call of
`rotateRightLeft` on a node whose right child has a left child. -/
theorem avl_rotations_have_children (st : State Int V) (key : Int) (value : V)
    (hb : AVL.Balanced st.root_) (hs : List.Sorted (· < ·) (Tree.keys st.root_)) :
    (∃ st1 b, AVL.insert st key value = some (st1, b)) ∧
    (∀ c ∈ AVL.insertCalls st key value, AVL.Rot.ok c.1 c.2 = true) ∧
    (∃ st1 n, AVL.erase st key = some (st1, n)) ∧
    (∀ c ∈ AVL.eraseCalls st key, AVL.Rot.ok c.1 c.2 = true) := by
  obtain ⟨st1, h1, _, _⟩ := AVL.avl_insert_spec st _ key value hb (holds_self hs)
  obtain ⟨st2, h2, _, _⟩ := AVL.avl_erase_spec st _ key hb (holds_self hs)
  exact ⟨⟨st1, _, h1⟩, (AVL.avl_insertCalls_ok st st1 key value _ h1).1, ⟨st2, _, h2⟩,
    AVL.avl_eraseCalls_ok st st2 key _ h2⟩
theorem avl_rotations_have_children_witness :
    ((∃ st1 b, AVL.insert (⟨Tree.node (Tree.node Tree.nil 10 () 0 Tree.nil) 20 () (-1)
        (Tree.node Tree.nil 30 () (-1) (Tree.node Tree.nil 40 () 0 Tree.nil)), 4⟩ : State Int Unit) 10 () = some (st1, b)) ∧
    (∀ c ∈ AVL.insertCalls (⟨Tree.node (Tree.node Tree.nil 10 () 0 Tree.nil) 20 () (-1)
        (Tree.node Tree.nil 30 () (-1) (Tree.node Tree.nil 40 () 0 Tree.nil)), 4⟩ : State Int Unit) 10 (),
      AVL.Rot.ok c.1 c.2 = true) ∧
    (∃ st1 n, AVL.erase (⟨Tree.node (Tree.node Tree.nil 10 () 0 Tree.nil) 20 () (-1)
        (Tree.node Tree.nil 30 () (-1) (Tree.node Tree.nil 40 () 0 Tree.nil)), 4⟩ : State Int Unit) 10 = some (st1, n)) ∧
    (∀ c ∈ AVL.eraseCalls (⟨Tree.node (Tree.node Tree.nil 10 () 0 Tree.nil) 20 () (-1)
        (Tree.node Tree.nil 30 () (-1) (Tree.node Tree.nil 40 () 0 Tree.nil)), 4⟩ : State Int Unit) 10,
      AVL.Rot.ok c.1 c.2 = true)) ∧
    AVL.eraseCalls (⟨Tree.node (Tree.node Tree.nil 10 () 0 Tree.nil) 20 () (-1)
        (Tree.node Tree.nil 30 () (-1) (Tree.node Tree.nil 40 () 0 Tree.nil)), 4⟩ : State Int Unit) 10 =
      [(AVL.Rot.left, Tree.node Tree.nil 20 () (-2)
        (Tree.node Tree.nil 30 () (-1) (Tree.node Tree.nil 40 () 0 Tree.nil)))] :=
  ⟨avl_rotations_have_children
    (⟨Tree.node (Tree.node Tree.nil 10 () 0 Tree.nil) 20 () (-1)
        (Tree.node Tree.nil 30 () (-1) (Tree.node Tree.nil 40 () 0 Tree.nil)), 4⟩ : State Int Unit)
    10 () (by simp [AVL.Balanced, Tree.height]) (by simp [Tree.keys]), rfl⟩

/-! ### The sentinel of the color-balanced tree -/

namespace RB

theorem rb_frame_fill_ne_nil (f : Frame Color V) (t : Tree Color V) : f.fill t ≠ Tree.nil := by
  unfold Frame.fill
  cases f.dir <;> simp

theorem rb_insertFixReddened_two (path : List (Frame Color V)) :
    (∀ (t u : Tree Color V), insertFix path t = some u →
      ∀ g ∈ insertFixReddened path t, g ≠ Tree.nil) ∧
    (∀ (f : Frame Color V) (t u : Tree Color V), insertFix (f :: path) t = some u →
      ∀ g ∈ insertFixReddened (f :: path) t, g ≠ Tree.nil) := by
  induction path with
  | nil =>
    constructor
    · intro t u _ g hg
      simp [insertFixReddened] at hg
    · intro f t u h g hg
      simp only [insertFix] at h
      simp only [insertFixReddened] at hg
      split_ifs at h hg
      simp at hg
  | cons g1 up ih =>
    refine ⟨ih.2 g1, ?_⟩
    intro f t u h g hg
    simp only [insertFix] at h
    simp only [insertFixReddened] at hg
    split_ifs at h hg with h1 h2
    · rcases List.mem_cons.1 hg with rfl | hg
      · exact rb_frame_fill_ne_nil _ _
      · exact ih.1 _ _ h g hg
    · rcases List.mem_cons.1 hg with rfl | hg
      · exact rb_frame_fill_ne_nil _ _
      · simp at hg
    · simp at hg

theorem rb_insertReddened_real (st st1 : State Color V) (key : Int) (value : V) (b : Bool)
    (h : insert st key value = some (st1, b)) :
    ∀ g ∈ insertReddened st key value, g ≠ Tree.nil := by
  simp only [insert] at h
  simp only [insertReddened]
  rcases hd : Tree.descend key st.root_ [] with ⟨x, path⟩
  rw [hd] at h
  cases x with
  | node l k v m r => simp
  | nil =>
    simp only at h ⊢
    obtain ⟨u, hu, _⟩ := Option.map_eq_some'.1 h
    exact (rb_insertFixReddened_two path).1 _ u hu

theorem rb_color_ne_black {t : Tree Color V} (h : ¬ color t = Color.black) : t ≠ Tree.nil := by
  rintro rfl
  exact h rfl

theorem rb_restSiblings_left (x : Tree Color V) (pk : Int) (pv : V) (px : Color)
    (w : Tree Color V) (q : Tree Color V × Bool) (h : deleteFixLeftRest x pk pv px w = some q) :
    ∀ s ∈ restSiblings Dir.left w, s ≠ Tree.nil := by
  cases w with
  | nil => simp [deleteFixLeftRest] at h
  | node wl wk wv wc wr =>
    intro s hs
    simp only [restSiblings] at hs
    split_ifs at hs with h1 h2
    · simp only [List.mem_singleton] at hs
      subst hs
      simp
    · simp only [List.mem_cons, List.mem_singleton, List.not_mem_nil, or_false] at hs
      rcases hs with rfl | rfl
      · simp
      · exact rb_color_ne_black (fun hb => h1 ⟨hb, h2⟩)
    · simp only [List.mem_singleton] at hs
      subst hs
      simp

theorem rb_restSiblings_right (x : Tree Color V) (pk : Int) (pv : V) (px : Color)
    (w : Tree Color V) (q : Tree Color V × Bool) (h : deleteFixRightRest x pk pv px w = some q) :
    ∀ s ∈ restSiblings Dir.right w, s ≠ Tree.nil := by
  cases w with
  | nil => simp [deleteFixRightRest] at h
  | node wl wk wv wc wr =>
    intro s hs
    simp only [restSiblings] at hs
    split_ifs at hs with h1 h2
    · simp only [List.mem_singleton] at hs
      subst hs
      simp
    · simp only [List.mem_cons, List.mem_singleton, List.not_mem_nil, or_false] at hs
      rcases hs with rfl | rfl
      · simp
      · exact rb_color_ne_black (fun hb => h1 ⟨hb, h2⟩)
    · simp only [List.mem_singleton] at hs
      subst hs
      simp

theorem rb_deleteFixStepSiblings_real (p : Frame Color V) (x : Tree Color V) (nx : Next V)
    (h : deleteFixStep p x = some nx) :
    ∀ s ∈ deleteFixStepSiblings p, s ≠ Tree.nil := by
  obtain ⟨d, pk, pv, pc, w⟩ := p
  cases w with
  | nil => cases d <;> simp [deleteFixStep] at h
  | node wl wk wv wc wr =>
    intro s hs
    cases d with
    | left =>
      simp only [deleteFixStep] at h
      simp only [deleteFixStepSiblings] at hs
      split_ifs at h hs with h1
      · obtain ⟨q, hq, _⟩ := Option.map_eq_some'.1 h
        rcases List.mem_cons.1 hs with rfl | hs
        · simp
        · exact rb_restSiblings_left _ _ _ _ _ q hq s hs
      · obtain ⟨q, hq, _⟩ := Option.map_eq_some'.1 h
        exact rb_restSiblings_left _ _ _ _ _ q hq s hs
    | right =>
      simp only [deleteFixStep] at h
      simp only [deleteFixStepSiblings] at hs
      split_ifs at h hs with h1
      · obtain ⟨q, hq, _⟩ := Option.map_eq_some'.1 h
        rcases List.mem_cons.1 hs with rfl | hs
        · simp
        · exact rb_restSiblings_right _ _ _ _ _ q hq s hs
      · obtain ⟨q, hq, _⟩ := Option.map_eq_some'.1 h
        exact rb_restSiblings_right _ _ _ _ _ q hq s hs

theorem rb_deleteFixSiblings_real (path : List (Frame Color V)) (t u : Tree Color V)
    (h : deleteFix path t = some u) :
    ∀ s ∈ deleteFixSiblings path t, s ≠ Tree.nil := by
  induction path generalizing t with
  | nil => intro s hs; simp [deleteFixSiblings] at hs
  | cons p up ih =>
    intro s hs
    simp only [deleteFix] at h
    simp only [deleteFixSiblings] at hs
    split_ifs at h hs with h1
    · simp at hs
    · cases hst : deleteFixStep p t with
      | none => simp [hst] at h
      | some nx =>
        rw [hst] at h hs
        rcases List.mem_append.1 hs with hs | hs
        · exact rb_deleteFixStepSiblings_real p t nx hst s hs
        · cases nx with
          | goUp sub => exact ih sub h s hs
          | stop sub => simp at hs
          | stopRoot sub => simp at hs

theorem rb_eraseSiblings_real (st st1 : State Color V) (key : Int) (n : Nat)
    (h : erase st key = some (st1, n)) :
    ∀ s ∈ eraseSiblings st key, s ≠ Tree.nil := by
  simp only [erase] at h
  simp only [eraseSiblings]
  cases hf : find st key with
  | null => simp
  | sentinel => simp
  | node x path =>
    rw [hf] at h
    cases x with
    | nil => simp
    | node l k v c r =>
      simp only at h ⊢
      obtain ⟨u, hu, _⟩ := Option.map_eq_some'.1 h
      simp only [eraseNode] at hu
      obtain ⟨q, hq, hfin⟩ := Option.bind_eq_some.1 hu
      rw [hq]
      simp only [eraseFinish] at hfin
      simp only
      split_ifs at hfin ⊢ with h1
      · exact rb_deleteFixSiblings_real _ _ u hfin
      · simp

end RB

/-- C39. The sibling in the delete fix-up of the red-black tree is a real node: for every tree
with the red-black invariants and increasing keys and every present key, `erase` returns `1`,
and every node that `w` points to in a pass of the loop of `deleteFix` during that `erase` (the
sibling of `x` read first, the one after the rotation of the Red-sibling branch and the one
after the rotation of `w`) is a node and not the sentinel, so the reads of the colors of the
children of `w` go through child links that are set. -/
theorem rb_deleteFix_sibling_real (st : State Color V) (key : Int)
    (hrb : RB.IsRedBlack st.root_) (hs : List.Sorted (· < ·) (Tree.keys st.root_))
    (hk : key ∈ Tree.keys st.root_) :
    (∃ st1, RB.erase st key = some (st1, 1)) ∧
    ∀ w ∈ RB.eraseSiblings st key, w ≠ Tree.nil := by
  obtain ⟨hc, hb⟩ := (RB.rb_isRedBlack_iff st.root_).1 hrb
  obtain ⟨l, k, v, c, r, path, q, t1, _, _, _, he, _⟩ :=
    RB.rb_erase_spec st _ key hb hc (holds_self hs) (by simpa using hk)
  exact ⟨⟨_, he⟩, RB.rb_eraseSiblings_real st _ key 1 he⟩

theorem rb_deleteFix_sibling_real_witness :
    ((∃ st1, RB.erase (⟨Tree.node (Tree.node Tree.nil 10 () Color.black Tree.nil) 20 ()
          Color.black (Tree.node Tree.nil 30 () Color.black Tree.nil), 3⟩ :
          State Color Unit) 10 = some (st1, 1)) ∧
      ∀ w ∈ RB.eraseSiblings (⟨Tree.node (Tree.node Tree.nil 10 () Color.black Tree.nil) 20 ()
          Color.black (Tree.node Tree.nil 30 () Color.black Tree.nil), 3⟩ :
          State Color Unit) 10, w ≠ Tree.nil) ∧
    RB.eraseSiblings (⟨Tree.node (Tree.node Tree.nil 10 () Color.black Tree.nil) 20 ()
          Color.black (Tree.node Tree.nil 30 () Color.black Tree.nil), 3⟩ :
          State Color Unit) 10 = [Tree.node Tree.nil 30 () Color.black Tree.nil] :=
  ⟨rb_deleteFix_sibling_real
    (⟨Tree.node (Tree.node Tree.nil 10 () Color.black Tree.nil) 20 ()
      Color.black (Tree.node Tree.nil 30 () Color.black Tree.nil), 3⟩ : State Color Unit) 10
    ((RB.rb_isRedBlack_iff _).2 ⟨rfl, by simp [RB.Bal, RB.bh, RB.color]⟩)
    (by simp [Tree.keys]) (by simp [Tree.keys]), rfl⟩

/-- C33. The sentinel of the red-black tree is never colored Red.  Every sequence of inserts
and of erases of present keys, from the empty tree, returns; and in every tree reachable from
the empty one, the grandparent `x->parent_->parent_` that a pass of `insertFix` colors Red is a
node and not the sentinel, for every insert, and the sibling `w` that a pass of `deleteFix`
colors (Red, or with the color of the parent) is a node and not the sentinel, for every erase of
a present key.  The other assignments of a color that may be Red go to `x->parent_` in
`deleteFix` and to the minimum `y` of the right subtree in `erase`, which the embedding has as
an ancestor frame and as the node matched in `eraseSplice`, so the color read through the
sentinel, `color Tree.nil`, is Black throughout. -/
theorem rb_sentinel_stays_black :
    (∀ ops : List (Op V), RB.ErasesPresent ops ∅ →
      ∃ st rets, RB.run ops State.empty = some (st, rets)) ∧
    (∀ st : State Color V, RB.Reachable st → ∀ (key : Int) (value : V),
      (∃ st1 b, RB.insert st key value = some (st1, b)) ∧
      ∀ g ∈ RB.insertReddened st key value, g ≠ Tree.nil) ∧
    (∀ st : State Color V, RB.Reachable st → ∀ key ∈ Tree.keys st.root_,
      (∃ st1, RB.erase st key = some (st1, 1)) ∧
      ∀ w ∈ RB.eraseSiblings st key, w ≠ Tree.nil) ∧
    RB.color (Tree.nil : Tree Color V) = Color.black := by
  refine ⟨?_, ?_, ?_, rfl⟩
  · intro ops hp
    obtain ⟨st1, h, _⟩ := RB.rb_run_spec ops State.empty ∅ trivial rfl holds_nil hp
    exact ⟨st1, _, h⟩
  · intro st hr key value
    obtain ⟨hb, hc, hi⟩ := rb_reachable_inv st hr
    obtain ⟨st1, h1, _⟩ := RB.rb_insert_spec st _ key value hb hc (holds_self hi)
    exact ⟨⟨st1, _, h1⟩, RB.rb_insertReddened_real st st1 key value _ h1⟩
  · intro st hr key hk
    obtain ⟨hb, hc, hi⟩ := rb_reachable_inv st hr
    obtain ⟨l, k, v, c, r, path, q, t1, _, _, _, he, _⟩ :=
      RB.rb_erase_spec st _ key hb hc (holds_self hi) (by simpa using hk)
    exact ⟨⟨_, he⟩, RB.rb_eraseSiblings_real st _ key 1 he⟩

/-! ### The replacement node of the level-balanced `erase` -/

namespace AA

theorem aa_size_deleteNode (nk : Int) (t u : Tree Int V) (hs : Inc (Tree.keys t))
    (hu : Inc (Tree.keys u)) (hk : nk ∈ Tree.keys t)
    (h : ∀ x, x ∈ Tree.keys u ↔ x ≠ nk ∧ x ∈ Tree.keys t) :
    Tree.size u + 1 = Tree.size t := by
  have h1 : Holds u ((Tree.keys t).toFinset.erase nk) :=
    ⟨hu, fun k => by simp [h k]⟩
  rw [holds_card h1, holds_card (holds_self hs), Finset.card_erase_of_mem (by simpa using hk)]
  have : 0 < (Tree.keys t).toFinset.card := Finset.card_pos.2 ⟨nk, by simpa using hk⟩
  omega

theorem aa_replacement_spec (l r : Tree Int V) (k : Int) (v : V) (lv : Int)
    (hi : Inv (Tree.node l k v lv r)) (hs : Inc (Tree.keys (Tree.node l k v lv r)))
    (hc : l ≠ Tree.nil ∨ r ≠ Tree.nil) :
    ∃ lk lvl llv, replacement l r = Tree.node Tree.nil lk lvl llv Tree.nil ∧
      lk ∈ Tree.keys (replacementSide l r) ∧
      ∃ sub1, deleteNode lk (replacementSide l r) = some sub1 ∧
        Tree.size sub1 + 1 = Tree.size (replacementSide l r) ∧ lk ∉ Tree.keys sub1 := by
  obtain ⟨hsl, hsr, _, _⟩ := inc_parts hs
  cases l with
  | nil =>
    cases r with
    | nil => simp at hc
    | node rl rk rv rlv rr =>
      have hir := hi.2.1
      have e1 := hi.2.2.1
      have e2 := hi.2.2.2.1
      have e3 := hi.2.2.2.2
      have e4 := hir.2.2.1
      have hrl0 := aa_level_nonneg rl hir.1
      have hrr0 := aa_level_nonneg rr hir.2.1
      simp only [aa_level_nil, aa_level_node, aa_right_node] at e1 e2 e3 e4
      have hrl : rl = Tree.nil := aa_nil_of_level rl hir.1 (by omega)
      have hrr : rr = Tree.nil := aa_nil_of_level rr hir.2.1 (by omega)
      subst hrl hrr
      refine ⟨rk, rv, rlv, rfl, by simp [replacementSide, Tree.keys], Tree.nil,
        aa_deleteNode_found_leaf rk rv rlv, rfl, by simp [Tree.keys]⟩
  | node ll lk lvl llv lr =>
    obtain ⟨pk, pv, pm, spine, h1, h2, _⟩ :=
      aa_maximum_leaf (Tree.node ll lk lvl llv lr) (by simp) hi.1 hsl
    obtain ⟨u, f1, _, f3, f4⟩ := aa_deleteNode_spec pk (Tree.node ll lk lvl llv lr) hi.1 hsl
    refine ⟨pk, pv, pm, by simp only [replacement, h1], h2, u, f1,
      aa_size_deleteNode pk _ u hsl f3 h2 f4, fun hx => ((f4 pk).1 hx).1 rfl⟩

end AA

/-- C40. The replacement node of the erase of the level-balanced tree is a leaf: for every tree
reachable from the empty one and every key that `find` locates in a node with a child, the node
`L` that `deleteNode` chooses (the minimum of the right subtree when the node has no left child,
else the maximum of the left subtree) has no child; the nested call on the subtree of that side
returns that subtree without `L`, one node smaller; and `erase` returns `1` with a tree that is
one node smaller, has increasing keys (so no key twice) and holds the keys it had except the
erased one. -/
theorem aa_replacement_is_leaf (st : State Int V) (key : Int) (l r : Tree Int V) (v : V)
    (lv : Int) (hr : AA.Reachable st) (hf : AA.find st key = Tree.node l key v lv r)
    (hc : l ≠ Tree.nil ∨ r ≠ Tree.nil) :
    (∃ lk lvl llv, AA.replacement l r = Tree.node Tree.nil lk lvl llv Tree.nil ∧
      lk ∈ Tree.keys (AA.replacementSide l r) ∧
      ∃ sub1, AA.deleteNode lk (AA.replacementSide l r) = some sub1 ∧
        Tree.size sub1 + 1 = Tree.size (AA.replacementSide l r) ∧ lk ∉ Tree.keys sub1) ∧
    ∃ st1, AA.erase st key = some (st1, 1) ∧
      Tree.size st1.root_ + 1 = Tree.size st.root_ ∧
      Inc (Tree.keys st1.root_) ∧
      ∀ x, x ∈ Tree.keys st1.root_ ↔ x ≠ key ∧ x ∈ Tree.keys st.root_ := by
  obtain ⟨hi, hs⟩ := aa_reachable_inv st hr
  have hfill := Tree.descend_fill key st.root_ []
  simp only [AA.find] at hf
  rw [hf] at hfill
  simp only [Tree.fill] at hfill
  have hsub : AA.Inv (Tree.node l key v lv r) := AA.aa_inv_of_fill _ _ (by rw [hfill]; exact hi)
  have hsubs : Inc (Tree.keys (Tree.node l key v lv r)) :=
    Tree.inc_of_fill (by rw [hfill]; exact hs)
  have hk : key ∈ Tree.keys st.root_ := by
    rw [← hfill, Tree.keys_fill]
    simp [Tree.keys]
  refine ⟨AA.aa_replacement_spec l r key v lv hsub hsubs hc, ?_⟩
  obtain ⟨st1, h1, _, h3⟩ := AA.aa_erase_spec st _ key hi (holds_self hs)
  rw [if_pos (by simpa using hk)] at h1
  refine ⟨st1, h1, ?_, h3.1, ?_⟩
  · exact AA.aa_size_deleteNode key _ _ hs h3.1 hk (fun x => by simp [h3.2 x])
  · intro x
    simp [h3.2 x]

theorem aa_replacement_is_leaf_witness :
    (∃ lk lvl llv, AA.replacement (Tree.nil : Tree Int Unit) (Tree.node Tree.nil 20 () 1 Tree.nil) =
        Tree.node Tree.nil lk lvl llv Tree.nil ∧
      lk ∈ Tree.keys (AA.replacementSide (Tree.nil : Tree Int Unit)
        (Tree.node Tree.nil 20 () 1 Tree.nil)) ∧
      ∃ sub1, AA.deleteNode lk (AA.replacementSide (Tree.nil : Tree Int Unit)
          (Tree.node Tree.nil 20 () 1 Tree.nil)) = some sub1 ∧
        Tree.size sub1 + 1 = Tree.size (AA.replacementSide (Tree.nil : Tree Int Unit)
          (Tree.node Tree.nil 20 () 1 Tree.nil)) ∧ lk ∉ Tree.keys sub1) ∧
    ∃ st1, AA.erase (⟨Tree.node Tree.nil 10 () 1 (Tree.node Tree.nil 20 () 1 Tree.nil), 2⟩ :
        State Int Unit) 10 = some (st1, 1) ∧
      Tree.size st1.root_ + 1 =
        Tree.size (Tree.node Tree.nil 10 () (1 : Int) (Tree.node Tree.nil 20 () 1 Tree.nil)) ∧
      Inc (Tree.keys st1.root_) ∧
      ∀ x, x ∈ Tree.keys st1.root_ ↔ x ≠ 10 ∧
        x ∈ Tree.keys (Tree.node Tree.nil 10 () (1 : Int) (Tree.node Tree.nil 20 () 1 Tree.nil)) :=
  aa_replacement_is_leaf
    (⟨Tree.node Tree.nil 10 () 1 (Tree.node Tree.nil 20 () 1 Tree.nil), 2⟩ : State Int Unit)
    10 Tree.nil (Tree.node Tree.nil 20 () 1 Tree.nil) () 1
    ⟨[Op.insert 10 (), Op.insert 20 ()], [Ret.inserted true, Ret.inserted true], rfl⟩ rfl
    (Or.inr (by simp))

/-! ### The function `clear` -/

theorem tree_minimum_nil (t : Tree M V) (h : (Tree.minimum t []).1 = Tree.nil) : t = Tree.nil := by
  by_contra hne
  obtain ⟨yk, yv, ym, yr, spine, h1, _, _⟩ := Tree.minimum_spec t [] hne
  rw [h1] at h
  simp at h

theorem tree_minimum_mem (t l r : Tree M V) (k : Int) (v : V) (m : M)
    (h : (Tree.minimum t []).1 = Tree.node l k v m r) : k ∈ Tree.keys t := by
  have hne : t ≠ Tree.nil := by
    rintro rfl
    simp [Tree.minimum] at h
  obtain ⟨yk, yv, ym, yr, spine, h1, h2, _⟩ := Tree.minimum_spec t [] hne
  rw [h1] at h
  simp only [Tree.node.injEq] at h
  obtain ⟨_, rfl, _⟩ := h
  rw [← h2, Tree.keys_fill]
  simp [Tree.keys]

/-- The loop of `clear()` over an `erase` that removes a present key, returns `1` and keeps an
invariant: it makes one pass for every node, every `erase` returns `1`, and it ends with the
empty tree. -/
theorem clearLoop_spec (erase : State M V → Int → Option (State M V × Nat))
    (I : State M V → Prop)
    (hstep : ∀ s, I s → ∀ k ∈ Tree.keys s.root_, ∃ s1, erase s k = some (s1, 1) ∧ I s1 ∧
      Tree.size s1.root_ + 1 = Tree.size s.root_ ∧ s1.nodes_ = s.nodes_ - 1)
    (fuel : Nat) (s : State M V) (hi : I s) (hf : Tree.size s.root_ ≤ fuel) :
    ∃ s1, clearLoop erase fuel s = some (s1, List.replicate (Tree.size s.root_) 1) ∧
      s1.root_ = Tree.nil ∧ s1.nodes_ = s.nodes_ - Tree.size s.root_ := by
  induction fuel generalizing s with
  | zero =>
    have h0 : s.root_ = Tree.nil := by
      cases hr : s.root_ with
      | nil => rfl
      | node l k v m r => rw [hr] at hf; simp [Tree.size] at hf
    refine ⟨s, ?_, h0, by rw [h0]; simp [Tree.size]⟩
    simp only [clearLoop, h0, Tree.minimum, Tree.size, List.replicate]
  | succ fuel ih =>
    cases hm : (Tree.minimum s.root_ []).1 with
    | nil =>
      have h0 := tree_minimum_nil _ hm
      refine ⟨s, ?_, h0, by rw [h0]; simp [Tree.size]⟩
      simp only [clearLoop, h0, Tree.minimum, Tree.size, List.replicate]
    | node l k v m r =>
      obtain ⟨s1, h1, h2, h3, h4⟩ := hstep s hi k (tree_minimum_mem _ l r k v m hm)
      obtain ⟨s2, g1, g2, g3⟩ := ih s1 h2 (by omega)
      refine ⟨s2, ?_, g2, by rw [g3, h4]; omega⟩
      simp only [clearLoop, hm, h1, Option.some_bind, g1, Option.map_some']
      rw [← h3, List.replicate_succ]

namespace BST

theorem bst_clear_step (s : State Unit V) (hi : Inc (Tree.keys s.root_)) (k : Int)
    (hk : k ∈ Tree.keys s.root_) :
    ∃ s1, (fun (s1 : State Unit V) k => some (BST.erase s1 k)) s k = some (s1, 1) ∧
      Inc (Tree.keys s1.root_) ∧
      Tree.size s1.root_ + 1 = Tree.size s.root_ ∧ s1.nodes_ = s.nodes_ - 1 := by
  have h := bst_step_holds s _ (Op.erase k) (holds_self hi)
  simp only [step, specStep, List.mem_toFinset, hk, if_true, Ret.erased.injEq] at h
  refine ⟨(erase s k).1, ?_, h.1.1, ?_, ?_⟩
  · simp only [Option.some.injEq]
    exact Prod.ext rfl h.2
  · rw [holds_card h.1, holds_card (holds_self hi),
      Finset.card_erase_of_mem (by simpa using hk)]
    have : 0 < (Tree.keys s.root_).toFinset.card := Finset.card_pos.2 ⟨k, by simpa using hk⟩
    omega
  · rw [bst_erase_nodes, h.2]

end BST

namespace AVL

theorem avl_clear_step (s : State Int V) (hi : Balanced s.root_ ∧ Inc (Tree.keys s.root_))
    (k : Int) (hk : k ∈ Tree.keys s.root_) :
    ∃ s1, erase s k = some (s1, 1) ∧ (Balanced s1.root_ ∧ Inc (Tree.keys s1.root_)) ∧
      Tree.size s1.root_ + 1 = Tree.size s.root_ ∧ s1.nodes_ = s.nodes_ - 1 := by
  obtain ⟨s1, h1, h2, h3⟩ := avl_erase_spec s _ k hi.1 (holds_self hi.2)
  rw [if_pos (by simpa using hk)] at h1
  refine ⟨s1, h1, ⟨h2, h3.1⟩, ?_, avl_erase_nodes h1⟩
  rw [holds_card h3, holds_card (holds_self hi.2), Finset.card_erase_of_mem (by simpa using hk)]
  have : 0 < (Tree.keys s.root_).toFinset.card := Finset.card_pos.2 ⟨k, by simpa using hk⟩
  omega

end AVL

namespace AA

theorem aa_clear_step (s : State Int V) (hi : Inv s.root_ ∧ Inc (Tree.keys s.root_))
    (k : Int) (hk : k ∈ Tree.keys s.root_) :
    ∃ s1, erase s k = some (s1, 1) ∧ (Inv s1.root_ ∧ Inc (Tree.keys s1.root_)) ∧
      Tree.size s1.root_ + 1 = Tree.size s.root_ ∧ s1.nodes_ = s.nodes_ - 1 := by
  obtain ⟨s1, h1, h2, h3⟩ := aa_erase_spec s _ k hi.1 (holds_self hi.2)
  rw [if_pos (by simpa using hk)] at h1
  refine ⟨s1, h1, ⟨h2, h3.1⟩, ?_, aa_erase_nodes h1⟩
  rw [holds_card h3, holds_card (holds_self hi.2), Finset.card_erase_of_mem (by simpa using hk)]
  have : 0 < (Tree.keys s.root_).toFinset.card := Finset.card_pos.2 ⟨k, by simpa using hk⟩
  omega

end AA

namespace RB

theorem rb_clear_step (s : State Color V)
    (hi : Bal s.root_ ∧ color s.root_ = Color.black ∧ Inc (Tree.keys s.root_))
    (k : Int) (hk : k ∈ Tree.keys s.root_) :
    ∃ s1, erase s k = some (s1, 1) ∧
      (Bal s1.root_ ∧ color s1.root_ = Color.black ∧ Inc (Tree.keys s1.root_)) ∧
      Tree.size s1.root_ + 1 = Tree.size s.root_ ∧ s1.nodes_ = s.nodes_ - 1 := by
  obtain ⟨_, _, _, _, _, _, _, t1, _, _, _, h1, h2, h3, h4⟩ :=
    rb_erase_spec s _ k hi.1 hi.2.1 (holds_self hi.2.2) (by simpa using hk)
  refine ⟨_, h1, ⟨h2, h3, h4.1⟩, ?_, rfl⟩
  show Tree.size t1 + 1 = _
  rw [holds_card h4, holds_card (holds_self hi.2.2),
    Finset.card_erase_of_mem (by simpa using hk)]
  have : 0 < (Tree.keys s.root_).toFinset.card := Finset.card_pos.2 ⟨k, by simpa using hk⟩
  omega

theorem rb_step_any_counted (st st1 : State Color V) (s : Finset Int) (op : Op V) (r : Ret)
    (hb : Bal st.root_) (hc : color st.root_ = Color.black) (hr : Holds st.root_ s)
    (hn : st.nodes_ = s.card) (h : step st op = some (st1, r)) :
    st1.nodes_ = (specStep s op).1.card := by
  cases op with
  | insert k v =>
    obtain ⟨st2, h1, _⟩ := rb_insert_spec st s k v hb hc hr
    simp only [step, h1, Option.map_some', Option.some.injEq, Prod.mk.injEq] at h
    obtain ⟨rfl, _⟩ := h
    simp only [specStep]
    rw [rb_insert_nodes h1, hn, card_insert_decide]
  | erase k =>
    simp only [specStep]
    by_cases hk : k ∈ s
    · obtain ⟨_, _, _, _, _, _, _, t1, _, _, _, h1, _⟩ := rb_erase_spec st s k hb hc hr hk
      simp only [step, h1, Option.map_some', Option.some.injEq, Prod.mk.injEq] at h
      obtain ⟨rfl, _⟩ := h
      simp only [hn, card_erase_ite, hk, if_true]
    · simp only [step] at h
      obtain ⟨q, hq, e⟩ := Option.map_eq_some'.1 h
      obtain ⟨q1, q2⟩ := q
      cases e
      obtain ⟨rfl, rfl⟩ := rb_erase_absent st q1 k q2 (fun hm => hk ((hr.2 k).1 hm)) hq
      rw [Finset.erase_eq_of_not_mem hk]
      exact hn

theorem rb_run_any_counted (ops : List (Op V)) (st st1 : State Color V) (s : Finset Int)
    (rets : List Ret)
    (hb : Bal st.root_) (hc : color st.root_ = Color.black) (hr : Holds st.root_ s)
    (hn : st.nodes_ = s.card) (h : run ops st = some (st1, rets)) :
    st1.nodes_ = (specRun ops s).1.card := by
  induction ops generalizing st s rets with
  | nil =>
    simp only [run, Option.some.injEq, Prod.mk.injEq] at h
    obtain ⟨rfl, rfl⟩ := h
    exact hn
  | cons op ops ih =>
    simp only [run] at h
    obtain ⟨p, hp, h2⟩ := Option.bind_eq_some.1 h
    obtain ⟨q, hq, e⟩ := Option.map_eq_some'.1 h2
    obtain ⟨p1, p2⟩ := p
    obtain ⟨q1, q2⟩ := q
    simp only [Prod.mk.injEq] at e
    obtain ⟨rfl, rfl⟩ := e
    obtain ⟨_, h3, h4, h5⟩ := rb_step_any st p1 s op p2 hb hc hr hp
    have h6 := rb_step_any_counted st p1 s op p2 hb hc hr hn hp
    exact ih p1 _ q2 h3 h4 h5 h6 hq

end RB

theorem bst_reachable_nodes (st : State Unit V) (h : BST.Reachable st) :
    st.nodes_ = Tree.size st.root_ := by
  obtain ⟨ops, rfl⟩ := h
  rw [BST.bst_run_counted ops State.empty ∅ holds_nil rfl,
    holds_card (BST.bst_run_holds ops State.empty ∅ holds_nil).1]

theorem avl_reachable_nodes (st : State Int V) (h : AVL.Reachable st) :
    st.nodes_ = Tree.size st.root_ := by
  obtain ⟨ops, rets, h⟩ := h
  obtain ⟨st1, h1, h2, h3⟩ := AVL.avl_run_counted ops State.empty ∅ trivial holds_nil rfl
  rw [h1] at h
  cases h
  rw [h2, holds_card h3]

theorem aa_reachable_nodes (st : State Int V) (h : AA.Reachable st) :
    st.nodes_ = Tree.size st.root_ := by
  obtain ⟨ops, rets, h⟩ := h
  obtain ⟨st1, h1, h2, h3⟩ := AA.aa_run_counted ops State.empty ∅ trivial holds_nil rfl
  rw [h1] at h
  cases h
  rw [h2, holds_card h3]

theorem rb_reachable_nodes (st : State Color V) (h : RB.Reachable st) :
    st.nodes_ = Tree.size st.root_ := by
  obtain ⟨ops, rets, h⟩ := h
  obtain ⟨_, _, _, h4⟩ := RB.rb_run_any ops State.empty st ∅ rets trivial rfl holds_nil h
  rw [RB.rb_run_any_counted ops State.empty st ∅ rets trivial rfl holds_nil rfl h,
    holds_card h4]

theorem state_eq_empty (s : State M V) (h1 : s.root_ = Tree.nil) (h2 : s.nodes_ = 0) :
    s = State.empty := by
  obtain ⟨t, n⟩ := s
  simp only at h1 h2
  subst h1 h2
  rfl

/-- The loop of `clear()` from a state whose `nodes_` counts the nodes: with at least `nodes_`
passes allowed it makes exactly `nodes_` passes, each `erase` returns `1`, and the state after
the loop is the empty one. -/
theorem clearLoop_empty (erase : State M V → Int → Option (State M V × Nat))
    (I : State M V → Prop)
    (hstep : ∀ s, I s → ∀ k ∈ Tree.keys s.root_, ∃ s1, erase s k = some (s1, 1) ∧ I s1 ∧
      Tree.size s1.root_ + 1 = Tree.size s.root_ ∧ s1.nodes_ = s.nodes_ - 1)
    (s : State M V) (hi : I s) (hn : s.nodes_ = Tree.size s.root_) (fuel : Nat)
    (hf : s.nodes_ ≤ fuel) :
    clearLoop erase fuel s = some (State.empty, List.replicate s.nodes_ 1) := by
  obtain ⟨s1, h1, h2, h3⟩ := clearLoop_spec erase I hstep fuel s hi (by omega)
  rw [h1, hn, state_eq_empty s1 h2 (by rw [h3]; omega)]

/-- C32. The function `clear` in the four variants: for every tree reachable from the empty
one by `insert` and `erase` calls, the loop of `clear()` ends after exactly `size()` passes
(whatever number of passes from `size()` on it is allowed), every `erase` of the loop returns
`1`, the key erased being present, and the loop leaves the empty tree with `nodes_ = 0`;
`clear()` returns with the empty tree.  In the empty tree `size()` is `0`, `minimum()` and
`maximum()` return no node, `height()` is `-1` and `find` returns no node for every key (in the
color-balanced tree a pointer for which `isNull` holds). -/
theorem clear_all_variants :
    (∀ st : State Unit V, BST.Reachable st →
      (∀ fuel, st.nodes_ ≤ fuel →
        clearLoop (fun s1 k => some (BST.erase s1 k)) fuel st =
          some (State.empty, List.replicate st.nodes_ 1)) ∧
      BST.clear st = some (State.empty, List.replicate st.nodes_ 1)) ∧
    (∀ st : State Int V, AVL.Reachable st →
      (∀ fuel, st.nodes_ ≤ fuel →
        clearLoop AVL.erase fuel st = some (State.empty, List.replicate st.nodes_ 1)) ∧
      AVL.clear st = some (State.empty, List.replicate st.nodes_ 1)) ∧
    (∀ st : State Int V, AA.Reachable st →
      (∀ fuel, st.nodes_ ≤ fuel →
        clearLoop AA.erase fuel st = some (State.empty, List.replicate st.nodes_ 1)) ∧
      AA.clear st = some (State.empty, List.replicate st.nodes_ 1)) ∧
    (∀ st : State Color V, RB.Reachable st →
      (∀ fuel, st.nodes_ ≤ fuel →
        clearLoop RB.erase fuel st = some (State.empty, List.replicate st.nodes_ 1)) ∧
      RB.clear st = some (State.empty, List.replicate st.nodes_ 1)) ∧
    ((State.empty : State Unit V).nodes_ = 0 ∧
      (Tree.minimum (State.empty : State Unit V).root_ []).1 = Tree.nil ∧
      (Tree.maximum (State.empty : State Unit V).root_ []).1 = Tree.nil ∧
      BST.height (State.empty : State Unit V) = some (-1) ∧
      ∀ key, BST.find (State.empty : State Unit V) key = Tree.nil) ∧
    ((State.empty : State Int V).nodes_ = 0 ∧
      (Tree.minimum (State.empty : State Int V).root_ []).1 = Tree.nil ∧
      (Tree.maximum (State.empty : State Int V).root_ []).1 = Tree.nil ∧
      AVL.height (State.empty : State Int V) = -1 ∧
      ∀ key, AVL.find (State.empty : State Int V) key = Tree.nil) ∧
    ((State.empty : State Int V).nodes_ = 0 ∧
      (Tree.minimum (State.empty : State Int V).root_ []).1 = Tree.nil ∧
      (Tree.maximum (State.empty : State Int V).root_ []).1 = Tree.nil ∧
      AA.height (State.empty : State Int V) = -1 ∧
      ∀ key, AA.find (State.empty : State Int V) key = Tree.nil) ∧
    ((State.empty : State Color V).nodes_ = 0 ∧
      (Tree.minimum (State.empty : State Color V).root_ []).1 = Tree.nil ∧
      (Tree.maximum (State.empty : State Color V).root_ []).1 = Tree.nil ∧
      RB.height (State.empty : State Color V) = -1 ∧
      ∀ key, RB.isNull (RB.find (State.empty : State Color V) key) = true) := by
  refine ⟨?_, ?_, ?_, ?_, ⟨rfl, rfl, rfl, rfl, fun _ => rfl⟩, ⟨rfl, rfl, rfl, rfl, fun _ => rfl⟩,
    ⟨rfl, rfl, rfl, rfl, fun _ => rfl⟩, ⟨rfl, rfl, rfl, rfl, ?_⟩⟩
  · intro st hr
    have h := clearLoop_empty (fun s1 k => some (BST.erase s1 k))
      (fun s => Inc (Tree.keys s.root_)) BST.bst_clear_step st (bst_reachable_inc st hr)
      (bst_reachable_nodes st hr)
    exact ⟨h, by rw [BST.clear, h _ (le_refl _)]; rfl⟩
  · intro st hr
    have h := clearLoop_empty AVL.erase
      (fun s => AVL.Balanced s.root_ ∧ Inc (Tree.keys s.root_)) AVL.avl_clear_step st
      (avl_reachable_inv st hr) (avl_reachable_nodes st hr)
    exact ⟨h, by rw [AVL.clear, h _ (le_refl _)]; rfl⟩
  · intro st hr
    have h := clearLoop_empty AA.erase
      (fun s => AA.Inv s.root_ ∧ Inc (Tree.keys s.root_)) AA.aa_clear_step st
      (aa_reachable_inv st hr) (aa_reachable_nodes st hr)
    exact ⟨h, by rw [AA.clear, h _ (le_refl _)]; rfl⟩
  · intro st hr
    have h := clearLoop_empty RB.erase
      (fun s => RB.Bal s.root_ ∧ RB.color s.root_ = Color.black ∧ Inc (Tree.keys s.root_))
      RB.rb_clear_step st (rb_reachable_inv st hr) (rb_reachable_nodes st hr)
    exact ⟨h, by rw [RB.clear, h _ (le_refl _)]; rfl⟩
  · intro key
    simp only [RB.find, State.empty, Tree.descend]
    split_ifs <;> rfl



/-! ### Parent links -/

namespace Tree

theorem mapInfo_fill {N : Type} (f : M → N) (p : List (Frame M V)) (t : Tree M V) :
    mapInfo f (fill p t) = fill (p.map (Frame.mapInfo f)) (mapInfo f t) := by
  induction p generalizing t with
  | nil => rfl
  | cons g up ih =>
    obtain ⟨d, k, v, m, s⟩ := g
    cases d <;> simp [fill, Frame.fill, Frame.mapInfo, ih, mapInfo]

theorem mapInfo_descend {N : Type} (f : M → N) (key : Int) (t : Tree M V)
    (p : List (Frame M V)) :
    descend key (mapInfo f t) (p.map (Frame.mapInfo f)) =
      (mapInfo f (descend key t p).1, (descend key t p).2.map (Frame.mapInfo f)) := by
  induction t generalizing p with
  | nil => rfl
  | node l k v m r ihl ihr =>
    simp only [mapInfo, descend]
    split_ifs with h1 h2
    · exact ihl (⟨Dir.left, k, v, m, r⟩ :: p)
    · exact ihr (⟨Dir.right, k, v, m, l⟩ :: p)
    · rfl

theorem mapInfo_minimum {N : Type} (f : M → N) (t : Tree M V) (p : List (Frame M V)) :
    minimum (mapInfo f t) (p.map (Frame.mapInfo f)) =
      (mapInfo f (minimum t p).1, (minimum t p).2.map (Frame.mapInfo f)) := by
  induction t generalizing p with
  | nil => rfl
  | node l k v m r ihl _ =>
    cases l with
    | nil => rfl
    | node ll lk lv lm lr => exact ihl (⟨Dir.left, k, v, m, r⟩ :: p)

theorem mapInfo_maximum {N : Type} (f : M → N) (t : Tree M V) (p : List (Frame M V)) :
    maximum (mapInfo f t) (p.map (Frame.mapInfo f)) =
      (mapInfo f (maximum t p).1, (maximum t p).2.map (Frame.mapInfo f)) := by
  induction t generalizing p with
  | nil => rfl
  | node l k v m r _ ihr =>
    cases r with
    | nil => rfl
    | node rl rk rv rm rr => exact ihr (⟨Dir.right, k, v, m, l⟩ :: p)

theorem minimum_append (t : Tree M V) (p : List (Frame M V)) :
    minimum t p = ((minimum t []).1, (minimum t []).2 ++ p) := by
  induction t generalizing p with
  | nil => rfl
  | node l k v m r ihl _ =>
    cases l with
    | nil => rfl
    | node ll lk lv lm lr =>
      show minimum (node ll lk lv lm lr) (⟨Dir.left, k, v, m, r⟩ :: p) =
        ((minimum (node ll lk lv lm lr) [⟨Dir.left, k, v, m, r⟩]).1,
          (minimum (node ll lk lv lm lr) [⟨Dir.left, k, v, m, r⟩]).2 ++ p)
      rw [ihl (⟨Dir.left, k, v, m, r⟩ :: p), ihl [⟨Dir.left, k, v, m, r⟩]]
      simp

theorem linked_setParent (p q : Option Nat) (t : Tree Linked V) (h : LinkedAt q t) :
    LinkedAt p (setParent p t) := by
  cases t with
  | nil => trivial
  | node l k v m r => exact ⟨rfl, h.2.1, h.2.2⟩

theorem ids_setParent (p : Option Nat) (t : Tree Linked V) : ids (setParent p t) = ids t := by
  cases t <;> rfl

theorem mapInfo_setParent (p : Option Nat) (t : Tree Linked V) :
    mapInfo Linked.info (setParent p t) = mapInfo Linked.info t := by
  cases t <;> rfl

theorem parentOf_linked (p : Option Nat) (t : Tree Linked V) (h : LinkedAt p t)
    (hne : t ≠ nil) : parentOf t = p := by
  cases t with
  | nil => exact absurd rfl hne
  | node l k v m r => exact h.1

end Tree

namespace AAP

theorem aap_level (t : Tree Linked V) : level t = AA.level (t.mapInfo Linked.info) := by
  cases t <;> rfl

theorem aap_forget_skew (t : Tree Linked V) :
    (skew t).mapInfo Linked.info = AA.skew (t.mapInfo Linked.info) := by
  cases t with
  | nil => rfl
  | node l k v m r =>
    cases l with
    | nil => rfl
    | node ll lk lvl lm lr =>
      simp only [skew, Tree.mapInfo, AA.skew]
      split_ifs <;> simp [Tree.mapInfo, Tree.mapInfo_setParent]

theorem aap_linked_skew (p : Option Nat) (t : Tree Linked V) (h : Tree.LinkedAt p t) :
    Tree.LinkedAt p (skew t) := by
  cases t with
  | nil => trivial
  | node l k v m r =>
    cases l with
    | nil => exact h
    | node ll lk lvl lm lr =>
      simp only [skew]
      split_ifs
      · obtain ⟨h1, ⟨h2, h3, h4⟩, h5⟩ := h
        exact ⟨h1, h3, rfl, Tree.linked_setParent _ _ _ h4, h5⟩
      · exact h

theorem aap_ids_skew (t : Tree Linked V) : Tree.ids (skew t) = Tree.ids t := by
  cases t with
  | nil => rfl
  | node l k v m r =>
    cases l with
    | nil => rfl
    | node ll lk lvl lm lr =>
      simp only [skew]
      split_ifs <;> simp [Tree.ids, Tree.ids_setParent]

theorem aap_forget_split (t : Tree Linked V) :
    (split t).mapInfo Linked.info = AA.split (t.mapInfo Linked.info) := by
  cases t with
  | nil => rfl
  | node l k v m r =>
    cases r with
    | nil => rfl
    | node rl rk rv rm rr =>
      cases rr with
      | nil => rfl
      | node rrl rrk rrv rrm rrr =>
        simp only [split, Tree.mapInfo, AA.split]
        split_ifs <;> simp [Tree.mapInfo, Tree.mapInfo_setParent]

theorem aap_linked_split (p : Option Nat) (t : Tree Linked V) (h : Tree.LinkedAt p t) :
    Tree.LinkedAt p (split t) := by
  cases t with
  | nil => trivial
  | node l k v m r =>
    cases r with
    | nil => exact h
    | node rl rk rv rm rr =>
      cases rr with
      | nil => exact h
      | node rrl rrk rrv rrm rrr =>
        simp only [split]
        split_ifs
        · obtain ⟨h1, h2, h3, h4, h5⟩ := h
          exact ⟨h1, ⟨rfl, h2, Tree.linked_setParent _ _ _ h4⟩, h5⟩
        · exact h

theorem aap_ids_split (t : Tree Linked V) : Tree.ids (split t) = Tree.ids t := by
  cases t with
  | nil => rfl
  | node l k v m r =>
    cases r with
    | nil => rfl
    | node rl rk rv rm rr =>
      cases rr with
      | nil => rfl
      | node rrl rrk rrv rrm rrr =>
        simp only [split]
        split_ifs <;> simp [Tree.ids, Tree.ids_setParent]

theorem aap_forget_decreaseLevel (t : Tree Linked V) :
    (decreaseLevel t).mapInfo Linked.info = AA.decreaseLevel (t.mapInfo Linked.info) := by
  cases t with
  | nil => rfl
  | node l k v m r =>
    cases r with
    | nil =>
      simp only [decreaseLevel, Tree.mapInfo, AA.decreaseLevel, aap_level]
      split_ifs <;> rfl
    | node rl rk rv rm rr =>
      simp only [decreaseLevel, Tree.mapInfo, AA.decreaseLevel, aap_level, AA.level]
      split_ifs <;> rfl

theorem aap_linked_decreaseLevel (p : Option Nat) (t : Tree Linked V)
    (h : Tree.LinkedAt p t) : Tree.LinkedAt p (decreaseLevel t) := by
  cases t with
  | nil => trivial
  | node l k v m r =>
    cases r with
    | nil =>
      simp only [decreaseLevel]
      split_ifs
      · exact ⟨h.1, h.2.1, trivial⟩
      · exact h
    | node rl rk rv rm rr =>
      simp only [decreaseLevel]
      split_ifs
      · exact ⟨h.1, h.2.1, h.2.2.1, h.2.2.2.1, h.2.2.2.2⟩
      · exact h
      · exact h

theorem aap_ids_decreaseLevel (t : Tree Linked V) :
    Tree.ids (decreaseLevel t) = Tree.ids t := by
  cases t with
  | nil => rfl
  | node l k v m r =>
    cases r with
    | nil =>
      simp only [decreaseLevel]
      split_ifs <;> rfl
    | node rl rk rv rm rr =>
      simp only [decreaseLevel]
      split_ifs <;> rfl

theorem aap_forget_mapRight (f : Tree Linked V → Tree Linked V) (g : Tree Int V → Tree Int V)
    (hfg : ∀ t, (f t).mapInfo Linked.info = g (t.mapInfo Linked.info)) (t : Tree Linked V) :
    (mapRight f t).mapInfo Linked.info = AA.mapRight g (t.mapInfo Linked.info) := by
  cases t with
  | nil => rfl
  | node l k v m r => simp [mapRight, AA.mapRight, Tree.mapInfo, hfg]

theorem aap_linked_mapRight (f : Tree Linked V → Tree Linked V)
    (hf : ∀ q t, Tree.LinkedAt q t → Tree.LinkedAt q (f t)) (p : Option Nat)
    (t : Tree Linked V) (h : Tree.LinkedAt p t) : Tree.LinkedAt p (mapRight f t) := by
  cases t with
  | nil => trivial
  | node l k v m r => exact ⟨h.1, h.2.1, hf _ _ h.2.2⟩

theorem aap_ids_mapRight (f : Tree Linked V → Tree Linked V)
    (hf : ∀ t, Tree.ids (f t) = Tree.ids t) (t : Tree Linked V) :
    Tree.ids (mapRight f t) = Tree.ids t := by
  cases t with
  | nil => rfl
  | node l k v m r => simp [mapRight, Tree.ids, hf]

theorem aap_forget_rebalance (t : Tree Linked V) :
    (rebalance t).mapInfo Linked.info = AA.rebalance (t.mapInfo Linked.info) := by
  simp only [rebalance, AA.rebalance]
  rw [aap_forget_mapRight split AA.split aap_forget_split, aap_forget_split,
    aap_forget_mapRight (mapRight skew) (AA.mapRight AA.skew)
      (aap_forget_mapRight skew AA.skew aap_forget_skew),
    aap_forget_mapRight skew AA.skew aap_forget_skew, aap_forget_skew,
    aap_forget_decreaseLevel]

theorem aap_linked_rebalance (p : Option Nat) (t : Tree Linked V) (h : Tree.LinkedAt p t) :
    Tree.LinkedAt p (rebalance t) := by
  simp only [rebalance]
  apply aap_linked_mapRight split aap_linked_split
  apply aap_linked_split
  apply aap_linked_mapRight (mapRight skew) (aap_linked_mapRight skew aap_linked_skew)
  apply aap_linked_mapRight skew aap_linked_skew
  apply aap_linked_skew
  exact aap_linked_decreaseLevel p t h

theorem aap_ids_rebalance (t : Tree Linked V) : Tree.ids (rebalance t) = Tree.ids t := by
  simp only [rebalance]
  rw [aap_ids_mapRight split aap_ids_split, aap_ids_split,
    aap_ids_mapRight (mapRight skew) (aap_ids_mapRight skew aap_ids_skew),
    aap_ids_mapRight skew aap_ids_skew, aap_ids_skew, aap_ids_decreaseLevel]

end AAP

namespace AAP

theorem aap_forget_insertNode (key : Int) (value : V) (id : Nat) (t : Tree Linked V) :
    (insertNode key value id t).map (Tree.mapInfo Linked.info) =
      AA.insertNode key value (t.mapInfo Linked.info) := by
  induction t with
  | nil => rfl
  | node l k v m r ihl ihr =>
    simp only [insertNode, Tree.mapInfo, AA.insertNode]
    split_ifs with h1
    · cases l with
      | nil => simp [Tree.mapInfo, aap_forget_split, aap_forget_skew]
      | node ll lk lvl lm lr =>
        simp only [Tree.mapInfo] at ihl ⊢
        rw [← ihl]
        simp [Option.map_map, Function.comp_def, Tree.mapInfo, aap_forget_split, aap_forget_skew]
    · cases r with
      | nil => simp [Tree.mapInfo, aap_forget_split, aap_forget_skew]
      | node rl rk rv rm rr =>
        simp only [Tree.mapInfo] at ihr ⊢
        rw [← ihr]
        simp [Option.map_map, Function.comp_def, Tree.mapInfo, aap_forget_split, aap_forget_skew]

theorem aap_linked_insertNode (key : Int) (value : V) (id : Nat) (p : Option Nat)
    (t u : Tree Linked V) (h : Tree.LinkedAt p t) (hu : insertNode key value id t = some u) :
    Tree.LinkedAt p u ∧ (Tree.ids u : Multiset Nat) = id ::ₘ (Tree.ids t : Multiset Nat) := by
  induction t generalizing p u with
  | nil => simp [insertNode] at hu
  | node l k v m r ihl ihr =>
    simp only [insertNode] at hu
    split_ifs at hu with h1
    · cases l with
      | nil =>
        simp only [Option.some.injEq] at hu
        subst hu
        refine ⟨aap_linked_split _ _ (aap_linked_skew _ _ ⟨h.1, ⟨rfl, trivial, trivial⟩, h.2.2⟩), ?_⟩
        rw [aap_ids_split, aap_ids_skew]
        simp [Tree.ids]
      | node ll lk lvl lm lr =>
        simp only at hu
        obtain ⟨l1, hl1, e⟩ := Option.map_eq_some'.1 hu
        subst e
        obtain ⟨g1, g2⟩ := ihl _ l1 h.2.1 hl1
        refine ⟨aap_linked_split _ _ (aap_linked_skew _ _ ⟨h.1, g1, h.2.2⟩), ?_⟩
        rw [aap_ids_split, aap_ids_skew]
        generalize Tree.node ll lk lvl lm lr = L at g2 ⊢
        simp only [Tree.ids, ← Multiset.coe_add, ← Multiset.cons_coe,
          ← Multiset.singleton_add] at g2 ⊢
        rw [g2]
        abel
    · cases r with
      | nil =>
        simp only [Option.some.injEq] at hu
        subst hu
        refine ⟨aap_linked_split _ _ (aap_linked_skew _ _ ⟨h.1, h.2.1, ⟨rfl, trivial, trivial⟩⟩), ?_⟩
        rw [aap_ids_split, aap_ids_skew]
        simp only [Tree.ids, ← Multiset.coe_add, ← Multiset.cons_coe,
          ← Multiset.singleton_add, List.nil_append]
        abel
      | node rl rk rv rm rr =>
        simp only at hu
        obtain ⟨r1, hr1, e⟩ := Option.map_eq_some'.1 hu
        subst e
        obtain ⟨g1, g2⟩ := ihr _ r1 h.2.2 hr1
        refine ⟨aap_linked_split _ _ (aap_linked_skew _ _ ⟨h.1, h.2.1, g1⟩), ?_⟩
        rw [aap_ids_split, aap_ids_skew]
        generalize Tree.node rl rk rv rm rr = R at g2 ⊢
        simp only [Tree.ids, ← Multiset.coe_add, ← Multiset.cons_coe,
          ← Multiset.singleton_add] at g2 ⊢
        rw [g2]
        abel

theorem aap_forget_leaf_pattern (t : Tree Linked V) :
    (∃ k v m, t = Tree.node Tree.nil k v m Tree.nil ∧
      t.mapInfo Linked.info = Tree.node Tree.nil k v m.info Tree.nil) ∨
    ((∀ k v m, t ≠ Tree.node Tree.nil k v m Tree.nil) ∧
      ∀ k v m, t.mapInfo Linked.info ≠ Tree.node Tree.nil k v m Tree.nil) := by
  cases t with
  | nil => exact Or.inr ⟨fun _ _ _ h => by simp at h, fun _ _ _ h => by simp [Tree.mapInfo] at h⟩
  | node l k v m r =>
    cases l with
    | node ll lk lvl lm lr =>
      exact Or.inr ⟨fun _ _ _ h => by simp at h, fun _ _ _ h => by simp [Tree.mapInfo] at h⟩
    | nil =>
      cases r with
      | node rl rk rv rm rr =>
        exact Or.inr ⟨fun _ _ _ h => by simp at h, fun _ _ _ h => by simp [Tree.mapInfo] at h⟩
      | nil => exact Or.inl ⟨k, v, m, rfl, rfl⟩

theorem aap_deleteNode_found_leaf (k : Int) (v : V) (m : Linked) :
    deleteNode k (Tree.node Tree.nil k v m (Tree.nil : Tree Linked V)) = some Tree.nil := by
  show (if k = k then _ else if k > k then _ else _) = _
  rw [if_pos rfl]

theorem aap_deleteNode_found_right (rl rr : Tree Linked V) (k rk : Int) (v rv : V)
    (m rm : Linked) :
    deleteNode k (Tree.node Tree.nil k v m (Tree.node rl rk rv rm rr)) =
      match Tree.minimum (Tree.node rl rk rv rm rr) [] with
      | (Tree.node Tree.nil sk _ _ Tree.nil, _) =>
        (deleteNode sk (Tree.node rl rk rv rm rr)).map
          (fun r1 => rebalance (Tree.node Tree.nil sk v m (Tree.setParent (some m.id) r1)))
      | _ => none := by
  show (if k = k then _ else if k > k then _ else _) = _
  rw [if_pos rfl]

theorem aap_deleteNode_found_left (ll lr r : Tree Linked V) (k lk : Int) (v lvl : V)
    (m lm : Linked) :
    deleteNode k (Tree.node (Tree.node ll lk lvl lm lr) k v m r) =
      match Tree.maximum (Tree.node ll lk lvl lm lr) [] with
      | (Tree.node Tree.nil pk _ _ Tree.nil, _) =>
        (deleteNode pk (Tree.node ll lk lvl lm lr)).map
          (fun l1 => rebalance (Tree.node (Tree.setParent (some m.id) l1) pk v m r))
      | _ => none := by
  show (if k = k then _ else if k > k then _ else _) = _
  rw [if_pos rfl]

theorem aap_deleteNode_right (nk : Int) (l r : Tree Linked V) (k : Int) (v : V) (m : Linked)
    (h1 : ¬ nk = k) (h : nk > k) :
    deleteNode nk (Tree.node l k v m r) =
      (deleteNode nk r).map (fun r1 => rebalance (Tree.node l k v m r1)) := by
  show (if nk = k then _ else if nk > k then _ else _) = _
  rw [if_neg h1, if_pos h]

theorem aap_deleteNode_left (nk : Int) (l r : Tree Linked V) (k : Int) (v : V) (m : Linked)
    (h1 : ¬ nk = k) (h : ¬ nk > k) :
    deleteNode nk (Tree.node l k v m r) =
      (deleteNode nk l).map (fun l1 => rebalance (Tree.node l1 k v m r)) := by
  show (if nk = k then _ else if nk > k then _ else _) = _
  rw [if_neg h1, if_neg h]

/-- The choice made on the node `L` by the two embeddings of `deleteNode`. -/
theorem aap_leaf_choice {A B : Type} (x : Tree Linked V) (sp : List (Frame Linked V))
    (sp0 : List (Frame Int V)) (f : Int → Option A) (g : Int → Option B) (c : A → B)
    (hfg : ∀ sk, (f sk).map c = g sk) :
    (match (x, sp) with
      | (Tree.node Tree.nil sk _ _ Tree.nil, _) => f sk
      | _ => none).map c =
    (match (x.mapInfo Linked.info, sp0) with
      | (Tree.node Tree.nil sk _ _ Tree.nil, _) => g sk
      | _ => none) := by
  cases x with
  | nil => rfl
  | node l k v m r =>
    cases l with
    | node ll lk lvl lm lr => rfl
    | nil =>
      cases r with
      | node rl rk rv rm rr => rfl
      | nil => exact hfg k

theorem aap_forget_deleteNode (nk : Int) (t : Tree Linked V) :
    (deleteNode nk t).map (Tree.mapInfo Linked.info) =
      AA.deleteNode nk (t.mapInfo Linked.info) := by
  induction t generalizing nk with
  | nil => rfl
  | node l k v m r ihl ihr =>
    by_cases hk : nk = k
    · subst hk
      cases l with
      | nil =>
        cases r with
        | nil =>
          rw [aap_deleteNode_found_leaf]
          exact (AA.aa_deleteNode_found_leaf nk v m.info).symm
        | node rl rk rv rm rr =>
          have hm := Tree.mapInfo_minimum Linked.info (Tree.node rl rk rv rm rr) []
          simp only [List.map_nil] at hm
          simp only [Tree.mapInfo] at hm ihr ⊢
          rw [AA.aa_deleteNode_found_right, hm, aap_deleteNode_found_right]
          apply aap_leaf_choice
          intro sk
          rw [← ihr]
          simp [Option.map_map, Function.comp_def, aap_forget_rebalance, Tree.mapInfo,
            Tree.mapInfo_setParent]
      | node ll lk lvl lm lr =>
        have hm := Tree.mapInfo_maximum Linked.info (Tree.node ll lk lvl lm lr) []
        simp only [List.map_nil] at hm
        simp only [Tree.mapInfo] at hm ihl ⊢
        rw [AA.aa_deleteNode_found_left, hm, aap_deleteNode_found_left]
        apply aap_leaf_choice
        intro sk
        rw [← ihl]
        simp [Option.map_map, Function.comp_def, aap_forget_rebalance, Tree.mapInfo,
          Tree.mapInfo_setParent]
    · simp only [Tree.mapInfo]
      by_cases hgt : nk > k
      · rw [AA.aa_deleteNode_right nk _ _ k v _ hk hgt, ← ihr, aap_deleteNode_right nk _ _ k v _ hk hgt]
        simp [Option.map_map, Function.comp_def, aap_forget_rebalance, Tree.mapInfo]
      · rw [AA.aa_deleteNode_left nk _ _ k v _ hk hgt, ← ihl, aap_deleteNode_left nk _ _ k v _ hk hgt]
        simp [Option.map_map, Function.comp_def, aap_forget_rebalance, Tree.mapInfo]

theorem aap_leaf_cases {A : Type} (x : Tree Linked V) (sp : List (Frame Linked V))
    (f : Int → Option A) (u : A)
    (h : (match (x, sp) with
      | (Tree.node Tree.nil sk _ _ Tree.nil, _) => f sk
      | _ => none) = some u) : ∃ sk, f sk = some u := by
  cases x with
  | nil => simp at h
  | node l k v m r =>
    cases l with
    | node ll lk lvl lm lr => simp at h
    | nil =>
      cases r with
      | node rl rk rv rm rr => simp at h
      | nil => exact ⟨k, h⟩

theorem aap_linked_deleteNode (nk : Int) (p : Option Nat) (t u : Tree Linked V)
    (h : Tree.LinkedAt p t) (hu : deleteNode nk t = some u) :
    Tree.LinkedAt p u ∧ (Tree.ids u : Multiset Nat) ≤ (Tree.ids t : Multiset Nat) := by
  induction t generalizing nk p u with
  | nil =>
    simp only [deleteNode, Option.some.injEq] at hu
    subst hu
    exact ⟨trivial, le_refl _⟩
  | node l k v m r ihl ihr =>
    by_cases hk : nk = k
    · subst hk
      cases l with
      | nil =>
        cases r with
        | nil =>
          rw [aap_deleteNode_found_leaf] at hu
          cases hu
          exact ⟨trivial, Multiset.zero_le _⟩
        | node rl rk rv rm rr =>
          rw [aap_deleteNode_found_right] at hu
          obtain ⟨sk, hsk⟩ := aap_leaf_cases _ _ _ u hu
          obtain ⟨r1, hr1, e⟩ := Option.map_eq_some'.1 hsk
          subst e
          obtain ⟨g1, g2⟩ := ihr sk _ r1 h.2.2 hr1
          refine ⟨aap_linked_rebalance _ _
            ⟨h.1, trivial, Tree.linked_setParent _ _ _ g1⟩, ?_⟩
          rw [aap_ids_rebalance]
          generalize Tree.node rl rk rv rm rr = R at g2 ⊢
          simp only [Tree.ids, Tree.ids_setParent, ← Multiset.coe_add, ← Multiset.cons_coe,
            ← Multiset.singleton_add, List.nil_append] at g2 ⊢
          exact add_le_add_left g2 _
      | node ll lk lvl lm lr =>
        rw [aap_deleteNode_found_left] at hu
        obtain ⟨sk, hsk⟩ := aap_leaf_cases _ _ _ u hu
        obtain ⟨l1, hl1, e⟩ := Option.map_eq_some'.1 hsk
        subst e
        obtain ⟨g1, g2⟩ := ihl sk _ l1 h.2.1 hl1
        refine ⟨aap_linked_rebalance _ _
          ⟨h.1, Tree.linked_setParent _ _ _ g1, h.2.2⟩, ?_⟩
        rw [aap_ids_rebalance]
        generalize Tree.node ll lk lvl lm lr = L at g2 ⊢
        simp only [Tree.ids, Tree.ids_setParent, ← Multiset.coe_add, ← Multiset.cons_coe,
          ← Multiset.singleton_add] at g2 ⊢
        exact add_le_add_right g2 _
    · by_cases hgt : nk > k
      · rw [aap_deleteNode_right nk _ _ k v _ hk hgt] at hu
        obtain ⟨r1, hr1, e⟩ := Option.map_eq_some'.1 hu
        subst e
        obtain ⟨g1, g2⟩ := ihr nk _ r1 h.2.2 hr1
        refine ⟨aap_linked_rebalance _ _ ⟨h.1, h.2.1, g1⟩, ?_⟩
        rw [aap_ids_rebalance]
        simp only [Tree.ids, ← Multiset.coe_add, ← Multiset.cons_coe,
          ← Multiset.singleton_add] at g2 ⊢
        exact add_le_add_left (add_le_add_left g2 _) _
      · rw [aap_deleteNode_left nk _ _ k v _ hk hgt] at hu
        obtain ⟨l1, hl1, e⟩ := Option.map_eq_some'.1 hu
        subst e
        obtain ⟨g1, g2⟩ := ihl nk _ l1 h.2.1 hl1
        refine ⟨aap_linked_rebalance _ _ ⟨h.1, g1, h.2.2⟩, ?_⟩
        rw [aap_ids_rebalance]
        simp only [Tree.ids, ← Multiset.coe_add, ← Multiset.cons_coe,
          ← Multiset.singleton_add] at g2 ⊢
        exact add_le_add_right g2 _

end AAP

theorem statep_wf_empty : (StateP.empty : StateP V).Wf :=
  ⟨trivial, List.nodup_nil, fun i hi => by simp [StateP.empty, Tree.ids] at hi⟩

/-- An allocation keeps the addresses in order. -/
theorem statep_wf_insert (s : StateP V) (t : Tree Linked V) (n : Nat) (hw : s.Wf)
    (hl : Tree.LinkedAt none t)
    (hi : (Tree.ids t : Multiset Nat) = s.next ::ₘ (Tree.ids s.root_ : Multiset Nat)) :
    (⟨t, n, s.next + 1⟩ : StateP V).Wf := by
  refine ⟨hl, ?_, ?_⟩
  · rw [← Multiset.coe_nodup, hi, Multiset.nodup_cons]
    refine ⟨?_, Multiset.coe_nodup.2 hw.2.1⟩
    intro hm
    exact absurd (hw.2.2 _ (Multiset.mem_coe.1 hm)) (lt_irrefl _)
  · intro i him
    have : i ∈ (Tree.ids t : Multiset Nat) := Multiset.mem_coe.2 him
    rw [hi, Multiset.mem_cons] at this
    rcases this with rfl | h
    · exact Nat.lt_succ_self _
    · exact Nat.lt_succ_of_lt (hw.2.2 _ (Multiset.mem_coe.1 h))

/-- A deallocation keeps the addresses in order. -/
theorem statep_wf_erase (s : StateP V) (t : Tree Linked V) (n : Nat) (hw : s.Wf)
    (hl : Tree.LinkedAt none t)
    (hi : (Tree.ids t : Multiset Nat) ≤ (Tree.ids s.root_ : Multiset Nat)) :
    (⟨t, n, s.next⟩ : StateP V).Wf := by
  refine ⟨hl, ?_, ?_⟩
  · rw [← Multiset.coe_nodup]
    exact Multiset.nodup_of_le hi (Multiset.coe_nodup.2 hw.2.1)
  · intro i him
    exact hw.2.2 _ (Multiset.mem_coe.1 (Multiset.mem_of_le hi (Multiset.mem_coe.2 him)))

namespace AAP

theorem aap_forget_find (s : StateP V) (key : Int) :
    AA.find s.forget key = (Tree.descend key s.root_ []).1.mapInfo Linked.info := by
  have := Tree.mapInfo_descend Linked.info key s.root_ []
  simp only [List.map_nil] at this
  simp only [AA.find, StateP.forget, this]

theorem aap_insert_spec (s : StateP V) (key : Int) (value : V) (hw : s.Wf) :
    (insert s key value).map (fun p => (p.1.forget, p.2)) = AA.insert s.forget key value ∧
    ∀ s1 b, insert s key value = some (s1, b) → s1.Wf := by
  have hf := aap_forget_find s key
  simp only [insert, AA.insert]
  rw [hf]
  cases hd : (Tree.descend key s.root_ []).1 with
  | node l k v m r =>
    refine ⟨rfl, ?_⟩
    intro s1 b h
    simp only [Option.some.injEq, Prod.mk.injEq] at h
    rw [← h.1]
    exact hw
  | nil =>
    simp only [Tree.mapInfo]
    cases hr : s.root_ with
    | nil =>
      simp only [StateP.forget, hr, Tree.mapInfo]
      refine ⟨rfl, ?_⟩
      intro s1 b h
      simp only [Option.some.injEq, Prod.mk.injEq] at h
      rw [← h.1]
      exact statep_wf_insert s _ _ hw ⟨rfl, trivial, trivial⟩ (by simp [Tree.ids, hr])
    | node l k v m r =>
      have hc := aap_forget_insertNode key value s.next s.root_
      simp only [StateP.forget, hr, Tree.mapInfo] at hc ⊢
      rw [← hc]
      refine ⟨by simp [Option.map_map, Function.comp_def], ?_⟩
      intro s1 b h
      obtain ⟨t, ht, e⟩ := Option.map_eq_some'.1 h
      simp only [Prod.mk.injEq] at e
      rw [← e.1]
      have hl : Tree.LinkedAt none (Tree.node l k v m r) := by rw [← hr]; exact hw.1
      obtain ⟨g1, g2⟩ := aap_linked_insertNode key value s.next none _ t hl ht
      exact statep_wf_insert s _ _ hw g1 (by rw [g2, hr])

theorem aap_erase_spec (s : StateP V) (key : Int) (hw : s.Wf) :
    (erase s key).map (fun p => (p.1.forget, p.2)) = AA.erase s.forget key ∧
    ∀ s1 n, erase s key = some (s1, n) → s1.Wf := by
  have hf := aap_forget_find s key
  simp only [erase, AA.erase]
  rw [hf]
  cases hd : (Tree.descend key s.root_ []).1 with
  | nil =>
    refine ⟨rfl, ?_⟩
    intro s1 b h
    simp only [Option.some.injEq, Prod.mk.injEq] at h
    rw [← h.1]
    exact hw
  | node l k v m r =>
    have hc := aap_forget_deleteNode k s.root_
    simp only [Tree.mapInfo, StateP.forget] at hc ⊢
    rw [← hc]
    refine ⟨by simp [Option.map_map, Function.comp_def], ?_⟩
    intro s1 b h
    obtain ⟨t, ht, e⟩ := Option.map_eq_some'.1 h
    simp only [Prod.mk.injEq] at e
    rw [← e.1]
    obtain ⟨g1, g2⟩ := aap_linked_deleteNode k none _ t hw.1 ht
    exact statep_wf_erase s _ _ hw g1 g2

theorem aap_step_spec (s : StateP V) (op : Op V) (hw : s.Wf) :
    (step s op).map (fun p => (p.1.forget, p.2)) = AA.step s.forget op ∧
    ∀ s1 r, step s op = some (s1, r) → s1.Wf := by
  cases op with
  | insert k v =>
    obtain ⟨h1, h2⟩ := aap_insert_spec s k v hw
    simp only [step, AA.step]
    rw [← h1]
    refine ⟨by simp [Option.map_map, Function.comp_def], ?_⟩
    intro s1 r h
    obtain ⟨q, hq, e⟩ := Option.map_eq_some'.1 h
    obtain ⟨q1, q2⟩ := q
    simp only [Prod.mk.injEq] at e
    rw [← e.1]
    exact h2 q1 q2 hq
  | erase k =>
    obtain ⟨h1, h2⟩ := aap_erase_spec s k hw
    simp only [step, AA.step]
    rw [← h1]
    refine ⟨by simp [Option.map_map, Function.comp_def], ?_⟩
    intro s1 r h
    obtain ⟨q, hq, e⟩ := Option.map_eq_some'.1 h
    obtain ⟨q1, q2⟩ := q
    simp only [Prod.mk.injEq] at e
    rw [← e.1]
    exact h2 q1 q2 hq

theorem aap_run_spec (ops : List (Op V)) (s : StateP V) (hw : s.Wf) :
    (run ops s).map (fun p => (p.1.forget, p.2)) = AA.run ops s.forget ∧
    ∀ s1 rets, run ops s = some (s1, rets) → s1.Wf := by
  induction ops generalizing s with
  | nil =>
    refine ⟨rfl, ?_⟩
    intro s1 rets h
    simp only [run, Option.some.injEq, Prod.mk.injEq] at h
    rw [← h.1]
    exact hw
  | cons op ops ih =>
    obtain ⟨h1, h2⟩ := aap_step_spec s op hw
    simp only [run, AA.run]
    rw [← h1]
    cases hs : step s op with
    | none => exact ⟨rfl, fun s1 rets h => by simp at h⟩
    | some p =>
      obtain ⟨p1, p2⟩ := p
      obtain ⟨g1, g2⟩ := ih p1 (h2 p1 p2 hs)
      simp only [Option.map_some', Option.some_bind]
      rw [← g1]
      refine ⟨by simp [Option.map_map, Function.comp_def], ?_⟩
      intro s1 rets h
      obtain ⟨q, hq, e⟩ := Option.map_eq_some'.1 h
      obtain ⟨q1, q2⟩ := q
      simp only [Prod.mk.injEq] at e
      rw [← e.1]
      exact g2 q1 q2 hq

end AAP

theorem frame_linked_fill (p : Option Nat) (f : Frame Linked V) (t : Tree Linked V) :
    Tree.LinkedAt p (f.fill t) ↔
      f.info.parent = p ∧ Tree.LinkedAt (some f.info.id) t ∧
        Tree.LinkedAt (some f.info.id) f.sib := by
  obtain ⟨d, k, v, m, s⟩ := f
  cases d
  · simp only [Frame.fill, Tree.LinkedAt]
  · simp only [Frame.fill, Tree.LinkedAt]
    constructor
    · rintro ⟨h1, h2, h3⟩; exact ⟨h1, h3, h2⟩
    · rintro ⟨h1, h2, h3⟩; exact ⟨h1, h3, h2⟩

theorem chain_linked_fill (q : Option Nat) (up : List (Frame Linked V)) (t : Tree Linked V) :
    Tree.LinkedAt q (Tree.fill up t) ↔
      Tree.LinkedAt (Frame.top q up) t ∧ Frame.LinkedChain q up := by
  induction up generalizing t with
  | nil => simp [Tree.fill, Frame.top, Frame.LinkedChain]
  | cons f up ih =>
    simp only [Tree.fill, ih, frame_linked_fill, Frame.top, Frame.LinkedChain]
    constructor
    · rintro ⟨⟨h1, h2, h3⟩, h4⟩; exact ⟨h2, h1, h3, h4⟩
    · rintro ⟨h2, h1, h3, h4⟩; exact ⟨⟨h1, h2, h3⟩, h4⟩

theorem chain_linked_cons (q : Option Nat) (g : Frame Linked V) (up : List (Frame Linked V)) :
    Frame.LinkedChain q (g :: up) ↔
      g.info.parent = Frame.top q up ∧ Tree.LinkedAt (some g.info.id) g.sib ∧
        Frame.LinkedChain q up := Iff.rfl

theorem chain_ids_cons (g : Frame Linked V) (up : List (Frame Linked V)) :
    Frame.chainIds (g :: up) =
      (g.info.id ::ₘ (Tree.ids g.sib : Multiset Nat)) + Frame.chainIds up := rfl

theorem chain_linked_append (q : Option Nat) (a b : List (Frame Linked V)) :
    Frame.LinkedChain q (a ++ b) ↔
      Frame.LinkedChain (Frame.top q b) a ∧ Frame.LinkedChain q b := by
  induction a with
  | nil => simp [Frame.LinkedChain]
  | cons f a ih =>
    have ht : Frame.top q (a ++ b) = Frame.top (Frame.top q b) a := by
      cases a <;> rfl
    rw [List.cons_append, chain_linked_cons, chain_linked_cons, ih, ht]
    constructor
    · rintro ⟨h1, h2, h3, h4⟩; exact ⟨⟨h1, h2, h3⟩, h4⟩
    · rintro ⟨⟨h1, h2, h3⟩, h4⟩; exact ⟨h1, h2, h3, h4⟩

theorem frame_ids_fill (f : Frame Linked V) (t : Tree Linked V) :
    (Tree.ids (f.fill t) : Multiset Nat) =
      (Tree.ids t : Multiset Nat) + (f.info.id ::ₘ (Tree.ids f.sib : Multiset Nat)) := by
  obtain ⟨d, k, v, m, s⟩ := f
  cases d
  · simp only [Frame.fill, Tree.ids, ← Multiset.coe_add, ← Multiset.cons_coe,
      ← Multiset.singleton_add]
  · simp only [Frame.fill, Tree.ids, ← Multiset.coe_add, ← Multiset.cons_coe,
      ← Multiset.singleton_add]
    abel

theorem chain_ids_fill (up : List (Frame Linked V)) (t : Tree Linked V) :
    (Tree.ids (Tree.fill up t) : Multiset Nat) =
      (Tree.ids t : Multiset Nat) + Frame.chainIds up := by
  induction up generalizing t with
  | nil => simp [Tree.fill, Frame.chainIds]
  | cons f up ih =>
    simp only [Tree.fill, ih, frame_ids_fill, Frame.chainIds]
    abel

theorem chain_ids_append (a b : List (Frame Linked V)) :
    Frame.chainIds (a ++ b) = Frame.chainIds a + Frame.chainIds b := by
  induction a with
  | nil => simp [Frame.chainIds]
  | cons f a ih =>
    rw [List.cons_append, chain_ids_cons, chain_ids_cons, ih]
    abel

theorem frame_forget_fill (f : Frame Linked V) (t : Tree Linked V) :
    (f.fill t).mapInfo Linked.info = (f.mapInfo Linked.info).fill (t.mapInfo Linked.info) := by
  obtain ⟨d, k, v, m, s⟩ := f
  cases d <;> rfl

namespace AVLP

theorem avlp_forget_rotateLeft (t : Tree Linked V) :
    (rotateLeft t).map (Tree.mapInfo Linked.info) = AVL.rotateLeft (t.mapInfo Linked.info) := by
  cases t with
  | nil => rfl
  | node l k v m r =>
    cases r with
    | nil => rfl
    | node rl rk rv rm rr =>
      simp [rotateLeft, AVL.rotateLeft, Tree.mapInfo, Tree.mapInfo_setParent]

theorem avlp_forget_rotateRight (t : Tree Linked V) :
    (rotateRight t).map (Tree.mapInfo Linked.info) = AVL.rotateRight (t.mapInfo Linked.info) := by
  cases t with
  | nil => rfl
  | node l k v m r =>
    cases l with
    | nil => rfl
    | node ll lk lv lm lr =>
      simp [rotateRight, AVL.rotateRight, Tree.mapInfo, Tree.mapInfo_setParent]

theorem avlp_forget_rotateLeftRight (t : Tree Linked V) :
    (rotateLeftRight t).map (Tree.mapInfo Linked.info) =
      AVL.rotateLeftRight (t.mapInfo Linked.info) := by
  cases t with
  | nil => rfl
  | node l k v m r =>
    cases l with
    | nil => rfl
    | node ll lk lv lm lr =>
      cases lr with
      | nil => rfl
      | node lrl lrk lrv lrm lrr =>
        simp only [rotateLeftRight, AVL.rotateLeftRight, Tree.mapInfo, Option.map_some',
          Tree.mapInfo_setParent]
        split_ifs <;> rfl

theorem avlp_forget_rotateRightLeft (t : Tree Linked V) :
    (rotateRightLeft t).map (Tree.mapInfo Linked.info) =
      AVL.rotateRightLeft (t.mapInfo Linked.info) := by
  cases t with
  | nil => rfl
  | node l k v m r =>
    cases r with
    | nil => rfl
    | node rl rk rv rm rr =>
      cases rl with
      | nil => rfl
      | node rll rlk rlv rlm rlr =>
        simp only [rotateRightLeft, AVL.rotateRightLeft, Tree.mapInfo, Option.map_some',
          Tree.mapInfo_setParent]
        split_ifs <;> rfl

theorem avlp_linked_rotateLeft (p : Option Nat) (t u : Tree Linked V)
    (h : Tree.LinkedAt p t) (hu : rotateLeft t = some u) :
    Tree.LinkedAt p u ∧ Tree.ids u = Tree.ids t ∧ u ≠ Tree.nil := by
  cases t with
  | nil => simp [rotateLeft] at hu
  | node l k v m r =>
    cases r with
    | nil => simp [rotateLeft] at hu
    | node rl rk rv rm rr =>
      simp only [rotateLeft, Option.some.injEq] at hu
      subst hu
      obtain ⟨h1, h2, h3, h4, h5⟩ := h
      exact ⟨⟨h1, ⟨rfl, h2, Tree.linked_setParent _ _ _ h4⟩, h5⟩,
        by simp [Tree.ids, Tree.ids_setParent], by simp⟩

theorem avlp_linked_rotateRight (p : Option Nat) (t u : Tree Linked V)
    (h : Tree.LinkedAt p t) (hu : rotateRight t = some u) :
    Tree.LinkedAt p u ∧ Tree.ids u = Tree.ids t ∧ u ≠ Tree.nil := by
  cases t with
  | nil => simp [rotateRight] at hu
  | node l k v m r =>
    cases l with
    | nil => simp [rotateRight] at hu
    | node ll lk lv lm lr =>
      simp only [rotateRight, Option.some.injEq] at hu
      subst hu
      obtain ⟨h1, ⟨h2, h3, h4⟩, h5⟩ := h
      exact ⟨⟨h1, h3, rfl, Tree.linked_setParent _ _ _ h4, h5⟩,
        by simp [Tree.ids, Tree.ids_setParent], by simp⟩

theorem avlp_linked_rotateLeftRight (p : Option Nat) (t u : Tree Linked V)
    (h : Tree.LinkedAt p t) (hu : rotateLeftRight t = some u) :
    Tree.LinkedAt p u ∧ Tree.ids u = Tree.ids t ∧ u ≠ Tree.nil := by
  cases t with
  | nil => simp [rotateLeftRight] at hu
  | node l k v m r =>
    cases l with
    | nil => simp [rotateLeftRight] at hu
    | node ll lk lv lm lr =>
      cases lr with
      | nil => simp [rotateLeftRight] at hu
      | node lrl lrk lrv lrm lrr =>
        simp only [rotateLeftRight, Option.some.injEq] at hu
        subst hu
        obtain ⟨h1, ⟨h2, h3, h4, h5, h6⟩, h7⟩ := h
        exact ⟨⟨h1, ⟨rfl, h3, Tree.linked_setParent _ _ _ h5⟩,
          ⟨rfl, Tree.linked_setParent _ _ _ h6, h7⟩⟩,
          by simp [Tree.ids, Tree.ids_setParent], by simp⟩

theorem avlp_linked_rotateRightLeft (p : Option Nat) (t u : Tree Linked V)
    (h : Tree.LinkedAt p t) (hu : rotateRightLeft t = some u) :
    Tree.LinkedAt p u ∧ Tree.ids u = Tree.ids t ∧ u ≠ Tree.nil := by
  cases t with
  | nil => simp [rotateRightLeft] at hu
  | node l k v m r =>
    cases r with
    | nil => simp [rotateRightLeft] at hu
    | node rl rk rv rm rr =>
      cases rl with
      | nil => simp [rotateRightLeft] at hu
      | node rll rlk rlv rlm rlr =>
        simp only [rotateRightLeft, Option.some.injEq] at hu
        subst hu
        obtain ⟨h1, h2, h3, ⟨h4, h5, h6⟩, h7⟩ := h
        exact ⟨⟨h1, ⟨rfl, h2, Tree.linked_setParent _ _ _ h5⟩,
          ⟨rfl, Tree.linked_setParent _ _ _ h6, h7⟩⟩,
          by simp [Tree.ids, Tree.ids_setParent], by simp⟩

theorem avlp_relinks (up : List (Frame Linked V)) (t : Tree Linked V)
    (h : Tree.LinkedAt (Frame.top none up) t) (hne : t ≠ Tree.nil) :
    relinks up (Tree.parentOf t) = true := by
  cases up with
  | nil => rfl
  | cons g up =>
    simp only [relinks, decide_eq_true_eq]
    exact Tree.parentOf_linked _ t h hne

theorem avlp_rotateAt (rot : Tree Linked V → Option (Tree Linked V))
    (up : List (Frame Linked V)) (t : Tree Linked V)
    (h : Tree.LinkedAt (Frame.top none up) t) (hne : t ≠ Tree.nil) :
    rotateAt rot up t = rot t := by
  simp only [rotateAt, avlp_relinks up t h hne, if_true]

end AVLP

namespace AVLP

/-- A rotation called by a loop body at a linked position agrees with the rotation of the
embedding without links and keeps the links. -/
theorem avlp_rotateAt_spec (rot : Tree Linked V → Option (Tree Linked V))
    (rot0 : Tree Int V → Option (Tree Int V))
    (hf : ∀ t, (rot t).map (Tree.mapInfo Linked.info) = rot0 (t.mapInfo Linked.info))
    (hl : ∀ p t u, Tree.LinkedAt p t → rot t = some u →
      Tree.LinkedAt p u ∧ Tree.ids u = Tree.ids t ∧ u ≠ Tree.nil)
    (up : List (Frame Linked V)) (t : Tree Linked V) (c : Bool)
    (h : Tree.LinkedAt (Frame.top none up) t) (hne : t ≠ Tree.nil) :
    ((rotateAt rot up t).map (fun n => (n, c))).map
        (fun q => (q.1.mapInfo Linked.info, q.2)) =
      (rot0 (t.mapInfo Linked.info)).map (fun n => (n, c)) ∧
    ∀ n c1, (rotateAt rot up t).map (fun n => (n, c)) = some (n, c1) →
      Tree.LinkedAt (Frame.top none up) n ∧ Tree.ids n = Tree.ids t ∧ n ≠ Tree.nil := by
  rw [avlp_rotateAt rot up t h hne, ← hf]
  refine ⟨by simp [Option.map_map, Function.comp_def], ?_⟩
  intro n c1 hn
  obtain ⟨u, hu, e⟩ := Option.map_eq_some'.1 hn
  simp only [Prod.mk.injEq] at e
  rw [← e.1]
  exact hl _ t u h hu

theorem avlp_insertBalanceStep_spec (up : List (Frame Linked V)) (t : Tree Linked V) (d : Int)
    (h : Tree.LinkedAt (Frame.top none up) t) :
    (insertBalanceStep up t d).map (fun q => (q.1.mapInfo Linked.info, q.2)) =
      AVL.insertBalanceStep (t.mapInfo Linked.info) d ∧
    ∀ n c, insertBalanceStep up t d = some (n, c) →
      Tree.LinkedAt (Frame.top none up) n ∧ Tree.ids n = Tree.ids t ∧ n ≠ Tree.nil := by
  cases t with
  | nil => exact ⟨rfl, fun n c hn => by simp [insertBalanceStep] at hn⟩
  | node l k v m r =>
    have hm : Tree.LinkedAt (Frame.top none up)
        (Tree.node l k v ⟨m.info + d, m.id, m.parent⟩ r) := ⟨h.1, h.2.1, h.2.2⟩
    have hplain : ∀ c : Bool,
        (some (Tree.node l k v (⟨m.info + d, m.id, m.parent⟩ : Linked) r, c)).map
            (fun q => (q.1.mapInfo Linked.info, q.2)) =
          some (Tree.node (l.mapInfo Linked.info) k v (m.info + d) (r.mapInfo Linked.info), c) ∧
        ∀ n c1, some (Tree.node l k v (⟨m.info + d, m.id, m.parent⟩ : Linked) r, c) =
            some (n, c1) →
          Tree.LinkedAt (Frame.top none up) n ∧
            Tree.ids n = Tree.ids (Tree.node l k v m r) ∧ n ≠ Tree.nil := by
      intro c
      refine ⟨rfl, ?_⟩
      intro n c1 hn
      simp only [Option.some.injEq, Prod.mk.injEq] at hn
      rw [← hn.1]
      exact ⟨hm, rfl, by simp⟩
    simp only [insertBalanceStep, AVL.insertBalanceStep, Tree.mapInfo]
    split_ifs with h1 h2 h3
    · exact hplain false
    · cases l with
      | nil => exact ⟨rfl, fun n c hn => by simp at hn⟩
      | node ll lk lv lm lr =>
        simp only [Tree.mapInfo]
        split_ifs
        · exact avlp_rotateAt_spec rotateRight AVL.rotateRight avlp_forget_rotateRight
            avlp_linked_rotateRight up _ false hm (by simp)
        · exact avlp_rotateAt_spec rotateLeftRight AVL.rotateLeftRight
            avlp_forget_rotateLeftRight avlp_linked_rotateLeftRight up _ false hm (by simp)
    · cases r with
      | nil => exact ⟨rfl, fun n c hn => by simp at hn⟩
      | node rl rk rv rm rr =>
        simp only [Tree.mapInfo]
        split_ifs
        · exact avlp_rotateAt_spec rotateLeft AVL.rotateLeft avlp_forget_rotateLeft
            avlp_linked_rotateLeft up _ false hm (by simp)
        · exact avlp_rotateAt_spec rotateRightLeft AVL.rotateRightLeft
            avlp_forget_rotateRightLeft avlp_linked_rotateRightLeft up _ false hm (by simp)
    · exact hplain true

theorem avlp_insertBalance_spec (up : List (Frame Linked V)) (t : Tree Linked V) (d : Int)
    (hc : Frame.LinkedChain none up) (h : Tree.LinkedAt (Frame.top none up) t) :
    (insertBalance up t d).map (Tree.mapInfo Linked.info) =
      AVL.insertBalance (up.map (Frame.mapInfo Linked.info)) (t.mapInfo Linked.info) d ∧
    ∀ u, insertBalance up t d = some u →
      Tree.LinkedAt none u ∧
        (Tree.ids u : Multiset Nat) = (Tree.ids t : Multiset Nat) + Frame.chainIds up := by
  induction up generalizing t d with
  | nil =>
    obtain ⟨h1, h2⟩ := avlp_insertBalanceStep_spec [] t d h
    rw [insertBalance, AVL.insertBalance, ← h1]
    cases hs : insertBalanceStep [] t d with
    | none => exact ⟨rfl, fun u hu => by simp at hu⟩
    | some q =>
      obtain ⟨n, c⟩ := q
      obtain ⟨g1, g2, g3⟩ := h2 n c hs
      have hp : Tree.parentOf n = none := Tree.parentOf_linked _ n g1 g3
      cases c with
      | false =>
        refine ⟨rfl, ?_⟩
        intro u hu
        simp only [Tree.fill, Option.some.injEq] at hu
        rw [← hu, g2]
        exact ⟨g1, by simp [Frame.chainIds]⟩
      | true =>
        simp only [hp, if_true, Option.map_some', List.map_nil]
        refine ⟨trivial, ?_⟩
        intro u hu
        simp only [Option.some.injEq] at hu
        rw [← hu, g2]
        exact ⟨g1, by simp [Frame.chainIds]⟩
  | cons g up ih =>
    obtain ⟨h1, h2⟩ := avlp_insertBalanceStep_spec (g :: up) t d h
    rw [insertBalance, List.map_cons, AVL.insertBalance, ← h1]
    cases hs : insertBalanceStep (g :: up) t d with
    | none => exact ⟨rfl, fun u hu => by simp at hu⟩
    | some q =>
      obtain ⟨n, c⟩ := q
      obtain ⟨g1, g2, g3⟩ := h2 n c hs
      have hp : Tree.parentOf n = some g.info.id := Tree.parentOf_linked _ n g1 g3
      cases c with
      | false =>
        simp only [Option.map_some']
        refine ⟨?_, ?_⟩
        · have := Tree.mapInfo_fill Linked.info (g :: up) n
          simp only [List.map_cons] at this
          rw [this]
        · intro u hu
          simp only [Option.some.injEq] at hu
          rw [← hu, chain_ids_fill, g2]
          exact ⟨(chain_linked_fill none (g :: up) n).2 ⟨g1, hc⟩, rfl⟩
      | true =>
        simp only [Option.map_some', hp, if_true]
        have hgn : Tree.LinkedAt (Frame.top none up) (g.fill n) :=
          (frame_linked_fill _ g n).2 ⟨hc.1, g1, hc.2.1⟩
        obtain ⟨i1, i2⟩ := ih (g.fill n) (if g.dir = Dir.left then 1 else -1) hc.2.2 hgn
        rw [frame_forget_fill] at i1
        refine ⟨i1, ?_⟩
        intro u hu
        obtain ⟨j1, j2⟩ := i2 u hu
        refine ⟨j1, ?_⟩
        rw [j2, frame_ids_fill, g2, chain_ids_cons]
        abel

end AVLP

namespace AVLP

/-- A single rotation called by the loop body of `deleteBalance`, which goes on unless the new
root has balance `a`. -/
theorem avlp_rotateAt_test (rot : Tree Linked V → Option (Tree Linked V))
    (rot0 : Tree Int V → Option (Tree Int V))
    (hf : ∀ t, (rot t).map (Tree.mapInfo Linked.info) = rot0 (t.mapInfo Linked.info))
    (hl : ∀ p t u, Tree.LinkedAt p t → rot t = some u →
      Tree.LinkedAt p u ∧ Tree.ids u = Tree.ids t ∧ u ≠ Tree.nil)
    (up : List (Frame Linked V)) (t : Tree Linked V) (a : Int)
    (h : Tree.LinkedAt (Frame.top none up) t) (hne : t ≠ Tree.nil) :
    Option.map (fun q : Tree Linked V × Bool => (q.1.mapInfo Linked.info, q.2))
      (match rotateAt rot up t with
      | some (Tree.node nl nk nv nm nr) => some (Tree.node nl nk nv nm nr, decide (nm.info ≠ a))
      | _ => none) =
      (match rot0 (t.mapInfo Linked.info) with
        | some (Tree.node nl nk nv nb nr) => some (Tree.node nl nk nv nb nr, decide (nb ≠ a))
        | _ => none) ∧
    ∀ n c1, (match rotateAt rot up t with
      | some (Tree.node nl nk nv nm nr) => some (Tree.node nl nk nv nm nr, decide (nm.info ≠ a))
      | _ => none) = some (n, c1) →
      Tree.LinkedAt (Frame.top none up) n ∧ Tree.ids n = Tree.ids t ∧ n ≠ Tree.nil := by
  rw [avlp_rotateAt rot up t h hne, ← hf]
  cases hr : rot t with
  | none => exact ⟨rfl, fun n c1 hn => by simp at hn⟩
  | some u =>
    cases u with
    | nil => exact ⟨rfl, fun n c1 hn => by simp at hn⟩
    | node nl nk nv nm nr =>
      refine ⟨rfl, ?_⟩
      intro n c1 hn
      simp only [Option.some.injEq, Prod.mk.injEq] at hn
      rw [← hn.1]
      exact hl _ t _ h hr

theorem avlp_deleteBalanceStep_spec (up : List (Frame Linked V)) (t : Tree Linked V) (d : Int)
    (h : Tree.LinkedAt (Frame.top none up) t) :
    (deleteBalanceStep up t d).map (fun q => (q.1.mapInfo Linked.info, q.2)) =
      AVL.deleteBalanceStep (t.mapInfo Linked.info) d ∧
    ∀ n c, deleteBalanceStep up t d = some (n, c) →
      Tree.LinkedAt (Frame.top none up) n ∧ Tree.ids n = Tree.ids t ∧ n ≠ Tree.nil := by
  cases t with
  | nil => exact ⟨rfl, fun n c hn => by simp [deleteBalanceStep] at hn⟩
  | node l k v m r =>
    have hm : Tree.LinkedAt (Frame.top none up)
        (Tree.node l k v ⟨m.info + d, m.id, m.parent⟩ r) := ⟨h.1, h.2.1, h.2.2⟩
    have hplain : ∀ c : Bool,
        (some (Tree.node l k v (⟨m.info + d, m.id, m.parent⟩ : Linked) r, c)).map
            (fun q => (q.1.mapInfo Linked.info, q.2)) =
          some (Tree.node (l.mapInfo Linked.info) k v (m.info + d) (r.mapInfo Linked.info), c) ∧
        ∀ n c1, some (Tree.node l k v (⟨m.info + d, m.id, m.parent⟩ : Linked) r, c) =
            some (n, c1) →
          Tree.LinkedAt (Frame.top none up) n ∧
            Tree.ids n = Tree.ids (Tree.node l k v m r) ∧ n ≠ Tree.nil := by
      intro c
      refine ⟨rfl, ?_⟩
      intro n c1 hn
      simp only [Option.some.injEq, Prod.mk.injEq] at hn
      rw [← hn.1]
      exact ⟨hm, rfl, by simp⟩
    simp only [deleteBalanceStep, AVL.deleteBalanceStep, Tree.mapInfo]
    split_ifs with h1 h2 h3
    · cases l with
      | nil => exact ⟨rfl, fun n c hn => by simp at hn⟩
      | node ll lk lv lm lr =>
        simp only [Tree.mapInfo]
        split_ifs
        · exact avlp_rotateAt_test rotateRight AVL.rotateRight avlp_forget_rotateRight
            avlp_linked_rotateRight up _ (-1) hm (by simp)
        · exact avlp_rotateAt_spec rotateLeftRight AVL.rotateLeftRight
            avlp_forget_rotateLeftRight avlp_linked_rotateLeftRight up _ true hm (by simp)
    · cases r with
      | nil => exact ⟨rfl, fun n c hn => by simp at hn⟩
      | node rl rk rv rm rr =>
        simp only [Tree.mapInfo]
        split_ifs
        · exact avlp_rotateAt_test rotateLeft AVL.rotateLeft avlp_forget_rotateLeft
            avlp_linked_rotateLeft up _ 1 hm (by simp)
        · exact avlp_rotateAt_spec rotateRightLeft AVL.rotateRightLeft
            avlp_forget_rotateRightLeft avlp_linked_rotateRightLeft up _ true hm (by simp)
    · exact hplain false
    · exact hplain true

theorem avlp_deleteBalance_spec (up : List (Frame Linked V)) (t : Tree Linked V) (d : Int)
    (hc : Frame.LinkedChain none up) (h : Tree.LinkedAt (Frame.top none up) t) :
    (deleteBalance up t d).map (Tree.mapInfo Linked.info) =
      AVL.deleteBalance (up.map (Frame.mapInfo Linked.info)) (t.mapInfo Linked.info) d ∧
    ∀ u, deleteBalance up t d = some u →
      Tree.LinkedAt none u ∧
        (Tree.ids u : Multiset Nat) = (Tree.ids t : Multiset Nat) + Frame.chainIds up := by
  induction up generalizing t d with
  | nil =>
    obtain ⟨h1, h2⟩ := avlp_deleteBalanceStep_spec [] t d h
    rw [deleteBalance, AVL.deleteBalance, ← h1]
    cases hs : deleteBalanceStep [] t d with
    | none => exact ⟨rfl, fun u hu => by simp at hu⟩
    | some q =>
      obtain ⟨n, c⟩ := q
      obtain ⟨g1, g2, g3⟩ := h2 n c hs
      have hp : Tree.parentOf n = none := Tree.parentOf_linked _ n g1 g3
      cases c with
      | false =>
        refine ⟨rfl, ?_⟩
        intro u hu
        simp only [Tree.fill, Option.some.injEq] at hu
        rw [← hu, g2]
        exact ⟨g1, by simp [Frame.chainIds]⟩
      | true =>
        simp only [hp, if_true, Option.map_some', List.map_nil]
        refine ⟨trivial, ?_⟩
        intro u hu
        simp only [Option.some.injEq] at hu
        rw [← hu, g2]
        exact ⟨g1, by simp [Frame.chainIds]⟩
  | cons g up ih =>
    obtain ⟨h1, h2⟩ := avlp_deleteBalanceStep_spec (g :: up) t d h
    rw [deleteBalance, List.map_cons, AVL.deleteBalance, ← h1]
    cases hs : deleteBalanceStep (g :: up) t d with
    | none => exact ⟨rfl, fun u hu => by simp at hu⟩
    | some q =>
      obtain ⟨n, c⟩ := q
      obtain ⟨g1, g2, g3⟩ := h2 n c hs
      have hp : Tree.parentOf n = some g.info.id := Tree.parentOf_linked _ n g1 g3
      cases c with
      | false =>
        simp only [Option.map_some']
        refine ⟨?_, ?_⟩
        · have := Tree.mapInfo_fill Linked.info (g :: up) n
          simp only [List.map_cons] at this
          rw [this]
        · intro u hu
          simp only [Option.some.injEq] at hu
          rw [← hu, chain_ids_fill, g2]
          exact ⟨(chain_linked_fill none (g :: up) n).2 ⟨g1, hc⟩, rfl⟩
      | true =>
        simp only [Option.map_some', hp, if_true]
        have hgn : Tree.LinkedAt (Frame.top none up) (g.fill n) :=
          (frame_linked_fill _ g n).2 ⟨hc.1, g1, hc.2.1⟩
        obtain ⟨i1, i2⟩ := ih (g.fill n) (if g.dir = Dir.left then -1 else 1) hc.2.2 hgn
        rw [frame_forget_fill] at i1
        refine ⟨i1, ?_⟩
        intro u hu
        obtain ⟨j1, j2⟩ := i2 u hu
        refine ⟨j1, ?_⟩
        rw [j2, frame_ids_fill, g2, chain_ids_cons]
        abel

end AVLP

namespace AVLP

theorem avlp_insert_spec (s : StateP V) (key : Int) (value : V) (hw : s.Wf) :
    (insert s key value).map (fun p => (p.1.forget, p.2)) = AVL.insert s.forget key value ∧
    ∀ s1 b, insert s key value = some (s1, b) → s1.Wf := by
  have hd := Tree.mapInfo_descend Linked.info key s.root_ []
  have hfill := Tree.descend_fill key s.root_ []
  simp only [List.map_nil] at hd
  simp only [insert, AVL.insert, StateP.forget, hd]
  rcases hdd : Tree.descend key s.root_ [] with ⟨x, path⟩
  rw [hdd] at hfill
  simp only [Tree.fill] at hfill
  cases x with
  | node l k v m r =>
    refine ⟨rfl, ?_⟩
    intro s1 b h
    simp only [Option.some.injEq, Prod.mk.injEq] at h
    rw [← h.1]
    exact hw
  | nil =>
    have hl := hw.1
    rw [← hfill] at hl
    obtain ⟨_, hc⟩ := (chain_linked_fill none path Tree.nil).1 hl
    have hids : (Tree.ids s.root_ : Multiset Nat) = Frame.chainIds path := by
      rw [← hfill, chain_ids_fill]
      simp [Tree.ids]
    cases path with
    | nil =>
      refine ⟨rfl, ?_⟩
      intro s1 b h
      simp only [Option.some.injEq, Prod.mk.injEq] at h
      rw [← h.1]
      exact statep_wf_insert s _ _ hw ⟨rfl, trivial, trivial⟩
        (by rw [hids]; simp [Tree.ids, Frame.chainIds])
    | cons f up =>
      have hnew : Tree.LinkedAt (Frame.top none up)
          (f.fill (Tree.node Tree.nil key value ⟨0, s.next, some f.info.id⟩ Tree.nil)) :=
        (frame_linked_fill _ f _).2 ⟨hc.1, ⟨rfl, trivial, trivial⟩, hc.2.1⟩
      obtain ⟨g1, g2⟩ := avlp_insertBalance_spec up _ (if key < f.key then 1 else -1)
        hc.2.2 hnew
      rw [frame_forget_fill] at g1
      simp only [Tree.mapInfo, List.map_cons] at g1 ⊢
      have hk : (Frame.mapInfo Linked.info f).key = f.key := rfl
      rw [hk, ← g1]
      refine ⟨by simp [Option.map_map, Function.comp_def], ?_⟩
      intro s1 b h
      obtain ⟨t, ht, e⟩ := Option.map_eq_some'.1 h
      simp only [Prod.mk.injEq] at e
      rw [← e.1]
      obtain ⟨j1, j2⟩ := g2 t ht
      refine statep_wf_insert s _ _ hw j1 ?_
      rw [j2, hids, frame_ids_fill, chain_ids_cons]
      simp only [Tree.ids, List.nil_append, ← Multiset.cons_coe, ← Multiset.singleton_add,
        Multiset.coe_nil]
      abel

theorem avlp_replace_spec (p : Option Nat) (v : V) (m : Linked) (c : Tree Linked V)
    (hp : m.parent = p) (hc : Tree.LinkedAt (some m.id) c) (hne : c ≠ Tree.nil) :
    ∃ n, replace v m c = some n ∧
      AVL.replace v (c.mapInfo Linked.info) = some (n.mapInfo Linked.info) ∧
      Tree.LinkedAt p n ∧
      (Tree.ids n : Multiset Nat) ≤ m.id ::ₘ (Tree.ids c : Multiset Nat) := by
  cases c with
  | nil => exact absurd rfl hne
  | node sl sk sv sm sr =>
    refine ⟨_, rfl, ?_, ⟨hp, Tree.linked_setParent _ _ _ hc.2.1,
      Tree.linked_setParent _ _ _ hc.2.2⟩, ?_⟩
    · simp [AVL.replace, Tree.mapInfo, Tree.mapInfo_setParent]
    · rw [Multiset.le_iff_exists_add]
      refine ⟨{sm.id}, ?_⟩
      simp only [Tree.ids, Tree.ids_setParent, ← Multiset.coe_add, ← Multiset.cons_coe,
        ← Multiset.singleton_add]
      abel

theorem avlp_top_snoc (x : Frame Linked V) (spine : List (Frame Linked V)) :
    Frame.top (some x.info.id) spine = Frame.top none (spine ++ [x]) := by
  cases spine <;> rfl

theorem avlp_eraseNode_spec (path : List (Frame Linked V)) (l r : Tree Linked V) (k : Int)
    (v : V) (m : Linked) (hc : Frame.LinkedChain none path)
    (h : Tree.LinkedAt (Frame.top none path) (Tree.node l k v m r)) :
    (eraseNode path l v m r).map (Tree.mapInfo Linked.info) =
      AVL.eraseNode (path.map (Frame.mapInfo Linked.info)) (l.mapInfo Linked.info) v m.info
        (r.mapInfo Linked.info) ∧
    ∀ u, eraseNode path l v m r = some u →
      Tree.LinkedAt none u ∧
        (Tree.ids u : Multiset Nat) ≤
          (Tree.ids (Tree.node l k v m r) : Multiset Nat) + Frame.chainIds path := by
  obtain ⟨hmp, hll, hlr⟩ := h
  cases l with
  | nil =>
    cases r with
    | nil =>
      cases path with
      | nil =>
        refine ⟨rfl, ?_⟩
        intro u hu
        simp only [eraseNode, Option.some.injEq] at hu
        rw [← hu]
        exact ⟨trivial, Multiset.zero_le _⟩
      | cons f up =>
        have hf : Tree.LinkedAt (Frame.top none up) (f.fill Tree.nil) :=
          (frame_linked_fill _ f _).2 ⟨hc.1, trivial, hc.2.1⟩
        obtain ⟨g1, g2⟩ := avlp_deleteBalance_spec up (f.fill Tree.nil)
          (if f.dir = Dir.left then -1 else 1) hc.2.2 hf
        rw [frame_forget_fill] at g1
        have hmp1 : m.parent = some f.info.id := hmp
        simp only [eraseNode, AVL.eraseNode, Tree.mapInfo, List.map_cons, hmp1, if_true]
        refine ⟨g1, ?_⟩
        intro u hu
        obtain ⟨j1, j2⟩ := g2 u hu
        refine ⟨j1, ?_⟩
        rw [j2, frame_ids_fill, chain_ids_cons, Multiset.le_iff_exists_add]
        refine ⟨{m.id}, ?_⟩
        simp only [Tree.ids, List.nil_append, ← Multiset.cons_coe, ← Multiset.singleton_add,
          Multiset.coe_nil]
        abel
    | node rl rk rv rm rr =>
      obtain ⟨n, e1, e2, e3, e4⟩ := avlp_replace_spec (Frame.top none path) v m
        (Tree.node rl rk rv rm rr) hmp hlr (by simp)
      obtain ⟨g1, g2⟩ := avlp_deleteBalance_spec path n 0 hc e3
      simp only [Tree.mapInfo] at e2
      simp only [eraseNode, AVL.eraseNode, Tree.mapInfo, e1, e2, Option.some_bind]
      refine ⟨g1, ?_⟩
      intro u hu
      obtain ⟨j1, j2⟩ := g2 u hu
      refine ⟨j1, ?_⟩
      rw [j2]
      refine add_le_add_right (le_trans e4 (le_of_eq ?_)) _
      simp only [Tree.ids, List.nil_append, ← Multiset.cons_coe]
  | node ll lk lv lm lr =>
    cases r with
    | nil =>
      obtain ⟨n, e1, e2, e3, e4⟩ := avlp_replace_spec (Frame.top none path) v m
        (Tree.node ll lk lv lm lr) hmp hll (by simp)
      obtain ⟨g1, g2⟩ := avlp_deleteBalance_spec path n 0 hc e3
      simp only [Tree.mapInfo] at e2
      simp only [eraseNode, AVL.eraseNode, Tree.mapInfo, e1, e2, Option.some_bind]
      refine ⟨g1, ?_⟩
      intro u hu
      obtain ⟨j1, j2⟩ := g2 u hu
      refine ⟨j1, ?_⟩
      rw [j2]
      refine add_le_add_right (le_trans e4 (le_of_eq ?_)) _
      generalize Tree.node ll lk lv lm lr = L
      simp only [Tree.ids, ← Multiset.coe_add, ← Multiset.cons_coe, ← Multiset.singleton_add,
        Multiset.coe_nil]
      abel
    | node rl rk rv rm rr =>
      have hrel : relinks path m.parent = true := by
        cases path with
        | nil => rfl
        | cons g up => simp only [relinks, decide_eq_true_eq]; exact hmp
      cases rl with
      | nil =>
        have hn : Tree.LinkedAt (Frame.top none path)
            (Tree.node (Tree.setParent (some rm.id) (Tree.node ll lk lv lm lr)) rk rv
              ⟨m.info, rm.id, m.parent⟩ rr) :=
          ⟨hmp, Tree.linked_setParent _ _ _ hll, hlr.2.2⟩
        obtain ⟨g1, g2⟩ := avlp_deleteBalance_spec path _ 1 hc hn
        simp only [eraseNode, AVL.eraseNode, Tree.mapInfo, hrel, if_true]
        refine ⟨g1, ?_⟩
        intro u hu
        obtain ⟨j1, j2⟩ := g2 u hu
        refine ⟨j1, ?_⟩
        rw [j2, Multiset.le_iff_exists_add]
        refine ⟨{m.id}, ?_⟩
        simp only [Tree.ids, Tree.setParent, List.nil_append, ← Multiset.coe_add,
          ← Multiset.cons_coe, ← Multiset.singleton_add]
        abel
      | node rll rlk rlv rlm rlr =>
        obtain ⟨sk, sv, sm, sr, spine, hmin, hfillR, _⟩ :=
          Tree.minimum_spec (Tree.node rll rlk rlv rlm rlr) [] (by simp)
        simp only [List.append_nil] at hmin
        have hmin0 := Tree.minimum_append
          ((Tree.node rll rlk rlv rlm rlr).mapInfo Linked.info)
          [⟨Dir.left, rk, rv, rm.info, rr.mapInfo Linked.info⟩]
        have hmm := Tree.mapInfo_minimum Linked.info (Tree.node rll rlk rlv rlm rlr) []
        simp only [List.map_nil] at hmm
        rw [hmm, hmin] at hmin0
        simp only [Tree.mapInfo] at hmin0
        rcases hsp : spine ++ [(⟨Dir.left, rk, rv, ⟨rm.info, rm.id, some sm.id⟩, rr⟩ :
            Frame Linked V)] with _ | ⟨sp, chain⟩
        · simp at hsp
        have hsp0 : spine.map (Frame.mapInfo Linked.info) ++
            [⟨Dir.left, rk, rv, rm.info, rr.mapInfo Linked.info⟩] =
            sp.mapInfo Linked.info :: chain.map (Frame.mapInfo Linked.info) := by
          have := congrArg (List.map (Frame.mapInfo Linked.info)) hsp
          simpa [Frame.mapInfo] using this
        -- the links at the successor
        obtain ⟨hrm, hR, hrr⟩ := hlr
        rw [← hfillR] at hR
        obtain ⟨hs, hspine⟩ := (chain_linked_fill (some rm.id) spine _).1 hR
        obtain ⟨hsmp, _, hsr⟩ := hs
        have htop : Frame.top (some rm.id) spine = some sp.info.id := by
          have := avlp_top_snoc (⟨Dir.left, rk, rv, ⟨rm.info, rm.id, some sm.id⟩, rr⟩ :
            Frame Linked V) spine
          simp only at this
          rw [this, hsp]
          rfl
        have hcond : sm.parent = some sp.info.id := by rw [hsmp, htop]
        -- the chain after the relinking
        have hfull : Frame.LinkedChain none
            ((spine ++ [(⟨Dir.left, rk, rv, ⟨rm.info, rm.id, some sm.id⟩, rr⟩ :
                Frame Linked V)]) ++
              ⟨Dir.right, sk, sv, ⟨m.info, sm.id, m.parent⟩,
                Tree.setParent (some sm.id) (Tree.node ll lk lv lm lr)⟩ :: path) := by
          rw [List.append_assoc, chain_linked_append]
          refine ⟨hspine, ?_⟩
          exact ⟨rfl, hrr, hmp, Tree.linked_setParent _ _ _ hll, hc⟩
        rw [hsp, List.cons_append, chain_linked_cons] at hfull
        obtain ⟨hf1, hf2, hf3⟩ := hfull
        have hstart : Tree.LinkedAt
            (Frame.top none (chain ++ ⟨Dir.right, sk, sv, ⟨m.info, sm.id, m.parent⟩,
                Tree.setParent (some sm.id) (Tree.node ll lk lv lm lr)⟩ :: path))
            (sp.fill (Tree.setParent sm.parent sr)) :=
          (frame_linked_fill _ sp _).2
            ⟨hf1, by rw [hcond]; exact Tree.linked_setParent _ _ _ hsr, hf2⟩
        obtain ⟨g1, g2⟩ := avlp_deleteBalance_spec _ _ (-1) hf3 hstart
        rw [hcond] at g1 g2
        simp only [eraseNode, AVL.eraseNode, Tree.mapInfo, hmin, hmin0, hsp, hsp0, hcond, hrel,
          and_self, if_true]
        refine ⟨?_, ?_⟩
        · rw [g1]
          simp [List.map_append, frame_forget_fill, Tree.mapInfo_setParent, Frame.mapInfo,
            Tree.mapInfo]
        · intro u hu
          obtain ⟨j1, j2⟩ := g2 u hu
          refine ⟨j1, ?_⟩
          have hidR := chain_ids_fill spine (Tree.node Tree.nil sk sv sm sr)
          rw [hfillR] at hidR
          have hch := chain_ids_append spine
            [(⟨Dir.left, rk, rv, ⟨rm.info, rm.id, some sm.id⟩, rr⟩ : Frame Linked V)]
          rw [hsp] at hch
          rw [j2, frame_ids_fill, chain_ids_append, Multiset.le_iff_exists_add]
          refine ⟨{m.id}, ?_⟩
          have e1 : (sp.info.id ::ₘ (Tree.ids sp.sib : Multiset Nat)) + Frame.chainIds chain =
              Frame.chainIds spine + ({rm.id} + (Tree.ids rr : Multiset Nat)) := by
            rw [← chain_ids_cons, hch]
            simp [Frame.chainIds, ← Multiset.singleton_add]
          have e2 : (Tree.ids (Tree.node (Tree.node rll rlk rlv rlm rlr) rk rv rm rr) :
              Multiset Nat) = ({sm.id} + (Tree.ids sr : Multiset Nat)) + Frame.chainIds spine +
                ({rm.id} + (Tree.ids rr : Multiset Nat)) := by
            have : (Tree.ids (Tree.node (Tree.node rll rlk rlv rlm rlr) rk rv rm rr) :
                Multiset Nat) = (Tree.ids (Tree.node rll rlk rlv rlm rlr) : Multiset Nat) +
                  ({rm.id} + (Tree.ids rr : Multiset Nat)) := by
              generalize Tree.node rll rlk rlv rlm rlr = R
              simp only [Tree.ids, ← Multiset.coe_add, ← Multiset.cons_coe,
                ← Multiset.singleton_add]
            rw [this, hidR]
            simp only [Tree.ids, List.nil_append, ← Multiset.cons_coe, ← Multiset.singleton_add]
          have e3 : (Tree.ids (Tree.node (Tree.node ll lk lv lm lr) k v m
              (Tree.node (Tree.node rll rlk rlv rlm rlr) rk rv rm rr)) : Multiset Nat) =
              (Tree.ids (Tree.node ll lk lv lm lr) : Multiset Nat) + ({m.id} +
                (Tree.ids (Tree.node (Tree.node rll rlk rlv rlm rlr) rk rv rm rr) :
                  Multiset Nat)) := by
            generalize Tree.node ll lk lv lm lr = L
            generalize Tree.node (Tree.node rll rlk rlv rlm rlr) rk rv rm rr = R
            simp only [Tree.ids, ← Multiset.coe_add, ← Multiset.cons_coe,
              ← Multiset.singleton_add]
          rw [e3, e2, Tree.ids_setParent, chain_ids_cons]
          simp only [Tree.ids_setParent]
          have e4 : (Tree.ids sr : Multiset Nat) +
              (sp.info.id ::ₘ (Tree.ids sp.sib : Multiset Nat)) +
              (Frame.chainIds chain + ((sm.id ::ₘ
                (Tree.ids (Tree.node ll lk lv lm lr) : Multiset Nat)) + Frame.chainIds path)) =
              (Tree.ids sr : Multiset Nat) +
              ((sp.info.id ::ₘ (Tree.ids sp.sib : Multiset Nat)) + Frame.chainIds chain) +
              (({sm.id} + (Tree.ids (Tree.node ll lk lv lm lr) : Multiset Nat)) +
                Frame.chainIds path) := by
            rw [← Multiset.singleton_add sm.id]
            abel
          rw [e4, e1]
          abel

end AVLP

namespace AVLP

theorem avlp_erase_spec (s : StateP V) (key : Int) (hw : s.Wf) :
    (erase s key).map (fun p => (p.1.forget, p.2)) = AVL.erase s.forget key ∧
    ∀ s1 n, erase s key = some (s1, n) → s1.Wf := by
  have hd := Tree.mapInfo_descend Linked.info key s.root_ []
  have hfill := Tree.descend_fill key s.root_ []
  simp only [List.map_nil] at hd
  simp only [erase, AVL.erase, StateP.forget, hd]
  rcases hdd : Tree.descend key s.root_ [] with ⟨x, path⟩
  rw [hdd] at hfill
  simp only [Tree.fill] at hfill
  cases x with
  | nil =>
    refine ⟨rfl, ?_⟩
    intro s1 b h
    simp only [Option.some.injEq, Prod.mk.injEq] at h
    rw [← h.1]
    exact hw
  | node l k v m r =>
    have hl := hw.1
    rw [← hfill] at hl
    obtain ⟨hx, hc⟩ := (chain_linked_fill none path _).1 hl
    obtain ⟨g1, g2⟩ := avlp_eraseNode_spec path l r k v m hc hx
    simp only [Tree.mapInfo]
    rw [← g1]
    refine ⟨by simp [Option.map_map, Function.comp_def], ?_⟩
    intro s1 b h
    obtain ⟨t, ht, e⟩ := Option.map_eq_some'.1 h
    simp only [Prod.mk.injEq] at e
    rw [← e.1]
    obtain ⟨j1, j2⟩ := g2 t ht
    refine statep_wf_erase s _ _ hw j1 ?_
    rw [← hfill, chain_ids_fill]
    exact j2

theorem avlp_step_spec (s : StateP V) (op : Op V) (hw : s.Wf) :
    (step s op).map (fun p => (p.1.forget, p.2)) = AVL.step s.forget op ∧
    ∀ s1 r, step s op = some (s1, r) → s1.Wf := by
  cases op with
  | insert k v =>
    obtain ⟨h1, h2⟩ := avlp_insert_spec s k v hw
    simp only [step, AVL.step]
    rw [← h1]
    refine ⟨by simp [Option.map_map, Function.comp_def], ?_⟩
    intro s1 r h
    obtain ⟨q, hq, e⟩ := Option.map_eq_some'.1 h
    obtain ⟨q1, q2⟩ := q
    simp only [Prod.mk.injEq] at e
    rw [← e.1]
    exact h2 q1 q2 hq
  | erase k =>
    obtain ⟨h1, h2⟩ := avlp_erase_spec s k hw
    simp only [step, AVL.step]
    rw [← h1]
    refine ⟨by simp [Option.map_map, Function.comp_def], ?_⟩
    intro s1 r h
    obtain ⟨q, hq, e⟩ := Option.map_eq_some'.1 h
    obtain ⟨q1, q2⟩ := q
    simp only [Prod.mk.injEq] at e
    rw [← e.1]
    exact h2 q1 q2 hq

theorem avlp_run_spec (ops : List (Op V)) (s : StateP V) (hw : s.Wf) :
    (run ops s).map (fun p => (p.1.forget, p.2)) = AVL.run ops s.forget ∧
    ∀ s1 rets, run ops s = some (s1, rets) → s1.Wf := by
  induction ops generalizing s with
  | nil =>
    refine ⟨rfl, ?_⟩
    intro s1 rets h
    simp only [run, Option.some.injEq, Prod.mk.injEq] at h
    rw [← h.1]
    exact hw
  | cons op ops ih =>
    obtain ⟨h1, h2⟩ := avlp_step_spec s op hw
    simp only [run, AVL.run]
    rw [← h1]
    cases hs : step s op with
    | none => exact ⟨rfl, fun s1 rets h => by simp at h⟩
    | some p =>
      obtain ⟨p1, p2⟩ := p
      obtain ⟨g1, g2⟩ := ih p1 (h2 p1 p2 hs)
      simp only [Option.map_some', Option.some_bind]
      rw [← g1]
      refine ⟨by simp [Option.map_map, Function.comp_def], ?_⟩
      intro s1 rets h
      obtain ⟨q, hq, e⟩ := Option.map_eq_some'.1 h
      obtain ⟨q1, q2⟩ := q
      simp only [Prod.mk.injEq] at e
      rw [← e.1]
      exact g2 q1 q2 hq

end AVLP

/-- The height-balanced tree with parent links after `insert` of `10`, `20`, `30`: the nodes
get the addresses `0`, `1`, `2`; the rotation at `10` makes `20` the root with `parent_`
`nullptr`, and `10` and `30` have the address of `20` as `parent_`. -/
theorem avlp_scenario_links :
    AVLP.run [Op.insert 10 (), Op.insert 20 (), Op.insert 30 ()] (StateP.empty : StateP Unit) =
      some (⟨Tree.node (Tree.node Tree.nil 10 () ⟨0, 0, some 1⟩ Tree.nil) 20 () ⟨0, 1, none⟩
          (Tree.node Tree.nil 30 () ⟨0, 2, some 1⟩ Tree.nil), 3, 3⟩,
        [Ret.inserted true, Ret.inserted true, Ret.inserted true]) := rfl

/-- The level-balanced tree with parent links after `insert` of `10`, `20`, `30`: `split` at
`10` makes `20` the root with `parent_` `nullptr`, and `10` and `30` have the address of `20`
as `parent_`. -/
theorem aap_scenario_links :
    AAP.run [Op.insert 10 (), Op.insert 20 (), Op.insert 30 ()] (StateP.empty : StateP Unit) =
      some (⟨Tree.node (Tree.node Tree.nil 10 () ⟨1, 0, some 1⟩ Tree.nil) 20 () ⟨2, 1, none⟩
          (Tree.node Tree.nil 30 () ⟨1, 2, some 1⟩ Tree.nil), 3, 3⟩,
        [Ret.inserted true, Ret.inserted true, Ret.inserted true]) := rfl

/-- C34. Parent back-references in the height-balanced and the level-balanced tree, over the
embedding in which every node carries its address and its field `parent_`: every sequence of
`insert` and `erase` calls on the empty tree returns, with the results and the tree (addresses
and parent links left out) of the embedding without links; and in the final tree the field
`parent_` of the root is `nullptr` and the field `parent_` of every left or right child is the
address of the node it is a child of (`LinkedAt none`), where no two nodes have the same
address. -/
theorem parent_links_restored (ops : List (Op V)) :
    (∃ st rets, AVLP.run ops StateP.empty = some (st, rets) ∧
      AVL.run ops State.empty = some (st.forget, rets) ∧
      Tree.LinkedAt none st.root_ ∧ (Tree.ids st.root_).Nodup) ∧
    (∃ st rets, AAP.run ops StateP.empty = some (st, rets) ∧
      AA.run ops State.empty = some (st.forget, rets) ∧
      Tree.LinkedAt none st.root_ ∧ (Tree.ids st.root_).Nodup) := by
  constructor
  · obtain ⟨st0, h0, _⟩ := AVL.avl_run_spec ops State.empty ∅ trivial holds_nil
    obtain ⟨h1, h2⟩ := AVLP.avlp_run_spec ops StateP.empty statep_wf_empty
    have he : (StateP.empty : StateP V).forget = State.empty := rfl
    rw [he, h0] at h1
    obtain ⟨p, hp, e⟩ := Option.map_eq_some'.1 h1
    obtain ⟨st, rets⟩ := p
    refine ⟨st, rets, hp, ?_, (h2 st rets hp).1, (h2 st rets hp).2.1⟩
    rw [h0, ← e]
  · obtain ⟨st0, h0, _⟩ := AA.aa_run_spec ops State.empty ∅ trivial holds_nil
    obtain ⟨h1, h2⟩ := AAP.aap_run_spec ops StateP.empty statep_wf_empty
    have he : (StateP.empty : StateP V).forget = State.empty := rfl
    rw [he, h0] at h1
    obtain ⟨p, hp, e⟩ := Option.map_eq_some'.1 h1
    obtain ⟨st, rets⟩ := p
    refine ⟨st, rets, hp, ?_, (h2 st rets hp).1, (h2 st rets hp).2.1⟩
    rw [h0, ← e]

end SearchTrees
